import Mathlib

/-!
# Extendible hashing: a shallow embedding of the C++ sources

The embedding follows `Common.hpp`, `DataItem.hpp`, `Bucket.cpp`,
`GlobalDirectory.cpp` and `MemoryManager.cpp`.

* `std::shared_ptr<Bucket<T>>` is an address (a `Nat`) into a store of buckets
  (`State.heap`); `std::make_shared` appends a bucket to the store, so a fresh
  address differs from every address in use, and `==` on shared pointers is
  equality of addresses.
* The two singletons (`MemoryManager`, `GlobalDirectory`) and the store form one
  `State` that every operation passes along.
* An operation returns `none` when the C++ program would leave defined behaviour
  (an out-of-range `entry[i]`, a dangling address, a shift by a negative or too
  large amount) or when the recursion budget `fuel` of
  `write → extend → reHashItems → write` is used up.
* Keys are naturals (every `uint32_t` is one), values are integers
  (`template class ...<int>`); `uint8_t` and `uint32_t` arithmetic that can wrap
  is written with an explicit `%`.
-/

namespace ExtendibleHashing

/-! ## Common.hpp -/

/-- `#define BUCKET_CAPACITY (uint32_t)2`. -/
def BUCKET_CAPACITY : Nat := 2

/-- `#define MAX_KEY_LENGTH (uint32_t)8`. -/
def MAX_KEY_LENGTH : Nat := 8

/-- `#define MAX_KEY_VALUE (uint32_t)((1<<(MAX_KEY_LENGTH))-1)`. -/
def MAX_KEY_VALUE : Nat := (1 <<< MAX_KEY_LENGTH) - 1

/-! ## DataItem.hpp -/

/-- `DataItem<int>`: the fields `valid`, `data`, `key`. -/
structure DataItem where
  valid : Bool
  data : Int
  key : Nat
deriving DecidableEq, Repr

/-- `constexpr DataItem() : valid(false), data(T()), key(0)`. -/
def DataItem.empty : DataItem := ⟨false, 0, 0⟩

/-- `constexpr DataItem(key, data) : valid(true), data(data), key(key)`. -/
def DataItem.make (key : Nat) (data : Int) : DataItem := ⟨true, data, key⟩

/-- `void markInvalid() { valid = false; }`. -/
def DataItem.markInvalid (item : DataItem) : DataItem := { item with valid := false }

/-! ## Bucket.hpp / Bucket.cpp -/

/-- `Bucket<int>`: `uint8_t localDepth`, `uint32_t validEntryCount` and the
`std::array<DataItem<T>, BUCKET_CAPACITY> items`. -/
structure Bucket where
  localDepth : Nat
  validEntryCount : Nat
  items : List DataItem
deriving DecidableEq, Repr

/-- `Bucket(const uint32_t localDepth)`: the argument is narrowed to `uint8_t`,
the counter is 0 and every item is default-constructed. `Bucket()` is
`Bucket.new 0`. -/
def Bucket.new (localDepth : Nat) : Bucket :=
  ⟨localDepth % 256, 0, List.replicate BUCKET_CAPACITY DataItem.empty⟩

/-- The loop of `Bucket<T>::find` over `items`. -/
def findItems (key : Nat) : List DataItem → Option Int
  | [] => none
  | item :: rest =>
    if item.valid && item.key == key then some item.data else findItems key rest

/-- `Bucket<T>::find`. -/
def Bucket.find (b : Bucket) (key : Nat) : Option Int := findItems key b.items

/-- The loop of `Bucket<T>::write` over `items`: the first item that is not valid
is overwritten; `none` when the loop runs to its end. -/
def writeItems (key : Nat) (data : Int) : List DataItem → Option (List DataItem)
  | [] => none
  | item :: rest =>
    if !item.valid then some (DataItem.make key data :: rest)
    else (writeItems key data rest).map (fun r => item :: r)

/-- `Bucket<T>::write`. -/
def Bucket.write (b : Bucket) (key : Nat) (data : Int) : Bool × Bucket :=
  if b.validEntryCount == BUCKET_CAPACITY then (false, b)
  else
    match writeItems key data b.items with
    | some items =>
      (true, { b with validEntryCount := (b.validEntryCount + 1) % 2 ^ 32, items := items })
    | none => (false, b)

/-- The loop of `Bucket<T>::erase` over `items`: the first valid item with the key
is marked invalid; `none` when the loop runs to its end. -/
def eraseItems (key : Nat) : List DataItem → Option (List DataItem)
  | [] => none
  | item :: rest =>
    if item.valid && item.key == key then some (item.markInvalid :: rest)
    else (eraseItems key rest).map (fun r => item :: r)

/-- `Bucket<T>::erase`. -/
def Bucket.erase (b : Bucket) (key : Nat) : Bool × Bucket :=
  if b.validEntryCount == 0 then (false, b)
  else
    match eraseItems key b.items with
    | some items =>
      (true, { b with validEntryCount := (b.validEntryCount + 2 ^ 32 - 1) % 2 ^ 32,
                      items := items })
    | none => (false, b)

/-! ### Views of a bucket used in the statements -/

/-- The number of items whose valid flag is set. -/
def countValid (items : List DataItem) : Nat :=
  (items.filter (fun it => it.valid)).length

/-- The values held, in array order, by the valid items with the given key. -/
def valsOf (key : Nat) (items : List DataItem) : List Int :=
  (items.filter (fun it => it.valid && it.key == key)).map (fun it => it.data)

/-- The valid items come before every item that is not valid. -/
def Compact : List DataItem → Prop
  | [] => True
  | it :: rest => (it.valid = true ∧ Compact rest) ∨ (∀ x ∈ it :: rest, x.valid = false)

/-- The bookkeeping of a bucket: `BUCKET_CAPACITY` items and a counter that is the
number of valid items. -/
structure BucketOK (b : Bucket) : Prop where
  items_length : b.items.length = BUCKET_CAPACITY
  count_eq : b.validEntryCount = countValid b.items

/-- What a successful pass of the write loop does to the items. -/
structure WriteItemsSpec (key : Nat) (data : Int) (items items1 : List DataItem) : Prop where
  length_eq : items1.length = items.length
  count_eq : countValid items1 = countValid items + 1
  mem_valid : ∀ x ∈ items1, x.valid = true → (x ∈ items ∧ x.valid = true) ∨ x = DataItem.make key data
  vals_other : ∀ k, k ≠ key → valsOf k items1 = valsOf k items
  vals_key : ∃ l1 l2, valsOf key items = l1 ++ l2 ∧ valsOf key items1 = l1 ++ data :: l2
  compact : Compact items → Compact items1 ∧ valsOf key items1 = valsOf key items ++ [data]

/-- What a successful pass of the erase loop does to the items. -/
structure EraseItemsSpec (key : Nat) (items items1 : List DataItem) : Prop where
  length_eq : items1.length = items.length
  count_eq : countValid items1 + 1 = countValid items
  mem_valid : ∀ x ∈ items1, x.valid = true → x ∈ items ∧ x.valid = true
  vals_other : ∀ k, k ≠ key → valsOf k items1 = valsOf k items
  vals_key : valsOf key items1 = (valsOf key items).tail

/-- The outcome of a bucket write that found room. -/
structure BucketWriteSpec (k : Nat) (v : Int) (b b1 : Bucket) : Prop where
  depth_eq : b1.localDepth = b.localDepth
  count_eq : b1.validEntryCount = b.validEntryCount + 1
  ok : BucketOK b1
  items : WriteItemsSpec k v b.items b1.items

/-- The outcome of a bucket erase that found the key. -/
structure BucketEraseSpec (k : Nat) (b b1 : Bucket) : Prop where
  depth_eq : b1.localDepth = b.localDepth
  count_eq : b1.validEntryCount + 1 = b.validEntryCount
  ok : BucketOK b1
  items : EraseItemsSpec k b.items b1.items

/-! ## The program state -/

/-- The store of buckets together with the fields of the two singletons:
`MemoryManager::initialFile`, `GlobalDirectory::globalDepth` and
`GlobalDirectory::entry`. -/
structure State where
  heap : List Bucket
  initialFile : Nat
  globalDepth : Nat
  entry : List Nat
deriving DecidableEq, Repr

/-- The state after the static initialisers ran: `initialFile =
std::make_shared<Bucket<T>>()`, `globalDepth{ 0 }` and an empty `entry`. -/
def State.fresh : State := ⟨[Bucket.new 0], 0, 0, []⟩

/-- Overwrite the bucket stored at address `p`. -/
def State.store (s : State) (p : Nat) (b : Bucket) : State :=
  { s with heap := s.heap.set p b }

/-- `*entry[index]`: the bucket a directory slot points to. -/
def State.bucketAt (s : State) (index : Nat) : Option Bucket :=
  match s.entry[index]? with
  | some p => s.heap[p]?
  | none => none

/-- The result type of the operations that return `bool`. -/
abbrev Outcome := Option (Bool × State)

/-- `entry[i] = p` on a vector: undefined when `i` is out of range. -/
def setEntry (entry : List Nat) (i p : Nat) : Option (List Nat) :=
  if i < entry.length then some (entry.set i p) else none

/-- The amount `1 << (globalDepth - localDepth)` computed in `int`: undefined for
a negative shift count and for a count that does not fit the type. -/
def numPtrsOf (globalDepth localDepth : Nat) : Option Nat :=
  if localDepth ≤ globalDepth ∧ globalDepth - localDepth < 31 then
    some (1 <<< (globalDepth - localDepth))
  else none

namespace GlobalDirectory

/-- `GlobalDirectory<T>::hash`: `(key & MAX_KEY_VALUE) >> (MAX_KEY_LENGTH -
globalDepth)`; the shift count wraps around in `uint32_t` when `globalDepth`
exceeds `MAX_KEY_LENGTH`, which is undefined. -/
def hash (s : State) (key : Nat) : Option Nat :=
  if s.globalDepth ≤ MAX_KEY_LENGTH then
    some ((key &&& MAX_KEY_VALUE) >>> (MAX_KEY_LENGTH - s.globalDepth))
  else none

/-- `GlobalDirectory<T>::find`. -/
def find (s : State) (key : Nat) : Option (Option Int) :=
  match hash s key with
  | some index =>
    match s.bucketAt index with
    | some b => some (b.find key)
    | none => none
  | none => none

/-- The call `entry[index]->write(key, data)`. -/
def bucketWrite (s : State) (index key : Nat) (data : Int) : Outcome :=
  match s.entry[index]? with
  | some p =>
    match s.heap[p]? with
    | some b =>
      match b.write key data with
      | (true, b1) => some (true, s.store p b1)
      | (false, _) => some (false, s)
    | none => none
  | none => none

/-- The loop of `GlobalDirectory<T>::reHashItems` over the positions of
`oldBucket->getItems()`; the items are read from the store at each step, as the
range-for over the reference does. -/
def reHashLoop (write : Nat → Int → State → Outcome) (oldBucket : Nat) :
    List Nat → State → Outcome
  | [], s => some (true, s)
  | i :: rest, s =>
    match s.heap[oldBucket]? with
    | some b =>
      match b.items[i]? with
      | some item =>
        if item.valid then
          match write item.key item.data s with
          | some (true, s1) => reHashLoop write oldBucket rest s1
          | some (false, s1) => some (false, s1)
          | none => none
        else reHashLoop write oldBucket rest s
      | none => none
    | none => none

/-- `GlobalDirectory<T>::reHashItems`, with the directory's `write` as a
parameter. -/
def reHashItems (write : Nat → Int → State → Outcome) (oldBucket : Nat) (s : State) :
    Outcome :=
  reHashLoop write oldBucket (List.range BUCKET_CAPACITY) s

/-- `while(index > 0 && entry[index] == entry[index - 1]) index--;` -/
def leftWalk (entry : List Nat) : Nat → Option Nat
  | 0 => some 0
  | index + 1 =>
    match entry[index + 1]?, entry[index]? with
    | some a, some b => if a == b then leftWalk entry index else some (index + 1)
    | _, _ => none

/-- The loop `for (i = 0; i < newNumPtrs; i++) { entry[index + i] = newBucket1;
entry[index + i + newNumPtrs] = newBucket2; }` of `splitOn`; `j` is `index + i`
and the second argument counts the iterations left. -/
def splitLoop (newBucket1 newBucket2 newNumPtrs : Nat) : Nat → Nat → List Nat → Option (List Nat)
  | _, 0, entry => some entry
  | j, n + 1, entry =>
    match setEntry entry j newBucket1 with
    | some e1 =>
      match setEntry e1 (j + newNumPtrs) newBucket2 with
      | some e2 => splitLoop newBucket1 newBucket2 newNumPtrs (j + 1) n e2
      | none => none
    | none => none

/-- `GlobalDirectory<T>::splitOn`. -/
def splitOn (write : Nat → Int → State → Outcome) (hashValue : Nat) (s : State) : Outcome :=
  match leftWalk s.entry hashValue with
  | some index =>
    match s.entry[index]? with
    | some oldBucket =>
      match s.heap[oldBucket]? with
      | some old =>
        match numPtrsOf s.globalDepth old.localDepth with
        | some oldNumPtrs =>
          let newNumPtrs := oldNumPtrs / 2
          let newBucket1 := s.heap.length
          let newBucket2 := s.heap.length + 1
          let heap1 := s.heap ++ [Bucket.new (old.localDepth + 1), Bucket.new (old.localDepth + 1)]
          match splitLoop newBucket1 newBucket2 newNumPtrs index newNumPtrs s.entry with
          | some entry1 => reHashItems write oldBucket { s with heap := heap1, entry := entry1 }
          | none => none
        | none => none
      | none => none
    | none => none
  | none => none

/-- The loop of `extend` that copies every run of the old directory twice. The
new vector is filled from position 0 upwards (`newEntry[newIdx++]`), so the
filled part is kept as a list and `newIdx` is its length. `oldIdx` grows by at
least one per round, so `oldLength` rounds always suffice. -/
def doubleLoop (s : State) (oldGlobalDepth oldLength : Nat) : Nat → Nat → List Nat → Option (List Nat)
  | 0, oldIdx, newEntry => if oldIdx < oldLength then none else some newEntry
  | rounds + 1, oldIdx, newEntry =>
    if oldIdx < oldLength then
      match s.entry[oldIdx]? with
      | some p =>
        match s.heap[p]? with
        | some b =>
          match numPtrsOf oldGlobalDepth b.localDepth with
          | some oldNumPtrs =>
            doubleLoop s oldGlobalDepth oldLength rounds (oldIdx + oldNumPtrs)
              (newEntry ++ List.replicate (oldNumPtrs * 2) p)
          | none => none
        | none => none
      | none => none
    else some newEntry

/-- `GlobalDirectory<T>::extend`. The doubled vector must come out filled exactly
(a store past its end, or a null pointer left in it, is undefined behaviour). -/
def extend (write : Nat → Int → State → Outcome) (hashValue : Nat) (s : State) : Outcome :=
  match s.entry[hashValue]? with
  | some oldBucket =>
    match s.heap[oldBucket]? with
    | some old =>
      if old.localDepth < s.globalDepth then splitOn write hashValue s
      else if s.globalDepth ≥ MAX_KEY_LENGTH then some (false, s)
      else
        let oldGlobalDepth := s.globalDepth
        let oldLength := s.entry.length
        match doubleLoop s oldGlobalDepth oldLength oldLength 0 [] with
        | some newEntry =>
          if newEntry.length = 2 * oldLength then
            let heap1 := s.heap ++ [Bucket.new (old.localDepth + 1), Bucket.new (old.localDepth + 1)]
            match setEntry newEntry (hashValue * 2) s.heap.length with
            | some e1 =>
              match setEntry e1 (hashValue * 2 + 1) (s.heap.length + 1) with
              | some e2 =>
                reHashItems write oldBucket
                  { s with heap := heap1, globalDepth := (oldGlobalDepth + 1) % 256, entry := e2 }
              | none => none
            | none => none
          else none
        | none => none
    | none => none
  | none => none

/-- The retry loop of `GlobalDirectory<T>::write`:
`for (i = 0; i < RETRIES; i++, index = hash(key)) { if (!extend(index)) continue;
index = hash(key); if (entry[index]->write(key, data)) return true; }`.
The first argument counts the iterations left. -/
def writeRetry (ext : Nat → State → Outcome) (key : Nat) (data : Int) :
    Nat → Nat → State → Outcome
  | 0, _, s => some (false, s)
  | n + 1, index, s =>
    match ext index s with
    | some (false, s1) =>
      match hash s1 key with
      | some index1 => writeRetry ext key data n index1 s1
      | none => none
    | some (true, s1) =>
      match hash s1 key with
      | some index1 =>
        match bucketWrite s1 index1 key data with
        | some (true, s2) => some (true, s2)
        | some (false, s2) =>
          match hash s2 key with
          | some index2 => writeRetry ext key data n index2 s2
          | none => none
        | none => none
      | none => none
    | none => none

/-- `const int RETRIES = 5;` in `GlobalDirectory<T>::write`. -/
def RETRIES : Nat := 5

/-- `GlobalDirectory<T>::write`; the first argument bounds the depth of the
recursion through `extend` and `reHashItems`. -/
def write : Nat → Nat → Int → State → Outcome
  | 0, _, _, _ => none
  | fuel + 1, key, data, s =>
    if s.entry.isEmpty then some (false, s)
    else
      match hash s key with
      | some index =>
        match bucketWrite s index key data with
        | some (true, s1) => some (true, s1)
        | some (false, s1) => writeRetry (extend (write fuel)) key data RETRIES index s1
        | none => none
      | none => none

/-- `for (size_t i = minIndex; i < minIndex + numPtrs * 2; i++) entry[i] =
mergedBucket;` of `mergeOn`; the second argument counts the iterations left. -/
def fillLoop (p : Nat) : Nat → Nat → List Nat → Option (List Nat)
  | _, 0, entry => some entry
  | i, n + 1, entry =>
    match setEntry entry i p with
    | some e1 => fillLoop p (i + 1) n e1
    | none => none

/-- `GlobalDirectory<T>::mergeOn`. -/
def mergeOn (write : Nat → Int → State → Outcome) (hashValue : Nat) (s : State) : Outcome :=
  if s.globalDepth == 1 then some (false, s)
  else
    match leftWalk s.entry hashValue with
    | some deleteIndex =>
      match s.entry[deleteIndex]? with
      | some deleteBucket =>
        match s.heap[deleteBucket]? with
        | some del =>
          match numPtrsOf s.globalDepth del.localDepth with
          | some numPtrs =>
            let buddyIndex := deleteIndex ^^^ numPtrs
            match s.entry[buddyIndex]? with
            | some buddyBucket =>
              match s.heap[buddyBucket]? with
              | some bud =>
                if del.localDepth != bud.localDepth ||
                    (del.validEntryCount + bud.validEntryCount) % 2 ^ 32 > BUCKET_CAPACITY then
                  some (false, s)
                else
                  let minIndex := if deleteIndex < buddyIndex then deleteIndex else buddyIndex
                  let mergedBucket := s.heap.length
                  let heap1 := s.heap ++ [Bucket.new ((del.localDepth + 2 ^ 32 - 1) % 2 ^ 32)]
                  match fillLoop mergedBucket minIndex (numPtrs * 2) s.entry with
                  | some entry1 =>
                    match reHashItems write deleteBucket { s with heap := heap1, entry := entry1 } with
                    | some (true, s1) => reHashItems write buddyBucket s1
                    | some (false, s1) => some (false, s1)
                    | none => none
                  | none => none
              | none => none
            | none => none
          | none => none
        | none => none
      | none => none
    | none => none

/-- The scan `for (i...) if (entry[i]->getLocalDepth() == globalDepth) return
false;` of `minimize`: `some true` when a bucket of full depth is met. -/
def scanDepth (s : State) : List Nat → Option Bool
  | [] => some false
  | p :: rest =>
    match s.heap[p]? with
    | some b => if b.localDepth == s.globalDepth then some true else scanDepth s rest
    | none => none

/-- `for (i = 0; i < newEntry.size(); i++) newEntry[i] = entry[i * 2];` of
`minimize`; the second argument counts the iterations left. -/
def halveLoop (entry : List Nat) : Nat → Nat → Option (List Nat)
  | _, 0 => some []
  | i, n + 1 =>
    match entry[i * 2]? with
    | some p =>
      match halveLoop entry (i + 1) n with
      | some rest => some (p :: rest)
      | none => none
    | none => none

/-- `GlobalDirectory<T>::minimize`. -/
def minimize (s : State) : Outcome :=
  if s.globalDepth == 1 then some (false, s)
  else
    match scanDepth s s.entry with
    | some true => some (false, s)
    | some false =>
      match halveLoop s.entry 0 (s.entry.length / 2) with
      | some newEntry =>
        some (true, { s with globalDepth := (s.globalDepth + 255) % 256, entry := newEntry })
      | none => none
    | none => none

/-- The loop `while(mergeOn(index) && minimize()) { index = hash(key); }` of
`GlobalDirectory<T>::erase`; the first argument bounds the number of rounds. -/
def eraseLoop (write : Nat → Int → State → Outcome) (key : Nat) : Nat → Nat → State → Option State
  | 0, _, _ => none
  | rounds + 1, index, s =>
    match mergeOn write index s with
    | some (true, s1) =>
      match minimize s1 with
      | some (true, s2) =>
        match hash s2 key with
        | some index1 => eraseLoop write key rounds index1 s2
        | none => none
      | some (false, s2) => some s2
      | none => none
    | some (false, s1) => some s1
    | none => none

/-- `GlobalDirectory<T>::erase`; `fuel` bounds both the rounds of the merge loop
and the recursion of the `write` used for rehashing. -/
def erase (fuel : Nat) (key : Nat) (s : State) : Outcome :=
  if s.entry.isEmpty then some (false, s)
  else
    match hash s key with
    | some index =>
      match s.entry[index]? with
      | some targetBucket =>
        match s.heap[targetBucket]? with
        | some b =>
          match b.erase key with
          | (true, b1) =>
            match eraseLoop (write fuel) key fuel index (s.store targetBucket b1) with
            | some s1 => some (true, s1)
            | none => none
          | (false, _) => some (false, s)
        | none => none
      | none => none
    | none => none

/-- `GlobalDirectory<T>::initialize` (the name `initialize` is reserved in
Lean). -/
def initializeDirectory (write : Nat → Int → State → Outcome) (initialFile : Nat) (s : State) :
    Outcome :=
  if !s.entry.isEmpty then some (false, s)
  else
    let globalDepth := 1
    let heap1 := s.heap ++ [Bucket.new globalDepth, Bucket.new globalDepth]
    reHashItems write initialFile
      { s with heap := heap1, globalDepth := globalDepth,
               entry := [s.heap.length, s.heap.length + 1] }

end GlobalDirectory

namespace MemoryManager

/-- The `result` computed by `MemoryManager<T>::searchAndPrint`: the facade's
lookup (`find` in the specification). -/
def find (s : State) (key : Nat) : Option (Option Int) :=
  if s.globalDepth == 0 then
    match s.heap[s.initialFile]? with
    | some b => some (b.find key)
    | none => none
  else GlobalDirectory.find s key

/-- `MemoryManager<T>::searchAndPrint`: `result.has_value()`. -/
def searchAndPrint (s : State) (key : Nat) : Option Bool :=
  (find s key).map Option.isSome

/-- `MemoryManager<T>::write`. -/
def write (fuel : Nat) (key : Nat) (data : Int) (s : State) : Outcome :=
  if s.globalDepth == 0 then
    match s.heap[s.initialFile]? with
    | some b =>
      match b.write key data with
      | (true, b1) => some (true, s.store s.initialFile b1)
      | (false, _) =>
        match GlobalDirectory.initializeDirectory (GlobalDirectory.write fuel) s.initialFile s with
        | some (_, s1) => GlobalDirectory.write fuel key data s1
        | none => none
    | none => none
  else GlobalDirectory.write fuel key data s

/-- `MemoryManager<T>::erase`. -/
def erase (fuel : Nat) (key : Nat) (s : State) : Outcome :=
  if s.globalDepth == 0 then
    match s.heap[s.initialFile]? with
    | some b =>
      match b.erase key with
      | (true, b1) => some (true, s.store s.initialFile b1)
      | (false, _) => some (false, s)
    | none => none
  else GlobalDirectory.erase fuel key s

end MemoryManager

/-! ## Well-formedness -/

/-- The directory index of a key at a given depth: the top `depth` bits of the
low byte of the key. -/
def hashAt (depth key : Nat) : Nat := key % 256 / 2 ^ (8 - depth)

/-- The sibling of a block number: the last bit flipped. -/
def sibling (c : Nat) : Nat := if c % 2 = 0 then c + 1 else c - 1

/-- The values a lookup of `key` can see: those of the valid items with that key
in the bucket of slot `hash(key)`, in array order. -/
def State.keyValues (s : State) (key : Nat) : List Int :=
  match s.bucketAt (hashAt s.globalDepth key) with
  | some b => valsOf key b.items
  | none => []

/-- Slot `i` of the directory holds the address `p` of the bucket `b`, and all is
well with it: the bucket is not the bootstrap bucket, its depth is between 1 and
the global depth, its bookkeeping is right, the slots holding `p` are exactly the
aligned block of `2 ^ (globalDepth - localDepth)` slots around `i`, and the keys
of its valid items have the block's number as their top `localDepth` bits. -/
structure SlotOK (s : State) (i p : Nat) (b : Bucket) : Prop where
  ne_initial : p ≠ s.initialFile
  depth_pos : 1 ≤ b.localDepth
  depth_le : b.localDepth ≤ s.globalDepth
  ok : BucketOK b
  block : ∀ j q, s.entry[j]? = some q →
    (q = p ↔ j / 2 ^ (s.globalDepth - b.localDepth) = i / 2 ^ (s.globalDepth - b.localDepth))
  place : ∀ it ∈ b.items, it.valid = true →
    hashAt b.localDepth it.key = i / 2 ^ (s.globalDepth - b.localDepth)

/-- A well-formed initialized directory. -/
structure WF0 (s : State) : Prop where
  depth_pos : 1 ≤ s.globalDepth
  depth_le : s.globalDepth ≤ MAX_KEY_LENGTH
  length_eq : s.entry.length = 2 ^ s.globalDepth
  slots : ∀ i p, s.entry[i]? = some p → ∃ b, s.heap[p]? = some b ∧ SlotOK s i p b
  initial : ∃ b0, s.heap[s.initialFile]? = some b0 ∧ BucketOK b0

/-- The directory is no larger than its deepest bucket requires. -/
def Minimal (s : State) : Prop :=
  s.globalDepth = 1 ∨
    ∃ (i p : Nat) (b : Bucket),
      s.entry[i]? = some p ∧ s.heap[p]? = some b ∧ b.localDepth = s.globalDepth

/-- The invariant of directory mode. -/
structure WF (s : State) : Prop where
  wf0 : WF0 s
  minimal : Minimal s

/-- The invariant of bootstrap mode: no directory yet, and a bootstrap bucket with
the right bookkeeping. -/
structure Bootstrap (s : State) : Prop where
  depth_zero : s.globalDepth = 0
  entry_nil : s.entry = []
  initial : ∃ b0, s.heap[s.initialFile]? = some b0 ∧ BucketOK b0

/-- The invariant of the index. -/
def Inv (s : State) : Prop := Bootstrap s ∨ WF s

/-! ## Rehashing -/

/-- What rehashing `items` does to a state `s` in which every receiving bucket is
compact and has room. -/
structure RehashSpec (s s1 : State) (items : List DataItem) : Prop where
  wf : WF0 s1
  entry_eq : s1.entry = s.entry
  depth_eq : s1.globalDepth = s.globalDepth
  initial_eq : s1.initialFile = s.initialFile
  heap_length : s1.heap.length = s.heap.length
  frame : ∀ p : Nat, (∀ it ∈ items, it.valid = true →
    s.entry[hashAt s.globalDepth it.key]? ≠ some p) → s1.heap[p]? = s.heap[p]?
  bucket : ∀ (p : Nat) (b : Bucket), s.heap[p]? = some b → ∃ b1, s1.heap[p]? = some b1 ∧
    b1.localDepth = b.localDepth ∧ (Compact b.items → Compact b1.items) ∧
    b.validEntryCount ≤ b1.validEntryCount ∧
    b1.validEntryCount ≤ b.validEntryCount + countValid items
  vals : ∀ k, s1.keyValues k = s.keyValues k ++ valsOf k items

/-- The room the receiving buckets must have for the items still to come. -/
def Room (s : State) (items : List DataItem) : Prop :=
  ∀ it ∈ items, it.valid = true → ∀ (p : Nat) (b : Bucket), s.entry[hashAt s.globalDepth it.key]? = some p →
    s.heap[p]? = some b →
    Compact b.items ∧ b.validEntryCount + countValid items ≤ BUCKET_CAPACITY

/-- What a successful split of the block around slot `h` (bucket `old`) gives:
`s1` is the state after the rehash. -/
structure SplitSpec (s s1 : State) (h : Nat) (old : Bucket) : Prop where
  wf : WF0 s1
  depth_eq : s1.globalDepth = s.globalDepth
  initial_eq : s1.initialFile = s.initialFile
  initial_heap : s1.heap[s.initialFile]? = s.heap[s.initialFile]?
  vals : ∀ k, s1.keyValues k = s.keyValues k
  minimal : Minimal s ∨ old.localDepth + 1 = s.globalDepth → Minimal s1
  fresh : ∀ x : Nat, x / 2 ^ (s.globalDepth - old.localDepth) = h / 2 ^ (s.globalDepth - old.localDepth) →
    ∃ (q : Nat) (b : Bucket), s1.entry[x]? = some q ∧ s1.heap[q]? = some b ∧
      s.heap.length ≤ q ∧ b.localDepth = old.localDepth + 1
  outside : ∀ x : Nat, x / 2 ^ (s.globalDepth - old.localDepth) ≠ h / 2 ^ (s.globalDepth - old.localDepth) →
    s1.entry[x]? = s.entry[x]? ∧ ∀ q, s.entry[x]? = some q → s1.heap[q]? = s.heap[q]?

/-- What a successful `extend` on slot `h` (bucket `old`) gives, in terms of
keys: the keys of the old block are served by fresh buckets one level deeper,
every other key by the bucket it had. -/
structure ExtendSpec (s s1 : State) (h : Nat) (old : Bucket) : Prop where
  wf : WF0 s1
  minimal : Minimal s → Minimal s1
  depth_eq : s1.globalDepth =
    if old.localDepth < s.globalDepth then s.globalDepth else s.globalDepth + 1
  initial_eq : s1.initialFile = s.initialFile
  initial_heap : s1.heap[s.initialFile]? = s.heap[s.initialFile]?
  vals : ∀ k, s1.keyValues k = s.keyValues k
  inside : ∀ k : Nat, hashAt old.localDepth k = h / 2 ^ (s.globalDepth - old.localDepth) →
    ∃ (q : Nat) (b : Bucket), s1.entry[hashAt s1.globalDepth k]? = some q ∧
      s1.heap[q]? = some b ∧ s.heap.length ≤ q ∧ b.localDepth = old.localDepth + 1
  outside : ∀ k : Nat, hashAt old.localDepth k ≠ h / 2 ^ (s.globalDepth - old.localDepth) →
    ∃ q : Nat, s.entry[hashAt s.globalDepth k]? = some q ∧
      s1.entry[hashAt s1.globalDepth k]? = some q ∧ s1.heap[q]? = s.heap[q]?

/-- What `GlobalDirectory<T>::write(key, data)` gives on a well-formed directory;
`ok` is the value returned. -/
structure WriteSpec (s s1 : State) (key : Nat) (data : Int) (ok : Bool) : Prop where
  wf : WF0 s1
  minimal : Minimal s → Minimal s1
  initial_eq : s1.initialFile = s.initialFile
  initial_heap : s1.heap[s.initialFile]? = s.heap[s.initialFile]?
  depth_ge : s.globalDepth ≤ s1.globalDepth
  vals_other : ∀ k, k ≠ key → s1.keyValues k = s.keyValues k
  vals_ok : ok = true →
    ∃ l1 l2, s.keyValues key = l1 ++ l2 ∧ s1.keyValues key = l1 ++ data :: l2
  vals_fail : ok = false → s1.keyValues key = s.keyValues key
  full_fail : ok = false → ∃ (p : Nat) (b : Bucket),
    s1.entry[hashAt s1.globalDepth key]? = some p ∧ s1.heap[p]? = some b ∧
      b.validEntryCount = BUCKET_CAPACITY

/-- What a successful `minimize` gives. -/
structure MinimizeSpec (s s1 : State) : Prop where
  wf : WF0 s1
  depth_eq : s1.globalDepth + 1 = s.globalDepth
  heap_eq : s1.heap = s.heap
  initial_eq : s1.initialFile = s.initialFile
  length_eq : s1.entry.length = s.entry.length / 2
  entry : ∀ x : Nat, x < s1.entry.length → s1.entry[x]? = s.entry[2 * x]?
  vals : ∀ k, s1.keyValues k = s.keyValues k

/-- What a successful `mergeOn` on slot `h` gives; `del` is the bucket of the
slot and `bud` its buddy. -/
structure MergeSpec (s s1 : State) (h : Nat) (del bud : Bucket) : Prop where
  wf : WF0 s1
  depth_eq : s1.globalDepth = s.globalDepth
  initial_eq : s1.initialFile = s.initialFile
  initial_heap : s1.heap[s.initialFile]? = s.heap[s.initialFile]?
  vals : ∀ k, s1.keyValues k = s.keyValues k
  merged : ∀ x : Nat, x / (2 * 2 ^ (s.globalDepth - del.localDepth))
      = h / (2 * 2 ^ (s.globalDepth - del.localDepth)) →
    ∃ b : Bucket, s1.entry[x]? = some s.heap.length ∧ s1.heap[s.heap.length]? = some b ∧
      b.localDepth + 1 = del.localDepth
  outside : ∀ x : Nat, x / (2 * 2 ^ (s.globalDepth - del.localDepth))
      ≠ h / (2 * 2 ^ (s.globalDepth - del.localDepth)) →
    s1.entry[x]? = s.entry[x]? ∧ ∀ q, s.entry[x]? = some q → s1.heap[q]? = s.heap[q]?
  near_minimal : ∃ (i p : Nat) (b : Bucket), s1.entry[i]? = some p ∧ s1.heap[p]? = some b ∧
    s1.globalDepth ≤ b.localDepth + 1

/-- What the merge loop of `erase` gives: a well-formed, minimal directory with
the same contents. -/
structure CollapseSpec (s s1 : State) : Prop where
  wf : WF0 s1
  minimal : Minimal s1
  initial_eq : s1.initialFile = s.initialFile
  initial_heap : s1.heap[s.initialFile]? = s.heap[s.initialFile]?
  depth_le : s1.globalDepth ≤ s.globalDepth
  vals : ∀ k, s1.keyValues k = s.keyValues k

/-- What a successful `GlobalDirectory<T>::erase(key)` gives. -/
structure EraseSpec (s s1 : State) (key : Nat) : Prop where
  wf : WF0 s1
  minimal : Minimal s1
  initial_eq : s1.initialFile = s.initialFile
  initial_heap : s1.heap[s.initialFile]? = s.heap[s.initialFile]?
  depth_le : s1.globalDepth ≤ s.globalDepth
  vals_other : ∀ k, k ≠ key → s1.keyValues k = s.keyValues k
  vals_key : s1.keyValues key = (s.keyValues key).tail

/-! ## The index seen from outside -/

/-- The values the facade's lookup of `key` can see, in array order: those of the
bootstrap bucket while there is no directory, those of the bucket of slot
`hash(key)` afterwards. -/
def MemoryManager.keyValues (s : State) (key : Nat) : List Int :=
  if s.globalDepth = 0 then
    match s.heap[s.initialFile]? with
    | some b => valsOf key b.items
    | none => []
  else s.keyValues key

/-- The number of valid slots that hold `key`: in the bootstrap bucket while there
is no directory, in all the distinct buckets the directory references afterwards. -/
def MemoryManager.holders (s : State) (key : Nat) : Nat :=
  if s.globalDepth = 0 then
    match s.heap[s.initialFile]? with
    | some b => (valsOf key b.items).length
    | none => 0
  else
    (s.entry.dedup.map (fun p =>
      match s.heap[p]? with
      | some b => (valsOf key b.items).length
      | none => 0)).sum

/-- The states of the index a caller can reach from the fresh one by `write` and
`erase` calls. Every call is given fuel (8 is enough for any of them; the
results do not depend on the amount). -/
inductive Reachable : State → Prop
  | fresh : Reachable State.fresh
  | write {s s1 : State} (fuel key : Nat) (data : Int) (ok : Bool) :
      Reachable s → 8 ≤ fuel → MemoryManager.write fuel key data s = some (ok, s1) → Reachable s1
  | erase {s s1 : State} (fuel key : Nat) (ok : Bool) :
      Reachable s → 8 ≤ fuel → MemoryManager.erase fuel key s = some (ok, s1) → Reachable s1

/-- What `MemoryManager<T>::write(key, data)` gives on a state that satisfies the
invariant; `ok` is the value returned. -/
structure FacadeWriteSpec (s s1 : State) (key : Nat) (data : Int) (ok : Bool) : Prop where
  inv : Inv s1
  initial_eq : s1.initialFile = s.initialFile
  depth_ge : s.globalDepth ≤ s1.globalDepth
  vals_other : ∀ k, k ≠ key → MemoryManager.keyValues s1 k = MemoryManager.keyValues s k
  vals_ok : ok = true → ∃ l1 l2, MemoryManager.keyValues s key = l1 ++ l2 ∧
    MemoryManager.keyValues s1 key = l1 ++ data :: l2
  vals_fail : ok = false → MemoryManager.keyValues s1 key = MemoryManager.keyValues s key
  full_fail : ok = false → WF s1 ∧ ∃ (p : Nat) (b : Bucket),
    s1.entry[hashAt s1.globalDepth key]? = some p ∧ s1.heap[p]? = some b ∧
      b.validEntryCount = BUCKET_CAPACITY

/-- What a successful `MemoryManager<T>::erase(key)` gives on a state that
satisfies the invariant. -/
structure FacadeEraseSpec (s s1 : State) (key : Nat) : Prop where
  inv : Inv s1
  initial_eq : s1.initialFile = s.initialFile
  depth_le : s1.globalDepth ≤ s.globalDepth
  vals_other : ∀ k, k ≠ key → MemoryManager.keyValues s1 k = MemoryManager.keyValues s k
  vals_key : MemoryManager.keyValues s1 key = (MemoryManager.keyValues s key).tail

/-- A call of the facade. -/
inductive Call where
  | write (key : Nat) (data : Int)
  | erase (key : Nat)

/-- The calls of a list run in sequence, each with the given fuel; the values
they return are dropped. -/
def MemoryManager.run (fuel : Nat) : List Call → State → Option State
  | [], s => some s
  | Call.write key data :: rest, s =>
    match MemoryManager.write fuel key data s with
    | some (_, s1) => MemoryManager.run fuel rest s1
    | none => none
  | Call.erase key :: rest, s =>
    match MemoryManager.erase fuel key s with
    | some (_, s1) => MemoryManager.run fuel rest s1
    | none => none

/-! ## Concrete states -/

/-- The index after `write(1, 20)`, `write(2, 70)`, `write(42, 11)` on a fresh one
(the first growth of `Main.cpp`): depth 3, the buckets at addresses 5, 6, 4
and 2 in use. -/
def threeKeys : State :=
  { heap := [
      ⟨0, 2, [⟨true, 20, 1⟩, ⟨true, 70, 2⟩]⟩,
      ⟨1, 2, [⟨true, 20, 1⟩, ⟨true, 70, 2⟩]⟩,
      ⟨1, 0, [⟨false, 0, 0⟩, ⟨false, 0, 0⟩]⟩,
      ⟨2, 2, [⟨true, 20, 1⟩, ⟨true, 70, 2⟩]⟩,
      ⟨2, 0, [⟨false, 0, 0⟩, ⟨false, 0, 0⟩]⟩,
      ⟨3, 2, [⟨true, 20, 1⟩, ⟨true, 70, 2⟩]⟩,
      ⟨3, 1, [⟨true, 11, 42⟩, ⟨false, 0, 0⟩]⟩],
    initialFile := 0, globalDepth := 3, entry := [5, 6, 4, 4, 2, 2, 2, 2] }

/-- The index after `write(0, 1)`, `write(1, 2)` on a fresh one: both items are
in the bootstrap bucket, which is full. -/
def twoLowKeys : State :=
  { heap := [⟨0, 2, [⟨true, 1, 0⟩, ⟨true, 2, 1⟩]⟩],
    initialFile := 0, globalDepth := 0, entry := [] }

/-- The index after `write(13, 33)`, `write(13, 88)` on a fresh one: two valid
slots of the bootstrap bucket hold key 13. -/
def duplicateKey : State :=
  { heap := [⟨0, 2, [⟨true, 33, 13⟩, ⟨true, 88, 13⟩]⟩],
    initialFile := 0, globalDepth := 0, entry := [] }

/-- The calls that drive a fresh index to depth 8: key 0 written four times. The
first two writes fill the bootstrap bucket; the third creates the directory,
doubles it five times (depth 6) and is rejected; the fourth doubles it twice
more (depth 8) and is rejected too. -/
def maxDepthCalls : List Call :=
  [Call.write 0 1, Call.write 0 2, Call.write 0 3, Call.write 0 3]

/-- The index after `maxDepthCalls`: a directory of 256 slots whose slot 0 holds a
full bucket of local depth 8. -/
def maxDepth : State := (MemoryManager.run 8 maxDepthCalls State.fresh).getD State.fresh

/-- The calls of a list run in sequence, each with the given fuel, with the
values they return: what the command loop of `Main.cpp` compares with the
expected values (`WriteCommand::execute`, `EraseCommand::execute`). -/
def MemoryManager.results (fuel : Nat) : List Call → State → Option (List Bool × State)
  | [], s => some ([], s)
  | Call.write key data :: rest, s =>
    match MemoryManager.write fuel key data s with
    | some (ok, s1) =>
      match MemoryManager.results fuel rest s1 with
      | some (oks, s2) => some (ok :: oks, s2)
      | none => none
    | none => none
  | Call.erase key :: rest, s =>
    match MemoryManager.erase fuel key s with
    | some (ok, s1) =>
      match MemoryManager.results fuel rest s1 with
      | some (oks, s2) => some (ok :: oks, s2)
      | none => none
    | none => none

/-- The state seen with another address in `MemoryManager::initialFile`. The
directory never reads that field, so its operations commute with this change. -/
def State.withInitialFile (s : State) (p : Nat) : State := { s with initialFile := p }

/-- The outcome of an operation, seen with another address in
`MemoryManager::initialFile`. -/
def Outcome.withInitialFile (r : Outcome) (p : Nat) : Outcome :=
  r.map (fun x => (x.1, x.2.withInitialFile p))

/-- The index after `write(112, 54)`, `write(240, 16)`, `write(241, 99)` on
`threeKeys` (the second group of writes of `Main.cpp`): the directory of
`threeKeys`, with key 112 in the bucket at address 4 and keys 240 and 241 in
the bucket at address 2. -/
def scenarioThree : State :=
  { heap := [
      ⟨0, 2, [⟨true, 20, 1⟩, ⟨true, 70, 2⟩]⟩,
      ⟨1, 2, [⟨true, 20, 1⟩, ⟨true, 70, 2⟩]⟩,
      ⟨1, 2, [⟨true, 16, 240⟩, ⟨true, 99, 241⟩]⟩,
      ⟨2, 2, [⟨true, 20, 1⟩, ⟨true, 70, 2⟩]⟩,
      ⟨2, 1, [⟨true, 54, 112⟩, ⟨false, 0, 0⟩]⟩,
      ⟨3, 2, [⟨true, 20, 1⟩, ⟨true, 70, 2⟩]⟩,
      ⟨3, 1, [⟨true, 11, 42⟩, ⟨false, 0, 0⟩]⟩],
    initialFile := 0, globalDepth := 3, entry := [5, 6, 4, 4, 2, 2, 2, 2] }

/-- Six distinct keys with their values: 1, 2 and 10 agree on their top four
bits and differ in the fifth, and so do 129, 130 and 138 in the other half of
the key space. -/
def deepKeys : List (Nat × Int) :=
  [(1, 20), (2, 70), (10, 11), (129, 54), (130, 16), (138, 99)]

/-- The writes of `deepKeys`, in order. -/
def deepWrites : List Call := deepKeys.map (fun kv => Call.write kv.1 kv.2)

/-- The erases of the keys of `deepKeys`, in the reverse order. -/
def deepErases : List Call := (deepKeys.reverse.map Prod.fst).map Call.erase

/-- The index after `deepWrites` on a fresh one: a directory of depth 5 with
buckets of local depth 5 in both halves. -/
def deepRegions : State := (MemoryManager.run 8 deepWrites State.fresh).getD State.fresh

/-- The index after `deepErases` on `deepRegions`. -/
def deepRegionsErased : State := (MemoryManager.run 8 deepErases deepRegions).getD State.fresh

/-- The index after `write(129, 54)`, `write(130, 16)`, `write(170, 99)` on
`threeKeys`: depth 3, with buckets of local depth 3 in both halves of the
directory. -/
def twoRegions : State :=
  { heap := [
      ⟨0, 2, [⟨true, 20, 1⟩, ⟨true, 70, 2⟩]⟩,
      ⟨1, 2, [⟨true, 20, 1⟩, ⟨true, 70, 2⟩]⟩,
      ⟨1, 2, [⟨true, 54, 129⟩, ⟨true, 16, 130⟩]⟩,
      ⟨2, 2, [⟨true, 20, 1⟩, ⟨true, 70, 2⟩]⟩,
      ⟨2, 0, [⟨false, 0, 0⟩, ⟨false, 0, 0⟩]⟩,
      ⟨3, 2, [⟨true, 20, 1⟩, ⟨true, 70, 2⟩]⟩,
      ⟨3, 1, [⟨true, 11, 42⟩, ⟨false, 0, 0⟩]⟩,
      ⟨2, 2, [⟨true, 54, 129⟩, ⟨true, 16, 130⟩]⟩,
      ⟨2, 0, [⟨false, 0, 0⟩, ⟨false, 0, 0⟩]⟩,
      ⟨3, 2, [⟨true, 54, 129⟩, ⟨true, 16, 130⟩]⟩,
      ⟨3, 1, [⟨true, 99, 170⟩, ⟨false, 0, 0⟩]⟩],
    initialFile := 0, globalDepth := 3, entry := [5, 6, 4, 4, 9, 10, 8, 8] }

/-- The index after `erase(170)` on `twoRegions`: the buckets of slots 4 and 5
were merged into the bucket at address 11, and the directory was not halved. -/
def twoRegionsErased : State :=
  { heap := [
      ⟨0, 2, [⟨true, 20, 1⟩, ⟨true, 70, 2⟩]⟩,
      ⟨1, 2, [⟨true, 20, 1⟩, ⟨true, 70, 2⟩]⟩,
      ⟨1, 2, [⟨true, 54, 129⟩, ⟨true, 16, 130⟩]⟩,
      ⟨2, 2, [⟨true, 20, 1⟩, ⟨true, 70, 2⟩]⟩,
      ⟨2, 0, [⟨false, 0, 0⟩, ⟨false, 0, 0⟩]⟩,
      ⟨3, 2, [⟨true, 20, 1⟩, ⟨true, 70, 2⟩]⟩,
      ⟨3, 1, [⟨true, 11, 42⟩, ⟨false, 0, 0⟩]⟩,
      ⟨2, 2, [⟨true, 54, 129⟩, ⟨true, 16, 130⟩]⟩,
      ⟨2, 0, [⟨false, 0, 0⟩, ⟨false, 0, 0⟩]⟩,
      ⟨3, 2, [⟨true, 54, 129⟩, ⟨true, 16, 130⟩]⟩,
      ⟨3, 0, [⟨false, 99, 170⟩, ⟨false, 0, 0⟩]⟩,
      ⟨2, 2, [⟨true, 54, 129⟩, ⟨true, 16, 130⟩]⟩],
    initialFile := 0, globalDepth := 3, entry := [5, 6, 4, 4, 11, 11, 8, 8] }

/-- The valid items of a bucket, in array order. -/
def validItems (items : List DataItem) : List DataItem := items.filter (fun it => it.valid)

/-- `GlobalDirectory<T>::write` up to its first `return true`: the test of
`entry.empty()`, `index = hash(key)` and the bucket write `entry[index]->write(key,
data)`, without the retry loop, so that `extend` is never called. -/
def GlobalDirectory.writeOnce (key : Nat) (data : Int) (s : State) : Outcome :=
  if s.entry.isEmpty then some (false, s)
  else
    match GlobalDirectory.hash s key with
    | some index => GlobalDirectory.bucketWrite s index key data
    | none => none

/-- A write that returns what the first bucket write of `GlobalDirectory<T>::write`
returns whenever that one succeeds. The directory's `write` is one with any
positive fuel, and so is `writeOnce`. -/
def PlainWrite (w : Nat → Int → State → Outcome) : Prop :=
  ∀ (key : Nat) (data : Int) (s s1 : State),
    GlobalDirectory.writeOnce key data s = some (true, s1) → w key data s = some (true, s1)

/-- The valid items of a list whose keys the directory of `s` sends to the bucket
at address `q`, in the order of the list. -/
def itemsFor (s : State) (q : Nat) (items : List DataItem) : List DataItem :=
  items.filter (fun it => it.valid && decide (s.entry[hashAt s.globalDepth it.key]? = some q))

/-- The directory of `threeKeys` with every slot doubled and the depth raised to
4, as `extend` builds it before it installs two fresh buckets: well-formed, and
one level larger than its deepest bucket requires. -/
def threeKeysDoubled : State :=
  { threeKeys with
    globalDepth := 4, entry := [5, 5, 6, 6, 4, 4, 4, 4, 2, 2, 2, 2, 2, 2, 2, 2] }

/-! ## The depths seen by `mergeOn` and `splitOn` -/

/-- What is expected of the directory when `mergeOn(hashValue)` or
`splitOn(hashValue)` is entered: every bucket it references has a local depth of
at least 1 and, for the bucket `b` of the slot, with `index` the first slot of
its block and `numPtrs = 2 ^ (globalDepth - localDepth)`: `numPtrs` is at most
`2 ^ (globalDepth - 1)`, the buddy index `index ^ numPtrs` is inside the
directory, and `localDepth - 1`, computed as `mergeOn` does, has not wrapped. -/
def depthGuard (s : State) (hashValue : Nat) : Bool :=
  s.entry.all (fun p =>
    match s.heap[p]? with
    | some b => decide (1 ≤ b.localDepth)
    | none => false) &&
  match GlobalDirectory.leftWalk s.entry hashValue with
  | some index =>
    match s.entry[index]? with
    | some p =>
      match s.heap[p]? with
      | some b =>
        decide (2 ^ (s.globalDepth - b.localDepth) ≤ 2 ^ (s.globalDepth - 1)) &&
        decide (index ^^^ 2 ^ (s.globalDepth - b.localDepth) < s.entry.length) &&
        decide ((b.localDepth + 2 ^ 32 - 1) % 2 ^ 32 + 1 = b.localDepth)
      | none => false
    | none => false
  | none => false

/-- `GlobalDirectory<T>::splitOn` with the expectation `depthGuard` tested on
entry: no result when it fails. -/
def GlobalDirectory.splitOnChecked (write : Nat → Int → State → Outcome) (hashValue : Nat)
    (s : State) : Outcome :=
  if depthGuard s hashValue then GlobalDirectory.splitOn write hashValue s else none

/-- `GlobalDirectory<T>::mergeOn` with the expectation `depthGuard` tested on
entry: no result when it fails. -/
def GlobalDirectory.mergeOnChecked (write : Nat → Int → State → Outcome) (hashValue : Nat)
    (s : State) : Outcome :=
  if depthGuard s hashValue then GlobalDirectory.mergeOn write hashValue s else none

/-- `GlobalDirectory<T>::extend`, calling the checked `splitOn`. -/
def GlobalDirectory.extendChecked (write : Nat → Int → State → Outcome) (hashValue : Nat)
    (s : State) : Outcome :=
  match s.entry[hashValue]? with
  | some oldBucket =>
    match s.heap[oldBucket]? with
    | some old =>
      if old.localDepth < s.globalDepth then GlobalDirectory.splitOnChecked write hashValue s
      else if s.globalDepth ≥ MAX_KEY_LENGTH then some (false, s)
      else
        let oldGlobalDepth := s.globalDepth
        let oldLength := s.entry.length
        match GlobalDirectory.doubleLoop s oldGlobalDepth oldLength oldLength 0 [] with
        | some newEntry =>
          if newEntry.length = 2 * oldLength then
            let heap1 := s.heap ++ [Bucket.new (old.localDepth + 1), Bucket.new (old.localDepth + 1)]
            match setEntry newEntry (hashValue * 2) s.heap.length with
            | some e1 =>
              match setEntry e1 (hashValue * 2 + 1) (s.heap.length + 1) with
              | some e2 =>
                GlobalDirectory.reHashItems write oldBucket
                  { s with heap := heap1, globalDepth := (oldGlobalDepth + 1) % 256, entry := e2 }
              | none => none
            | none => none
          else none
        | none => none
    | none => none
  | none => none

/-- `GlobalDirectory<T>::write`, calling the checked `extend`. -/
def GlobalDirectory.writeChecked : Nat → Nat → Int → State → Outcome
  | 0, _, _, _ => none
  | fuel + 1, key, data, s =>
    if s.entry.isEmpty then some (false, s)
    else
      match GlobalDirectory.hash s key with
      | some index =>
        match GlobalDirectory.bucketWrite s index key data with
        | some (true, s1) => some (true, s1)
        | some (false, s1) =>
          GlobalDirectory.writeRetry
            (GlobalDirectory.extendChecked (GlobalDirectory.writeChecked fuel)) key data
            GlobalDirectory.RETRIES index s1
        | none => none
      | none => none

/-- The merge loop of `GlobalDirectory<T>::erase`, calling the checked `mergeOn`. -/
def GlobalDirectory.eraseLoopChecked (write : Nat → Int → State → Outcome) (key : Nat) :
    Nat → Nat → State → Option State
  | 0, _, _ => none
  | rounds + 1, index, s =>
    match GlobalDirectory.mergeOnChecked write index s with
    | some (true, s1) =>
      match GlobalDirectory.minimize s1 with
      | some (true, s2) =>
        match GlobalDirectory.hash s2 key with
        | some index1 => GlobalDirectory.eraseLoopChecked write key rounds index1 s2
        | none => none
      | some (false, s2) => some s2
      | none => none
    | some (false, s1) => some s1
    | none => none

/-- `GlobalDirectory<T>::erase`, with the checked merge loop and the checked
`write` for rehashing. -/
def GlobalDirectory.eraseChecked (fuel : Nat) (key : Nat) (s : State) : Outcome :=
  if s.entry.isEmpty then some (false, s)
  else
    match GlobalDirectory.hash s key with
    | some index =>
      match s.entry[index]? with
      | some targetBucket =>
        match s.heap[targetBucket]? with
        | some b =>
          match b.erase key with
          | (true, b1) =>
            match GlobalDirectory.eraseLoopChecked (GlobalDirectory.writeChecked fuel) key fuel
                index (s.store targetBucket b1) with
            | some s1 => some (true, s1)
            | none => none
          | (false, _) => some (false, s)
        | none => none
      | none => none
    | none => none

/-- `MemoryManager<T>::write` over the checked directory. -/
def MemoryManager.writeChecked (fuel : Nat) (key : Nat) (data : Int) (s : State) : Outcome :=
  if s.globalDepth == 0 then
    match s.heap[s.initialFile]? with
    | some b =>
      match b.write key data with
      | (true, b1) => some (true, s.store s.initialFile b1)
      | (false, _) =>
        match GlobalDirectory.initializeDirectory (GlobalDirectory.writeChecked fuel)
            s.initialFile s with
        | some (_, s1) => GlobalDirectory.writeChecked fuel key data s1
        | none => none
    | none => none
  else GlobalDirectory.writeChecked fuel key data s

/-- `MemoryManager<T>::erase` over the checked directory. -/
def MemoryManager.eraseChecked (fuel : Nat) (key : Nat) (s : State) : Outcome :=
  if s.globalDepth == 0 then
    match s.heap[s.initialFile]? with
    | some b =>
      match b.erase key with
      | (true, b1) => some (true, s.store s.initialFile b1)
      | (false, _) => some (false, s)
    | none => none
  else GlobalDirectory.eraseChecked fuel key s

end ExtendibleHashing

/-! # Theorems -/

namespace ExtendibleHashing

/-! ## Arithmetic of aligned blocks -/

theorem div_eq_iff_bounds (j m x : Nat) (hm : 0 < m) :
    j / m = x ↔ x * m ≤ j ∧ j < x * m + m := by
  have e : x * m + m = (x + 1) * m := by rw [Nat.succ_mul]
  rw [e]
  constructor
  · intro h
    subst h
    refine ⟨Nat.div_mul_le_self j m, ?_⟩
    exact Nat.lt_mul_of_div_lt (Nat.lt_succ_self _) hm
  · rintro ⟨h1, h2⟩
    apply Nat.le_antisymm
    · exact Nat.lt_succ_iff.1 ((Nat.div_lt_iff_lt_mul hm).2 h2)
    · exact (Nat.le_div_iff_mul_le hm).2 h1

theorem div_mul_le_and_lt (j m : Nat) (hm : 0 < m) : j / m * m ≤ j ∧ j < j / m * m + m :=
  (div_eq_iff_bounds j m (j / m) hm).1 rfl

theorem div_eq_of_between (j x y m : Nat) (h1 : j ≤ x) (h2 : x ≤ y) (h : j / m = y / m) :
    x / m = y / m :=
  Nat.le_antisymm (Nat.div_le_div_right h2) (h ▸ Nat.div_le_div_right h1)

theorem div_two_mul (j m : Nat) : j / (2 * m) = j / m / 2 := by
  rw [Nat.div_div_eq_div_mul, Nat.mul_comm]

theorem two_pow_sub_succ (g l : Nat) (h : l < g) : 2 ^ (g - l) = 2 * 2 ^ (g - (l + 1)) := by
  have : g - l = (g - (l + 1)) + 1 := by omega
  rw [this, Nat.pow_succ, Nat.mul_comm]

theorem two_pow_pos (n : Nat) : 0 < 2 ^ n := Nat.pow_pos (by decide)

theorem xor_two_pow_of_even (d t : Nat) : (2 * d * 2 ^ t) ^^^ 2 ^ t = (2 * d + 1) * 2 ^ t := by
  have h1 : 2 * d * 2 ^ t = 2 ^ (t + 1) * d := by rw [Nat.pow_succ]; ring
  have h2 : (2 * d + 1) * 2 ^ t = 2 ^ (t + 1) * d + 2 ^ t := by rw [Nat.pow_succ]; ring
  have hlt : 2 ^ t < 2 ^ (t + 1) := Nat.pow_lt_pow_right (by decide) (Nat.lt_succ_self t)
  rw [h1, h2, Nat.mul_add_lt_is_or hlt]
  apply Nat.eq_of_testBit_eq
  intro i
  rw [Nat.testBit_xor, Nat.testBit_or, Nat.testBit_two_pow, Nat.testBit_mul_pow_two]
  by_cases hi : t = i
  · subst hi
    simp
  · simp [hi]

theorem xor_two_pow_of_odd (d t : Nat) : ((2 * d + 1) * 2 ^ t) ^^^ 2 ^ t = 2 * d * 2 ^ t := by
  rw [← xor_two_pow_of_even, Nat.xor_assoc, Nat.xor_self, Nat.xor_zero]

theorem xor_two_pow (c t : Nat) : (c * 2 ^ t) ^^^ 2 ^ t = sibling c * 2 ^ t := by
  unfold sibling
  by_cases h : c % 2 = 0
  · rw [if_pos h]
    have : c = 2 * (c / 2) := by omega
    rw [this, xor_two_pow_of_even]
  · rw [if_neg h]
    have : c = 2 * (c / 2) + 1 := by omega
    rw [this, xor_two_pow_of_odd, Nat.add_sub_cancel]

theorem sibling_div_two (c : Nat) : sibling c / 2 = c / 2 := by
  unfold sibling; split <;> omega

theorem sibling_ne (c : Nat) : sibling c ≠ c := by
  unfold sibling; split <;> omega

theorem div_two_eq_iff (x c : Nat) : x / 2 = c / 2 ↔ x = c ∨ x = sibling c := by
  unfold sibling; split <;> omega

/-! ## Arithmetic of buddy blocks -/

theorem sibling_even (d : Nat) : sibling (2 * d) = 2 * d + 1 := by
  unfold sibling; split <;> omega

theorem sibling_odd (d : Nat) : sibling (2 * d + 1) = 2 * d := by
  unfold sibling; split <;> omega

theorem sibling_lt (c M : Nat) (h : c < 2 * M) : sibling c < 2 * M := by
  unfold sibling; split <;> omega

theorem even_or_odd (c : Nat) : c = 2 * (c / 2) ∨ c = 2 * (c / 2) + 1 := by omega

theorem even_or_odd' (c : Nat) : ∃ d, (c = 2 * d ∨ c = 2 * d + 1) ∧ c / 2 = d :=
  ⟨c / 2, even_or_odd c, rfl⟩

theorem min_buddy (c sp : Nat) (hsp : 0 < sp) :
    (if c * sp < sibling c * sp then c * sp else sibling c * sp) = c / 2 * (2 * sp) := by
  obtain ⟨d, h, hd⟩ := even_or_odd' c
  rw [hd]
  have e3 : d * (2 * sp) = 2 * (d * sp) := by ring
  rcases h with h | h
  · subst h
    have e1 : 2 * d * sp = 2 * (d * sp) := by ring
    have e2 : (2 * d + 1) * sp = 2 * (d * sp) + sp := by ring
    rw [sibling_even, e1, e2, e3, if_pos (by omega)]
  · subst h
    have e1 : 2 * d * sp = 2 * (d * sp) := by ring
    have e2 : (2 * d + 1) * sp = 2 * (d * sp) + sp := by ring
    rw [sibling_odd, e1, e2, e3, if_neg (by omega)]

theorem merged_end (c sp L : Nat) (h1 : c * sp + sp ≤ L) (h2 : sibling c * sp + sp ≤ L) :
    c / 2 * (2 * sp) + sp * 2 ≤ L := by
  obtain ⟨d, h, hd⟩ := even_or_odd' c
  rw [hd]
  have e3 : d * (2 * sp) = 2 * (d * sp) := by ring
  have e1 : 2 * d * sp = 2 * (d * sp) := by ring
  have e2 : (2 * d + 1) * sp = 2 * (d * sp) + sp := by ring
  rcases h with h | h
  · subst h
    rw [sibling_even, e2] at h2
    rw [e3]; omega
  · subst h
    rw [e2] at h1
    rw [e3]; omega

theorem mul_div_self (c sp : Nat) (hsp : 0 < sp) : c * sp / sp = c :=
  Nat.mul_div_cancel c hsp

/-! ## Items of a bucket -/

theorem countValid_nil : countValid [] = 0 := rfl

theorem countValid_cons (it : DataItem) (rest : List DataItem) :
    countValid (it :: rest) = (if it.valid then 1 else 0) + countValid rest := by
  unfold countValid
  by_cases h : it.valid = true <;> simp [List.filter_cons, h]
  omega

theorem countValid_le_length (items : List DataItem) : countValid items ≤ items.length := by
  unfold countValid
  exact List.length_filter_le _ _

theorem valsOf_nil (key : Nat) : valsOf key [] = [] := rfl

theorem valsOf_cons (key : Nat) (it : DataItem) (rest : List DataItem) :
    valsOf key (it :: rest) =
      if it.valid && it.key == key then it.data :: valsOf key rest else valsOf key rest := by
  unfold valsOf
  by_cases h : (it.valid && it.key == key) = true <;> simp [List.filter_cons, h]

theorem findItems_eq_head (key : Nat) (items : List DataItem) :
    findItems key items = (valsOf key items).head? := by
  induction items with
  | nil => rfl
  | cons it rest ih =>
    rw [valsOf_cons]
    unfold findItems
    by_cases h : (it.valid && it.key == key) = true
    · simp [h]
    · rw [if_neg h, if_neg h]
      exact ih

theorem valsOf_eq_nil_of_all_invalid (key : Nat) (items : List DataItem)
    (h : ∀ x ∈ items, x.valid = false) : valsOf key items = [] := by
  induction items with
  | nil => rfl
  | cons it rest ih =>
    rw [valsOf_cons]
    have h1 : it.valid = false := h it (List.mem_cons_self _ _)
    simp only [h1, Bool.false_and, if_false]
    exact ih (fun x hx => h x (List.mem_cons_of_mem _ hx))

theorem countValid_eq_zero_of_all_invalid (items : List DataItem)
    (h : ∀ x ∈ items, x.valid = false) : countValid items = 0 := by
  induction items with
  | nil => rfl
  | cons it rest ih =>
    rw [countValid_cons]
    have h1 : it.valid = false := h it (List.mem_cons_self _ _)
    simp only [h1, if_false]
    have := ih (fun x hx => h x (List.mem_cons_of_mem _ hx))
    simp [this]

theorem all_invalid_of_countValid_eq_zero (items : List DataItem)
    (h : countValid items = 0) : ∀ x ∈ items, x.valid = false := by
  induction items with
  | nil => intro x hx; cases hx
  | cons it rest ih =>
    rw [countValid_cons] at h
    intro x hx
    rcases List.mem_cons.1 hx with rfl | hx
    · by_cases hv : x.valid = true
      · simp [hv] at h
      · simpa using hv
    · exact ih (by omega) x hx

theorem valsOf_eq_nil_iff (key : Nat) (items : List DataItem) :
    valsOf key items = [] ↔ ∀ x ∈ items, x.valid = true → x.key ≠ key := by
  induction items with
  | nil => simp [valsOf_nil]
  | cons it rest ih =>
    rw [valsOf_cons]
    by_cases h : (it.valid && it.key == key) = true
    · rw [if_pos h]
      constructor
      · intro h1; cases h1
      · intro h1
        simp only [Bool.and_eq_true, beq_iff_eq] at h
        exact absurd h.2 (h1 it (List.mem_cons_self _ _) h.1)
    · rw [if_neg h, ih]
      constructor
      · intro h1 x hx hv
        rcases List.mem_cons.1 hx with rfl | hx
        · intro hk
          apply h
          simp [hv, hk]
        · exact h1 x hx hv
      · intro h1 x hx hv
        exact h1 x (List.mem_cons_of_mem _ hx) hv

/-! ### `writeItems` -/

theorem writeItems_eq_none_iff (key : Nat) (data : Int) (items : List DataItem) :
    writeItems key data items = none ↔ ∀ x ∈ items, x.valid = true := by
  induction items with
  | nil => simp [writeItems]
  | cons it rest ih =>
    unfold writeItems
    by_cases h : it.valid = true
    · simp [h, ih]
    · simp [h]

theorem countValid_eq_length_iff (items : List DataItem) :
    countValid items = items.length ↔ ∀ x ∈ items, x.valid = true := by
  induction items with
  | nil => simp [countValid]
  | cons it rest ih =>
    rw [countValid_cons]
    have hle := countValid_le_length rest
    by_cases h : it.valid = true
    · simp only [h, if_true, List.length_cons, List.mem_cons, forall_eq_or_imp, true_and]
      rw [← ih]; omega
    · simp only [h, List.length_cons, List.mem_cons, forall_eq_or_imp, false_and, iff_false]
      simp; omega

theorem valsOf_of_compact_invalid_head (key : Nat) (it : DataItem) (rest : List DataItem)
    (hc : Compact (it :: rest)) (hv : it.valid = false) : valsOf key (it :: rest) = [] := by
  apply valsOf_eq_nil_of_all_invalid
  rcases hc with ⟨h, _⟩ | h
  · rw [hv] at h; cases h
  · exact h

theorem compact_of_all_invalid (items : List DataItem) (h : ∀ x ∈ items, x.valid = false) :
    Compact items := by
  cases items with
  | nil => trivial
  | cons it rest => exact Or.inr h

theorem writeItems_spec (key : Nat) (data : Int) (items items1 : List DataItem)
    (h : writeItems key data items = some items1) : WriteItemsSpec key data items items1 := by
  induction items generalizing items1 with
  | nil => simp [writeItems] at h
  | cons it rest ih =>
    unfold writeItems at h
    by_cases hv : it.valid = true
    · simp only [hv, Bool.not_true, Bool.false_eq_true, if_false, Option.map_eq_some'] at h
      obtain ⟨r, hr, rfl⟩ := h
      have sp := ih r hr
      refine ⟨by simp [sp.length_eq], ?_, ?_, ?_, ?_, ?_⟩
      · rw [countValid_cons, countValid_cons, sp.count_eq]; omega
      · intro x hx hxv
        rcases List.mem_cons.1 hx with rfl | hx
        · exact Or.inl ⟨List.mem_cons_self _ _, hxv⟩
        · rcases sp.mem_valid x hx hxv with ⟨h1, h2⟩ | h1
          · exact Or.inl ⟨List.mem_cons_of_mem _ h1, h2⟩
          · exact Or.inr h1
      · intro k hk
        rw [valsOf_cons, valsOf_cons, sp.vals_other k hk]
      · obtain ⟨l1, l2, h1, h2⟩ := sp.vals_key
        rw [valsOf_cons, valsOf_cons]
        by_cases hk : (it.valid && it.key == key) = true
        · simp only [hk, if_true]
          exact ⟨it.data :: l1, l2, by simp [h1], by simp [h2]⟩
        · simp only [hk, if_false]
          exact ⟨l1, l2, h1, h2⟩
      · intro hc
        have hc' : Compact rest := by
          rcases hc with ⟨_, h⟩ | h
          · exact h
          · have := h it (List.mem_cons_self _ _)
            rw [hv] at this; cases this
        obtain ⟨c1, c2⟩ := sp.compact hc'
        refine ⟨Or.inl ⟨hv, c1⟩, ?_⟩
        rw [valsOf_cons, valsOf_cons, c2]
        by_cases hk : (it.valid && it.key == key) = true <;> simp [hk]
    · have hv' : it.valid = false := by simpa using hv
      simp only [hv', Bool.not_false, if_true, Option.some.injEq] at h
      subst h
      refine ⟨by simp, ?_, ?_, ?_, ?_, ?_⟩
      · rw [countValid_cons, countValid_cons]; simp [hv', DataItem.make]; omega
      · intro x hx hxv
        rcases List.mem_cons.1 hx with rfl | hx
        · exact Or.inr rfl
        · exact Or.inl ⟨List.mem_cons_of_mem _ hx, hxv⟩
      · intro k hk
        rw [valsOf_cons, valsOf_cons]
        have : ¬ (key = k) := fun h => hk h.symm
        simp [hv', DataItem.make, this]
      · refine ⟨[], valsOf key rest, ?_, ?_⟩
        · rw [valsOf_cons]; simp [hv']
        · rw [valsOf_cons]; simp [DataItem.make]
      · intro hc
        have hall : ∀ x ∈ it :: rest, x.valid = false := by
          rcases hc with ⟨h, _⟩ | h
          · rw [hv'] at h; cases h
          · exact h
        have hrest : ∀ x ∈ rest, x.valid = false := fun x hx => hall x (List.mem_cons_of_mem _ hx)
        refine ⟨Or.inl ⟨rfl, compact_of_all_invalid rest hrest⟩, ?_⟩
        rw [valsOf_eq_nil_of_all_invalid key (it :: rest) hall, valsOf_cons,
          valsOf_eq_nil_of_all_invalid key rest hrest]
        simp [DataItem.make]

/-! ### `eraseItems` -/

theorem eraseItems_eq_none_iff (key : Nat) (items : List DataItem) :
    eraseItems key items = none ↔ valsOf key items = [] := by
  induction items with
  | nil => simp [eraseItems, valsOf_nil]
  | cons it rest ih =>
    unfold eraseItems
    rw [valsOf_cons]
    by_cases h : (it.valid && it.key == key) = true
    · simp [h]
    · rw [if_neg h, if_neg h, Option.map_eq_none', ih]

theorem eraseItems_spec (key : Nat) (items items1 : List DataItem)
    (h : eraseItems key items = some items1) : EraseItemsSpec key items items1 := by
  induction items generalizing items1 with
  | nil => simp [eraseItems] at h
  | cons it rest ih =>
    unfold eraseItems at h
    by_cases hk : (it.valid && it.key == key) = true
    · rw [if_pos hk, Option.some.injEq] at h
      subst h
      have hk' := hk
      simp only [Bool.and_eq_true, beq_iff_eq] at hk'
      refine ⟨by simp, ?_, ?_, ?_, ?_⟩
      · rw [countValid_cons, countValid_cons]; simp [DataItem.markInvalid, hk'.1]; omega
      · intro x hx hxv
        rcases List.mem_cons.1 hx with rfl | hx
        · simp [DataItem.markInvalid] at hxv
        · exact ⟨List.mem_cons_of_mem _ hx, hxv⟩
      · intro k hne
        rw [valsOf_cons, valsOf_cons]
        have : ¬ (it.key = k) := fun h => hne (by rw [← h, hk'.2])
        simp [DataItem.markInvalid, this]
      · rw [valsOf_cons, valsOf_cons]
        simp [DataItem.markInvalid, hk]
    · rw [if_neg hk, Option.map_eq_some'] at h
      obtain ⟨r, hr, rfl⟩ := h
      have sp := ih r hr
      refine ⟨by simp [sp.length_eq], ?_, ?_, ?_, ?_⟩
      · rw [countValid_cons, countValid_cons, ← sp.count_eq]; omega
      · intro x hx hxv
        rcases List.mem_cons.1 hx with rfl | hx
        · exact ⟨List.mem_cons_self _ _, hxv⟩
        · exact ⟨List.mem_cons_of_mem _ (sp.mem_valid x hx hxv).1, hxv⟩
      · intro k hne
        rw [valsOf_cons, valsOf_cons, sp.vals_other k hne]
      · rw [valsOf_cons, valsOf_cons, sp.vals_key]
        simp [hk]

/-! ## `hash` -/

theorem hash_eq_hashAt (s : State) (key : Nat) (h : s.globalDepth ≤ 8) :
    GlobalDirectory.hash s key = some (hashAt s.globalDepth key) := by
  unfold GlobalDirectory.hash hashAt MAX_KEY_LENGTH MAX_KEY_VALUE
  rw [if_pos h, Nat.one_shiftLeft, Nat.and_pow_two_sub_one_eq_mod, Nat.shiftRight_eq_div_pow]
  rfl

theorem hashAt_div (g l k : Nat) (hl : l ≤ g) (hg : g ≤ 8) :
    hashAt g k / 2 ^ (g - l) = hashAt l k := by
  unfold hashAt
  rw [Nat.div_div_eq_div_mul, ← Nat.pow_add]
  congr 2
  omega

theorem hashAt_lt (g k : Nat) (hg : g ≤ 8) : hashAt g k < 2 ^ g := by
  unfold hashAt
  rw [Nat.div_lt_iff_lt_mul (two_pow_pos _), ← Nat.pow_add]
  have : g + (8 - g) = 8 := by omega
  rw [this]
  exact Nat.mod_lt _ (by decide)

theorem hashAt_succ_div (g k : Nat) (hg : g < 8) : hashAt (g + 1) k / 2 = hashAt g k := by
  have := hashAt_div (g + 1) g k (Nat.le_succ g) (by omega)
  have e : g + 1 - g = 1 := by omega
  rw [e] at this
  simpa using this

/-! ## Buckets -/

theorem Bucket.find_eq_head (b : Bucket) (key : Nat) : b.find key = (valsOf key b.items).head? :=
  findItems_eq_head key b.items

theorem BucketOK.count_le {b : Bucket} (ok : BucketOK b) : b.validEntryCount ≤ BUCKET_CAPACITY := by
  rw [ok.count_eq, ← ok.items_length]
  exact countValid_le_length _

theorem BucketOK.new (d : Nat) : BucketOK (Bucket.new d) := by
  constructor
  · simp [Bucket.new]
  · simp [Bucket.new, countValid, DataItem.empty, BUCKET_CAPACITY, List.replicate]

theorem Bucket.new_items_invalid (d : Nat) : ∀ x ∈ (Bucket.new d).items, x.valid = false := by
  intro x hx
  simp only [Bucket.new, List.mem_replicate] at hx
  rw [hx.2]; rfl

theorem Bucket.new_compact (d : Nat) : Compact (Bucket.new d).items :=
  compact_of_all_invalid _ (Bucket.new_items_invalid d)

theorem Bucket.new_count (d : Nat) : (Bucket.new d).validEntryCount = 0 := rfl

theorem Bucket.new_vals (d k : Nat) : valsOf k (Bucket.new d).items = [] :=
  valsOf_eq_nil_of_all_invalid _ _ (Bucket.new_items_invalid d)

theorem Bucket.new_depth (d : Nat) (h : d < 256) : (Bucket.new d).localDepth = d := by
  simp [Bucket.new, Nat.mod_eq_of_lt h]

theorem Bucket.write_of_full (b : Bucket) (k : Nat) (v : Int)
    (h : b.validEntryCount = BUCKET_CAPACITY) : b.write k v = (false, b) := by
  unfold Bucket.write
  simp [h]

theorem Bucket.write_of_room (b : Bucket) (k : Nat) (v : Int) (ok : BucketOK b)
    (h : b.validEntryCount ≠ BUCKET_CAPACITY) :
    ∃ b1, b.write k v = (true, b1) ∧ BucketWriteSpec k v b b1 := by
  have hle := ok.count_le
  have hlt : b.validEntryCount < BUCKET_CAPACITY := lt_of_le_of_ne hle h
  have hsome : ∃ items1, writeItems k v b.items = some items1 := by
    cases hw : writeItems k v b.items with
    | some items1 => exact ⟨items1, rfl⟩
    | none =>
      rw [writeItems_eq_none_iff, ← countValid_eq_length_iff, ← ok.count_eq, ok.items_length] at hw
      omega
  obtain ⟨items1, hw⟩ := hsome
  have sp := writeItems_spec k v b.items items1 hw
  refine ⟨⟨b.localDepth, b.validEntryCount + 1, items1⟩, ?_, ?_⟩
  · unfold Bucket.write
    have hc : (b.validEntryCount == BUCKET_CAPACITY) = false := by simpa using h
    rw [hc, hw]
    have : (b.validEntryCount + 1) % 2 ^ 32 = b.validEntryCount + 1 := by
      apply Nat.mod_eq_of_lt
      unfold BUCKET_CAPACITY at hlt
      omega
    simp only [Bool.false_eq_true, if_false, this]
  · refine ⟨rfl, rfl, ⟨?_, ?_⟩, sp⟩
    · show items1.length = BUCKET_CAPACITY
      rw [sp.length_eq, ok.items_length]
    · show b.validEntryCount + 1 = countValid items1
      rw [sp.count_eq, ok.count_eq]

theorem Bucket.erase_of_absent (b : Bucket) (k : Nat) (h : valsOf k b.items = []) :
    b.erase k = (false, b) := by
  unfold Bucket.erase
  have := (eraseItems_eq_none_iff k b.items).2 h
  rw [this]
  split <;> rfl

theorem valsOf_length_le (k : Nat) (items : List DataItem) :
    (valsOf k items).length ≤ countValid items := by
  induction items with
  | nil => simp [valsOf_nil, countValid_nil]
  | cons it rest ih =>
    rw [valsOf_cons, countValid_cons]
    by_cases h : (it.valid && it.key == k) = true
    · rw [if_pos h]
      simp only [Bool.and_eq_true] at h
      simp [h.1]; omega
    · rw [if_neg h]; omega

theorem Bucket.erase_of_present (b : Bucket) (k : Nat) (ok : BucketOK b)
    (h : valsOf k b.items ≠ []) :
    ∃ b1, b.erase k = (true, b1) ∧ BucketEraseSpec k b b1 := by
  have hsome : ∃ items1, eraseItems k b.items = some items1 := by
    cases hw : eraseItems k b.items with
    | some items1 => exact ⟨items1, rfl⟩
    | none => exact absurd ((eraseItems_eq_none_iff k b.items).1 hw) h
  obtain ⟨items1, hw⟩ := hsome
  have sp := eraseItems_spec k b.items items1 hw
  have hpos : 1 ≤ b.validEntryCount := by
    rw [ok.count_eq]
    have h1 := valsOf_length_le k b.items
    have h2 : 0 < (valsOf k b.items).length := List.length_pos.2 h
    omega
  have hle := ok.count_le
  refine ⟨⟨b.localDepth, b.validEntryCount - 1, items1⟩, ?_, ?_⟩
  · unfold Bucket.erase
    have hc : (b.validEntryCount == 0) = false := by
      simp; omega
    rw [hc, hw]
    have : (b.validEntryCount + 2 ^ 32 - 1) % 2 ^ 32 = b.validEntryCount - 1 := by
      have : b.validEntryCount + 2 ^ 32 - 1 = (b.validEntryCount - 1) + 2 ^ 32 := by omega
      rw [this, Nat.add_mod_right]
      apply Nat.mod_eq_of_lt
      unfold BUCKET_CAPACITY at hle
      omega
    simp only [Bool.false_eq_true, if_false, this]
  · refine ⟨rfl, ?_, ⟨?_, ?_⟩, sp⟩
    · show b.validEntryCount - 1 + 1 = b.validEntryCount
      omega
    · show items1.length = BUCKET_CAPACITY
      rw [sp.length_eq, ok.items_length]
    · show b.validEntryCount - 1 = countValid items1
      have := sp.count_eq
      rw [ok.count_eq]; omega

/-! ## Reading a well-formed directory -/

theorem WF0.depth_le8 {s : State} (wf : WF0 s) : s.globalDepth ≤ 8 := wf.depth_le

theorem WF0.slot_of_lt {s : State} (wf : WF0 s) (i : Nat) (hi : i < 2 ^ s.globalDepth) :
    ∃ p b, s.entry[i]? = some p ∧ s.heap[p]? = some b ∧ SlotOK s i p b := by
  have hlt : i < s.entry.length := by rw [wf.length_eq]; exact hi
  obtain ⟨b, hb, ok⟩ := wf.slots i s.entry[i] (List.getElem?_eq_getElem hlt)
  exact ⟨s.entry[i], b, List.getElem?_eq_getElem hlt, hb, ok⟩

theorem WF0.lt_of_slot {s : State} (wf : WF0 s) {i p : Nat} (h : s.entry[i]? = some p) :
    i < 2 ^ s.globalDepth := by
  rw [← wf.length_eq]
  exact (List.getElem?_eq_some.1 h).1

theorem WF0.slot_of_key {s : State} (wf : WF0 s) (k : Nat) :
    ∃ p b, s.entry[hashAt s.globalDepth k]? = some p ∧ s.heap[p]? = some b ∧
      SlotOK s (hashAt s.globalDepth k) p b :=
  wf.slot_of_lt _ (hashAt_lt _ _ wf.depth_le)

theorem WF0.hash_eq {s : State} (wf : WF0 s) (k : Nat) :
    GlobalDirectory.hash s k = some (hashAt s.globalDepth k) :=
  hash_eq_hashAt s k wf.depth_le

theorem WF0.entry_ne_nil {s : State} (wf : WF0 s) : s.entry.isEmpty = false := by
  have h : 0 < s.entry.length := by rw [wf.length_eq]; exact two_pow_pos _
  cases hs : s.entry with
  | nil => rw [hs] at h; simp at h
  | cons a l => rfl

theorem State.bucketAt_eq {s : State} {i p : Nat} {b : Bucket} (hp : s.entry[i]? = some p)
    (hb : s.heap[p]? = some b) : s.bucketAt i = some b := by
  unfold State.bucketAt
  rw [hp]; exact hb

theorem State.keyValues_eq {s : State} {k p : Nat} {b : Bucket}
    (hp : s.entry[hashAt s.globalDepth k]? = some p) (hb : s.heap[p]? = some b) :
    s.keyValues k = valsOf k b.items := by
  unfold State.keyValues
  rw [State.bucketAt_eq hp hb]

theorem WF0.directory_find_eq {s : State} (wf : WF0 s) (k : Nat) :
    GlobalDirectory.find s k = some (s.keyValues k).head? := by
  obtain ⟨p, b, hp, hb, _⟩ := wf.slot_of_key k
  unfold GlobalDirectory.find
  rw [wf.hash_eq]
  simp only [State.bucketAt_eq hp hb, State.keyValues_eq hp hb, Bucket.find_eq_head]

/-- Two slots with the same address: each lies in the other's block. -/
theorem SlotOK.same_block {s : State} {i p : Nat} {b : Bucket} (ok : SlotOK s i p b) {j : Nat}
    (hj : s.entry[j]? = some p) :
    j / 2 ^ (s.globalDepth - b.localDepth) = i / 2 ^ (s.globalDepth - b.localDepth) :=
  (ok.block j p hj).1 rfl

theorem SlotOK.transfer {s : State} {i p : Nat} {b : Bucket} (ok : SlotOK s i p b) {j : Nat}
    (hj : s.entry[j]? = some p) : SlotOK s j p b := by
  have e := ok.same_block hj
  refine ⟨ok.ne_initial, ok.depth_pos, ok.depth_le, ok.ok, ?_, ?_⟩
  · intro x q hx
    rw [e]; exact ok.block x q hx
  · intro it hit hv
    rw [e]; exact ok.place it hit hv

/-- Every slot of the block around a slot holds the same address. -/
theorem WF0.block_entry {s : State} (wf : WF0 s) {i p : Nat} {b : Bucket}
    (hp : s.entry[i]? = some p) (ok : SlotOK s i p b) {j : Nat}
    (hj : j / 2 ^ (s.globalDepth - b.localDepth) = i / 2 ^ (s.globalDepth - b.localDepth)) :
    s.entry[j]? = some p := by
  have hi := wf.lt_of_slot hp
  have hjlt : j < 2 ^ s.globalDepth := by
    have hsp := two_pow_pos (s.globalDepth - b.localDepth)
    have e : 2 ^ s.globalDepth = 2 ^ b.localDepth * 2 ^ (s.globalDepth - b.localDepth) := by
      rw [← Nat.pow_add]; congr 1; have := ok.depth_le; omega
    have h1 : i / 2 ^ (s.globalDepth - b.localDepth) < 2 ^ b.localDepth := by
      rw [Nat.div_lt_iff_lt_mul hsp, ← e]; exact hi
    rw [← hj, Nat.div_lt_iff_lt_mul hsp, ← e] at h1
    exact h1
  obtain ⟨q, _, hq, _, _⟩ := wf.slot_of_lt j hjlt
  rw [hq, (ok.block j q hq).2 hj]

/-! ## Overwriting a bucket in place -/

theorem State.store_heap (s : State) (p q : Nat) (b1 : Bucket) (hp : p < s.heap.length) :
    (s.store p b1).heap[q]? = if q = p then some b1 else s.heap[q]? := by
  unfold State.store
  simp only [List.getElem?_set]
  by_cases h : p = q
  · subst h; simp [hp]
  · have : ¬ q = p := fun e => h e.symm
    simp [h, this]

theorem State.store_keyValues {s : State} {p : Nat} {b b1 : Bucket} (hb : s.heap[p]? = some b)
    (k : Nat) :
    (s.store p b1).keyValues k =
      if s.entry[hashAt s.globalDepth k]? = some p then valsOf k b1.items else s.keyValues k := by
  have hp : p < s.heap.length := (List.getElem?_eq_some.1 hb).1
  have hg : (s.store p b1).globalDepth = s.globalDepth := rfl
  have he : (s.store p b1).entry = s.entry := rfl
  unfold State.keyValues State.bucketAt
  rw [hg, he]
  cases hq : s.entry[hashAt s.globalDepth k]? with
  | none => simp
  | some q =>
    simp only [State.store_heap s p q b1 hp, Option.some.injEq]
    by_cases h : q = p
    · rw [if_pos h, if_pos h]
    · rw [if_neg h, if_neg h]

theorem SlotOK.store_slot {s : State} {i q : Nat} {b : Bucket} (ok : SlotOK s i q b) (p : Nat)
    (b1 : Bucket) : SlotOK (s.store p b1) i q b :=
  ⟨ok.ne_initial, ok.depth_pos, ok.depth_le, ok.ok, ok.block, ok.place⟩

/-- Replacing the bucket of a slot by one of the same depth, with sound
bookkeeping and keys that belong to the block, keeps the directory well-formed. -/
theorem WF0.store_wf {s : State} (wf : WF0 s) {h p : Nat} {b b1 : Bucket}
    (hp : s.entry[h]? = some p) (hb : s.heap[p]? = some b)
    (hd : b1.localDepth = b.localDepth) (ok1 : BucketOK b1)
    (hplace : ∀ it ∈ b1.items, it.valid = true →
      hashAt b.localDepth it.key = h / 2 ^ (s.globalDepth - b.localDepth)) :
    WF0 (s.store p b1) := by
  have hlt : p < s.heap.length := (List.getElem?_eq_some.1 hb).1
  obtain ⟨b', hb', okp⟩ := wf.slots h p hp
  rw [hb] at hb'
  cases hb'
  refine ⟨wf.depth_pos, wf.depth_le, wf.length_eq, ?_, ?_⟩
  · intro i q hq
    have hq' : s.entry[i]? = some q := hq
    obtain ⟨bq, hbq, okq⟩ := wf.slots i q hq'
    by_cases e : q = p
    · subst e
      rw [hb] at hbq
      cases hbq
      refine ⟨b1, by rw [State.store_heap s q q b1 hlt, if_pos rfl], ?_⟩
      refine ⟨okq.ne_initial, by rw [hd]; exact okq.depth_pos, by rw [hd]; exact okq.depth_le,
        ok1, ?_, ?_⟩
      · rw [hd]; exact okq.block
      · intro it hit hv
        rw [hd, hplace it hit hv]
        exact (okp.same_block hq').symm
    · exact ⟨bq, by rw [State.store_heap s p q b1 hlt, if_neg e]; exact hbq, okq.store_slot p b1⟩
  · obtain ⟨b0, hb0, ok0⟩ := wf.initial
    refine ⟨b0, ?_, ok0⟩
    show (s.store p b1).heap[s.initialFile]? = some b0
    rw [State.store_heap s p _ b1 hlt, if_neg (fun e => okp.ne_initial e.symm)]
    exact hb0

theorem Minimal.store_minimal {s : State} (m : Minimal s) {p : Nat} {b b1 : Bucket}
    (hb : s.heap[p]? = some b) (hd : b1.localDepth = b.localDepth) : Minimal (s.store p b1) := by
  have hlt : p < s.heap.length := (List.getElem?_eq_some.1 hb).1
  rcases m with h | ⟨i, q, bq, hq, hbq, hdq⟩
  · exact Or.inl h
  · right
    by_cases e : q = p
    · subst e
      rw [hb] at hbq; cases hbq
      exact ⟨i, q, b1, hq, by rw [State.store_heap s q q b1 hlt, if_pos rfl], by rw [hd]; exact hdq⟩
    · exact ⟨i, q, bq, hq, by rw [State.store_heap s p q b1 hlt, if_neg e]; exact hbq, hdq⟩

/-! ## The bucket write of the directory, and a write that needs no growth -/

theorem bucketWrite_of_full {s : State} {index p : Nat} {b : Bucket} (k : Nat) (v : Int)
    (hp : s.entry[index]? = some p) (hb : s.heap[p]? = some b)
    (hfull : b.validEntryCount = BUCKET_CAPACITY) :
    GlobalDirectory.bucketWrite s index k v = some (false, s) := by
  unfold GlobalDirectory.bucketWrite
  rw [hp]
  simp only [hb, Bucket.write_of_full b k v hfull]

theorem bucketWrite_of_room {s : State} {index p : Nat} {b b1 : Bucket} (k : Nat) (v : Int)
    (hp : s.entry[index]? = some p) (hb : s.heap[p]? = some b)
    (hw : b.write k v = (true, b1)) :
    GlobalDirectory.bucketWrite s index k v = some (true, s.store p b1) := by
  unfold GlobalDirectory.bucketWrite
  rw [hp]
  simp only [hb, hw]

/-- A directory write whose bucket has room is just the bucket write. -/
theorem directory_write_of_room {s : State} (wf : WF0 s) (fuel k : Nat) (v : Int) {p : Nat} {b b1 : Bucket}
    (hp : s.entry[hashAt s.globalDepth k]? = some p) (hb : s.heap[p]? = some b)
    (hw : b.write k v = (true, b1)) :
    GlobalDirectory.write (fuel + 1) k v s = some (true, s.store p b1) := by
  unfold GlobalDirectory.write
  rw [wf.entry_ne_nil, wf.hash_eq]
  simp only [Bool.false_eq_true, if_false, bucketWrite_of_room k v hp hb hw]

/-! ## Rehashing the items of a bucket that the directory no longer references -/

theorem RehashSpec.nil {s : State} (wf : WF0 s) : RehashSpec s s [] :=
  ⟨wf, rfl, rfl, rfl, rfl, fun _ _ => rfl,
    fun _ b hb => ⟨b, hb, rfl, id, Nat.le_refl _, Nat.le_add_right _ _⟩,
    fun k => by rw [valsOf_nil, List.append_nil]⟩

theorem RehashSpec.untouched {s s1 : State} {items : List DataItem} (sp : RehashSpec s s1 items)
    (p : Nat) (h : ∀ j : Nat, s.entry[j]? ≠ some p) : s1.heap[p]? = s.heap[p]? :=
  sp.frame p (fun _ _ _ => h _)

theorem RehashSpec.skip {s s1 : State} {items : List DataItem} (sp : RehashSpec s s1 items)
    (it : DataItem) (hv : it.valid = false) : RehashSpec s s1 (it :: items) := by
  have hc : countValid (it :: items) = countValid items := by
    rw [countValid_cons]; simp [hv]
  have hvals : ∀ k, valsOf k (it :: items) = valsOf k items := by
    intro k; rw [valsOf_cons]; simp [hv]
  refine ⟨sp.wf, sp.entry_eq, sp.depth_eq, sp.initial_eq, sp.heap_length, ?_, ?_, ?_⟩
  · intro p hp
    exact sp.frame p (fun x hx hxv => hp x (List.mem_cons_of_mem _ hx) hxv)
  · intro p b hb
    rw [hc]; exact sp.bucket p b hb
  · intro k
    rw [hvals]; exact sp.vals k

theorem reHashLoop_cons_valid (w : Nat → Int → State → Outcome) (src i : Nat) (rest : List Nat)
    {s s1 : State} {srcB : Bucket} {item : DataItem} (hsrc : s.heap[src]? = some srcB)
    (hget : srcB.items[i]? = some item) (hv : item.valid = true)
    (hw : w item.key item.data s = some (true, s1)) :
    GlobalDirectory.reHashLoop w src (i :: rest) s = GlobalDirectory.reHashLoop w src rest s1 := by
  rw [GlobalDirectory.reHashLoop]
  simp only [hsrc, hget, hv, if_true, hw]

theorem reHashLoop_cons_invalid (w : Nat → Int → State → Outcome) (src i : Nat) (rest : List Nat)
    {s : State} {srcB : Bucket} {item : DataItem} (hsrc : s.heap[src]? = some srcB)
    (hget : srcB.items[i]? = some item) (hv : item.valid = false) :
    GlobalDirectory.reHashLoop w src (i :: rest) s = GlobalDirectory.reHashLoop w src rest s := by
  rw [GlobalDirectory.reHashLoop]
  simp only [hsrc, hget, hv, Bool.false_eq_true, if_false]

theorem reHashLoop_spec (src : Nat) (srcB : Bucket) :
    ∀ (n i : Nat) (s : State), WF0 s → s.heap[src]? = some srcB →
      (∀ j : Nat, s.entry[j]? ≠ some src) → i + n = srcB.items.length →
      Room s (srcB.items.drop i) →
      ∃ s1, (∀ fuel, GlobalDirectory.reHashLoop (GlobalDirectory.write (fuel + 1)) src
          (List.range' i n) s = some (true, s1)) ∧ RehashSpec s s1 (srcB.items.drop i) := by
  intro n
  induction n with
  | zero =>
    intro i s wf _ _ hlen _
    refine ⟨s, fun _ => rfl, ?_⟩
    have : srcB.items.drop i = [] := List.drop_eq_nil_of_le (by omega)
    rw [this]
    exact RehashSpec.nil wf
  | succ n ih =>
    intro i s wf hsrc hunref hlen hroom
    have hilt : i < srcB.items.length := by omega
    have hdrop : srcB.items.drop i = srcB.items[i] :: srcB.items.drop (i + 1) :=
      List.drop_eq_getElem_cons hilt
    have hget : srcB.items[i]? = some srcB.items[i] := List.getElem?_eq_getElem hilt
    rw [List.range'_succ]
    rw [hdrop] at hroom ⊢
    generalize srcB.items[i] = item at hroom hget ⊢
    generalize hrest : srcB.items.drop (i + 1) = rest at hroom ⊢
    by_cases hv : item.valid = true
    · -- a valid item: it is written into the bucket of its slot
      obtain ⟨p, b, hp, hb, okp⟩ := wf.slot_of_key item.key
      obtain ⟨hcomp, hcount⟩ := hroom item (List.mem_cons_self _ _) hv p b hp hb
      rw [countValid_cons, if_pos hv] at hcount
      have hne : b.validEntryCount ≠ BUCKET_CAPACITY := by omega
      obtain ⟨b1, hw, wsp⟩ := Bucket.write_of_room b item.key item.data okp.ok hne
      have hplt : p < s.heap.length := (List.getElem?_eq_some.1 hb).1
      have hpsrc : src ≠ p := fun e => hunref _ (e ▸ hp)
      have wf1 : WF0 (s.store p b1) := by
        apply wf.store_wf hp hb wsp.depth_eq wsp.ok
        intro x hx hxv
        rcases wsp.items.mem_valid x hx hxv with ⟨h1, h2⟩ | h1
        · exact okp.place x h1 h2
        · rw [h1]
          show hashAt b.localDepth item.key = _
          rw [← hashAt_div s.globalDepth b.localDepth item.key okp.depth_le wf.depth_le]
      have hsrc1 : (s.store p b1).heap[src]? = some srcB := by
        rw [State.store_heap s p src b1 hplt, if_neg hpsrc]; exact hsrc
      have hroom1 : Room (s.store p b1) rest := by
        intro it hit hitv q bq hq hbq
        have hq' : s.entry[hashAt s.globalDepth it.key]? = some q := hq
        rw [State.store_heap s p q b1 hplt] at hbq
        by_cases e : q = p
        · rw [if_pos e] at hbq
          cases hbq
          refine ⟨(wsp.items.compact hcomp).1, ?_⟩
          rw [wsp.count_eq]; omega
        · rw [if_neg e] at hbq
          obtain ⟨h1, h2⟩ := hroom it (List.mem_cons_of_mem _ hit) hitv q bq hq' hbq
          rw [countValid_cons, if_pos hv] at h2
          exact ⟨h1, by omega⟩
      obtain ⟨s1, hrun, sp⟩ := ih (i + 1) (s.store p b1) wf1 hsrc1 hunref (by omega)
        (by rw [hrest]; exact hroom1)
      rw [hrest] at sp
      refine ⟨s1, fun fuel => ?_, ?_⟩
      · rw [reHashLoop_cons_valid _ src i _ hsrc hget hv
          (directory_write_of_room wf fuel item.key item.data hp hb hw)]
        exact hrun fuel
      refine ⟨sp.wf, sp.entry_eq, sp.depth_eq, sp.initial_eq, ?_, ?_, ?_, ?_⟩
      · rw [sp.heap_length]; simp [State.store]
      · intro q hq
        rw [sp.frame q (fun x hx hxv => hq x (List.mem_cons_of_mem _ hx) hxv),
          State.store_heap s p q b1 hplt, if_neg]
        intro e; exact hq item (List.mem_cons_self _ _) hv (e ▸ hp)
      · intro q bq hbq
        by_cases e : q = p
        · subst e
          rw [hb] at hbq; cases hbq
          obtain ⟨b2, h1, h2, h3, h4, h5⟩ := sp.bucket q b1
            (by rw [State.store_heap s q q b1 hplt, if_pos rfl])
          refine ⟨b2, h1, by rw [h2, wsp.depth_eq], fun c => h3 ((wsp.items.compact c).1), ?_, ?_⟩
          · rw [wsp.count_eq] at h4; omega
          · rw [countValid_cons, if_pos hv]
            rw [wsp.count_eq] at h5; omega
        · obtain ⟨b2, h1, h2, h3, h4, h5⟩ := sp.bucket q bq
            (by rw [State.store_heap s p q b1 hplt, if_neg e]; exact hbq)
          refine ⟨b2, h1, h2, h3, h4, ?_⟩
          rw [countValid_cons, if_pos hv]; omega
      · intro k
        rw [sp.vals k, State.store_keyValues hb k, valsOf_cons]
        by_cases e : s.entry[hashAt s.globalDepth k]? = some p
        · rw [if_pos e, State.keyValues_eq e hb]
          by_cases hk : item.key = k
          · subst hk
            rw [(wsp.items.compact hcomp).2]
            simp [hv]
          · have hk' : k ≠ item.key := fun h => hk h.symm
            rw [wsp.items.vals_other k hk']
            simp [hk]
        · rw [if_neg e]
          have hk : ¬ item.key = k := by
            intro h; apply e; rw [← h]; exact hp
          simp [hk]
    · -- an item that is not valid is skipped
      have hv' : item.valid = false := by simpa using hv
      have hroom1 : Room s rest := by
        intro it hit hitv q bq hq hbq
        obtain ⟨h1, h2⟩ := hroom it (List.mem_cons_of_mem _ hit) hitv q bq hq hbq
        rw [countValid_cons, if_neg hv] at h2
        exact ⟨h1, by omega⟩
      obtain ⟨s1, hrun, sp⟩ := ih (i + 1) s wf hsrc hunref (by omega) (by rw [hrest]; exact hroom1)
      rw [hrest] at sp
      refine ⟨s1, fun fuel => ?_, sp.skip item hv'⟩
      rw [reHashLoop_cons_invalid _ src i _ hsrc hget hv']
      exact hrun fuel

/-- `reHashItems` on a bucket with the right number of items. -/
theorem reHashItems_spec (src : Nat) (srcB : Bucket) (s : State) (wf : WF0 s)
    (hsrc : s.heap[src]? = some srcB) (hunref : ∀ j : Nat, s.entry[j]? ≠ some src)
    (hlen : srcB.items.length = BUCKET_CAPACITY) (hroom : Room s srcB.items) :
    ∃ s1, (∀ fuel, GlobalDirectory.reHashItems (GlobalDirectory.write (fuel + 1)) src s
        = some (true, s1)) ∧ RehashSpec s s1 srcB.items := by
  have := reHashLoop_spec src srcB BUCKET_CAPACITY 0 s wf hsrc hunref (by omega)
    (by simpa using hroom)
  obtain ⟨s1, hrun, sp⟩ := this
  refine ⟨s1, fun fuel => ?_, by simpa using sp⟩
  unfold GlobalDirectory.reHashItems
  rw [List.range_eq_range']
  exact hrun fuel

/-! ## The loops over the directory -/

theorem numPtrsOf_eq (g l : Nat) (hl : l ≤ g) (hg : g ≤ 8) : numPtrsOf g l = some (2 ^ (g - l)) := by
  unfold numPtrsOf
  rw [if_pos ⟨hl, by omega⟩, Nat.one_shiftLeft]

/-- The walk to the left stops at the first slot of the block. -/
theorem leftWalk_spec {s : State} (wf : WF0 s) {i p : Nat} {b : Bucket}
    (hp : s.entry[i]? = some p) (ok : SlotOK s i p b) :
    ∀ j, j / 2 ^ (s.globalDepth - b.localDepth) = i / 2 ^ (s.globalDepth - b.localDepth) →
      GlobalDirectory.leftWalk s.entry j =
        some (i / 2 ^ (s.globalDepth - b.localDepth) * 2 ^ (s.globalDepth - b.localDepth)) := by
  have hsp := two_pow_pos (s.globalDepth - b.localDepth)
  intro j
  induction j with
  | zero =>
    intro h
    have : i / 2 ^ (s.globalDepth - b.localDepth) = 0 := by rw [← h]; simp
    rw [this]; simp [GlobalDirectory.leftWalk]
  | succ j ih =>
    intro h
    have h1 : s.entry[j + 1]? = some p := wf.block_entry hp ok h
    have hj : j < 2 ^ s.globalDepth := by
      have := wf.lt_of_slot h1; omega
    obtain ⟨q, bq, hq, _, _⟩ := wf.slot_of_lt j hj
    unfold GlobalDirectory.leftWalk
    simp only [h1, hq]
    by_cases e : p = q
    · subst e
      simp only [beq_self_eq_true, if_true]
      exact ih (ok.same_block hq)
    · have hne : ¬ (p == q) = true := by simpa using e
      rw [if_neg hne]
      have hne2 : ¬ j / 2 ^ (s.globalDepth - b.localDepth)
          = i / 2 ^ (s.globalDepth - b.localDepth) := by
        intro h'
        have := wf.block_entry hp ok h'
        rw [hq] at this
        cases this
        exact e rfl
      have b1 := (div_eq_iff_bounds (j + 1) _ _ hsp).1 h
      rw [div_eq_iff_bounds j _ _ hsp] at hne2
      congr 1
      omega

/-- The assignment loop of `splitOn`: the first run of slots gets the first
address, the run `newNumPtrs` further on gets the second one. -/
theorem splitLoop_spec (n1 n2 m : Nat) :
    ∀ (n j : Nat) (e : List Nat), j + m + n ≤ e.length → n ≤ m →
      ∃ e1, GlobalDirectory.splitLoop n1 n2 m j n e = some e1 ∧ e1.length = e.length ∧
        ∀ x : Nat, e1[x]? =
          if j ≤ x ∧ x < j + n then some n1
          else if j + m ≤ x ∧ x < j + m + n then some n2 else e[x]? := by
  intro n
  induction n with
  | zero =>
    intro j e _ _
    refine ⟨e, rfl, rfl, ?_⟩
    intro x
    rw [if_neg (by omega), if_neg (by omega)]
  | succ n ih =>
    intro j e hlen hnm
    unfold GlobalDirectory.splitLoop setEntry
    rw [if_pos (by omega)]
    simp only [List.length_set]
    rw [if_pos (by omega)]
    simp only []
    obtain ⟨e1, hrun, hl, hget⟩ := ih (j + 1) ((e.set j n1).set (j + m) n2)
      (by simp only [List.length_set]; omega) (by omega)
    refine ⟨e1, hrun, by rw [hl]; simp, ?_⟩
    intro x
    rw [hget x, List.getElem?_set, List.getElem?_set]
    by_cases c1 : j ≤ x ∧ x < j + (n + 1)
    · rw [if_pos c1]
      by_cases c2 : j + 1 ≤ x ∧ x < j + 1 + n
      · rw [if_pos c2]
      · rw [if_neg c2, if_neg (by omega), if_neg (by omega), if_pos (by omega), if_pos (by omega)]
    · rw [if_neg c1, if_neg (by omega)]
      by_cases c3 : j + m ≤ x ∧ x < j + m + (n + 1)
      · rw [if_pos c3]
        by_cases c4 : j + 1 + m ≤ x ∧ x < j + 1 + m + n
        · rw [if_pos c4]
        · rw [if_neg c4, if_pos (by omega), if_pos (by simp only [List.length_set]; omega)]
      · rw [if_neg c3, if_neg (by omega), if_neg (by omega), if_neg (by omega)]

/-- The assignment loop of `mergeOn`. -/
theorem fillLoop_spec (p : Nat) :
    ∀ (n i : Nat) (e : List Nat), i + n ≤ e.length →
      ∃ e1, GlobalDirectory.fillLoop p i n e = some e1 ∧ e1.length = e.length ∧
        ∀ x : Nat, e1[x]? = if i ≤ x ∧ x < i + n then some p else e[x]? := by
  intro n
  induction n with
  | zero =>
    intro i e _
    refine ⟨e, rfl, rfl, ?_⟩
    intro x
    rw [if_neg (by omega)]
  | succ n ih =>
    intro i e hlen
    unfold GlobalDirectory.fillLoop setEntry
    rw [if_pos (by omega)]
    simp only []
    obtain ⟨e1, hrun, hl, hget⟩ := ih (i + 1) (e.set i p) (by simp only [List.length_set]; omega)
    refine ⟨e1, hrun, by rw [hl]; simp, ?_⟩
    intro x
    rw [hget x, List.getElem?_set]
    by_cases c1 : i ≤ x ∧ x < i + (n + 1)
    · rw [if_pos c1]
      by_cases c2 : i + 1 ≤ x ∧ x < i + 1 + n
      · rw [if_pos c2]
      · rw [if_neg c2, if_pos (by omega), if_pos (by omega)]
    · rw [if_neg c1, if_neg (by omega), if_neg (by omega)]

/-- The copying loop of `minimize`. -/
theorem halveLoop_spec (e : List Nat) :
    ∀ (n i : Nat), (i + n) * 2 ≤ e.length →
      ∃ r, GlobalDirectory.halveLoop e i n = some r ∧ r.length = n ∧
        ∀ x : Nat, x < n → r[x]? = e[(i + x) * 2]? := by
  intro n
  induction n with
  | zero =>
    intro i _
    exact ⟨[], rfl, rfl, fun x hx => absurd hx (Nat.not_lt_zero x)⟩
  | succ n ih =>
    intro i hlen
    have hlt : i * 2 < e.length := by omega
    obtain ⟨r, hrun, hl, hget⟩ := ih (i + 1) (by omega)
    unfold GlobalDirectory.halveLoop
    rw [List.getElem?_eq_getElem hlt]
    simp only [hrun]
    refine ⟨e[i * 2] :: r, rfl, by simp [hl], ?_⟩
    intro x hx
    cases x with
    | zero => simp [List.getElem?_eq_getElem hlt]
    | succ x =>
      rw [List.getElem?_cons_succ, hget x (by omega)]
      congr 2
      omega

/-- The scan of `minimize` when no bucket has the full depth. -/
theorem scanDepth_false (s : State) :
    ∀ l : List Nat, (∀ p ∈ l, ∃ b, s.heap[p]? = some b ∧ b.localDepth ≠ s.globalDepth) →
      GlobalDirectory.scanDepth s l = some false := by
  intro l
  induction l with
  | nil => intro _; rfl
  | cons p rest ih =>
    intro h
    obtain ⟨b, hb, hd⟩ := h p (List.mem_cons_self _ _)
    unfold GlobalDirectory.scanDepth
    simp only [hb]
    have : ¬ (b.localDepth == s.globalDepth) = true := by simpa using hd
    rw [if_neg this]
    exact ih (fun q hq => h q (List.mem_cons_of_mem _ hq))

/-- The scan of `minimize` when some bucket has the full depth. -/
theorem scanDepth_true (s : State) :
    ∀ l : List Nat, (∀ p ∈ l, ∃ b, s.heap[p]? = some b) →
      (∃ p ∈ l, ∃ b, s.heap[p]? = some b ∧ b.localDepth = s.globalDepth) →
      GlobalDirectory.scanDepth s l = some true := by
  intro l
  induction l with
  | nil => rintro _ ⟨p, hp, _⟩; cases hp
  | cons p rest ih =>
    intro h hex
    obtain ⟨b, hb⟩ := h p (List.mem_cons_self _ _)
    unfold GlobalDirectory.scanDepth
    simp only [hb]
    by_cases hd : b.localDepth = s.globalDepth
    · have : (b.localDepth == s.globalDepth) = true := by simpa using hd
      rw [if_pos this]
    · have : ¬ (b.localDepth == s.globalDepth) = true := by simpa using hd
      rw [if_neg this]
      apply ih (fun q hq => h q (List.mem_cons_of_mem _ hq))
      obtain ⟨q, hq, bq, hbq, hdq⟩ := hex
      rcases List.mem_cons.1 hq with rfl | hq
      · rw [hb] at hbq; cases hbq; exact absurd hdq hd
      · exact ⟨q, hq, bq, hbq, hdq⟩

/-- A slot that no earlier slot shares its address with is the first of its block. -/
theorem WF0.block_start {s : State} (wf : WF0 s) {i p : Nat} {b : Bucket}
    (hp : s.entry[i]? = some p) (ok : SlotOK s i p b)
    (hfirst : ∀ j q, j < i → s.entry[j]? = some q → s.entry[i]? ≠ some q) :
    i = i / 2 ^ (s.globalDepth - b.localDepth) * 2 ^ (s.globalDepth - b.localDepth) := by
  have hsp := two_pow_pos (s.globalDepth - b.localDepth)
  have hb := div_mul_le_and_lt i _ hsp
  by_contra hne
  have hlt : i / 2 ^ (s.globalDepth - b.localDepth) * 2 ^ (s.globalDepth - b.localDepth) < i := by
    omega
  have hq : (i / 2 ^ (s.globalDepth - b.localDepth) * 2 ^ (s.globalDepth - b.localDepth))
      / 2 ^ (s.globalDepth - b.localDepth) = i / 2 ^ (s.globalDepth - b.localDepth) := by
    rw [div_eq_iff_bounds _ _ _ hsp]; omega
  exact hfirst _ p hlt (wf.block_entry hp ok hq) hp

/-- The copying loop of `extend` doubles every slot. -/
theorem doubleLoop_spec {s : State} (wf : WF0 s) :
    ∀ (fuel oldIdx : Nat) (acc : List Nat), s.entry.length - oldIdx ≤ fuel →
      oldIdx ≤ s.entry.length →
      (∀ j q, j < oldIdx → s.entry[j]? = some q → s.entry[oldIdx]? ≠ some q) →
      acc.length = 2 * oldIdx → (∀ x : Nat, x < 2 * oldIdx → acc[x]? = s.entry[x / 2]?) →
      ∃ r, GlobalDirectory.doubleLoop s s.globalDepth s.entry.length fuel oldIdx acc = some r ∧
        r.length = 2 * s.entry.length ∧
        ∀ x : Nat, x < 2 * s.entry.length → r[x]? = s.entry[x / 2]? := by
  intro fuel
  induction fuel with
  | zero =>
    intro oldIdx acc hf hle _ hlen hacc
    have e : oldIdx = s.entry.length := by omega
    refine ⟨acc, ?_, by rw [hlen, e], by rw [← e]; exact hacc⟩
    unfold GlobalDirectory.doubleLoop
    rw [if_neg (by omega)]
  | succ fuel ih =>
    intro oldIdx acc hf hle hfirst hlen hacc
    by_cases hlt : oldIdx < s.entry.length
    · have hlt' : oldIdx < 2 ^ s.globalDepth := by rw [← wf.length_eq]; exact hlt
      obtain ⟨p, b, hp, hb, ok⟩ := wf.slot_of_lt oldIdx hlt'
      have hsp := two_pow_pos (s.globalDepth - b.localDepth)
      have hstart := wf.block_start hp ok hfirst
      have hbounds := div_mul_le_and_lt oldIdx _ hsp
      -- the last slot of the block
      have hlast : s.entry[oldIdx + 2 ^ (s.globalDepth - b.localDepth) - 1]? = some p := by
        apply wf.block_entry hp ok
        rw [div_eq_iff_bounds _ _ _ hsp]; omega
      have hend : oldIdx + 2 ^ (s.globalDepth - b.localDepth) ≤ s.entry.length := by
        have := (List.getElem?_eq_some.1 hlast).1; omega
      unfold GlobalDirectory.doubleLoop
      rw [if_pos hlt]
      simp only [hp, hb, numPtrsOf_eq _ _ ok.depth_le wf.depth_le]
      apply ih
      · omega
      · exact hend
      · intro j q hj hjq hq
        obtain ⟨bq, hbq, okq⟩ := wf.slots _ q hq
        have hspq := two_pow_pos (s.globalDepth - bq.localDepth)
        have e1 := okq.same_block hjq
        by_cases hjl : j ≤ oldIdx + 2 ^ (s.globalDepth - b.localDepth) - 1
        · have e2 := div_eq_of_between j (oldIdx + 2 ^ (s.globalDepth - b.localDepth) - 1)
            (oldIdx + 2 ^ (s.globalDepth - b.localDepth)) _ hjl (by omega) e1
          have e3 := wf.block_entry hq okq e2
          rw [hlast] at e3
          cases e3
          have e4 := ok.same_block hq
          rw [div_eq_iff_bounds _ _ _ hsp] at e4
          omega
        · omega
      · rw [List.length_append, List.length_replicate, hlen]; omega
      · intro x hx
        by_cases hxl : x < acc.length
        · rw [List.getElem?_append_left hxl]
          exact hacc x (by omega)
        · rw [List.getElem?_append_right (by omega), List.getElem?_replicate, if_pos (by omega)]
          symm
          apply wf.block_entry hp ok
          rw [div_eq_iff_bounds _ _ _ hsp]; omega
    · have e : oldIdx = s.entry.length := by omega
      refine ⟨acc, ?_, by rw [hlen, e], by rw [← e]; exact hacc⟩
      unfold GlobalDirectory.doubleLoop
      rw [if_neg hlt]

theorem doubleLoop_entry {s : State} (wf : WF0 s) :
    ∃ r, GlobalDirectory.doubleLoop s s.globalDepth s.entry.length s.entry.length 0 [] = some r ∧
      r.length = 2 * s.entry.length ∧
      ∀ x : Nat, x < 2 * s.entry.length → r[x]? = s.entry[x / 2]? :=
  doubleLoop_spec wf s.entry.length 0 [] (by omega) (by omega)
    (fun j _ hj => absurd hj (Nat.not_lt_zero j)) rfl
    (fun x hx => absurd hx (by omega))

/-! ## Splitting a block -/

theorem heap_append_left (heap : List Bucket) (extra : List Bucket) {q : Nat} {b : Bucket}
    (h : heap[q]? = some b) : (heap ++ extra)[q]? = some b := by
  rw [List.getElem?_append_left (List.getElem?_eq_some.1 h).1]; exact h

theorem heap_append_lt (heap : List Bucket) (extra : List Bucket) {q : Nat}
    (h : q < heap.length) : (heap ++ extra)[q]? = heap[q]? :=
  List.getElem?_append_left h

theorem heap_append_fst (heap : List Bucket) (x y : Bucket) :
    (heap ++ [x, y])[heap.length]? = some x := by
  rw [List.getElem?_append_right (Nat.le_refl _)]; simp

theorem heap_append_snd (heap : List Bucket) (x y : Bucket) :
    (heap ++ [x, y])[heap.length + 1]? = some y := by
  rw [List.getElem?_append_right (by omega)]; simp

/-- The heart of `splitOn` and of the doubling branch of `extend`: once the two
halves of the block around slot `h` point to two fresh buckets, rehashing the old
bucket succeeds and gives a well-formed directory with the same contents. -/
theorem split_core {s : State} (wf : WF0 s) {h p : Nat} {old : Bucket}
    (hp : s.entry[h]? = some p) (hb : s.heap[p]? = some old) (ok : SlotOK s h p old)
    (hlt : old.localDepth < s.globalDepth) (e1 : List Nat) (hlen : e1.length = s.entry.length)
    (he1 : ∀ x : Nat, e1[x]? =
      if x / 2 ^ (s.globalDepth - (old.localDepth + 1))
          = 2 * (h / 2 ^ (s.globalDepth - old.localDepth)) then some s.heap.length
      else if x / 2 ^ (s.globalDepth - (old.localDepth + 1))
          = 2 * (h / 2 ^ (s.globalDepth - old.localDepth)) + 1 then some (s.heap.length + 1)
      else s.entry[x]?) :
    ∃ s1, (∀ fuel, GlobalDirectory.reHashItems (GlobalDirectory.write (fuel + 1)) p
        { s with heap := s.heap ++ [Bucket.new (old.localDepth + 1), Bucket.new (old.localDepth + 1)],
                 entry := e1 } = some (true, s1)) ∧ SplitSpec s s1 h old := by
  have hsp : 2 ^ (s.globalDepth - old.localDepth) = 2 * 2 ^ (s.globalDepth - (old.localDepth + 1)) :=
    two_pow_sub_succ _ _ hlt
  have hmpos := two_pow_pos (s.globalDepth - (old.localDepth + 1))
  have hg8 : s.globalDepth ≤ 8 := wf.depth_le
  have hnd : (Bucket.new (old.localDepth + 1)).localDepth = old.localDepth + 1 :=
    Bucket.new_depth _ (by omega)
  obtain ⟨b0, hb0, ok0⟩ := wf.initial
  have hinit : s.initialFile < s.heap.length := (List.getElem?_eq_some.1 hb0).1
  have hplt : p < s.heap.length := (List.getElem?_eq_some.1 hb).1
  -- membership in the old block, in terms of the half-size quotient
  have hin : ∀ x : Nat, x / 2 ^ (s.globalDepth - old.localDepth) = h / 2 ^ (s.globalDepth - old.localDepth) ↔
      (x / 2 ^ (s.globalDepth - (old.localDepth + 1)) = 2 * (h / 2 ^ (s.globalDepth - old.localDepth)) ∨
       x / 2 ^ (s.globalDepth - (old.localDepth + 1)) = 2 * (h / 2 ^ (s.globalDepth - old.localDepth)) + 1) := by
    intro x
    rw [hsp, div_two_mul, div_two_mul]
    omega
  -- the state between the pointer assignments and the rehash
  generalize hs0 : ({ s with heap := s.heap ++ [Bucket.new (old.localDepth + 1),
      Bucket.new (old.localDepth + 1)], entry := e1 } : State) = s0
  have hs0h : s0.heap = s.heap ++ [Bucket.new (old.localDepth + 1), Bucket.new (old.localDepth + 1)] := by
    rw [← hs0]
  have hs0e : s0.entry = e1 := by rw [← hs0]
  have hs0g : s0.globalDepth = s.globalDepth := by rw [← hs0]
  have hs0i : s0.initialFile = s.initialFile := by rw [← hs0]
  have hold : ∀ {q : Nat} {b : Bucket}, s.heap[q]? = some b → s0.heap[q]? = some b := by
    intro q b hq; rw [hs0h]; exact heap_append_left _ _ hq
  have hn1 : s0.heap[s.heap.length]? = some (Bucket.new (old.localDepth + 1)) := by
    rw [hs0h]; exact heap_append_fst _ _ _
  have hn2 : s0.heap[s.heap.length + 1]? = some (Bucket.new (old.localDepth + 1)) := by
    rw [hs0h]; exact heap_append_snd _ _ _
  -- a slot of the new entry: either a fresh bucket or an old slot outside the block
  have hslot : ∀ (x q : Nat), s0.entry[x]? = some q →
      (x / 2 ^ (s.globalDepth - (old.localDepth + 1)) = 2 * (h / 2 ^ (s.globalDepth - old.localDepth))
        ∧ q = s.heap.length) ∨
      (x / 2 ^ (s.globalDepth - (old.localDepth + 1)) = 2 * (h / 2 ^ (s.globalDepth - old.localDepth)) + 1
        ∧ q = s.heap.length + 1) ∨
      (x / 2 ^ (s.globalDepth - old.localDepth) ≠ h / 2 ^ (s.globalDepth - old.localDepth)
        ∧ s.entry[x]? = some q ∧ q < s.heap.length ∧ q ≠ p) := by
    intro x q hq
    rw [hs0e, he1 x] at hq
    by_cases c1 : x / 2 ^ (s.globalDepth - (old.localDepth + 1))
        = 2 * (h / 2 ^ (s.globalDepth - old.localDepth))
    · rw [if_pos c1] at hq; cases hq; exact Or.inl ⟨c1, rfl⟩
    · rw [if_neg c1] at hq
      by_cases c2 : x / 2 ^ (s.globalDepth - (old.localDepth + 1))
          = 2 * (h / 2 ^ (s.globalDepth - old.localDepth)) + 1
      · rw [if_pos c2] at hq; cases hq; exact Or.inr (Or.inl ⟨c2, rfl⟩)
      · rw [if_neg c2] at hq
        have hout : x / 2 ^ (s.globalDepth - old.localDepth) ≠ h / 2 ^ (s.globalDepth - old.localDepth) := by
          rw [Ne, hin x]; omega
        obtain ⟨bq, hbq, okq⟩ := wf.slots x q hq
        refine Or.inr (Or.inr ⟨hout, hq, (List.getElem?_eq_some.1 hbq).1, ?_⟩)
        intro e
        subst e
        exact hout (ok.same_block hq)
  have hfreshOK : ∀ (x q : Nat), s0.entry[x]? = some q → (q = s.heap.length ∨ q = s.heap.length + 1) →
      SlotOK s0 x q (Bucket.new (old.localDepth + 1)) := by
    intro x q hq hqq
    refine ⟨by rw [hs0i]; omega, by rw [hnd]; omega, by rw [hnd, hs0g]; omega, BucketOK.new _, ?_, ?_⟩
    · intro j q' hq'
      rw [hnd, hs0g]
      rcases hslot x q hq with ⟨a1, a2⟩ | ⟨a1, a2⟩ | ⟨_, _, a3, _⟩ <;>
      rcases hslot j q' hq' with ⟨c1, c2⟩ | ⟨c1, c2⟩ | ⟨c1, _, c3, _⟩ <;>
      first
        | omega
        | (rw [Ne, hin j] at c1; omega)
    · intro it hit hv
      rw [Bucket.new_items_invalid _ it hit] at hv
      cases hv
  have wf0 : WF0 s0 := by
    refine ⟨by rw [hs0g]; exact wf.depth_pos, by rw [hs0g]; exact wf.depth_le,
      by rw [hs0e, hs0g, hlen]; exact wf.length_eq, ?_, ⟨b0, by rw [hs0i]; exact hold hb0, ok0⟩⟩
    intro x q hq
    rcases hslot x q hq with ⟨_, a2⟩ | ⟨_, a2⟩ | ⟨a1, a2, a3, a4⟩
    · exact ⟨_, by rw [a2]; exact hn1, hfreshOK x q hq (Or.inl a2)⟩
    · exact ⟨_, by rw [a2]; exact hn2, hfreshOK x q hq (Or.inr a2)⟩
    · obtain ⟨bq, hbq, okq⟩ := wf.slots x q a2
      refine ⟨bq, hold hbq, ?_⟩
      refine ⟨by rw [hs0i]; exact okq.ne_initial, okq.depth_pos, by rw [hs0g]; exact okq.depth_le,
        okq.ok, ?_, by rw [hs0g]; exact okq.place⟩
      intro j q' hq'
      rw [hs0g]
      rcases hslot j q' hq' with ⟨c1, c2⟩ | ⟨c1, c2⟩ | ⟨_, c2, _, _⟩
      · constructor
        · intro e; omega
        · intro e
          have hjb : j / 2 ^ (s.globalDepth - old.localDepth) = h / 2 ^ (s.globalDepth - old.localDepth) :=
            (hin j).2 (Or.inl c1)
          have := wf.block_entry a2 okq e
          rw [wf.block_entry hp ok hjb] at this
          cases this
          exact absurd rfl a4
      · constructor
        · intro e; omega
        · intro e
          have hjb : j / 2 ^ (s.globalDepth - old.localDepth) = h / 2 ^ (s.globalDepth - old.localDepth) :=
            (hin j).2 (Or.inr c1)
          have := wf.block_entry a2 okq e
          rw [wf.block_entry hp ok hjb] at this
          cases this
          exact absurd rfl a4
      · exact okq.block j q' c2
  -- the rehash
  have hunref : ∀ j : Nat, s0.entry[j]? ≠ some p := by
    intro j hj
    rcases hslot j p hj with ⟨_, c2⟩ | ⟨_, c2⟩ | ⟨_, _, _, c4⟩
    · omega
    · omega
    · exact c4 rfl
  have hkey : ∀ k : Nat, hashAt old.localDepth k = h / 2 ^ (s.globalDepth - old.localDepth) →
      ∀ (q : Nat) (b : Bucket), s0.entry[hashAt s0.globalDepth k]? = some q → s0.heap[q]? = some b →
        b = Bucket.new (old.localDepth + 1) := by
    intro k hk q b hq hbq
    have hkb : hashAt s.globalDepth k / 2 ^ (s.globalDepth - old.localDepth)
        = h / 2 ^ (s.globalDepth - old.localDepth) := by
      rw [hashAt_div _ _ _ ok.depth_le hg8]; exact hk
    rw [hs0g] at hq
    rcases hslot _ q hq with ⟨_, c2⟩ | ⟨_, c2⟩ | ⟨c1, _, _, _⟩
    · rw [c2, hn1] at hbq; cases hbq; rfl
    · rw [c2, hn2] at hbq; cases hbq; rfl
    · exact absurd hkb c1
  have hroom : Room s0 old.items := by
    intro it hit hv q b hq hbq
    have := hkey it.key (ok.place it hit hv) q b hq hbq
    subst this
    refine ⟨Bucket.new_compact _, ?_⟩
    rw [Bucket.new_count, Nat.zero_add, ← ok.ok.count_eq]
    exact ok.ok.count_le
  obtain ⟨s1, hrun, sp⟩ := reHashItems_spec p old s0 wf0 (hold hb) hunref ok.ok.items_length hroom
  refine ⟨s1, hrun, ?_⟩
  have hvals0 : ∀ k, s0.keyValues k ++ valsOf k old.items = s.keyValues k := by
    intro k
    obtain ⟨q, bq, hq, hbq, okq⟩ := wf0.slot_of_key k
    rw [State.keyValues_eq hq hbq]
    rw [hs0g] at hq
    rcases hslot _ q hq with ⟨c1, c2⟩ | ⟨c1, c2⟩ | ⟨c1, c2, _, _⟩
    · have hkb := (hin _).2 (Or.inl c1)
      rw [State.keyValues_eq (wf.block_entry hp ok hkb) hb]
      rw [c2, hn1] at hbq; cases hbq
      rw [Bucket.new_vals, List.nil_append]
    · have hkb := (hin _).2 (Or.inr c1)
      rw [State.keyValues_eq (wf.block_entry hp ok hkb) hb]
      rw [c2, hn2] at hbq; cases hbq
      rw [Bucket.new_vals, List.nil_append]
    · obtain ⟨bq', hbq', _⟩ := wf.slots _ q c2
      rw [State.keyValues_eq c2 hbq']
      rw [hold hbq'] at hbq; cases hbq
      have : valsOf k old.items = [] := by
        rw [valsOf_eq_nil_iff]
        intro x hx hxv hxk
        apply c1
        rw [hashAt_div _ _ _ ok.depth_le hg8, ← hxk]
        exact ok.place x hx hxv
      rw [this, List.append_nil]
  refine ⟨sp.wf, by rw [sp.depth_eq, hs0g], by rw [sp.initial_eq, hs0i], ?_, ?_, ?_, ?_, ?_⟩
  · rw [sp.untouched s.initialFile, hold hb0, hb0]
    intro j hj
    rcases hslot j _ hj with ⟨_, c2⟩ | ⟨_, c2⟩ | ⟨_, c2, _, _⟩
    · omega
    · omega
    · obtain ⟨_, _, okq⟩ := wf.slots _ _ c2
      exact okq.ne_initial rfl
  · intro k
    rw [sp.vals k, hvals0 k]
  · intro hmin
    have hfresh : old.localDepth + 1 = s.globalDepth → Minimal s1 := by
      intro e
      right
      have hx : (2 * (h / 2 ^ (s.globalDepth - old.localDepth)) * 2 ^ (s.globalDepth - (old.localDepth + 1)))
          / 2 ^ (s.globalDepth - (old.localDepth + 1)) = 2 * (h / 2 ^ (s.globalDepth - old.localDepth)) :=
        Nat.mul_div_cancel _ hmpos
      have hx1 := he1 (2 * (h / 2 ^ (s.globalDepth - old.localDepth)) * 2 ^ (s.globalDepth - (old.localDepth + 1)))
      rw [if_pos hx] at hx1
      obtain ⟨b1, h1, h2, _⟩ := sp.bucket _ _ hn1
      refine ⟨_, _, b1, by rw [sp.entry_eq, hs0e]; exact hx1, h1, ?_⟩
      rw [h2, hnd, sp.depth_eq, hs0g, e]
    rcases hmin with hmin | hmin
    · rcases hmin with hmin | ⟨i, q, bq, hq, hbq, hdq⟩
      · exact Or.inl (by rw [sp.depth_eq, hs0g]; exact hmin)
      · by_cases e : q = p
        · subst e
          rw [hb] at hbq; cases hbq
          omega
        · right
          have hout : i / 2 ^ (s.globalDepth - old.localDepth) ≠ h / 2 ^ (s.globalDepth - old.localDepth) := by
            intro e'
            have := wf.block_entry hp ok e'
            rw [hq] at this; cases this
            exact e rfl
          have hq1 : e1[i]? = some q := by
            rw [he1 i, if_neg, if_neg]
            · exact hq
            · intro c; exact hout ((hin i).2 (Or.inr c))
            · intro c; exact hout ((hin i).2 (Or.inl c))
          obtain ⟨b1, h1, h2, _⟩ := sp.bucket _ _ (hold hbq)
          exact ⟨i, q, b1, by rw [sp.entry_eq, hs0e]; exact hq1, h1,
            by rw [h2, sp.depth_eq, hs0g]; exact hdq⟩
    · exact hfresh hmin
  · intro x hx
    rcases (hin x).1 hx with c | c
    · have hx1 := he1 x
      rw [if_pos c] at hx1
      obtain ⟨b1, h1, h2, _⟩ := sp.bucket _ _ hn1
      exact ⟨_, b1, by rw [sp.entry_eq, hs0e]; exact hx1, h1, Nat.le_refl _, by rw [h2, hnd]⟩
    · have hx1 := he1 x
      rw [if_neg (by omega), if_pos c] at hx1
      obtain ⟨b1, h1, h2, _⟩ := sp.bucket _ _ hn2
      exact ⟨_, b1, by rw [sp.entry_eq, hs0e]; exact hx1, h1, Nat.le_succ _, by rw [h2, hnd]⟩
  · intro x hx
    have hx1 := he1 x
    rw [if_neg (fun c => hx ((hin x).2 (Or.inl c))), if_neg (fun c => hx ((hin x).2 (Or.inr c)))] at hx1
    refine ⟨by rw [sp.entry_eq, hs0e]; exact hx1, ?_⟩
    intro q hq
    obtain ⟨bq, hbq, okq⟩ := wf.slots x q hq
    rw [hbq, ← hold hbq]
    apply sp.frame
    intro it hit hv hit2
    rw [hs0g] at hit2
    rcases hslot _ q hit2 with ⟨_, c2⟩ | ⟨_, c2⟩ | ⟨c1, _, _, _⟩
    · have := (List.getElem?_eq_some.1 hbq).1; omega
    · have := (List.getElem?_eq_some.1 hbq).1; omega
    · apply c1
      rw [hashAt_div _ _ _ ok.depth_le hg8]
      exact ok.place it hit hv

/-! ## `splitOn` -/

/-- The first slot of the block around a slot holds the same address, and the
whole block lies inside the directory. -/
theorem WF0.block_bounds {s : State} (wf : WF0 s) {i p : Nat} {b : Bucket}
    (hp : s.entry[i]? = some p) (ok : SlotOK s i p b) :
    s.entry[i / 2 ^ (s.globalDepth - b.localDepth) * 2 ^ (s.globalDepth - b.localDepth)]? = some p ∧
    i / 2 ^ (s.globalDepth - b.localDepth) * 2 ^ (s.globalDepth - b.localDepth)
      + 2 ^ (s.globalDepth - b.localDepth) ≤ s.entry.length := by
  have hsp := two_pow_pos (s.globalDepth - b.localDepth)
  constructor
  · apply wf.block_entry hp ok
    rw [div_eq_iff_bounds _ _ _ hsp]; omega
  · have hlast : s.entry[i / 2 ^ (s.globalDepth - b.localDepth) * 2 ^ (s.globalDepth - b.localDepth)
        + 2 ^ (s.globalDepth - b.localDepth) - 1]? = some p := by
      apply wf.block_entry hp ok
      rw [div_eq_iff_bounds _ _ _ hsp]; omega
    have := (List.getElem?_eq_some.1 hlast).1
    omega

theorem splitOn_spec {s : State} (wf : WF0 s) {h p : Nat} {old : Bucket}
    (hp : s.entry[h]? = some p) (hb : s.heap[p]? = some old) (ok : SlotOK s h p old)
    (hlt : old.localDepth < s.globalDepth) :
    ∃ s1, (∀ fuel, GlobalDirectory.splitOn (GlobalDirectory.write (fuel + 1)) h s = some (true, s1)) ∧
      SplitSpec s s1 h old := by
  have hsp : 2 ^ (s.globalDepth - old.localDepth) = 2 * 2 ^ (s.globalDepth - (old.localDepth + 1)) :=
    two_pow_sub_succ _ _ hlt
  have hmpos := two_pow_pos (s.globalDepth - (old.localDepth + 1))
  obtain ⟨hstart, hend⟩ := wf.block_bounds hp ok
  have hwalk := leftWalk_spec wf hp ok h rfl
  have hhalf : 2 ^ (s.globalDepth - old.localDepth) / 2 = 2 ^ (s.globalDepth - (old.localDepth + 1)) := by
    rw [hsp]; omega
  -- the index arithmetic of the loop, with `c * m` as the only product
  have eA : h / 2 ^ (s.globalDepth - old.localDepth) * 2 ^ (s.globalDepth - old.localDepth)
      = 2 * (h / 2 ^ (s.globalDepth - old.localDepth) * 2 ^ (s.globalDepth - (old.localDepth + 1))) := by
    rw [hsp]; ring
  have eB : 2 * (h / 2 ^ (s.globalDepth - old.localDepth)) * 2 ^ (s.globalDepth - (old.localDepth + 1))
      = 2 * (h / 2 ^ (s.globalDepth - old.localDepth) * 2 ^ (s.globalDepth - (old.localDepth + 1))) := by
    ring
  have eC : (2 * (h / 2 ^ (s.globalDepth - old.localDepth)) + 1) * 2 ^ (s.globalDepth - (old.localDepth + 1))
      = 2 * (h / 2 ^ (s.globalDepth - old.localDepth) * 2 ^ (s.globalDepth - (old.localDepth + 1)))
        + 2 ^ (s.globalDepth - (old.localDepth + 1)) := by
    ring
  obtain ⟨e1, hloop, hlen, hget⟩ := splitLoop_spec s.heap.length (s.heap.length + 1)
    (2 ^ (s.globalDepth - (old.localDepth + 1)))
    (2 ^ (s.globalDepth - (old.localDepth + 1)))
    (h / 2 ^ (s.globalDepth - old.localDepth) * 2 ^ (s.globalDepth - old.localDepth))
    s.entry (by rw [hsp] at hend ⊢; omega) (Nat.le_refl _)
  have he1 : ∀ x : Nat, e1[x]? =
      if x / 2 ^ (s.globalDepth - (old.localDepth + 1))
          = 2 * (h / 2 ^ (s.globalDepth - old.localDepth)) then some s.heap.length
      else if x / 2 ^ (s.globalDepth - (old.localDepth + 1))
          = 2 * (h / 2 ^ (s.globalDepth - old.localDepth)) + 1 then some (s.heap.length + 1)
      else s.entry[x]? := by
    intro x
    rw [hget x]
    have i1 := div_eq_iff_bounds x (2 ^ (s.globalDepth - (old.localDepth + 1)))
      (2 * (h / 2 ^ (s.globalDepth - old.localDepth))) hmpos
    have i2 := div_eq_iff_bounds x (2 ^ (s.globalDepth - (old.localDepth + 1)))
      (2 * (h / 2 ^ (s.globalDepth - old.localDepth)) + 1) hmpos
    rw [eB] at i1
    rw [eC] at i2
    by_cases c1 : x / 2 ^ (s.globalDepth - (old.localDepth + 1))
        = 2 * (h / 2 ^ (s.globalDepth - old.localDepth))
    · rw [if_pos c1, if_pos (by rw [eA]; have := i1.1 c1; omega)]
    · rw [if_neg c1, if_neg (by rw [eA]; intro hc; exact c1 (i1.2 (by omega)))]
      by_cases c2 : x / 2 ^ (s.globalDepth - (old.localDepth + 1))
          = 2 * (h / 2 ^ (s.globalDepth - old.localDepth)) + 1
      · rw [if_pos c2, if_pos (by rw [eA]; have := i2.1 c2; omega)]
      · rw [if_neg c2, if_neg (by rw [eA]; intro hc; exact c2 (i2.2 (by omega)))]
  obtain ⟨s1, hrun, sp⟩ := split_core wf hp hb ok hlt e1 hlen he1
  refine ⟨s1, fun fuel => ?_, sp⟩
  unfold GlobalDirectory.splitOn
  simp only [hwalk, hstart, hb, numPtrsOf_eq _ _ ok.depth_le wf.depth_le, hhalf, hloop]
  exact hrun fuel

/-! ## Doubling the directory, and `extend` -/

theorem two_pow_succ_sub (g l : Nat) (h : l ≤ g) : 2 ^ (g + 1 - l) = 2 * 2 ^ (g - l) := by
  have : g + 1 - l = (g - l) + 1 := by omega
  rw [this, Nat.pow_succ, Nat.mul_comm]

/-- The directory with every slot doubled and the depth raised by one is
well-formed (it need not be minimal). -/
theorem double_wf {s : State} (wf : WF0 s) (hg : s.globalDepth < 8) (r : List Nat)
    (hlen : r.length = 2 * s.entry.length) (hr : ∀ x : Nat, r[x]? = s.entry[x / 2]?) :
    WF0 { s with globalDepth := s.globalDepth + 1, entry := r } := by
  refine ⟨Nat.succ_le_succ (Nat.zero_le _), ?_, ?_, ?_, wf.initial⟩
  · show s.globalDepth + 1 ≤ MAX_KEY_LENGTH
    unfold MAX_KEY_LENGTH; omega
  · show r.length = 2 ^ (s.globalDepth + 1)
    rw [hlen, wf.length_eq, Nat.pow_succ, Nat.mul_comm]
  · intro i q hq
    have hq' : s.entry[i / 2]? = some q := by rw [← hr i]; exact hq
    obtain ⟨bq, hbq, okq⟩ := wf.slots _ q hq'
    refine ⟨bq, hbq, okq.ne_initial, okq.depth_pos, Nat.le_succ_of_le okq.depth_le, okq.ok, ?_, ?_⟩
    · intro j q' hj
      have hj' : s.entry[j / 2]? = some q' := by rw [← hr j]; exact hj
      show q' = q ↔ j / 2 ^ (s.globalDepth + 1 - bq.localDepth) = i / 2 ^ (s.globalDepth + 1 - bq.localDepth)
      rw [two_pow_succ_sub _ _ okq.depth_le, div_two_mul, div_two_mul]
      have := okq.block (j / 2) q' hj'
      rw [Nat.div_div_eq_div_mul, Nat.div_div_eq_div_mul] at this ⊢
      rw [Nat.mul_comm (2 ^ (s.globalDepth - bq.localDepth)) 2]
      exact this
    · intro it hit hv
      show hashAt bq.localDepth it.key = i / 2 ^ (s.globalDepth + 1 - bq.localDepth)
      rw [two_pow_succ_sub _ _ okq.depth_le, okq.place it hit hv, Nat.div_div_eq_div_mul]

theorem double_keyValues {s : State} (hg : s.globalDepth < 8) (r : List Nat)
    (hr : ∀ x : Nat, r[x]? = s.entry[x / 2]?) (k : Nat) :
    State.keyValues { s with globalDepth := s.globalDepth + 1, entry := r } k = s.keyValues k := by
  have e : ({ s with globalDepth := s.globalDepth + 1, entry := r } : State).bucketAt
      (hashAt (s.globalDepth + 1) k) = s.bucketAt (hashAt s.globalDepth k) := by
    unfold State.bucketAt
    show (match r[hashAt (s.globalDepth + 1) k]? with
      | some p => s.heap[p]?
      | none => none) = _
    rw [hr, hashAt_succ_div _ _ hg]
  unfold State.keyValues
  show (match ({ s with globalDepth := s.globalDepth + 1, entry := r } : State).bucketAt
      (hashAt (s.globalDepth + 1) k) with
    | some b => valsOf k b.items
    | none => []) = _
  rw [e]

theorem extend_spec {s : State} (wf : WF0 s) {h p : Nat} {old : Bucket}
    (hp : s.entry[h]? = some p) (hb : s.heap[p]? = some old) (ok : SlotOK s h p old) :
    (old.localDepth = s.globalDepth ∧ s.globalDepth = 8 ∧
      ∀ fuel, GlobalDirectory.extend (GlobalDirectory.write (fuel + 1)) h s = some (false, s)) ∨
    (∃ s1, (∀ fuel, GlobalDirectory.extend (GlobalDirectory.write (fuel + 1)) h s = some (true, s1)) ∧
      ExtendSpec s s1 h old) := by
  have hg8 : s.globalDepth ≤ 8 := wf.depth_le
  by_cases hlt : old.localDepth < s.globalDepth
  · -- room in the directory: a split
    right
    obtain ⟨s1, hrun, sp⟩ := splitOn_spec wf hp hb ok hlt
    refine ⟨s1, fun fuel => ?_, ?_⟩
    · unfold GlobalDirectory.extend
      simp only [hp, hb, if_pos hlt]
      exact hrun fuel
    · refine ⟨sp.wf, fun m => sp.minimal (Or.inl m), by rw [if_pos hlt]; exact sp.depth_eq,
        sp.initial_eq, sp.initial_heap, sp.vals, ?_, ?_⟩
      · intro k hk
        rw [sp.depth_eq]
        apply sp.fresh
        rw [hashAt_div _ _ _ ok.depth_le hg8]; exact hk
      · intro k hk
        obtain ⟨q, _, hq, _, _⟩ := wf.slot_of_key k
        have hout : hashAt s.globalDepth k / 2 ^ (s.globalDepth - old.localDepth)
            ≠ h / 2 ^ (s.globalDepth - old.localDepth) := by
          rw [hashAt_div _ _ _ ok.depth_le hg8]; exact hk
        obtain ⟨h1, h2⟩ := sp.outside _ hout
        exact ⟨q, hq, by rw [sp.depth_eq, h1]; exact hq, h2 q hq⟩
  · have hld : old.localDepth = s.globalDepth := by have := ok.depth_le; omega
    by_cases hmax : s.globalDepth ≥ MAX_KEY_LENGTH
    · -- the addressing limit
      left
      refine ⟨hld, by unfold MAX_KEY_LENGTH at hmax; omega, fun fuel => ?_⟩
      unfold GlobalDirectory.extend
      simp only [hp, hb, if_neg hlt, if_pos hmax]
    · -- the directory doubles
      right
      have hg : s.globalDepth < 8 := by unfold MAX_KEY_LENGTH at hmax; omega
      obtain ⟨r, hloop, hrlen, hrget⟩ := doubleLoop_entry wf
      have hr : ∀ x : Nat, r[x]? = s.entry[x / 2]? := by
        intro x
        by_cases hx : x < 2 * s.entry.length
        · exact hrget x hx
        · rw [List.getElem?_eq_none (by omega), List.getElem?_eq_none (by omega)]
      have hh : h < s.entry.length := (List.getElem?_eq_some.1 hp).1
      have wfD := double_wf wf hg r hrlen hr
      have hpD : ({ s with globalDepth := s.globalDepth + 1, entry := r } : State).entry[h * 2]?
          = some p := by
        show r[h * 2]? = some p
        rw [hr, Nat.mul_div_cancel _ (by decide : 0 < 2)]; exact hp
      obtain ⟨b', hb', okD⟩ := wfD.slots (h * 2) p hpD
      have hb'' : s.heap[p]? = some b' := hb'
      rw [hb] at hb''
      cases hb''
      have hltD : old.localDepth <
          ({ s with globalDepth := s.globalDepth + 1, entry := r } : State).globalDepth := by
        show old.localDepth < s.globalDepth + 1
        omega
      have hz : s.globalDepth + 1 - (old.localDepth + 1) = 0 := by omega
      have ho : s.globalDepth + 1 - old.localDepth = 1 := by omega
      have he2 : ∀ x : Nat, ((r.set (h * 2) s.heap.length).set (h * 2 + 1) (s.heap.length + 1))[x]? =
          if x / 2 ^ (s.globalDepth + 1 - (old.localDepth + 1))
              = 2 * (h * 2 / 2 ^ (s.globalDepth + 1 - old.localDepth)) then some s.heap.length
          else if x / 2 ^ (s.globalDepth + 1 - (old.localDepth + 1))
              = 2 * (h * 2 / 2 ^ (s.globalDepth + 1 - old.localDepth)) + 1 then some (s.heap.length + 1)
          else r[x]? := by
        intro x
        rw [hz, ho, Nat.pow_zero, Nat.pow_one, Nat.div_one, Nat.mul_div_cancel _ (by decide : 0 < 2),
          List.getElem?_set, List.getElem?_set]
        by_cases c1 : x = 2 * h
        · rw [if_pos c1, if_neg (by omega), if_pos (by omega), if_pos (by omega)]
        · rw [if_neg c1]
          by_cases c2 : x = 2 * h + 1
          · rw [if_pos c2, if_pos (by omega), if_pos (by simp only [List.length_set]; omega)]
          · rw [if_neg c2, if_neg (by omega), if_neg (by omega)]
      obtain ⟨s1, hrun, sp⟩ := split_core wfD hpD hb okD hltD
        ((r.set (h * 2) s.heap.length).set (h * 2 + 1) (s.heap.length + 1))
        (by simp only [List.length_set]) he2
      refine ⟨s1, fun fuel => ?_, ?_⟩
      · unfold GlobalDirectory.extend setEntry
        have hmod : (s.globalDepth + 1) % 256 = s.globalDepth + 1 := Nat.mod_eq_of_lt (by omega)
        simp only [hp, hb, if_neg hlt, if_neg hmax, hloop, hrlen, if_true, List.length_set,
          if_pos (show h * 2 < 2 * s.entry.length by omega),
          if_pos (show h * 2 + 1 < 2 * s.entry.length by omega), hmod]
        exact hrun fuel
      · refine ⟨sp.wf, fun _ => sp.minimal (Or.inr (by show old.localDepth + 1 = s.globalDepth + 1; omega)),
          by rw [if_neg hlt]; exact sp.depth_eq, sp.initial_eq, sp.initial_heap, ?_, ?_, ?_⟩
        · intro k
          rw [sp.vals k]
          exact double_keyValues hg r hr k
        · intro k hk
          rw [sp.depth_eq]
          apply sp.fresh
          show hashAt (s.globalDepth + 1) k / 2 ^ (s.globalDepth + 1 - old.localDepth)
            = h * 2 / 2 ^ (s.globalDepth + 1 - old.localDepth)
          rw [ho, Nat.pow_one, Nat.mul_div_cancel _ (by decide : 0 < 2), hashAt_succ_div _ _ hg]
          rw [hld, Nat.sub_self, Nat.pow_zero, Nat.div_one] at hk
          exact hk
        · intro k hk
          obtain ⟨q, _, hq, _, _⟩ := wf.slot_of_key k
          have hout : hashAt (s.globalDepth + 1) k / 2 ^ (s.globalDepth + 1 - old.localDepth)
              ≠ h * 2 / 2 ^ (s.globalDepth + 1 - old.localDepth) := by
            rw [ho, Nat.pow_one, Nat.mul_div_cancel _ (by decide : 0 < 2), hashAt_succ_div _ _ hg]
            rw [hld, Nat.sub_self, Nat.pow_zero, Nat.div_one] at hk
            exact hk
          obtain ⟨h1, h2⟩ := sp.outside _ hout
          have hq1 : r[hashAt (s.globalDepth + 1) k]? = some q := by
            rw [hr, hashAt_succ_div _ _ hg]; exact hq
          exact ⟨q, hq, by rw [sp.depth_eq, h1]; exact hq1, h2 q hq1⟩

/-! ## `GlobalDirectory::write` -/

/-- A write into a bucket with room. -/
theorem WriteSpec.direct {s : State} (wf : WF0 s) (k : Nat) (v : Int) {p : Nat} {b b1 : Bucket}
    (hp : s.entry[hashAt s.globalDepth k]? = some p) (hb : s.heap[p]? = some b)
    (ok : SlotOK s (hashAt s.globalDepth k) p b) (wsp : BucketWriteSpec k v b b1) :
    WriteSpec s (s.store p b1) k v true := by
  have hplt : p < s.heap.length := (List.getElem?_eq_some.1 hb).1
  refine ⟨?_, fun m => m.store_minimal hb wsp.depth_eq, rfl, ?_, Nat.le_refl _, ?_, ?_, ?_, ?_⟩
  · apply wf.store_wf hp hb wsp.depth_eq wsp.ok
    intro x hx hxv
    rcases wsp.items.mem_valid x hx hxv with ⟨h1, h2⟩ | h1
    · exact ok.place x h1 h2
    · rw [h1]
      show hashAt b.localDepth k = _
      rw [← hashAt_div s.globalDepth b.localDepth k ok.depth_le wf.depth_le]
  · rw [State.store_heap s p _ b1 hplt, if_neg (fun e => ok.ne_initial e.symm)]
  · intro k' hk'
    rw [State.store_keyValues hb k']
    by_cases e : s.entry[hashAt s.globalDepth k']? = some p
    · rw [if_pos e, State.keyValues_eq e hb, wsp.items.vals_other k' hk']
    · rw [if_neg e]
  · intro _
    rw [State.store_keyValues hb k, if_pos hp, State.keyValues_eq hp hb]
    exact wsp.items.vals_key
  · intro h; cases h
  · intro h; cases h

/-- A write that changes nothing because the bucket is full. -/
theorem WriteSpec.refl_full {s : State} (wf : WF0 s) (k : Nat) (v : Int) {p : Nat} {b : Bucket}
    (hp : s.entry[hashAt s.globalDepth k]? = some p) (hb : s.heap[p]? = some b)
    (hfull : b.validEntryCount = BUCKET_CAPACITY) : WriteSpec s s k v false :=
  ⟨wf, id, rfl, rfl, Nat.le_refl _, fun _ _ => rfl, fun h => (by cases h), fun _ => rfl,
    fun _ => ⟨p, b, hp, hb, hfull⟩⟩

theorem ExtendSpec.depth_ge {s s1 : State} {h : Nat} {old : Bucket} (sp : ExtendSpec s s1 h old) :
    s.globalDepth ≤ s1.globalDepth := by
  rw [sp.depth_eq]; split <;> omega

theorem ExtendSpec.then_write {s s1 s2 : State} {h : Nat} {old : Bucket} {k : Nat} {v : Int}
    {ok : Bool} (sp : ExtendSpec s s1 h old) (w : WriteSpec s1 s2 k v ok) : WriteSpec s s2 k v ok := by
  refine ⟨w.wf, fun m => w.minimal (sp.minimal m), by rw [w.initial_eq, sp.initial_eq], ?_,
    Nat.le_trans sp.depth_ge w.depth_ge, ?_, ?_, ?_, w.full_fail⟩
  · have := w.initial_heap
    rw [sp.initial_eq] at this
    rw [this, sp.initial_heap]
  · intro k' hk'
    rw [w.vals_other k' hk', sp.vals k']
  · intro hok
    rw [← sp.vals k]
    exact w.vals_ok hok
  · intro hok
    rw [w.vals_fail hok, sp.vals k]

/-- One attempt to write into the bucket of the key's slot. -/
theorem bucketWrite_spec {s : State} (wf : WF0 s) (k : Nat) (v : Int) :
    (GlobalDirectory.bucketWrite s (hashAt s.globalDepth k) k v = some (false, s) ∧
      WriteSpec s s k v false) ∨
    (∃ s1, GlobalDirectory.bucketWrite s (hashAt s.globalDepth k) k v = some (true, s1) ∧
      WriteSpec s s1 k v true) := by
  obtain ⟨p, b, hp, hb, ok⟩ := wf.slot_of_key k
  by_cases hfull : b.validEntryCount = BUCKET_CAPACITY
  · exact Or.inl ⟨bucketWrite_of_full k v hp hb hfull, WriteSpec.refl_full wf k v hp hb hfull⟩
  · obtain ⟨b1, hw, wsp⟩ := Bucket.write_of_room b k v ok.ok hfull
    exact Or.inr ⟨_, bucketWrite_of_room k v hp hb hw, WriteSpec.direct wf k v hp hb ok wsp⟩

theorem writeRetry_zero (ext : Nat → State → Outcome) (k : Nat) (v : Int) (index : Nat) (s : State) :
    GlobalDirectory.writeRetry ext k v 0 index s = some (false, s) := rfl

theorem writeRetry_of_ext_false (ext : Nat → State → Outcome) (k : Nat) (v : Int) (n index : Nat)
    {s s1 : State} (he : ext index s = some (false, s1)) (wf1 : WF0 s1) :
    GlobalDirectory.writeRetry ext k v (n + 1) index s
      = GlobalDirectory.writeRetry ext k v n (hashAt s1.globalDepth k) s1 := by
  rw [GlobalDirectory.writeRetry]
  simp only [he, wf1.hash_eq]

theorem writeRetry_of_write_true (ext : Nat → State → Outcome) (k : Nat) (v : Int) (n index : Nat)
    {s s1 s2 : State} (he : ext index s = some (true, s1)) (wf1 : WF0 s1)
    (hw : GlobalDirectory.bucketWrite s1 (hashAt s1.globalDepth k) k v = some (true, s2)) :
    GlobalDirectory.writeRetry ext k v (n + 1) index s = some (true, s2) := by
  rw [GlobalDirectory.writeRetry]
  simp only [he, wf1.hash_eq, hw]

theorem writeRetry_of_write_false (ext : Nat → State → Outcome) (k : Nat) (v : Int) (n index : Nat)
    {s s1 : State} (he : ext index s = some (true, s1)) (wf1 : WF0 s1)
    (hw : GlobalDirectory.bucketWrite s1 (hashAt s1.globalDepth k) k v = some (false, s1)) :
    GlobalDirectory.writeRetry ext k v (n + 1) index s
      = GlobalDirectory.writeRetry ext k v n (hashAt s1.globalDepth k) s1 := by
  rw [GlobalDirectory.writeRetry]
  simp only [he, wf1.hash_eq, hw]

/-- The retry loop of `write`, entered with a full bucket. -/
theorem writeRetry_spec (k : Nat) (v : Int) :
    ∀ (n : Nat) (s : State), WF0 s → WriteSpec s s k v false →
      ∃ ok s1, (∀ fuel, GlobalDirectory.writeRetry
          (GlobalDirectory.extend (GlobalDirectory.write (fuel + 1))) k v n
          (hashAt s.globalDepth k) s = some (ok, s1)) ∧ WriteSpec s s1 k v ok := by
  intro n
  induction n with
  | zero =>
    intro s _ hfull
    exact ⟨false, s, fun _ => rfl, hfull⟩
  | succ n ih =>
    intro s wf hfull
    obtain ⟨p, b, hp, hb, ok⟩ := wf.slot_of_key k
    rcases extend_spec wf hp hb ok with ⟨_, _, hext⟩ | ⟨s1, hext, esp⟩
    · obtain ⟨r, s2, hrun, w⟩ := ih s wf hfull
      refine ⟨r, s2, fun fuel => ?_, w⟩
      rw [writeRetry_of_ext_false _ k v n _ (hext fuel) wf]
      exact hrun fuel
    · rcases bucketWrite_spec esp.wf k v with ⟨hw, w1⟩ | ⟨s2, hw, w1⟩
      · obtain ⟨r, s2, hrun, w⟩ := ih s1 esp.wf w1
        refine ⟨r, s2, fun fuel => ?_, esp.then_write w⟩
        rw [writeRetry_of_write_false _ k v n _ (hext fuel) esp.wf hw]
        exact hrun fuel
      · refine ⟨true, s2, fun fuel => ?_, esp.then_write w1⟩
        exact writeRetry_of_write_true _ k v n _ (hext fuel) esp.wf hw

/-- `GlobalDirectory::write` on a well-formed directory: it returns, whatever
the fuel (from 2 on), and its result is described by `WriteSpec`. -/
theorem directory_write_spec {s : State} (wf : WF0 s) (k : Nat) (v : Int) :
    ∃ ok s1, (∀ fuel, GlobalDirectory.write (fuel + 2) k v s = some (ok, s1)) ∧
      WriteSpec s s1 k v ok := by
  rcases bucketWrite_spec wf k v with ⟨hw, w1⟩ | ⟨s1, hw, w1⟩
  · obtain ⟨r, s2, hrun, w⟩ := writeRetry_spec k v GlobalDirectory.RETRIES s wf w1
    refine ⟨r, s2, fun fuel => ?_, w⟩
    rw [GlobalDirectory.write]
    simp only [wf.entry_ne_nil, Bool.false_eq_true, if_false, wf.hash_eq, hw]
    exact hrun fuel
  · refine ⟨true, s1, fun fuel => ?_, w1⟩
    rw [GlobalDirectory.write]
    simp only [wf.entry_ne_nil, Bool.false_eq_true, if_false, wf.hash_eq, hw]

/-! ## `minimize` -/

theorem div_mul_two (j m : Nat) : j / (2 * m) = j / 2 / m := by
  rw [Nat.div_div_eq_div_mul]

/-- In a block of at least two slots, the even slot below a slot holds the same
address. -/
theorem WF0.even_slot {s : State} (wf : WF0 s) {i p : Nat} {b : Bucket}
    (hp : s.entry[i]? = some p) (ok : SlotOK s i p b) (hlt : b.localDepth < s.globalDepth) :
    s.entry[2 * (i / 2)]? = some p := by
  apply wf.block_entry hp ok
  rw [two_pow_sub_succ _ _ hlt, div_mul_two, div_mul_two]
  congr 1
  omega

theorem minimize_of_minimal {s : State} (wf : WF0 s) (m : Minimal s) :
    GlobalDirectory.minimize s = some (false, s) := by
  unfold GlobalDirectory.minimize
  rcases m with h | ⟨i, p, b, hp, hb, hd⟩
  · simp [h]
  · by_cases h1 : s.globalDepth = 1
    · simp [h1]
    · have hne : (s.globalDepth == 1) = false := by simpa using h1
      have hscan : GlobalDirectory.scanDepth s s.entry = some true := by
        apply scanDepth_true
        · intro q hq
          obtain ⟨j, hj⟩ := List.mem_iff_getElem?.1 hq
          obtain ⟨bq, hbq, _⟩ := wf.slots j q hj
          exact ⟨bq, hbq⟩
        · exact ⟨p, List.getElem?_mem hp, b, hb, hd⟩
      simp only [hne, Bool.false_eq_true, if_false, hscan]

theorem minimize_spec {s : State} (wf : WF0 s) (hnot : ¬ Minimal s) :
    ∃ s1, GlobalDirectory.minimize s = some (true, s1) ∧ MinimizeSpec s s1 := by
  have h1 : s.globalDepth ≠ 1 := fun h => hnot (Or.inl h)
  have hg2 : 2 ≤ s.globalDepth := by have := wf.depth_pos; omega
  have hg8 : s.globalDepth ≤ 8 := wf.depth_le
  have hdeep : ∀ (i p : Nat) (b : Bucket), s.entry[i]? = some p → s.heap[p]? = some b →
      b.localDepth ≠ s.globalDepth := fun i p b hp hb hd => hnot (Or.inr ⟨i, p, b, hp, hb, hd⟩)
  have hne : (s.globalDepth == 1) = false := by simpa using h1
  have hscan : GlobalDirectory.scanDepth s s.entry = some false := by
    apply scanDepth_false
    intro q hq
    obtain ⟨j, hj⟩ := List.mem_iff_getElem?.1 hq
    obtain ⟨bq, hbq, _⟩ := wf.slots j q hj
    exact ⟨bq, hbq, hdeep j q bq hj hbq⟩
  have hlen2 : s.entry.length = 2 * 2 ^ (s.globalDepth - 1) := by
    rw [wf.length_eq]
    have : s.globalDepth = (s.globalDepth - 1) + 1 := by omega
    conv_lhs => rw [this]
    rw [Nat.pow_succ, Nat.mul_comm]
  obtain ⟨r, hloop, hrlen, hrget⟩ := halveLoop_spec s.entry (s.entry.length / 2) 0 (by omega)
  have hmod : (s.globalDepth + 255) % 256 = s.globalDepth - 1 := by omega
  have hr : ∀ x : Nat, x < r.length → r[x]? = s.entry[2 * x]? := by
    intro x hx
    rw [hrget x (by omega)]
    congr 1
    omega
  refine ⟨{ s with globalDepth := s.globalDepth - 1, entry := r }, ?_, ?_⟩
  · unfold GlobalDirectory.minimize
    simp only [hne, Bool.false_eq_true, if_false, hscan, hloop, hmod]
  · have hslot : ∀ (i q : Nat), r[i]? = some q → ∃ bq, s.entry[2 * i]? = some q ∧
        s.heap[q]? = some bq ∧ SlotOK s (2 * i) q bq ∧ bq.localDepth < s.globalDepth := by
      intro i q hq
      have hi : i < r.length := (List.getElem?_eq_some.1 hq).1
      rw [hr i hi] at hq
      obtain ⟨bq, hbq, okq⟩ := wf.slots _ q hq
      have := hdeep _ q bq hq hbq
      have := okq.depth_le
      exact ⟨bq, hq, hbq, okq, by omega⟩
    have hpow : ∀ l : Nat, l < s.globalDepth →
        2 ^ (s.globalDepth - l) = 2 * 2 ^ (s.globalDepth - 1 - l) := by
      intro l hl
      have : s.globalDepth - l = (s.globalDepth - 1 - l) + 1 := by omega
      rw [this, Nat.pow_succ, Nat.mul_comm]
    have hdiv : ∀ (x m : Nat), 2 * x / (2 * m) = x / m := by
      intro x m
      exact Nat.mul_div_mul_left x m (by decide)
    have wf1 : WF0 { s with globalDepth := s.globalDepth - 1, entry := r } := by
      refine ⟨?_, ?_, ?_, ?_, wf.initial⟩
      · show 1 ≤ s.globalDepth - 1
        omega
      · show s.globalDepth - 1 ≤ MAX_KEY_LENGTH
        unfold MAX_KEY_LENGTH; omega
      · show r.length = 2 ^ (s.globalDepth - 1)
        rw [hrlen, hlen2]; omega
      · intro i q hq
        obtain ⟨bq, hq2, hbq, okq, hlt⟩ := hslot i q hq
        refine ⟨bq, hbq, okq.ne_initial, okq.depth_pos, ?_, okq.ok, ?_, ?_⟩
        · show bq.localDepth ≤ s.globalDepth - 1
          omega
        · intro j q' hj
          have hj' : r[j]? = some q' := hj
          have hjl : j < r.length := (List.getElem?_eq_some.1 hj').1
          rw [hr j hjl] at hj'
          have := okq.block (2 * j) q' hj'
          rw [hpow _ hlt, hdiv, hdiv] at this
          exact this
        · intro it hit hv
          have := okq.place it hit hv
          rw [hpow _ hlt, hdiv] at this
          exact this
    refine ⟨wf1, ?_, rfl, rfl, hrlen, hr, ?_⟩
    · show s.globalDepth - 1 + 1 = s.globalDepth
      omega
    · intro k
      obtain ⟨q, bq, hq, hbq, okq⟩ := wf1.slot_of_key k
      rw [State.keyValues_eq hq hbq]
      have hq' : r[hashAt (s.globalDepth - 1) k]? = some q := hq
      obtain ⟨bq', hq2, hbq', okq', hlt⟩ := hslot _ q hq'
      have e : hashAt (s.globalDepth - 1) k = hashAt s.globalDepth k / 2 := by
        have := hashAt_succ_div (s.globalDepth - 1) k (by omega)
        have e2 : s.globalDepth - 1 + 1 = s.globalDepth := by omega
        rw [e2] at this
        exact this.symm
      rw [e] at hq2 okq'
      -- the slot of the key at the old depth lies in the same block
      have hsame : s.entry[hashAt s.globalDepth k]? = some q := by
        apply wf.block_entry hq2 okq'
        rw [hpow _ hlt, div_mul_two, div_mul_two]
        congr 1
        omega
      rw [State.keyValues_eq hsame hbq']
      have hbq2 : s.heap[q]? = some bq := hbq
      rw [hbq'] at hbq2
      cases hbq2
      rfl

/-- After a successful `minimize`, a bucket one level below the old depth makes
the halved directory minimal. -/
theorem MinimizeSpec.minimal_of {s s1 : State} (wf : WF0 s) (sp : MinimizeSpec s s1)
    (h : ∃ (i p : Nat) (b : Bucket), s.entry[i]? = some p ∧ s.heap[p]? = some b ∧
      s.globalDepth ≤ b.localDepth + 1) (hnot : ¬ Minimal s) : Minimal s1 := by
  obtain ⟨i, p, b, hp, hb, hd⟩ := h
  obtain ⟨b', hb', ok⟩ := wf.slots i p hp
  rw [hb] at hb'
  cases hb'
  have hne : b.localDepth ≠ s.globalDepth := fun e => hnot (Or.inr ⟨i, p, b, hp, hb, e⟩)
  have hle := ok.depth_le
  have hlt : b.localDepth < s.globalDepth := by omega
  have hev := wf.even_slot hp ok hlt
  have hil : i < s.entry.length := (List.getElem?_eq_some.1 hp).1
  have hx : i / 2 < s1.entry.length := by
    rw [sp.length_eq]
    have := wf.length_eq
    have h2 : s.entry.length = 2 * (s.entry.length / 2) := by
      have hg := wf.depth_pos
      have e : s.globalDepth = (s.globalDepth - 1) + 1 := by omega
      rw [this, e, Nat.pow_succ]
      omega
    omega
  right
  refine ⟨i / 2, p, b, by rw [sp.entry _ hx]; exact hev, by rw [sp.heap_eq]; exact hb, ?_⟩
  have := sp.depth_eq
  omega

/-! ## Merging two buddy blocks -/

theorem heap_append_one (heap : List Bucket) (x : Bucket) :
    (heap ++ [x])[heap.length]? = some x := by
  rw [List.getElem?_append_right (Nat.le_refl _)]; simp

/-- In a minimal directory of depth at least 2, two buddies of equal depth have
depth at least 2: two buddies of depth 1 would be the whole directory. -/
theorem buddies_depth_ge_two {s : State} (wf : WF0 s) (min : Minimal s) (hg2 : 2 ≤ s.globalDepth)
    {h p hbud pb : Nat} {del bud : Bucket}
    (hp : s.entry[h]? = some p) (hb : s.heap[p]? = some del) (ok : SlotOK s h p del)
    (hpb : s.entry[hbud]? = some pb) (hbb : s.heap[pb]? = some bud) (okb : SlotOK s hbud pb bud)
    (hsib : hbud / 2 ^ (s.globalDepth - del.localDepth)
      = sibling (h / 2 ^ (s.globalDepth - del.localDepth)))
    (hld : bud.localDepth = del.localDepth) : 2 ≤ del.localDepth := by
  by_contra hcon
  have h1 : del.localDepth = 1 := by have := ok.depth_pos; omega
  rcases min with hm | ⟨i, q, bq, hq, hbq, hdq⟩
  · omega
  · have hsp := two_pow_pos (s.globalDepth - del.localDepth)
    have hpow : 2 ^ s.globalDepth = 2 * 2 ^ (s.globalDepth - del.localDepth) := by
      have := two_pow_sub_succ s.globalDepth 0 (by omega)
      rw [h1]; simpa using this
    have hi : i / 2 ^ (s.globalDepth - del.localDepth) < 2 := by
      rw [Nat.div_lt_iff_lt_mul hsp, ← hpow]; exact wf.lt_of_slot hq
    have hh : h / 2 ^ (s.globalDepth - del.localDepth) < 2 := by
      rw [Nat.div_lt_iff_lt_mul hsp, ← hpow]; exact wf.lt_of_slot hp
    have key : ∀ a c : Nat, a < 2 → c < 2 → a / 2 = c / 2 := by intro a c _ _; omega
    have hcase := (div_two_eq_iff (i / 2 ^ (s.globalDepth - del.localDepth))
      (h / 2 ^ (s.globalDepth - del.localDepth))).1 (key _ _ hi hh)
    rcases hcase with e | e
    · have := wf.block_entry hp ok e
      rw [hq] at this; cases this
      rw [hb] at hbq; cases hbq
      omega
    · have := wf.block_entry hpb okb (by rw [hld, e, hsib])
      rw [hq] at this; cases this
      rw [hbb] at hbq; cases hbq
      omega

/-- The heart of `mergeOn`: once both buddy blocks point to one fresh bucket,
rehashing the two old buckets succeeds and gives a well-formed directory with the
same contents. -/
theorem merge_core {s : State} (wf : WF0 s) (min : Minimal s) (hg2 : 2 ≤ s.globalDepth)
    {h p hbud pb : Nat} {del bud : Bucket}
    (hp : s.entry[h]? = some p) (hb : s.heap[p]? = some del) (ok : SlotOK s h p del)
    (hpb : s.entry[hbud]? = some pb) (hbb : s.heap[pb]? = some bud) (okb : SlotOK s hbud pb bud)
    (hsib : hbud / 2 ^ (s.globalDepth - del.localDepth)
      = sibling (h / 2 ^ (s.globalDepth - del.localDepth)))
    (hld : bud.localDepth = del.localDepth)
    (hcount : del.validEntryCount + bud.validEntryCount ≤ BUCKET_CAPACITY)
    (e1 : List Nat) (hlen : e1.length = s.entry.length)
    (he1 : ∀ x : Nat, e1[x]? =
      if x / (2 * 2 ^ (s.globalDepth - del.localDepth))
          = h / (2 * 2 ^ (s.globalDepth - del.localDepth)) then some s.heap.length
      else s.entry[x]?) :
    ∃ sm s1,
      (∀ fuel, GlobalDirectory.reHashItems (GlobalDirectory.write (fuel + 1)) p
        { s with heap := s.heap ++ [Bucket.new (del.localDepth - 1)], entry := e1 }
          = some (true, sm)) ∧
      (∀ fuel, GlobalDirectory.reHashItems (GlobalDirectory.write (fuel + 1)) pb sm
          = some (true, s1)) ∧
      MergeSpec s s1 h del bud := by
  have hsp := two_pow_pos (s.globalDepth - del.localDepth)
  have hg8 : s.globalDepth ≤ 8 := wf.depth_le
  have hld2 := buddies_depth_ge_two wf min hg2 hp hb ok hpb hbb okb hsib hld
  have hdle := ok.depth_le
  have hnd : (Bucket.new (del.localDepth - 1)).localDepth = del.localDepth - 1 :=
    Bucket.new_depth _ (by omega)
  have hspm : 2 ^ (s.globalDepth - (del.localDepth - 1)) = 2 * 2 ^ (s.globalDepth - del.localDepth) := by
    have := two_pow_sub_succ s.globalDepth (del.localDepth - 1) (by omega)
    rw [Nat.sub_add_cancel (by omega)] at this
    exact this
  obtain ⟨b0, hb0, ok0⟩ := wf.initial
  have hinit : s.initialFile < s.heap.length := (List.getElem?_eq_some.1 hb0).1
  have hin : ∀ x : Nat, x / (2 * 2 ^ (s.globalDepth - del.localDepth))
        = h / (2 * 2 ^ (s.globalDepth - del.localDepth)) ↔
      (x / 2 ^ (s.globalDepth - del.localDepth) = h / 2 ^ (s.globalDepth - del.localDepth) ∨
       x / 2 ^ (s.globalDepth - del.localDepth)
        = sibling (h / 2 ^ (s.globalDepth - del.localDepth))) := by
    intro x
    rw [div_two_mul, div_two_mul]
    exact div_two_eq_iff _ _
  have inDel : ∀ x : Nat, x / 2 ^ (s.globalDepth - del.localDepth)
      = h / 2 ^ (s.globalDepth - del.localDepth) → s.entry[x]? = some p :=
    fun x hx => wf.block_entry hp ok hx
  have inBud : ∀ x : Nat, x / 2 ^ (s.globalDepth - del.localDepth)
      = sibling (h / 2 ^ (s.globalDepth - del.localDepth)) → s.entry[x]? = some pb :=
    fun x hx => wf.block_entry hpb okb (by rw [hld, hx, hsib])
  have ofDel : ∀ x : Nat, s.entry[x]? = some p → x / 2 ^ (s.globalDepth - del.localDepth)
      = h / 2 ^ (s.globalDepth - del.localDepth) := fun x hx => ok.same_block hx
  have ofBud : ∀ x : Nat, s.entry[x]? = some pb → x / 2 ^ (s.globalDepth - del.localDepth)
      = sibling (h / 2 ^ (s.globalDepth - del.localDepth)) := by
    intro x hx
    have := okb.same_block hx
    rw [hld] at this
    rw [this, hsib]
  have hppb : p ≠ pb := by
    intro e
    have := ofDel hbud (by rw [e]; exact hpb)
    rw [hsib] at this
    exact sibling_ne _ this
  -- the state between the pointer assignments and the rehash
  generalize hs0 : ({ s with
      heap := s.heap ++ [Bucket.new (del.localDepth - 1)], entry := e1 } : State) = s0
  have hs0h : s0.heap = s.heap ++ [Bucket.new (del.localDepth - 1)] := by rw [← hs0]
  have hs0e : s0.entry = e1 := by rw [← hs0]
  have hs0g : s0.globalDepth = s.globalDepth := by rw [← hs0]
  have hs0i : s0.initialFile = s.initialFile := by rw [← hs0]
  have hold : ∀ {q : Nat} {b : Bucket}, s.heap[q]? = some b → s0.heap[q]? = some b := by
    intro q b hq; rw [hs0h]; exact heap_append_left _ _ hq
  have hmg : s0.heap[s.heap.length]? = some (Bucket.new (del.localDepth - 1)) := by
    rw [hs0h]; exact heap_append_one _ _
  have hslot : ∀ (x q : Nat), s0.entry[x]? = some q →
      (x / (2 * 2 ^ (s.globalDepth - del.localDepth))
          = h / (2 * 2 ^ (s.globalDepth - del.localDepth)) ∧ q = s.heap.length) ∨
      (x / (2 * 2 ^ (s.globalDepth - del.localDepth))
          ≠ h / (2 * 2 ^ (s.globalDepth - del.localDepth)) ∧
        s.entry[x]? = some q ∧ q < s.heap.length ∧ q ≠ p ∧ q ≠ pb) := by
    intro x q hq
    rw [hs0e, he1 x] at hq
    by_cases c1 : x / (2 * 2 ^ (s.globalDepth - del.localDepth))
        = h / (2 * 2 ^ (s.globalDepth - del.localDepth))
    · rw [if_pos c1] at hq; cases hq; exact Or.inl ⟨c1, rfl⟩
    · rw [if_neg c1] at hq
      obtain ⟨bq, hbq, _⟩ := wf.slots x q hq
      refine Or.inr ⟨c1, hq, (List.getElem?_eq_some.1 hbq).1, ?_, ?_⟩
      · intro e; subst e
        exact c1 ((hin x).2 (Or.inl (ofDel x hq)))
      · intro e; subst e
        exact c1 ((hin x).2 (Or.inr (ofBud x hq)))
  have wf0 : WF0 s0 := by
    refine ⟨by rw [hs0g]; exact wf.depth_pos, by rw [hs0g]; exact wf.depth_le,
      by rw [hs0e, hs0g, hlen]; exact wf.length_eq, ?_, ⟨b0, by rw [hs0i]; exact hold hb0, ok0⟩⟩
    intro x q hq
    rcases hslot x q hq with ⟨a1, a2⟩ | ⟨a1, a2, a3, a4, a5⟩
    · refine ⟨_, by rw [a2]; exact hmg, ?_⟩
      refine ⟨by rw [hs0i]; omega, by rw [hnd]; omega, by rw [hnd, hs0g]; omega, BucketOK.new _,
        ?_, ?_⟩
      · intro j q' hq'
        rw [hnd, hs0g, hspm, a1]
        rcases hslot j q' hq' with ⟨c1, c2⟩ | ⟨c1, _, c3, _, _⟩
        · rw [c1, c2, a2]; simp
        · constructor
          · intro e; omega
          · intro e; exact absurd e c1
      · intro it hit hv
        rw [Bucket.new_items_invalid _ it hit] at hv
        cases hv
    · obtain ⟨bq, hbq, okq⟩ := wf.slots x q a2
      refine ⟨bq, hold hbq, ?_⟩
      refine ⟨by rw [hs0i]; exact okq.ne_initial, okq.depth_pos, by rw [hs0g]; exact okq.depth_le,
        okq.ok, ?_, by rw [hs0g]; exact okq.place⟩
      intro j q' hq'
      rw [hs0g]
      rcases hslot j q' hq' with ⟨c1, c2⟩ | ⟨_, c2, _, _, _⟩
      · constructor
        · intro e; omega
        · intro e
          have hq2 := wf.block_entry a2 okq e
          rcases (hin j).1 c1 with c | c
          · rw [inDel j c] at hq2; cases hq2; exact absurd rfl a4
          · rw [inBud j c] at hq2; cases hq2; exact absurd rfl a5
      · exact okq.block j q' c2
  -- where the keys of the two old buckets go
  have hkey : ∀ k : Nat, (hashAt del.localDepth k = h / 2 ^ (s.globalDepth - del.localDepth) ∨
      hashAt del.localDepth k = sibling (h / 2 ^ (s.globalDepth - del.localDepth))) →
      s0.entry[hashAt s0.globalDepth k]? = some s.heap.length := by
    intro k hk
    rw [hs0g, hs0e, he1, if_pos]
    rw [hin, hashAt_div _ _ _ hdle hg8]
    exact hk
  have hunrefP : ∀ j : Nat, s0.entry[j]? ≠ some p := by
    intro j hj
    rcases hslot j p hj with ⟨_, c2⟩ | ⟨_, _, _, c4, _⟩
    · have := (List.getElem?_eq_some.1 hb).1; omega
    · exact c4 rfl
  have hunrefB : ∀ j : Nat, s0.entry[j]? ≠ some pb := by
    intro j hj
    rcases hslot j pb hj with ⟨_, c2⟩ | ⟨_, _, _, _, c5⟩
    · have := (List.getElem?_eq_some.1 hbb).1; omega
    · exact c5 rfl
  have hroom1 : Room s0 del.items := by
    intro it hit hv q b hq hbq
    rw [hkey it.key (Or.inl (ok.place it hit hv))] at hq
    cases hq
    rw [hmg] at hbq; cases hbq
    refine ⟨Bucket.new_compact _, ?_⟩
    rw [Bucket.new_count, Nat.zero_add, ← ok.ok.count_eq]
    exact ok.ok.count_le
  obtain ⟨sm, hrun1, sp1⟩ := reHashItems_spec p del s0 wf0 (hold hb) hunrefP ok.ok.items_length hroom1
  have hbudm : sm.heap[pb]? = some bud := by
    rw [sp1.untouched pb hunrefB]; exact hold hbb
  have hplaceB : ∀ it ∈ bud.items, it.valid = true →
      hashAt del.localDepth it.key = sibling (h / 2 ^ (s.globalDepth - del.localDepth)) := by
    intro it hit hv
    have := okb.place it hit hv
    rw [hld] at this
    rw [this, hsib]
  have hroom2 : Room sm bud.items := by
    intro it hit hv q b hq hbq
    rw [sp1.depth_eq, sp1.entry_eq, hkey it.key (Or.inr (hplaceB it hit hv))] at hq
    cases hq
    obtain ⟨b1, h1, _, h3, _, h5⟩ := sp1.bucket _ _ hmg
    rw [h1] at hbq; cases hbq
    refine ⟨h3 (Bucket.new_compact _), ?_⟩
    rw [Bucket.new_count, Nat.zero_add, ← ok.ok.count_eq] at h5
    rw [← okb.ok.count_eq]
    omega
  obtain ⟨s1, hrun2, sp2⟩ := reHashItems_spec pb bud sm sp1.wf hbudm
    (by rw [sp1.entry_eq]; exact hunrefB) okb.ok.items_length hroom2
  refine ⟨sm, s1, hrun1, hrun2, ?_⟩
  have hentry : s1.entry = e1 := by rw [sp2.entry_eq, sp1.entry_eq, hs0e]
  have hdepth : s1.globalDepth = s.globalDepth := by rw [sp2.depth_eq, sp1.depth_eq, hs0g]
  have hnoDel : ∀ k : Nat, hashAt del.localDepth k ≠ h / 2 ^ (s.globalDepth - del.localDepth) →
      valsOf k del.items = [] := by
    intro k hk
    rw [valsOf_eq_nil_iff]
    intro x hx hxv hxk
    apply hk
    rw [← hxk]; exact ok.place x hx hxv
  have hnoBud : ∀ k : Nat, hashAt del.localDepth k
      ≠ sibling (h / 2 ^ (s.globalDepth - del.localDepth)) → valsOf k bud.items = [] := by
    intro k hk
    rw [valsOf_eq_nil_iff]
    intro x hx hxv hxk
    apply hk
    rw [← hxk]; exact hplaceB x hx hxv
  -- buckets that receive nothing are untouched by both rehashes
  have hframe : ∀ q : Nat, q < s.heap.length → s1.heap[q]? = sm.heap[q]? ∧ sm.heap[q]? = s0.heap[q]? := by
    intro q hq
    constructor
    · apply sp2.frame
      intro it hit hv hc
      rw [sp1.depth_eq, sp1.entry_eq, hkey it.key (Or.inr (hplaceB it hit hv))] at hc
      cases hc; omega
    · apply sp1.frame
      intro it hit hv hc
      rw [hkey it.key (Or.inl (ok.place it hit hv))] at hc
      cases hc; omega
  have hkeep : ∀ {q : Nat} {b : Bucket}, s.heap[q]? = some b → s1.heap[q]? = some b := by
    intro q b hq
    obtain ⟨h1, h2⟩ := hframe q (List.getElem?_eq_some.1 hq).1
    rw [h1, h2]; exact hold hq
  obtain ⟨bm1, hm1, hm1d, _⟩ := sp1.bucket _ _ hmg
  obtain ⟨bm2, hm2, hm2d, _⟩ := sp2.bucket _ _ hm1
  have hmd : bm2.localDepth + 1 = del.localDepth := by rw [hm2d, hm1d, hnd]; omega
  refine ⟨sp2.wf, hdepth, by rw [sp2.initial_eq, sp1.initial_eq, hs0i], ?_, ?_, ?_, ?_, ?_⟩
  · rw [hkeep hb0, hb0]
  · intro k
    rw [sp2.vals k, sp1.vals k]
    obtain ⟨q, bq, hq, hbq, okq⟩ := wf0.slot_of_key k
    rw [State.keyValues_eq hq hbq]
    rw [hs0g] at hq
    rcases hslot _ q hq with ⟨c1, c2⟩ | ⟨c1, c2, _, _, _⟩
    · rw [c2, hmg] at hbq; cases hbq
      rw [Bucket.new_vals, List.nil_append]
      rcases (hin _).1 c1 with c | c
      · rw [State.keyValues_eq (inDel _ c) hb, hnoBud k, List.append_nil]
        rw [hashAt_div _ _ _ hdle hg8] at c
        rw [c]; exact fun e => sibling_ne _ e.symm
      · rw [State.keyValues_eq (inBud _ c) hbb, hnoDel k, List.nil_append]
        rw [hashAt_div _ _ _ hdle hg8] at c
        rw [c]; exact sibling_ne _
    · obtain ⟨bq', hbq', _⟩ := wf.slots _ q c2
      rw [State.keyValues_eq c2 hbq']
      rw [hold hbq'] at hbq; cases hbq
      rw [Ne, hin, hashAt_div _ _ _ hdle hg8] at c1
      rw [hnoDel k (fun e => c1 (Or.inl e)), hnoBud k (fun e => c1 (Or.inr e)), List.append_nil,
        List.append_nil]
  · intro x hx
    refine ⟨bm2, ?_, hm2, hmd⟩
    rw [hentry, he1, if_pos hx]
  · intro x hx
    refine ⟨by rw [hentry, he1, if_neg hx], ?_⟩
    intro q hq
    obtain ⟨bq, hbq, _⟩ := wf.slots x q hq
    rw [hkeep hbq, hbq]
  · rcases min with hm | ⟨i, q, bq, hq, hbq, hdq⟩
    · omega
    · by_cases c1 : i / (2 * 2 ^ (s.globalDepth - del.localDepth))
          = h / (2 * 2 ^ (s.globalDepth - del.localDepth))
      · have hdel : del.localDepth = s.globalDepth := by
          rcases (hin i).1 c1 with c | c
          · have := inDel i c
            rw [hq] at this; cases this
            rw [hb] at hbq; cases hbq
            exact hdq
          · have := inBud i c
            rw [hq] at this; cases this
            rw [hbb] at hbq; cases hbq
            rw [← hld]; exact hdq
        refine ⟨i, _, bm2, by rw [hentry, he1, if_pos c1], hm2, ?_⟩
        rw [hdepth]; omega
      · refine ⟨i, q, bq, by rw [hentry, he1, if_neg c1]; exact hq, hkeep hbq, ?_⟩
        rw [hdepth]; omega

/-! ## `mergeOn` -/

/-- The buddy slot computed by `mergeOn` lies in the directory. -/
theorem WF0.buddy_lt {s : State} (wf : WF0 s) {h p : Nat} {del : Bucket}
    (hp : s.entry[h]? = some p) (ok : SlotOK s h p del) :
    sibling (h / 2 ^ (s.globalDepth - del.localDepth)) * 2 ^ (s.globalDepth - del.localDepth)
      < 2 ^ s.globalDepth := by
  have hsp := two_pow_pos (s.globalDepth - del.localDepth)
  have hpos := ok.depth_pos
  have hle := ok.depth_le
  have e : 2 ^ s.globalDepth = 2 ^ del.localDepth * 2 ^ (s.globalDepth - del.localDepth) := by
    rw [← Nat.pow_add]; congr 1; omega
  have e2 : 2 ^ del.localDepth = 2 * 2 ^ (del.localDepth - 1) := by
    have : del.localDepth = (del.localDepth - 1) + 1 := by omega
    conv_lhs => rw [this]
    rw [Nat.pow_succ, Nat.mul_comm]
  have hc : h / 2 ^ (s.globalDepth - del.localDepth) < 2 ^ del.localDepth := by
    rw [Nat.div_lt_iff_lt_mul hsp, ← e]; exact wf.lt_of_slot hp
  rw [e2] at hc
  have := sibling_lt _ _ hc
  rw [← e2] at this
  rw [e]
  exact Nat.mul_lt_mul_of_pos_right this hsp

theorem mergeOn_spec {s : State} (wf : WF0 s) (min : Minimal s) {h p : Nat} {del : Bucket}
    (hp : s.entry[h]? = some p) (hb : s.heap[p]? = some del) (ok : SlotOK s h p del) :
    ((s.globalDepth = 1 ∨ ∃ (pb : Nat) (bud : Bucket),
        s.entry[sibling (h / 2 ^ (s.globalDepth - del.localDepth))
          * 2 ^ (s.globalDepth - del.localDepth)]? = some pb ∧ s.heap[pb]? = some bud ∧
        (bud.localDepth ≠ del.localDepth ∨
          BUCKET_CAPACITY < del.validEntryCount + bud.validEntryCount)) ∧
      ∀ fuel, GlobalDirectory.mergeOn (GlobalDirectory.write (fuel + 1)) h s = some (false, s)) ∨
    (∃ (pb : Nat) (bud : Bucket) (s1 : State), s.globalDepth ≠ 1 ∧
        s.entry[sibling (h / 2 ^ (s.globalDepth - del.localDepth))
          * 2 ^ (s.globalDepth - del.localDepth)]? = some pb ∧ s.heap[pb]? = some bud ∧
        bud.localDepth = del.localDepth ∧
        del.validEntryCount + bud.validEntryCount ≤ BUCKET_CAPACITY ∧
        (∀ fuel, GlobalDirectory.mergeOn (GlobalDirectory.write (fuel + 1)) h s = some (true, s1)) ∧
        MergeSpec s s1 h del bud) := by
  by_cases h1 : s.globalDepth = 1
  · left
    refine ⟨Or.inl h1, fun fuel => ?_⟩
    unfold GlobalDirectory.mergeOn
    simp [h1]
  have hne : (s.globalDepth == 1) = false := by simpa using h1
  have hg2 : 2 ≤ s.globalDepth := by have := wf.depth_pos; omega
  have hsp := two_pow_pos (s.globalDepth - del.localDepth)
  obtain ⟨hstart, hend⟩ := wf.block_bounds hp ok
  have hwalk := leftWalk_spec wf hp ok h rfl
  have hxor := xor_two_pow (h / 2 ^ (s.globalDepth - del.localDepth)) (s.globalDepth - del.localDepth)
  obtain ⟨pb, bud, hpb, hbb, okb⟩ := wf.slot_of_lt _ (wf.buddy_lt hp ok)
  have hcd := ok.ok.count_le
  have hcb := okb.ok.count_le
  have hmod : (del.validEntryCount + bud.validEntryCount) % 2 ^ 32
      = del.validEntryCount + bud.validEntryCount := by
    apply Nat.mod_eq_of_lt
    unfold BUCKET_CAPACITY at hcd hcb
    omega
  by_cases hcond : bud.localDepth = del.localDepth ∧
      del.validEntryCount + bud.validEntryCount ≤ BUCKET_CAPACITY
  · right
    obtain ⟨hld, hcount⟩ := hcond
    have hsib : (sibling (h / 2 ^ (s.globalDepth - del.localDepth))
        * 2 ^ (s.globalDepth - del.localDepth)) / 2 ^ (s.globalDepth - del.localDepth)
        = sibling (h / 2 ^ (s.globalDepth - del.localDepth)) := Nat.mul_div_cancel _ hsp
    have hld2 := buddies_depth_ge_two wf min hg2 hp hb ok hpb hbb okb hsib hld
    obtain ⟨_, hendb⟩ := wf.block_bounds hpb okb
    rw [hld, hsib] at hendb
    have hfit := merged_end _ _ _ hend hendb
    obtain ⟨e1, hloop, hlen, hget⟩ := fillLoop_spec s.heap.length
      (2 ^ (s.globalDepth - del.localDepth) * 2)
      (h / 2 ^ (s.globalDepth - del.localDepth) / 2 * (2 * 2 ^ (s.globalDepth - del.localDepth)))
      s.entry hfit
    have he1 : ∀ x : Nat, e1[x]? =
        if x / (2 * 2 ^ (s.globalDepth - del.localDepth))
            = h / (2 * 2 ^ (s.globalDepth - del.localDepth)) then some s.heap.length
        else s.entry[x]? := by
      intro x
      rw [hget x, div_two_mul h]
      have i1 := div_eq_iff_bounds x (2 * 2 ^ (s.globalDepth - del.localDepth))
        (h / 2 ^ (s.globalDepth - del.localDepth) / 2) (by omega)
      by_cases c1 : x / (2 * 2 ^ (s.globalDepth - del.localDepth))
          = h / 2 ^ (s.globalDepth - del.localDepth) / 2
      · rw [if_pos c1, if_pos (by have := i1.1 c1; omega)]
      · rw [if_neg c1, if_neg (by intro hc; exact c1 (i1.2 (by omega)))]
    obtain ⟨sm, s1, hrun1, hrun2, msp⟩ := merge_core wf min hg2 hp hb ok hpb hbb okb hsib hld
      hcount e1 hlen he1
    refine ⟨pb, bud, s1, h1, hpb, hbb, hld, hcount, fun fuel => ?_, msp⟩
    have hc : (del.localDepth != bud.localDepth ||
        decide ((del.validEntryCount + bud.validEntryCount) % 2 ^ 32 > BUCKET_CAPACITY)) = false := by
      rw [hmod]; simp [hld]; omega
    have hnew : (del.localDepth + 2 ^ 32 - 1) % 2 ^ 32 = del.localDepth - 1 := by
      have hle := ok.depth_le
      have hg8 : s.globalDepth ≤ 8 := wf.depth_le
      have : del.localDepth + 2 ^ 32 - 1 = (del.localDepth - 1) + 2 ^ 32 := by omega
      rw [this, Nat.add_mod_right]
      exact Nat.mod_eq_of_lt (by omega)
    unfold GlobalDirectory.mergeOn
    simp only [hne, Bool.false_eq_true, if_false, hwalk, hstart, hb,
      numPtrsOf_eq _ _ ok.depth_le wf.depth_le, hxor, hpb, hbb, hc, min_buddy _ _ hsp, hnew, hloop,
      hrun1 fuel]
    exact hrun2 fuel
  · left
    refine ⟨Or.inr ⟨pb, bud, hpb, hbb, by omega⟩, fun fuel => ?_⟩
    have hc : (del.localDepth != bud.localDepth ||
        decide ((del.validEntryCount + bud.validEntryCount) % 2 ^ 32 > BUCKET_CAPACITY)) = true := by
      rw [hmod]
      by_cases e : bud.localDepth = del.localDepth
      · have : ¬ del.validEntryCount + bud.validEntryCount ≤ BUCKET_CAPACITY := fun c => hcond ⟨e, c⟩
        simp [e]; omega
      · have : ¬ del.localDepth = bud.localDepth := fun c => e c.symm
        simp [this]
    unfold GlobalDirectory.mergeOn
    simp only [hne, Bool.false_eq_true, if_false, hwalk, hstart, hb,
      numPtrsOf_eq _ _ ok.depth_le wf.depth_le, hxor, hpb, hbb, hc, if_true]

/-! ## `GlobalDirectory::erase` -/

theorem CollapseSpec.same {s : State} (wf : WF0 s) (m : Minimal s) : CollapseSpec s s :=
  ⟨wf, m, rfl, rfl, Nat.le_refl _, fun _ => rfl⟩

theorem eraseLoop_of_merge_false (w : Nat → Int → State → Outcome) (k rounds index : Nat)
    {s s1 : State} (hm : GlobalDirectory.mergeOn w index s = some (false, s1)) :
    GlobalDirectory.eraseLoop w k (rounds + 1) index s = some s1 := by
  rw [GlobalDirectory.eraseLoop]
  simp only [hm]

theorem eraseLoop_of_minimize_false (w : Nat → Int → State → Outcome) (k rounds index : Nat)
    {s s1 s2 : State} (hm : GlobalDirectory.mergeOn w index s = some (true, s1))
    (hz : GlobalDirectory.minimize s1 = some (false, s2)) :
    GlobalDirectory.eraseLoop w k (rounds + 1) index s = some s2 := by
  rw [GlobalDirectory.eraseLoop]
  simp only [hm, hz]

theorem eraseLoop_of_minimize_true (w : Nat → Int → State → Outcome) (k rounds index : Nat)
    {s s1 s2 : State} (hm : GlobalDirectory.mergeOn w index s = some (true, s1))
    (hz : GlobalDirectory.minimize s1 = some (true, s2)) (wf2 : WF0 s2) :
    GlobalDirectory.eraseLoop w k (rounds + 1) index s
      = GlobalDirectory.eraseLoop w k rounds (hashAt s2.globalDepth k) s2 := by
  rw [GlobalDirectory.eraseLoop]
  simp only [hm, hz, wf2.hash_eq]

/-- The merge loop of `erase` ends within `globalDepth` rounds. -/
theorem eraseLoop_spec (k : Nat) :
    ∀ (n : Nat) (s : State), WF0 s → Minimal s → s.globalDepth ≤ n →
      ∃ s1, (∀ fuel rounds, s.globalDepth ≤ rounds →
          GlobalDirectory.eraseLoop (GlobalDirectory.write (fuel + 1)) k rounds
            (hashAt s.globalDepth k) s = some s1) ∧ CollapseSpec s s1 := by
  intro n
  induction n with
  | zero =>
    intro s wf _ hn
    have := wf.depth_pos
    omega
  | succ n ih =>
    intro s wf min hn
    have hpos := wf.depth_pos
    obtain ⟨p, del, hp, hb, ok⟩ := wf.slot_of_key k
    rcases mergeOn_spec wf min hp hb ok with ⟨_, hrun⟩ | ⟨pb, bud, s1, _, _, _, _, _, hrun, msp⟩
    · refine ⟨s, fun fuel rounds hr => ?_, CollapseSpec.same wf min⟩
      obtain ⟨r, rfl⟩ : ∃ r, rounds = r + 1 := ⟨rounds - 1, by omega⟩
      exact eraseLoop_of_merge_false _ k r _ (hrun fuel)
    · by_cases hmin1 : Minimal s1
      · refine ⟨s1, fun fuel rounds hr => ?_,
          ⟨msp.wf, hmin1, msp.initial_eq, msp.initial_heap, by rw [msp.depth_eq], msp.vals⟩⟩
        obtain ⟨r, rfl⟩ : ∃ r, rounds = r + 1 := ⟨rounds - 1, by omega⟩
        exact eraseLoop_of_minimize_false _ k r _ (hrun fuel) (minimize_of_minimal msp.wf hmin1)
      · obtain ⟨s2, hz, zsp⟩ := minimize_spec msp.wf hmin1
        have hmin2 := zsp.minimal_of msp.wf msp.near_minimal hmin1
        have hd2 : s2.globalDepth + 1 = s.globalDepth := by rw [zsp.depth_eq, msp.depth_eq]
        obtain ⟨s3, hrun3, csp⟩ := ih s2 zsp.wf hmin2 (by omega)
        refine ⟨s3, fun fuel rounds hr => ?_, ?_⟩
        · obtain ⟨r, rfl⟩ : ∃ r, rounds = r + 1 := ⟨rounds - 1, by omega⟩
          rw [eraseLoop_of_minimize_true _ k r _ (hrun fuel) hz zsp.wf]
          exact hrun3 fuel r (by omega)
        · refine ⟨csp.wf, csp.minimal, by rw [csp.initial_eq, zsp.initial_eq, msp.initial_eq], ?_,
            by have := csp.depth_le; omega, fun k' => by rw [csp.vals, zsp.vals, msp.vals]⟩
          have h1 := csp.initial_heap
          rw [zsp.initial_eq, msp.initial_eq, zsp.heap_eq] at h1
          rw [h1, msp.initial_heap]

/-- Erasing a key that no valid item of its bucket holds changes nothing. -/
theorem directory_erase_absent {s : State} (wf : WF0 s) (k : Nat) (h : s.keyValues k = []) (fuel : Nat) :
    GlobalDirectory.erase fuel k s = some (false, s) := by
  obtain ⟨p, b, hp, hb, _⟩ := wf.slot_of_key k
  rw [State.keyValues_eq hp hb] at h
  unfold GlobalDirectory.erase
  simp only [wf.entry_ne_nil, Bool.false_eq_true, if_false, wf.hash_eq, hp, hb,
    Bucket.erase_of_absent b k h]

/-- Erasing a key that is present. -/
theorem directory_erase_present {s : State} (wf : WF0 s) (min : Minimal s) (k : Nat)
    (h : s.keyValues k ≠ []) :
    ∃ s1, (∀ fuel, GlobalDirectory.erase (fuel + 8) k s = some (true, s1)) ∧ EraseSpec s s1 k := by
  obtain ⟨p, b, hp, hb, ok⟩ := wf.slot_of_key k
  have hplt : p < s.heap.length := (List.getElem?_eq_some.1 hb).1
  rw [State.keyValues_eq hp hb] at h
  obtain ⟨b1, he, esp⟩ := Bucket.erase_of_present b k ok.ok h
  have wf1 : WF0 (s.store p b1) := by
    apply wf.store_wf hp hb esp.depth_eq esp.ok
    intro x hx hxv
    obtain ⟨h1, h2⟩ := esp.items.mem_valid x hx hxv
    exact ok.place x h1 h2
  have min1 : Minimal (s.store p b1) := min.store_minimal hb esp.depth_eq
  have hg8 : s.globalDepth ≤ 8 := wf.depth_le
  obtain ⟨s1, hrun, csp⟩ := eraseLoop_spec k 8 (s.store p b1) wf1 min1 hg8
  refine ⟨s1, fun fuel => ?_, ?_⟩
  · unfold GlobalDirectory.erase
    simp only [wf.entry_ne_nil, Bool.false_eq_true, if_false, wf.hash_eq, hp, hb, he]
    have := hrun (fuel + 7) (fuel + 8) (by show s.globalDepth ≤ fuel + 8; omega)
    have e : (s.store p b1).globalDepth = s.globalDepth := rfl
    rw [e] at this
    rw [this]
  · refine ⟨csp.wf, csp.minimal, csp.initial_eq, ?_, csp.depth_le, ?_, ?_⟩
    · have := csp.initial_heap
      have e : (s.store p b1).initialFile = s.initialFile := rfl
      rw [e] at this
      rw [this, State.store_heap s p _ b1 hplt, if_neg (fun e => ok.ne_initial e.symm)]
    · intro k' hk'
      rw [csp.vals, State.store_keyValues hb k']
      by_cases e : s.entry[hashAt s.globalDepth k']? = some p
      · rw [if_pos e, State.keyValues_eq e hb, esp.items.vals_other k' hk']
      · rw [if_neg e]
    · rw [csp.vals, State.store_keyValues hb k, if_pos hp, State.keyValues_eq hp hb]
      exact esp.items.vals_key

/-! ## `GlobalDirectory::initialize` -/

theorem initializeDirectory_spec {s : State} (bs : Bootstrap s) {b0 : Bucket}
    (hb0 : s.heap[s.initialFile]? = some b0) (ok0 : BucketOK b0) :
    ∃ s1, (∀ fuel, GlobalDirectory.initializeDirectory (GlobalDirectory.write (fuel + 1))
        s.initialFile s = some (true, s1)) ∧
      WF s1 ∧ s1.globalDepth = 1 ∧ s1.initialFile = s.initialFile ∧
      s1.heap[s.initialFile]? = some b0 ∧ ∀ k, s1.keyValues k = valsOf k b0.items := by
  have hinit : s.initialFile < s.heap.length := (List.getElem?_eq_some.1 hb0).1
  generalize hs0 : ({ s with
      heap := s.heap ++ [Bucket.new 1, Bucket.new 1],
      globalDepth := 1, entry := [s.heap.length, s.heap.length + 1] } : State) = s0
  have hs0h : s0.heap = s.heap ++ [Bucket.new 1, Bucket.new 1] := by rw [← hs0]
  have hs0e : s0.entry = [s.heap.length, s.heap.length + 1] := by rw [← hs0]
  have hs0g : s0.globalDepth = 1 := by rw [← hs0]
  have hs0i : s0.initialFile = s.initialFile := by rw [← hs0]
  have hnd : (Bucket.new 1).localDepth = 1 := rfl
  have hn1 : s0.heap[s.heap.length]? = some (Bucket.new 1) := by
    rw [hs0h]; exact heap_append_fst _ _ _
  have hn2 : s0.heap[s.heap.length + 1]? = some (Bucket.new 1) := by
    rw [hs0h]; exact heap_append_snd _ _ _
  have hb00 : s0.heap[s.initialFile]? = some b0 := by
    rw [hs0h]; exact heap_append_left _ _ hb0
  have hslot : ∀ (x q : Nat), s0.entry[x]? = some q →
      (x = 0 ∧ q = s.heap.length) ∨ (x = 1 ∧ q = s.heap.length + 1) := by
    intro x q hq
    rw [hs0e] at hq
    match x, hq with
    | 0, hq => simp at hq; exact Or.inl ⟨rfl, hq.symm⟩
    | 1, hq => simp at hq; exact Or.inr ⟨rfl, hq.symm⟩
    | x + 2, hq => simp at hq
  have wf0 : WF0 s0 := by
    refine ⟨by rw [hs0g], by rw [hs0g]; unfold MAX_KEY_LENGTH; omega, by rw [hs0e, hs0g]; rfl, ?_,
      ⟨b0, by rw [hs0i]; exact hb00, ok0⟩⟩
    intro x q hq
    have hfresh : SlotOK s0 x q (Bucket.new 1) := by
      refine ⟨by rw [hs0i]; rcases hslot x q hq with ⟨_, e⟩ | ⟨_, e⟩ <;> omega, by rw [hnd],
        by rw [hnd, hs0g], BucketOK.new _, ?_, ?_⟩
      · intro j q' hq'
        rw [hnd, hs0g]
        simp only [Nat.sub_self, Nat.pow_zero, Nat.div_one]
        rcases hslot x q hq with ⟨a1, a2⟩ | ⟨a1, a2⟩ <;>
        rcases hslot j q' hq' with ⟨c1, c2⟩ | ⟨c1, c2⟩ <;> omega
      · intro it hit hv
        rw [Bucket.new_items_invalid _ it hit] at hv
        cases hv
    rcases hslot x q hq with ⟨_, e⟩ | ⟨_, e⟩
    · exact ⟨_, by rw [e]; exact hn1, hfresh⟩
    · exact ⟨_, by rw [e]; exact hn2, hfresh⟩
  have hunref : ∀ j : Nat, s0.entry[j]? ≠ some s.initialFile := by
    intro j hj
    rcases hslot j _ hj with ⟨_, e⟩ | ⟨_, e⟩ <;> omega
  have hfreshB : ∀ (x q : Nat) (b : Bucket), s0.entry[x]? = some q → s0.heap[q]? = some b →
      b = Bucket.new 1 := by
    intro x q b hq hbq
    rcases hslot x q hq with ⟨_, e⟩ | ⟨_, e⟩
    · rw [e, hn1] at hbq; cases hbq; rfl
    · rw [e, hn2] at hbq; cases hbq; rfl
  have hroom : Room s0 b0.items := by
    intro it _ _ q b hq hbq
    have := hfreshB _ q b hq hbq
    subst this
    refine ⟨Bucket.new_compact _, ?_⟩
    rw [Bucket.new_count, Nat.zero_add, ← ok0.count_eq]
    exact ok0.count_le
  obtain ⟨s1, hrun, sp⟩ := reHashItems_spec s.initialFile b0 s0 wf0 hb00 hunref ok0.items_length hroom
  refine ⟨s1, fun fuel => ?_, ⟨sp.wf, Or.inl (by rw [sp.depth_eq, hs0g])⟩,
    by rw [sp.depth_eq, hs0g], by rw [sp.initial_eq, hs0i], ?_, ?_⟩
  · unfold GlobalDirectory.initializeDirectory
    simp only [bs.entry_nil, List.isEmpty_nil, Bool.not_true, Bool.false_eq_true, if_false]
    have := hrun fuel
    rw [← hs0] at this
    exact this
  · rw [sp.untouched _ hunref]; exact hb00
  · intro k
    rw [sp.vals k]
    obtain ⟨q, b, hq, hbq, _⟩ := wf0.slot_of_key k
    rw [State.keyValues_eq hq hbq, hfreshB _ q b hq hbq, Bucket.new_vals, List.nil_append]

/-! ## The facade -/

theorem WF.depth_ne_zero {s : State} (wf : WF s) : s.globalDepth ≠ 0 := by
  have := wf.wf0.depth_pos; omega

theorem MemoryManager.keyValues_of_wf {s : State} (wf : WF s) (k : Nat) :
    MemoryManager.keyValues s k = s.keyValues k := by
  unfold MemoryManager.keyValues
  rw [if_neg wf.depth_ne_zero]

theorem MemoryManager.keyValues_of_bootstrap {s : State} (bs : Bootstrap s) {b0 : Bucket}
    (hb0 : s.heap[s.initialFile]? = some b0) (k : Nat) :
    MemoryManager.keyValues s k = valsOf k b0.items := by
  unfold MemoryManager.keyValues
  rw [if_pos bs.depth_zero, hb0]

/-- The facade's lookup returns the first of the values it can see. -/
theorem Inv.facade_find_eq {s : State} (inv : Inv s) (k : Nat) :
    MemoryManager.find s k = some (MemoryManager.keyValues s k).head? := by
  rcases inv with bs | wf
  · obtain ⟨b0, hb0, _⟩ := bs.initial
    rw [MemoryManager.keyValues_of_bootstrap bs hb0]
    unfold MemoryManager.find
    simp only [bs.depth_zero, beq_self_eq_true, if_true, hb0, Bucket.find_eq_head]
  · rw [MemoryManager.keyValues_of_wf wf]
    unfold MemoryManager.find
    have : (s.globalDepth == 0) = false := by simpa using wf.depth_ne_zero
    simp only [this, Bool.false_eq_true, if_false]
    exact wf.wf0.directory_find_eq k

theorem Bootstrap.store_bootstrap {s : State} (bs : Bootstrap s) {b0 b1 : Bucket}
    (hb0 : s.heap[s.initialFile]? = some b0) (ok1 : BucketOK b1) :
    Bootstrap (s.store s.initialFile b1) := by
  have hlt : s.initialFile < s.heap.length := (List.getElem?_eq_some.1 hb0).1
  refine ⟨bs.depth_zero, bs.entry_nil, b1, ?_, ok1⟩
  show (s.store s.initialFile b1).heap[s.initialFile]? = some b1
  rw [State.store_heap s _ _ b1 hlt, if_pos rfl]

theorem MemoryManager.facade_write_spec {s : State} (inv : Inv s) (k : Nat) (v : Int) :
    ∃ ok s1, (∀ fuel, MemoryManager.write (fuel + 2) k v s = some (ok, s1)) ∧
      FacadeWriteSpec s s1 k v ok := by
  rcases inv with bs | wf
  · obtain ⟨b0, hb0, ok0⟩ := bs.initial
    have hlt : s.initialFile < s.heap.length := (List.getElem?_eq_some.1 hb0).1
    have hkv := MemoryManager.keyValues_of_bootstrap bs hb0
    by_cases hfull : b0.validEntryCount = BUCKET_CAPACITY
    · -- the bootstrap bucket is full: the directory is created
      obtain ⟨s1, hinit, wf1, hd1, hi1, hh1, hv1⟩ := initializeDirectory_spec bs hb0 ok0
      obtain ⟨r, s2, hrun, w⟩ := directory_write_spec wf1.wf0 k v
      have wf2 : WF s2 := ⟨w.wf, w.minimal wf1.minimal⟩
      refine ⟨r, s2, fun fuel => ?_, ?_⟩
      · unfold MemoryManager.write
        simp only [bs.depth_zero, beq_self_eq_true, if_true, hb0, Bucket.write_of_full b0 k v hfull,
          hinit (fuel + 1)]
        exact hrun fuel
      · refine ⟨Or.inr wf2, by rw [w.initial_eq, hi1], by rw [bs.depth_zero]; exact Nat.zero_le _,
          ?_, ?_, ?_, ?_⟩
        · intro k' hk'
          rw [MemoryManager.keyValues_of_wf wf2, hkv, w.vals_other k' hk', hv1]
        · intro hok
          rw [MemoryManager.keyValues_of_wf wf2, hkv, ← hv1]
          exact w.vals_ok hok
        · intro hok
          rw [MemoryManager.keyValues_of_wf wf2, hkv, w.vals_fail hok, hv1]
        · intro hok
          exact ⟨wf2, w.full_fail hok⟩
    · -- the bootstrap bucket takes the item
      obtain ⟨b1, hw, wsp⟩ := Bucket.write_of_room b0 k v ok0 hfull
      have bs1 := bs.store_bootstrap hb0 wsp.ok
      have hb1 : (s.store s.initialFile b1).heap[(s.store s.initialFile b1).initialFile]? = some b1 := by
        show (s.store s.initialFile b1).heap[s.initialFile]? = some b1
        rw [State.store_heap s _ _ b1 hlt, if_pos rfl]
      have hkv1 := MemoryManager.keyValues_of_bootstrap bs1 hb1
      refine ⟨true, s.store s.initialFile b1, fun fuel => ?_, ?_⟩
      · unfold MemoryManager.write
        simp only [bs.depth_zero, beq_self_eq_true, if_true, hb0, hw]
      · refine ⟨Or.inl bs1, rfl, Nat.le_refl _, ?_, ?_, ?_, ?_⟩
        · intro k' hk'
          rw [hkv1, hkv, wsp.items.vals_other k' hk']
        · intro _
          rw [hkv1, hkv]
          exact wsp.items.vals_key
        · intro h; cases h
        · intro h; cases h
  · obtain ⟨r, s1, hrun, w⟩ := directory_write_spec wf.wf0 k v
    have wf1 : WF s1 := ⟨w.wf, w.minimal wf.minimal⟩
    have hne : (s.globalDepth == 0) = false := by simpa using wf.depth_ne_zero
    refine ⟨r, s1, fun fuel => ?_, ?_⟩
    · unfold MemoryManager.write
      simp only [hne, Bool.false_eq_true, if_false]
      exact hrun fuel
    · refine ⟨Or.inr wf1, w.initial_eq, w.depth_ge, ?_, ?_, ?_, ?_⟩
      · intro k' hk'
        rw [MemoryManager.keyValues_of_wf wf1, MemoryManager.keyValues_of_wf wf, w.vals_other k' hk']
      · intro hok
        rw [MemoryManager.keyValues_of_wf wf1, MemoryManager.keyValues_of_wf wf]
        exact w.vals_ok hok
      · intro hok
        rw [MemoryManager.keyValues_of_wf wf1, MemoryManager.keyValues_of_wf wf, w.vals_fail hok]
      · intro hok
        exact ⟨wf1, w.full_fail hok⟩

theorem MemoryManager.facade_erase_absent {s : State} (inv : Inv s) (k : Nat)
    (h : MemoryManager.keyValues s k = []) (fuel : Nat) :
    MemoryManager.erase fuel k s = some (false, s) := by
  rcases inv with bs | wf
  · obtain ⟨b0, hb0, _⟩ := bs.initial
    rw [MemoryManager.keyValues_of_bootstrap bs hb0] at h
    unfold MemoryManager.erase
    simp only [bs.depth_zero, beq_self_eq_true, if_true, hb0, Bucket.erase_of_absent b0 k h]
  · rw [MemoryManager.keyValues_of_wf wf] at h
    have hne : (s.globalDepth == 0) = false := by simpa using wf.depth_ne_zero
    unfold MemoryManager.erase
    simp only [hne, Bool.false_eq_true, if_false]
    exact directory_erase_absent wf.wf0 k h fuel

theorem MemoryManager.facade_erase_present {s : State} (inv : Inv s) (k : Nat)
    (h : MemoryManager.keyValues s k ≠ []) :
    ∃ s1, (∀ fuel, MemoryManager.erase (fuel + 8) k s = some (true, s1)) ∧
      FacadeEraseSpec s s1 k := by
  rcases inv with bs | wf
  · obtain ⟨b0, hb0, ok0⟩ := bs.initial
    have hlt : s.initialFile < s.heap.length := (List.getElem?_eq_some.1 hb0).1
    have hkv := MemoryManager.keyValues_of_bootstrap bs hb0
    rw [hkv] at h
    obtain ⟨b1, he, esp⟩ := Bucket.erase_of_present b0 k ok0 h
    have bs1 := bs.store_bootstrap hb0 esp.ok
    have hb1 : (s.store s.initialFile b1).heap[(s.store s.initialFile b1).initialFile]? = some b1 := by
      show (s.store s.initialFile b1).heap[s.initialFile]? = some b1
      rw [State.store_heap s _ _ b1 hlt, if_pos rfl]
    have hkv1 := MemoryManager.keyValues_of_bootstrap bs1 hb1
    refine ⟨s.store s.initialFile b1, fun fuel => ?_, ?_⟩
    · unfold MemoryManager.erase
      simp only [bs.depth_zero, beq_self_eq_true, if_true, hb0, he]
    · refine ⟨Or.inl bs1, rfl, Nat.le_refl _, ?_, ?_⟩
      · intro k' hk'
        rw [hkv1, hkv, esp.items.vals_other k' hk']
      · rw [hkv1, hkv]
        exact esp.items.vals_key
  · rw [MemoryManager.keyValues_of_wf wf] at h
    obtain ⟨s1, hrun, esp⟩ := directory_erase_present wf.wf0 wf.minimal k h
    have wf1 : WF s1 := ⟨esp.wf, esp.minimal⟩
    have hne : (s.globalDepth == 0) = false := by simpa using wf.depth_ne_zero
    refine ⟨s1, fun fuel => ?_, ?_⟩
    · unfold MemoryManager.erase
      simp only [hne, Bool.false_eq_true, if_false]
      exact hrun fuel
    · refine ⟨Or.inr wf1, esp.initial_eq, esp.depth_le, ?_, ?_⟩
      · intro k' hk'
        rw [MemoryManager.keyValues_of_wf wf1, MemoryManager.keyValues_of_wf wf, esp.vals_other k' hk']
      · rw [MemoryManager.keyValues_of_wf wf1, MemoryManager.keyValues_of_wf wf, esp.vals_key]

/-! ## Reachable states satisfy the invariant -/

theorem Bootstrap.fresh : Bootstrap State.fresh :=
  ⟨rfl, rfl, Bucket.new 0, rfl, BucketOK.new 0⟩

/-- With fuel from 8 on, a facade write is the one described by its
specification. -/
theorem MemoryManager.write_run {s : State} (inv : Inv s) (k : Nat) (v : Int) (fuel : Nat)
    (hf : 8 ≤ fuel) :
    ∃ ok s1, MemoryManager.write fuel k v s = some (ok, s1) ∧ FacadeWriteSpec s s1 k v ok := by
  obtain ⟨ok, s1, hrun, sp⟩ := MemoryManager.facade_write_spec inv k v
  refine ⟨ok, s1, ?_, sp⟩
  have := hrun (fuel - 2)
  rw [Nat.sub_add_cancel (by omega)] at this
  exact this

theorem MemoryManager.erase_run {s : State} (inv : Inv s) (k : Nat) (fuel : Nat) (hf : 8 ≤ fuel) :
    (MemoryManager.keyValues s k = [] ∧ MemoryManager.erase fuel k s = some (false, s)) ∨
    (MemoryManager.keyValues s k ≠ [] ∧
      ∃ s1, MemoryManager.erase fuel k s = some (true, s1) ∧ FacadeEraseSpec s s1 k) := by
  by_cases h : MemoryManager.keyValues s k = []
  · exact Or.inl ⟨h, MemoryManager.facade_erase_absent inv k h fuel⟩
  · obtain ⟨s1, hrun, sp⟩ := MemoryManager.facade_erase_present inv k h
    refine Or.inr ⟨h, s1, ?_, sp⟩
    have := hrun (fuel - 8)
    rw [Nat.sub_add_cancel hf] at this
    exact this

theorem Reachable.inv {s : State} (hs : Reachable s) : Inv s := by
  induction hs with
  | fresh => exact Or.inl Bootstrap.fresh
  | write fuel key data ok _ hf hw ih =>
    obtain ⟨ok', s1', hrun, sp⟩ := MemoryManager.write_run ih key data fuel hf
    rw [hw] at hrun
    cases hrun
    exact sp.inv
  | erase fuel key ok _ hf he ih =>
    rcases MemoryManager.erase_run ih key fuel hf with ⟨_, hrun⟩ | ⟨_, s1', hrun, sp⟩
    · rw [he] at hrun
      cases hrun
      exact ih
    · rw [he] at hrun
      cases hrun
      exact sp.inv

/-! ## Runs of calls, and the concrete states -/

theorem Reachable.run {fuel : Nat} (hf : 8 ≤ fuel) :
    ∀ (calls : List Call) {s s1 : State}, Reachable s → MemoryManager.run fuel calls s = some s1 →
      Reachable s1 := by
  intro calls
  induction calls with
  | nil =>
    intro s s1 hs h
    simp only [MemoryManager.run, Option.some.injEq] at h
    rw [← h]; exact hs
  | cons c rest ih =>
    intro s s1 hs h
    cases c with
    | write key data =>
      rw [MemoryManager.run] at h
      cases hw : MemoryManager.write fuel key data s with
      | none => rw [hw] at h; cases h
      | some r =>
        obtain ⟨ok, s2⟩ := r
        rw [hw] at h
        exact ih (Reachable.write fuel key data ok hs hf hw) h
    | erase key =>
      rw [MemoryManager.run] at h
      cases hw : MemoryManager.erase fuel key s with
      | none => rw [hw] at h; cases h
      | some r =>
        obtain ⟨ok, s2⟩ := r
        rw [hw] at h
        exact ih (Reachable.erase fuel key ok hs hf hw) h

theorem threeKeys_reachable : Reachable threeKeys :=
  Reachable.run (Nat.le_refl 8) [Call.write 1 20, Call.write 2 70, Call.write 42 11]
    Reachable.fresh (by decide)

theorem twoLowKeys_reachable : Reachable twoLowKeys :=
  Reachable.run (Nat.le_refl 8) [Call.write 0 1, Call.write 1 2] Reachable.fresh (by decide)

theorem duplicateKey_reachable : Reachable duplicateKey :=
  Reachable.run (Nat.le_refl 8) [Call.write 13 33, Call.write 13 88] Reachable.fresh (by decide)

set_option maxRecDepth 1000000 in
theorem maxDepth_run : MemoryManager.run 8 maxDepthCalls State.fresh = some maxDepth := by
  decide

theorem maxDepth_reachable : Reachable maxDepth :=
  Reachable.run (Nat.le_refl 8) maxDepthCalls Reachable.fresh maxDepth_run

set_option maxRecDepth 1000000 in
theorem maxDepth_depth : maxDepth.globalDepth = 8 := by decide

theorem Reachable.wf {s : State} (hs : Reachable s) (h : s.globalDepth ≠ 0) : WF s := by
  rcases hs.inv with bs | wf
  · exact absurd bs.depth_zero h
  · exact wf

/-! ## Counting the slots that hold a key -/

theorem sum_map_zero (f : Nat → Nat) : ∀ l : List Nat, (∀ x ∈ l, f x = 0) → (l.map f).sum = 0 := by
  intro l
  induction l with
  | nil => intro _; rfl
  | cons x rest ih =>
    intro h
    rw [List.map_cons, List.sum_cons, h x (List.mem_cons_self _ _),
      ih (fun y hy => h y (List.mem_cons_of_mem _ hy))]

theorem sum_map_single (f : Nat → Nat) (a : Nat) :
    ∀ l : List Nat, l.Nodup → a ∈ l → (∀ x ∈ l, x ≠ a → f x = 0) → (l.map f).sum = f a := by
  intro l
  induction l with
  | nil => intro _ h; cases h
  | cons x rest ih =>
    intro hnd hmem hz
    rw [List.nodup_cons] at hnd
    rw [List.map_cons, List.sum_cons]
    by_cases e : x = a
    · subst e
      rw [sum_map_zero f rest, Nat.add_zero]
      intro y hy
      exact hz y (List.mem_cons_of_mem _ hy) (fun e => hnd.1 (e ▸ hy))
    · have hmem' : a ∈ rest := by
        rcases List.mem_cons.1 hmem with h | h
        · exact absurd h.symm e
        · exact h
      rw [hz x (List.mem_cons_self _ _) e, Nat.zero_add]
      exact ih hnd.2 hmem' (fun y hy => hz y (List.mem_cons_of_mem _ hy))

/-- The valid slots that hold a key are all in the bucket a lookup consults. -/
theorem Inv.holders_eq {s : State} (inv : Inv s) (k : Nat) :
    MemoryManager.holders s k = (MemoryManager.keyValues s k).length := by
  rcases inv with bs | wf
  · obtain ⟨b0, hb0, _⟩ := bs.initial
    rw [MemoryManager.keyValues_of_bootstrap bs hb0]
    unfold MemoryManager.holders
    rw [if_pos bs.depth_zero, hb0]
  · rw [MemoryManager.keyValues_of_wf wf]
    unfold MemoryManager.holders
    rw [if_neg wf.depth_ne_zero]
    obtain ⟨p0, b0, hp0, hb0, _⟩ := wf.wf0.slot_of_key k
    rw [State.keyValues_eq hp0 hb0]
    rw [sum_map_single _ p0 _ (List.nodup_dedup _) (List.mem_dedup.2 (List.getElem?_mem hp0))]
    · simp only [hb0]
    · intro x hx hne
      obtain ⟨j, hj⟩ := List.mem_iff_getElem?.1 (List.mem_dedup.1 hx)
      obtain ⟨bq, hbq, okq⟩ := wf.wf0.slots j x hj
      simp only [hbq]
      rw [List.length_eq_zero, valsOf_eq_nil_iff]
      intro it hit hv hk
      apply hne
      have hpl := okq.place it hit hv
      rw [hk, ← hashAt_div _ _ k okq.depth_le wf.wf0.depth_le] at hpl
      have := wf.wf0.block_entry hj okq hpl
      rw [hp0] at this
      cases this
      rfl

/-! ## Writing at the addressing limit -/

theorem extend_at_limit (w : Nat → Int → State → Outcome) {s : State} {h p : Nat} {b : Bucket}
    (hp : s.entry[h]? = some p) (hb : s.heap[p]? = some b) (hld : b.localDepth = s.globalDepth)
    (hmax : s.globalDepth = MAX_KEY_LENGTH) : GlobalDirectory.extend w h s = some (false, s) := by
  unfold GlobalDirectory.extend
  have h1 : ¬ b.localDepth < s.globalDepth := by omega
  have h2 : s.globalDepth ≥ MAX_KEY_LENGTH := by omega
  simp only [hp, hb, if_neg h1, if_pos h2]

theorem writeRetry_at_limit (w : Nat → Int → State → Outcome) {s : State} (wf : WF0 s) (k : Nat)
    (v : Int) {p : Nat} {b : Bucket} (hp : s.entry[hashAt s.globalDepth k]? = some p)
    (hb : s.heap[p]? = some b) (hld : b.localDepth = s.globalDepth)
    (hmax : s.globalDepth = MAX_KEY_LENGTH) :
    ∀ n, GlobalDirectory.writeRetry (GlobalDirectory.extend w) k v n (hashAt s.globalDepth k) s
      = some (false, s) := by
  intro n
  induction n with
  | zero => rfl
  | succ n ih =>
    rw [writeRetry_of_ext_false _ k v n _ (extend_at_limit w hp hb hld hmax) wf]
    exact ih

/-! ## The contract of the index -/

theorem head?_eq_none_iff_nil {l : List Int} : l.head? = none ↔ l = [] := by
  cases l <;> simp

theorem Inv.absent_iff {s : State} (inv : Inv s) (k : Nat) :
    MemoryManager.find s k = some none ↔ MemoryManager.keyValues s k = [] := by
  rw [inv.facade_find_eq k, Option.some.injEq, head?_eq_none_iff_nil]

/-- C1 (round trip through the facade). In every reachable state, for every key
that is not stored (the lookup is empty) and every value, the write returns; if
it returns `true`, the lookup afterwards gives the value written. This covers a
write that lands in the bootstrap bucket, one that creates the directory, and one
that splits or doubles any number of times. -/
theorem C1_round_trip {s : State} (hs : Reachable s) (k : Nat) (v : Int)
    (habsent : MemoryManager.find s k = some none) (fuel : Nat) (hf : 8 ≤ fuel) :
    ∃ ok s1, MemoryManager.write fuel k v s = some (ok, s1) ∧
      (ok = true → MemoryManager.find s1 k = some (some v)) := by
  have inv := hs.inv
  obtain ⟨ok, s1, hrun, sp⟩ := MemoryManager.write_run inv k v fuel hf
  refine ⟨ok, s1, hrun, fun hok => ?_⟩
  obtain ⟨l1, l2, h1, h2⟩ := sp.vals_ok hok
  rw [(inv.absent_iff k).1 habsent] at h1
  have e1 : l1 = [] := (List.append_eq_nil.1 h1.symm).1
  have e2 : l2 = [] := (List.append_eq_nil.1 h1.symm).2
  rw [sp.inv.facade_find_eq k, h2, e1, e2]
  rfl

set_option maxRecDepth 1000000 in
theorem C1_round_trip_witness :
    Reachable threeKeys ∧ MemoryManager.find threeKeys 3 = some none ∧ 8 ≤ 8 ∧
      (MemoryManager.write 8 3 9 threeKeys).map Prod.fst = some true ∧
      ∃ ok s1, MemoryManager.write 8 3 9 threeKeys = some (ok, s1) ∧
        (ok = true → MemoryManager.find s1 3 = some (some 9)) :=
  ⟨threeKeys_reachable, by decide, by decide, by decide,
    C1_round_trip threeKeys_reachable 3 9 (by decide) 8 (by decide)⟩

/-- C2 (erase effect). In every reachable state, if exactly one valid slot holds
the key, the erase returns `true` and the lookup afterwards is empty; if two or
more valid slots hold it, the erase still returns `true` and the lookup
afterwards gives the value of the next slot that holds the key. -/
theorem C2_erase_effect {s : State} (hs : Reachable s) (k : Nat) (fuel : Nat) (hf : 8 ≤ fuel) :
    (MemoryManager.holders s k = 1 →
      ∃ s1, MemoryManager.erase fuel k s = some (true, s1) ∧
        MemoryManager.find s1 k = some none) ∧
    (2 ≤ MemoryManager.holders s k →
      ∃ s1 a b rest, MemoryManager.keyValues s k = a :: b :: rest ∧
        MemoryManager.erase fuel k s = some (true, s1) ∧
        MemoryManager.find s1 k = some (some b)) := by
  have inv := hs.inv
  rw [inv.holders_eq k]
  constructor
  · intro h1
    rcases MemoryManager.erase_run inv k fuel hf with ⟨h0, _⟩ | ⟨_, s1, hrun, sp⟩
    · rw [h0] at h1; cases h1
    · refine ⟨s1, hrun, ?_⟩
      rw [sp.inv.facade_find_eq k, sp.vals_key]
      match hkv : MemoryManager.keyValues s k, h1 with
      | [a], _ => rfl
  · intro h2
    rcases MemoryManager.erase_run inv k fuel hf with ⟨h0, _⟩ | ⟨_, s1, hrun, sp⟩
    · rw [h0] at h2; simp at h2
    · match hkv : MemoryManager.keyValues s k, h2 with
      | a :: b :: rest, _ =>
        refine ⟨s1, a, b, rest, rfl, hrun, ?_⟩
        rw [sp.inv.facade_find_eq k, sp.vals_key, hkv]
        rfl

theorem C2_erase_effect_witness :
    (Reachable threeKeys ∧ 8 ≤ 8 ∧ MemoryManager.holders threeKeys 42 = 1 ∧
      ∃ s1, MemoryManager.erase 8 42 threeKeys = some (true, s1) ∧
        MemoryManager.find s1 42 = some none) ∧
    (Reachable duplicateKey ∧ 8 ≤ 8 ∧ 2 ≤ MemoryManager.holders duplicateKey 13 ∧
      ∃ s1 a b rest, MemoryManager.keyValues duplicateKey 13 = a :: b :: rest ∧
        MemoryManager.erase 8 13 duplicateKey = some (true, s1) ∧
        MemoryManager.find s1 13 = some (some b)) :=
  ⟨⟨threeKeys_reachable, by decide, by decide,
      (C2_erase_effect threeKeys_reachable 42 8 (by decide)).1 (by decide)⟩,
    ⟨duplicateKey_reachable, by decide, by decide,
      (C2_erase_effect duplicateKey_reachable 13 8 (by decide)).2 (by decide)⟩⟩

/-- C3 (erasing an absent key is a no-op). In every reachable state, in bootstrap
mode or in directory mode, for every key whose lookup is empty the erase returns
`false` and the state after it is the state before it: same bucket store, same
global depth, same directory. -/
theorem C3_erase_absent {s : State} (hs : Reachable s) (k : Nat)
    (habsent : MemoryManager.find s k = some none) (fuel : Nat) :
    MemoryManager.erase fuel k s = some (false, s) :=
  MemoryManager.facade_erase_absent hs.inv k ((hs.inv.absent_iff k).1 habsent) fuel

theorem C3_erase_absent_witness :
    Reachable threeKeys ∧ MemoryManager.find threeKeys 7 = some none ∧
      MemoryManager.erase 8 7 threeKeys = some (false, threeKeys) :=
  ⟨threeKeys_reachable, by decide, C3_erase_absent threeKeys_reachable 7 (by decide) 8⟩

/-- C4 (a write never loses or alters other keys). In every reachable state, for
every key and value written and every other key, the write returns and the lookup
of the other key gives afterwards what it gave before, whether the write returned
`true` or `false` and whatever splits, doublings or creation of the directory it
performed. -/
theorem C4_write_frame {s : State} (hs : Reachable s) (k : Nat) (v : Int) (k' : Nat)
    (hne : k' ≠ k) (fuel : Nat) (hf : 8 ≤ fuel) :
    ∃ ok s1, MemoryManager.write fuel k v s = some (ok, s1) ∧
      MemoryManager.find s1 k' = MemoryManager.find s k' := by
  have inv := hs.inv
  obtain ⟨ok, s1, hrun, sp⟩ := MemoryManager.write_run inv k v fuel hf
  refine ⟨ok, s1, hrun, ?_⟩
  rw [sp.inv.facade_find_eq k', inv.facade_find_eq k', sp.vals_other k' hne]

theorem C4_write_frame_witness :
    Reachable threeKeys ∧ (42 : Nat) ≠ 3 ∧ 8 ≤ 8 ∧
      ∃ ok s1, MemoryManager.write 8 3 9 threeKeys = some (ok, s1) ∧
        MemoryManager.find s1 42 = MemoryManager.find threeKeys 42 :=
  ⟨threeKeys_reachable, by decide, by decide,
    C4_write_frame threeKeys_reachable 3 9 42 (by decide) 8 (by decide)⟩

/-- C5 (an erase never loses or alters other keys). In every reachable state, for
every key erased and every other key, the erase returns and the lookup of the
other key gives afterwards what it gave before, also when the erase merges
buddies and halves the directory. -/
theorem C5_erase_frame {s : State} (hs : Reachable s) (k k' : Nat) (hne : k' ≠ k) (fuel : Nat)
    (hf : 8 ≤ fuel) :
    ∃ ok s1, MemoryManager.erase fuel k s = some (ok, s1) ∧
      MemoryManager.find s1 k' = MemoryManager.find s k' := by
  have inv := hs.inv
  rcases MemoryManager.erase_run inv k fuel hf with ⟨_, hrun⟩ | ⟨_, s1, hrun, sp⟩
  · exact ⟨false, s, hrun, rfl⟩
  · refine ⟨true, s1, hrun, ?_⟩
    rw [sp.inv.facade_find_eq k', inv.facade_find_eq k', sp.vals_other k' hne]

theorem C5_erase_frame_witness :
    Reachable threeKeys ∧ (1 : Nat) ≠ 42 ∧ 8 ≤ 8 ∧
      ∃ ok s1, MemoryManager.erase 8 42 threeKeys = some (ok, s1) ∧
        MemoryManager.find s1 1 = MemoryManager.find threeKeys 1 :=
  ⟨threeKeys_reachable, by decide, by decide,
    C5_erase_frame threeKeys_reachable 42 1 (by decide) 8 (by decide)⟩

/-- C6, refuted as stated. After `write(0, 1)` and `write(1, 2)` on a fresh index,
`write(2, 3)` returns `false` although the global depth it leaves is 6, not
`MAX_KEY_LENGTH`: the keys 0, 1 and 2 agree on their top 6 bits, and the five
retries of `write` raise the depth from 1 to 6 only. -/
theorem C6_counterexample :
    Reachable twoLowKeys ∧
      ∃ s1, MemoryManager.write 8 2 3 twoLowKeys = some (false, s1) ∧
        s1.globalDepth = 6 ∧ s1.globalDepth ≠ MAX_KEY_LENGTH := by
  refine ⟨twoLowKeys_reachable, ?_⟩
  have h : (MemoryManager.write 8 2 3 twoLowKeys).map (fun r => (r.1, r.2.globalDepth))
      = some (false, 6) := by decide
  cases hw : MemoryManager.write 8 2 3 twoLowKeys with
  | none => rw [hw] at h; cases h
  | some r =>
    obtain ⟨ok, s1⟩ := r
    rw [hw] at h
    simp only [Option.map_some', Option.some.injEq, Prod.mk.injEq] at h
    obtain ⟨h1, h2⟩ := h
    subst h1
    exact ⟨s1, rfl, h2, by rw [h2]; decide⟩

/-- C6, amended. In every reachable state the write returns; if it returns
`false`, the directory exists in the state it leaves and the bucket addressed
there by `hash(key)` is full. (The global depth need not be `MAX_KEY_LENGTH`.) -/
theorem C6_rejected_write_full {s : State} (hs : Reachable s) (k : Nat) (v : Int) (fuel : Nat)
    (hf : 8 ≤ fuel) :
    ∃ ok s1, MemoryManager.write fuel k v s = some (ok, s1) ∧
      (ok = false → s1.globalDepth ≠ 0 ∧
        ∃ index b, GlobalDirectory.hash s1 k = some index ∧ s1.bucketAt index = some b ∧
          b.validEntryCount = BUCKET_CAPACITY) := by
  obtain ⟨ok, s1, hrun, sp⟩ := MemoryManager.write_run hs.inv k v fuel hf
  refine ⟨ok, s1, hrun, fun hok => ?_⟩
  obtain ⟨wf1, p, b, hp, hb, hfull⟩ := sp.full_fail hok
  exact ⟨wf1.depth_ne_zero, _, b, wf1.wf0.hash_eq k, State.bucketAt_eq hp hb, hfull⟩

theorem C6_rejected_write_full_witness :
    Reachable twoLowKeys ∧ 8 ≤ 8 ∧
      (MemoryManager.write 8 2 3 twoLowKeys).map Prod.fst = some false ∧
      ∃ ok s1, MemoryManager.write 8 2 3 twoLowKeys = some (ok, s1) ∧
        (ok = false → s1.globalDepth ≠ 0 ∧
          ∃ index b, GlobalDirectory.hash s1 2 = some index ∧ s1.bucketAt index = some b ∧
            b.validEntryCount = BUCKET_CAPACITY) :=
  ⟨twoLowKeys_reachable, by decide, by decide,
    C6_rejected_write_full twoLowKeys_reachable 2 3 8 (by decide)⟩

/-- C7 (a write at the maximum depth is rejected atomically). On a well-formed
directory whose global depth is `MAX_KEY_LENGTH`, if the bucket addressed by
`hash(key)` is full and has the global depth as its local depth, the directory's
write returns `false` and the state after it is the state before it. -/
theorem C7_write_at_max_depth {s : State} (wf : WF0 s) (hmax : s.globalDepth = MAX_KEY_LENGTH)
    (k : Nat) (v : Int) {index : Nat} {b : Bucket} (hh : GlobalDirectory.hash s k = some index)
    (hb : s.bucketAt index = some b) (hfull : b.validEntryCount = BUCKET_CAPACITY)
    (hld : b.localDepth = s.globalDepth) (fuel : Nat) (hf : 1 ≤ fuel) :
    GlobalDirectory.write fuel k v s = some (false, s) := by
  rw [wf.hash_eq k, Option.some.injEq] at hh
  subst hh
  obtain ⟨p, b', hp, hb', _⟩ := wf.slot_of_key k
  rw [State.bucketAt_eq hp hb', Option.some.injEq] at hb
  subst hb
  obtain ⟨f, rfl⟩ : ∃ f, fuel = f + 1 := ⟨fuel - 1, by omega⟩
  rw [GlobalDirectory.write]
  simp only [wf.entry_ne_nil, Bool.false_eq_true, if_false, wf.hash_eq,
    bucketWrite_of_full k v hp hb' hfull]
  exact writeRetry_at_limit _ wf k v hp hb' hld hmax _

set_option maxRecDepth 1000000 in
theorem C7_write_at_max_depth_witness :
    WF0 maxDepth ∧ maxDepth.globalDepth = MAX_KEY_LENGTH ∧
      GlobalDirectory.hash maxDepth 0 = some 0 ∧
      maxDepth.bucketAt 0 = some ⟨8, 2, [⟨true, 1, 0⟩, ⟨true, 2, 0⟩]⟩ ∧
      GlobalDirectory.write 1 0 3 maxDepth = some (false, maxDepth) :=
  ⟨(maxDepth_reachable.wf (by decide)).wf0, by decide, by decide, by decide,
    C7_write_at_max_depth (maxDepth_reachable.wf (by decide)).wf0 (by decide) 0 3
      (by decide : GlobalDirectory.hash maxDepth 0 = some 0)
      (by decide : maxDepth.bucketAt 0 = some ⟨8, 2, [⟨true, 1, 0⟩, ⟨true, 2, 0⟩]⟩)
      (by decide) (by decide) 1 (by decide)⟩

/-- C8 (directory size invariant). In every reachable state in which the
directory is initialized, the directory has exactly `2 ^ globalDepth` slots and
every slot points to a bucket whose local depth is at most the global depth. -/
theorem C8_directory_size {s : State} (hs : Reachable s) (hinit : s.globalDepth ≠ 0) :
    s.entry.length = 2 ^ s.globalDepth ∧
      ∀ (i p : Nat), s.entry[i]? = some p →
        ∃ b : Bucket, s.heap[p]? = some b ∧ b.localDepth ≤ s.globalDepth := by
  have wf := hs.wf hinit
  refine ⟨wf.wf0.length_eq, fun i p hp => ?_⟩
  obtain ⟨b, hb, ok⟩ := wf.wf0.slots i p hp
  exact ⟨b, hb, ok.depth_le⟩

theorem C8_directory_size_witness :
    Reachable threeKeys ∧ threeKeys.globalDepth ≠ 0 ∧
      threeKeys.entry.length = 2 ^ threeKeys.globalDepth ∧
      ∀ (i p : Nat), threeKeys.entry[i]? = some p →
        ∃ b : Bucket, threeKeys.heap[p]? = some b ∧ b.localDepth ≤ threeKeys.globalDepth :=
  ⟨threeKeys_reachable, by decide, C8_directory_size threeKeys_reachable (by decide)⟩

/-- C9 (alias-block invariant). In every reachable state with an initialized
directory, for every bucket a slot points to, the slots that point to it are
exactly one contiguous block of `2 ^ (globalDepth - localDepth)` slots, and the
first slot of the block is a multiple of the block size. -/
theorem C9_alias_block {s : State} (hs : Reachable s) (hinit : s.globalDepth ≠ 0) :
    ∀ (i p : Nat) (b : Bucket), s.entry[i]? = some p → s.heap[p]? = some b →
      ∃ start, 2 ^ (s.globalDepth - b.localDepth) ∣ start ∧
        ∀ j : Nat, s.entry[j]? = some p ↔
          start ≤ j ∧ j < start + 2 ^ (s.globalDepth - b.localDepth) := by
  have wf := hs.wf hinit
  intro i p b hp hb
  obtain ⟨b', hb', ok⟩ := wf.wf0.slots i p hp
  rw [hb, Option.some.injEq] at hb'
  subst hb'
  have hsp := two_pow_pos (s.globalDepth - b.localDepth)
  refine ⟨i / 2 ^ (s.globalDepth - b.localDepth) * 2 ^ (s.globalDepth - b.localDepth),
    Dvd.intro_left _ rfl, fun j => ?_⟩
  rw [← div_eq_iff_bounds j _ _ hsp]
  exact ⟨fun hj => ok.same_block hj, fun hj => wf.wf0.block_entry hp ok hj⟩

theorem C9_alias_block_witness :
    Reachable threeKeys ∧ threeKeys.globalDepth ≠ 0 ∧
      ∀ (i p : Nat) (b : Bucket), threeKeys.entry[i]? = some p → threeKeys.heap[p]? = some b →
        ∃ start, 2 ^ (threeKeys.globalDepth - b.localDepth) ∣ start ∧
          ∀ j : Nat, threeKeys.entry[j]? = some p ↔
            start ≤ j ∧ j < start + 2 ^ (threeKeys.globalDepth - b.localDepth) :=
  ⟨threeKeys_reachable, by decide, C9_alias_block threeKeys_reachable (by decide)⟩

/-- C10 (bucket bookkeeping invariant). In every reachable state, the bootstrap
bucket and every bucket a directory slot points to have `BUCKET_CAPACITY` items,
a live-entry counter equal to the number of items whose valid flag is set, and
a counter of at most `BUCKET_CAPACITY`. -/
theorem C10_bucket_bookkeeping {s : State} (hs : Reachable s) :
    (∃ b0 : Bucket, s.heap[s.initialFile]? = some b0 ∧ b0.items.length = BUCKET_CAPACITY ∧
      b0.validEntryCount = countValid b0.items ∧ b0.validEntryCount ≤ BUCKET_CAPACITY) ∧
    ∀ (i p : Nat), s.entry[i]? = some p →
      ∃ b : Bucket, s.heap[p]? = some b ∧ b.items.length = BUCKET_CAPACITY ∧
        b.validEntryCount = countValid b.items ∧ b.validEntryCount ≤ BUCKET_CAPACITY := by
  rcases hs.inv with bs | wf
  · obtain ⟨b0, hb0, ok0⟩ := bs.initial
    refine ⟨⟨b0, hb0, ok0.items_length, ok0.count_eq, ok0.count_le⟩, fun i p hp => ?_⟩
    rw [bs.entry_nil] at hp
    simp at hp
  · obtain ⟨b0, hb0, ok0⟩ := wf.wf0.initial
    refine ⟨⟨b0, hb0, ok0.items_length, ok0.count_eq, ok0.count_le⟩, fun i p hp => ?_⟩
    obtain ⟨b, hb, ok⟩ := wf.wf0.slots i p hp
    exact ⟨b, hb, ok.ok.items_length, ok.ok.count_eq, ok.ok.count_le⟩

theorem C10_bucket_bookkeeping_witness :
    Reachable threeKeys ∧
    ((∃ b0 : Bucket, threeKeys.heap[threeKeys.initialFile]? = some b0 ∧ b0.items.length = BUCKET_CAPACITY ∧
      b0.validEntryCount = countValid b0.items ∧ b0.validEntryCount ≤ BUCKET_CAPACITY) ∧
    ∀ (i p : Nat), threeKeys.entry[i]? = some p →
      ∃ b : Bucket, threeKeys.heap[p]? = some b ∧ b.items.length = BUCKET_CAPACITY ∧
        b.validEntryCount = countValid b.items ∧ b.validEntryCount ≤ BUCKET_CAPACITY) :=
  ⟨threeKeys_reachable, C10_bucket_bookkeeping threeKeys_reachable⟩

/-! ## The bucket operations, slot by slot -/

/-- A successful pass of the write loop overwrites the first item that is not
valid and nothing else. -/
theorem writeItems_eq_set (key : Nat) (data : Int) :
    ∀ (items items1 : List DataItem), writeItems key data items = some items1 →
      ∃ (i : Nat) (old : DataItem), items[i]? = some old ∧ old.valid = false ∧
        (∀ (j : Nat) (x : DataItem), j < i → items[j]? = some x → x.valid = true) ∧
        items1 = items.set i (DataItem.make key data) := by
  intro items
  induction items with
  | nil => intro items1 h; simp [writeItems] at h
  | cons it rest ih =>
    intro items1 h
    unfold writeItems at h
    by_cases hv : it.valid = true
    · simp only [hv, Bool.not_true, Bool.false_eq_true, if_false] at h
      cases hw : writeItems key data rest with
      | none => rw [hw] at h; cases h
      | some r =>
        rw [hw] at h
        simp only [Option.map_some', Option.some.injEq] at h
        obtain ⟨i, old, h1, h2, h3, h4⟩ := ih r hw
        refine ⟨i + 1, old, by simpa using h1, h2, ?_, ?_⟩
        · intro j x hj hx
          match j, hx with
          | 0, hx =>
            simp only [List.getElem?_cons_zero, Option.some.injEq] at hx
            rw [← hx]; exact hv
          | j + 1, hx =>
            simp only [List.getElem?_cons_succ] at hx
            exact h3 j x (by omega) hx
        · rw [← h, h4]; rfl
    · have hv' : it.valid = false := by simpa using hv
      simp only [hv', Bool.not_false, if_true, Option.some.injEq] at h
      refine ⟨0, it, List.getElem?_cons_zero, hv', fun j x hj _ => by omega, ?_⟩
      rw [← h]; rfl

/-- The lookup loop returns the data of the first valid item with the key. -/
theorem findItems_eq_some_iff (key : Nat) (v : Int) :
    ∀ items : List DataItem, findItems key items = some v ↔
      ∃ (i : Nat) (it : DataItem), items[i]? = some it ∧ it.valid = true ∧ it.key = key ∧
        it.data = v ∧
        ∀ (j : Nat) (x : DataItem), j < i → items[j]? = some x → ¬ (x.valid = true ∧ x.key = key) := by
  intro items
  induction items with
  | nil => simp [findItems]
  | cons it rest ih =>
    unfold findItems
    by_cases h : it.valid = true ∧ it.key = key
    · have hc : (it.valid && it.key == key) = true := by simp [h.1, h.2]
      rw [if_pos hc]
      constructor
      · intro e
        exact ⟨0, it, List.getElem?_cons_zero, h.1, h.2, by simpa using e, fun j x hj _ => by omega⟩
      · rintro ⟨i, x, hx, hxv, hxk, hxd, hfirst⟩
        match i, hx, hfirst with
        | 0, hx, _ =>
          simp only [List.getElem?_cons_zero, Option.some.injEq] at hx
          rw [hx, hxd]
        | i + 1, _, hfirst => exact absurd h (hfirst 0 it (by omega) List.getElem?_cons_zero)
    · have hc : ¬ (it.valid && it.key == key) = true := by
        intro e
        simp only [Bool.and_eq_true, beq_iff_eq] at e
        exact h e
      rw [if_neg hc, ih]
      constructor
      · rintro ⟨i, x, hx, hxv, hxk, hxd, hfirst⟩
        refine ⟨i + 1, x, by simpa using hx, hxv, hxk, hxd, ?_⟩
        intro j y hj hy
        match j, hy with
        | 0, hy =>
          simp only [List.getElem?_cons_zero, Option.some.injEq] at hy
          rw [← hy]; exact h
        | j + 1, hy =>
          simp only [List.getElem?_cons_succ] at hy
          exact hfirst j y (by omega) hy
      · rintro ⟨i, x, hx, hxv, hxk, hxd, hfirst⟩
        match i, hx, hfirst with
        | 0, hx, _ =>
          simp only [List.getElem?_cons_zero, Option.some.injEq] at hx
          rw [hx] at h
          exact absurd ⟨hxv, hxk⟩ h
        | i + 1, hx, hfirst =>
          simp only [List.getElem?_cons_succ] at hx
          refine ⟨i, x, hx, hxv, hxk, hxd, fun j y hj hy => ?_⟩
          exact hfirst (j + 1) y (by omega) (by simpa using hy)

theorem findItems_eq_none_iff (key : Nat) :
    ∀ items : List DataItem, findItems key items = none ↔
      ∀ it ∈ items, ¬ (it.valid = true ∧ it.key = key) := by
  intro items
  induction items with
  | nil => simp [findItems]
  | cons it rest ih =>
    unfold findItems
    by_cases h : it.valid = true ∧ it.key = key
    · have hc : (it.valid && it.key == key) = true := by simp [h.1, h.2]
      rw [if_pos hc]
      constructor
      · intro e; cases e
      · intro e; exact absurd h (e it (List.mem_cons_self _ _))
    · have hc : ¬ (it.valid && it.key == key) = true := by
        intro e
        simp only [Bool.and_eq_true, beq_iff_eq] at e
        exact h e
      rw [if_neg hc, ih]
      constructor
      · intro e x hx
        rcases List.mem_cons.1 hx with rfl | hx
        · exact h
        · exact e x hx
      · intro e x hx
        exact e x (List.mem_cons_of_mem _ hx)

theorem Reachable.results {fuel : Nat} (hf : 8 ≤ fuel) :
    ∀ (calls : List Call) {s s1 : State} {oks : List Bool}, Reachable s →
      MemoryManager.results fuel calls s = some (oks, s1) → Reachable s1 := by
  intro calls
  induction calls with
  | nil =>
    intro s s1 oks hs h
    simp only [MemoryManager.results, Option.some.injEq, Prod.mk.injEq] at h
    rw [← h.2]; exact hs
  | cons c rest ih =>
    intro s s1 oks hs h
    cases c with
    | write key data =>
      rw [MemoryManager.results] at h
      cases hw : MemoryManager.write fuel key data s with
      | none => rw [hw] at h; cases h
      | some r =>
        obtain ⟨ok, s2⟩ := r
        rw [hw] at h
        simp only at h
        cases hr : MemoryManager.results fuel rest s2 with
        | none => rw [hr] at h; cases h
        | some r2 =>
          obtain ⟨oks2, s3⟩ := r2
          rw [hr] at h
          simp only [Option.some.injEq, Prod.mk.injEq] at h
          rw [← h.2]
          exact ih (Reachable.write fuel key data ok hs hf hw) hr
    | erase key =>
      rw [MemoryManager.results] at h
      cases hw : MemoryManager.erase fuel key s with
      | none => rw [hw] at h; cases h
      | some r =>
        obtain ⟨ok, s2⟩ := r
        rw [hw] at h
        simp only at h
        cases hr : MemoryManager.results fuel rest s2 with
        | none => rw [hr] at h; cases h
        | some r2 =>
          obtain ⟨oks2, s3⟩ := r2
          rw [hr] at h
          simp only [Option.some.injEq, Prod.mk.injEq] at h
          rw [← h.2]
          exact ih (Reachable.erase fuel key ok hs hf hw) hr

/-- A bucket write that found room, slot by slot. -/
theorem Bucket.write_eq_set (b : Bucket) (k : Nat) (v : Int) (ok : BucketOK b)
    (h : b.validEntryCount ≠ BUCKET_CAPACITY) :
    ∃ (i : Nat) (old : DataItem), b.items[i]? = some old ∧ old.valid = false ∧
      (∀ (j : Nat) (x : DataItem), j < i → b.items[j]? = some x → x.valid = true) ∧
      b.write k v = (true, ⟨b.localDepth, b.validEntryCount + 1,
        b.items.set i (DataItem.make k v)⟩) := by
  obtain ⟨b1, hw, sp⟩ := Bucket.write_of_room b k v ok h
  cases hi : writeItems k v b.items with
  | none =>
    unfold Bucket.write at hw
    have hc : (b.validEntryCount == BUCKET_CAPACITY) = false := by simpa using h
    rw [hc, hi] at hw
    simp at hw
  | some items1 =>
    obtain ⟨i, old, h1, h2, h3, h4⟩ := writeItems_eq_set k v b.items items1 hi
    refine ⟨i, old, h1, h2, h3, ?_⟩
    rw [hw]
    have e1 := sp.depth_eq
    have e2 := sp.count_eq
    have e3 : b1.items = items1 := by
      unfold Bucket.write at hw
      have hc : (b.validEntryCount == BUCKET_CAPACITY) = false := by simpa using h
      rw [hc, hi] at hw
      simp only [Bool.false_eq_true, if_false, Prod.mk.injEq, true_and] at hw
      rw [← hw]
    cases b1 with
    | mk l c it =>
      simp only at e1 e2 e3
      rw [e1, e2, e3, h4]

/-! ## Directory mode and bootstrap mode -/

theorem MemoryManager.write_of_directory {s : State} (h : s.globalDepth ≠ 0) (fuel k : Nat)
    (v : Int) : MemoryManager.write fuel k v s = GlobalDirectory.write fuel k v s := by
  unfold MemoryManager.write
  have hne : (s.globalDepth == 0) = false := by simpa using h
  simp only [hne, Bool.false_eq_true, if_false]

theorem MemoryManager.erase_of_directory {s : State} (h : s.globalDepth ≠ 0) (fuel k : Nat) :
    MemoryManager.erase fuel k s = GlobalDirectory.erase fuel k s := by
  unfold MemoryManager.erase
  have hne : (s.globalDepth == 0) = false := by simpa using h
  simp only [hne, Bool.false_eq_true, if_false]

theorem MemoryManager.find_of_directory {s : State} (h : s.globalDepth ≠ 0) (k : Nat) :
    MemoryManager.find s k = GlobalDirectory.find s k := by
  unfold MemoryManager.find
  have hne : (s.globalDepth == 0) = false := by simpa using h
  simp only [hne, Bool.false_eq_true, if_false]

/-- A directory write on a well-formed minimal directory returns, and leaves a
well-formed minimal directory and the bootstrap bucket as it was. -/
theorem WF.directory_write {s : State} (wf : WF s) (k : Nat) (v : Int) (fuel : Nat)
    (hf : 2 ≤ fuel) :
    ∃ ok s1, GlobalDirectory.write fuel k v s = some (ok, s1) ∧ WF s1 ∧
      s1.initialFile = s.initialFile ∧ s1.heap[s1.initialFile]? = s.heap[s.initialFile]? ∧
      s.globalDepth ≤ s1.globalDepth := by
  obtain ⟨ok, s1, hrun, sp⟩ := directory_write_spec wf.wf0 k v
  refine ⟨ok, s1, ?_, ⟨sp.wf, sp.minimal wf.minimal⟩, sp.initial_eq, ?_, sp.depth_ge⟩
  · have := hrun (fuel - 2)
    rw [Nat.sub_add_cancel hf] at this
    exact this
  · rw [sp.initial_eq]; exact sp.initial_heap

/-- A directory erase on a well-formed minimal directory returns, and leaves a
well-formed minimal directory and the bootstrap bucket as it was. -/
theorem WF.directory_erase {s : State} (wf : WF s) (k : Nat) (fuel : Nat) (hf : 8 ≤ fuel) :
    ∃ ok s1, GlobalDirectory.erase fuel k s = some (ok, s1) ∧ WF s1 ∧
      s1.initialFile = s.initialFile ∧ s1.heap[s1.initialFile]? = s.heap[s.initialFile]? ∧
      s1.globalDepth ≤ s.globalDepth := by
  by_cases h : s.keyValues k = []
  · exact ⟨false, s, directory_erase_absent wf.wf0 k h fuel, wf, rfl, rfl, Nat.le_refl _⟩
  · obtain ⟨s1, hrun, sp⟩ := directory_erase_present wf.wf0 wf.minimal k h
    refine ⟨true, s1, ?_, ⟨sp.wf, sp.minimal⟩, sp.initial_eq, ?_, sp.depth_le⟩
    · have := hrun (fuel - 8)
      rw [Nat.sub_add_cancel hf] at this
      exact this
    · rw [sp.initial_eq]; exact sp.initial_heap

/-- In directory mode every run of facade calls returns and stays in directory
mode, with the bootstrap bucket as it was. -/
theorem WF.run_calls {fuel : Nat} (hf : 8 ≤ fuel) :
    ∀ (calls : List Call) {s : State}, WF s →
      ∃ s1, MemoryManager.run fuel calls s = some s1 ∧ WF s1 ∧
        s1.initialFile = s.initialFile ∧
        s1.heap[s1.initialFile]? = s.heap[s.initialFile]? := by
  intro calls
  induction calls with
  | nil => intro s wf; exact ⟨s, rfl, wf, rfl, rfl⟩
  | cons c rest ih =>
    intro s wf
    cases c with
    | write key data =>
      obtain ⟨ok, s1, hw, wf1, hi, hh, _⟩ := wf.directory_write key data fuel (by omega)
      obtain ⟨s2, hr, wf2, hi2, hh2⟩ := ih wf1
      refine ⟨s2, ?_, wf2, by rw [hi2, hi], by rw [hh2, hh]⟩
      rw [MemoryManager.run, MemoryManager.write_of_directory wf.depth_ne_zero, hw]
      exact hr
    | erase key =>
      obtain ⟨ok, s1, hw, wf1, hi, hh, _⟩ := wf.directory_erase key fuel hf
      obtain ⟨s2, hr, wf2, hi2, hh2⟩ := ih wf1
      refine ⟨s2, ?_, wf2, by rw [hi2, hi], by rw [hh2, hh]⟩
      rw [MemoryManager.run, MemoryManager.erase_of_directory wf.depth_ne_zero, hw]
      exact hr

/-- Storing at an address the bucket it already holds changes nothing. -/
theorem State.store_same {s : State} {p : Nat} {b : Bucket} (hb : s.heap[p]? = some b) :
    s.store p b = s := by
  unfold State.store
  have hlt : p < s.heap.length := (List.getElem?_eq_some.1 hb).1
  have e : s.heap.set p b = s.heap := by
    apply List.ext_getElem?
    intro i
    rw [List.getElem?_set]
    by_cases h : p = i
    · subst h; simp [hlt, hb]
    · simp [h]
  rw [e]

/-! ## Writing keys and erasing them again -/

theorem MemoryManager.results_write_cons {fuel key : Nat} {data : Int} {rest : List Call}
    {s s1 : State} {ok : Bool} (hw : MemoryManager.write fuel key data s = some (ok, s1)) :
    MemoryManager.results fuel (Call.write key data :: rest) s
      = (MemoryManager.results fuel rest s1).map (fun r => (ok :: r.1, r.2)) := by
  rw [MemoryManager.results, hw]
  dsimp only
  split <;> rename_i h <;> simp [h]

theorem MemoryManager.results_erase_cons {fuel key : Nat} {rest : List Call}
    {s s1 : State} {ok : Bool} (hw : MemoryManager.erase fuel key s = some (ok, s1)) :
    MemoryManager.results fuel (Call.erase key :: rest) s
      = (MemoryManager.results fuel rest s1).map (fun r => (ok :: r.1, r.2)) := by
  rw [MemoryManager.results, hw]
  dsimp only
  split <;> rename_i h <;> simp [h]

/-- After writes that all succeed, every key has one more value to show for
each of its writes. -/
theorem MemoryManager.results_writes {fuel : Nat} (hf : 8 ≤ fuel) :
    ∀ (kvs : List (Nat × Int)) {s s1 : State}, Inv s →
      MemoryManager.results fuel (kvs.map (fun kv => Call.write kv.1 kv.2)) s
        = some (List.replicate kvs.length true, s1) →
      Inv s1 ∧ s.globalDepth ≤ s1.globalDepth ∧
        ∀ k : Nat, (MemoryManager.keyValues s1 k).length
          = (MemoryManager.keyValues s k).length + (kvs.map Prod.fst).count k := by
  intro kvs
  induction kvs with
  | nil =>
    intro s s1 inv h
    simp only [List.map_nil, MemoryManager.results, List.length_nil, List.replicate_zero,
      Option.some.injEq, Prod.mk.injEq, true_and] at h
    subst h
    exact ⟨inv, Nat.le_refl _, fun k => by simp⟩
  | cons kv rest ih =>
    intro s s1 inv h
    obtain ⟨ok, s2, hw, sp⟩ := MemoryManager.write_run inv kv.1 kv.2 fuel hf
    rw [List.map_cons, MemoryManager.results_write_cons hw] at h
    cases hr : MemoryManager.results fuel (rest.map (fun kv => Call.write kv.1 kv.2)) s2 with
    | none => rw [hr] at h; cases h
    | some r =>
      obtain ⟨oks, s3⟩ := r
      rw [hr] at h
      simp only [Option.map_some', List.length_cons, List.replicate_succ, Option.some.injEq,
        Prod.mk.injEq, List.cons.injEq] at h
      obtain ⟨⟨hok, hoks⟩, hs3⟩ := h
      subst hs3
      rw [hoks] at hr
      obtain ⟨inv3, hd, hc⟩ := ih sp.inv hr
      refine ⟨inv3, Nat.le_trans sp.depth_ge hd, fun k => ?_⟩
      rw [hc k, List.map_cons, List.count_cons]
      by_cases hk : k = kv.1
      · subst hk
        obtain ⟨l1, l2, e1, e2⟩ := sp.vals_ok hok
        rw [e1, e2]
        simp only [List.length_append, List.length_cons, beq_self_eq_true, if_true]
        omega
      · rw [sp.vals_other k hk]
        have : (kv.1 == k) = false := by
          simp only [beq_eq_false_iff_ne, ne_eq]
          exact fun e => hk e.symm
        simp only [this, Bool.false_eq_true, if_false]
        omega

/-- When every key has as many values to show as the list of erases names it,
the erases all succeed and leave no value. -/
theorem MemoryManager.results_erases {fuel : Nat} (hf : 8 ≤ fuel) :
    ∀ (ks : List Nat) {s : State}, Inv s →
      (∀ k : Nat, (MemoryManager.keyValues s k).length = ks.count k) →
      ∃ s1, MemoryManager.results fuel (ks.map Call.erase) s
          = some (List.replicate ks.length true, s1) ∧
        Inv s1 ∧ s1.globalDepth ≤ s.globalDepth ∧ (s.globalDepth ≠ 0 → WF s1) ∧
        ∀ k : Nat, MemoryManager.keyValues s1 k = [] := by
  intro ks
  induction ks with
  | nil =>
    intro s inv hc
    refine ⟨s, rfl, inv, Nat.le_refl _, fun h => ?_, fun k => ?_⟩
    · rcases inv with bs | wf
      · exact absurd bs.depth_zero h
      · exact wf
    · have := hc k
      simp only [List.count_nil] at this
      exact List.length_eq_zero.1 this
  | cons k0 rest ih =>
    intro s inv hc
    have hne : MemoryManager.keyValues s k0 ≠ [] := by
      intro e
      have := hc k0
      rw [e, List.count_cons] at this
      simp at this
    rcases MemoryManager.erase_run inv k0 fuel hf with ⟨he, _⟩ | ⟨_, s2, he, sp⟩
    · exact absurd he hne
    · have hc2 : ∀ k : Nat, (MemoryManager.keyValues s2 k).length = rest.count k := by
        intro k
        have := hc k
        rw [List.count_cons] at this
        by_cases hk : k = k0
        · subst hk
          rw [sp.vals_key, List.length_tail, this]
          simp
        · rw [sp.vals_other k hk, this]
          have : (k0 == k) = false := by
            simp only [beq_eq_false_iff_ne, ne_eq]
            exact fun e => hk e.symm
          simp [this]
      obtain ⟨s3, hr, inv3, hd3, hwf3, hv3⟩ := ih sp.inv hc2
      refine ⟨s3, ?_, inv3, Nat.le_trans hd3 sp.depth_le, fun h => ?_, hv3⟩
      · rw [List.map_cons, MemoryManager.results_erase_cons he, hr]
        rfl
      · apply hwf3
        have wf := (show WF s from by
          rcases inv with bs | wf
          · exact absurd bs.depth_zero h
          · exact wf)
        obtain ⟨ok', s2', he', wf2, _⟩ := wf.directory_erase k0 fuel hf
        rw [MemoryManager.erase_of_directory h, he'] at he
        simp only [Option.some.injEq, Prod.mk.injEq] at he
        rw [← he.2]
        exact wf2.depth_ne_zero

theorem MemoryManager.keyValues_fresh (k : Nat) : MemoryManager.keyValues State.fresh k = [] := by
  rw [MemoryManager.keyValues_of_bootstrap Bootstrap.fresh (show State.fresh.heap[State.fresh.initialFile]? = some (Bucket.new 0) from rfl)]
  exact Bucket.new_vals 0 k

/-! ## Where the merge loop of `erase` stops -/

/-- The merge loop stops either at a `mergeOn` that returns `false`, or after a
merge that no halving follows: then the bucket of the key is shallower than the
directory, and some other bucket is as deep as the directory. -/
theorem eraseLoop_exit (k : Nat) :
    ∀ (n : Nat) (s : State), WF0 s → Minimal s → s.globalDepth ≤ n →
      ∃ s1, (∀ fuel rounds, s.globalDepth ≤ rounds →
          GlobalDirectory.eraseLoop (GlobalDirectory.write (fuel + 1)) k rounds
            (hashAt s.globalDepth k) s = some s1) ∧ WF0 s1 ∧ Minimal s1 ∧
        ((∀ fuel, GlobalDirectory.mergeOn (GlobalDirectory.write (fuel + 1))
            (hashAt s1.globalDepth k) s1 = some (false, s1)) ∨
          ∃ (i p : Nat) (b bk : Bucket), s1.entry[i]? = some p ∧ s1.heap[p]? = some b ∧
            b.localDepth = s1.globalDepth ∧
            s1.bucketAt (hashAt s1.globalDepth k) = some bk ∧
            bk.localDepth < s1.globalDepth) := by
  intro n
  induction n with
  | zero =>
    intro s wf _ hn
    have := wf.depth_pos
    omega
  | succ n ih =>
    intro s wf min hn
    have hpos := wf.depth_pos
    obtain ⟨p, del, hp, hb, ok⟩ := wf.slot_of_key k
    rcases mergeOn_spec wf min hp hb ok with ⟨_, hrun⟩ | ⟨pb, bud, s1, hg1, _, _, _, _, hrun, msp⟩
    · refine ⟨s, fun fuel rounds hr => ?_, wf, min, Or.inl hrun⟩
      obtain ⟨r, rfl⟩ : ∃ r, rounds = r + 1 := ⟨rounds - 1, by omega⟩
      exact eraseLoop_of_merge_false _ k r _ (hrun fuel)
    · by_cases hmin1 : Minimal s1
      · refine ⟨s1, fun fuel rounds hr => ?_, msp.wf, hmin1, Or.inr ?_⟩
        · obtain ⟨r, rfl⟩ : ∃ r, rounds = r + 1 := ⟨rounds - 1, by omega⟩
          exact eraseLoop_of_minimize_false _ k r _ (hrun fuel) (minimize_of_minimal msp.wf hmin1)
        · rcases hmin1 with h1 | ⟨i, q, b, hq, hbq, hd⟩
          · rw [msp.depth_eq] at h1
            exact absurd h1 hg1
          · obtain ⟨bk, hk1, hk2, hk3⟩ := msp.merged (hashAt s.globalDepth k) rfl
            refine ⟨i, q, b, bk, hq, hbq, hd, ?_, ?_⟩
            · rw [msp.depth_eq]
              exact State.bucketAt_eq hk1 hk2
            · rw [msp.depth_eq]
              have := ok.depth_le
              omega
      · obtain ⟨s2, hz, zsp⟩ := minimize_spec msp.wf hmin1
        have hmin2 := zsp.minimal_of msp.wf msp.near_minimal hmin1
        have hd2 : s2.globalDepth + 1 = s.globalDepth := by rw [zsp.depth_eq, msp.depth_eq]
        obtain ⟨s3, hrun3, hrest⟩ := ih s2 zsp.wf hmin2 (by omega)
        refine ⟨s3, fun fuel rounds hr => ?_, hrest⟩
        obtain ⟨r, rfl⟩ : ∃ r, rounds = r + 1 := ⟨rounds - 1, by omega⟩
        rw [eraseLoop_of_minimize_true _ k r _ (hrun fuel) hz zsp.wf]
        exact hrun3 fuel r (by omega)

/-- Erasing a key that is present, and where its merge loop stops. -/
theorem directory_erase_exit {s : State} (wf : WF0 s) (min : Minimal s) (k : Nat)
    (h : s.keyValues k ≠ []) :
    ∃ s1, (∀ fuel, GlobalDirectory.erase (fuel + 8) k s = some (true, s1)) ∧
      WF0 s1 ∧ Minimal s1 ∧
      ((∀ fuel, GlobalDirectory.mergeOn (GlobalDirectory.write (fuel + 1))
          (hashAt s1.globalDepth k) s1 = some (false, s1)) ∨
        ∃ (i p : Nat) (b bk : Bucket), s1.entry[i]? = some p ∧ s1.heap[p]? = some b ∧
          b.localDepth = s1.globalDepth ∧
          s1.bucketAt (hashAt s1.globalDepth k) = some bk ∧
          bk.localDepth < s1.globalDepth) := by
  obtain ⟨p, b, hp, hb, ok⟩ := wf.slot_of_key k
  rw [State.keyValues_eq hp hb] at h
  obtain ⟨b1, he, esp⟩ := Bucket.erase_of_present b k ok.ok h
  have wf1 : WF0 (s.store p b1) := by
    apply wf.store_wf hp hb esp.depth_eq esp.ok
    intro x hx hxv
    obtain ⟨h1, h2⟩ := esp.items.mem_valid x hx hxv
    exact ok.place x h1 h2
  have min1 : Minimal (s.store p b1) := min.store_minimal hb esp.depth_eq
  have hg8 : s.globalDepth ≤ 8 := wf.depth_le
  obtain ⟨s1, hrun, hrest⟩ := eraseLoop_exit k 8 (s.store p b1) wf1 min1 hg8
  refine ⟨s1, fun fuel => ?_, hrest⟩
  unfold GlobalDirectory.erase
  simp only [wf.entry_ne_nil, Bool.false_eq_true, if_false, wf.hash_eq, hp, hb, he]
  have := hrun (fuel + 7) (fuel + 8) (by show s.globalDepth ≤ fuel + 8; omega)
  have e : (s.store p b1).globalDepth = s.globalDepth := rfl
  rw [e] at this
  rw [this]

theorem twoRegions_reachable : Reachable twoRegions :=
  Reachable.results (Nat.le_refl 8)
    [Call.write 129 54, Call.write 130 16, Call.write 170 99] threeKeys_reachable
    (by decide : MemoryManager.results 8
      [Call.write 129 54, Call.write 130 16, Call.write 170 99] threeKeys
        = some ([true, true, true], twoRegions))

/-! ## The directory does not read `MemoryManager::initialFile` -/

theorem State.withInitialFile_entry (s : State) (x : Nat) :
    (s.withInitialFile x).entry = s.entry := rfl

theorem State.withInitialFile_heap (s : State) (x : Nat) :
    (s.withInitialFile x).heap = s.heap := rfl

theorem State.withInitialFile_depth (s : State) (x : Nat) :
    (s.withInitialFile x).globalDepth = s.globalDepth := rfl

theorem State.withInitialFile_store (s : State) (x p : Nat) (b : Bucket) :
    (s.withInitialFile x).store p b = (s.store p b).withInitialFile x := rfl

theorem Outcome.withInitialFile_none (x : Nat) :
    Outcome.withInitialFile none x = none := rfl

theorem Outcome.withInitialFile_some (x : Nat) (ok : Bool) (s : State) :
    Outcome.withInitialFile (some (ok, s)) x = some (ok, s.withInitialFile x) := rfl

theorem hash_withInitialFile (s : State) (x k : Nat) :
    GlobalDirectory.hash (s.withInitialFile x) k = GlobalDirectory.hash s k := rfl

theorem bucketWrite_withInitialFile (s : State) (x index k : Nat) (v : Int) :
    GlobalDirectory.bucketWrite (s.withInitialFile x) index k v
      = (GlobalDirectory.bucketWrite s index k v).withInitialFile x := by
  unfold GlobalDirectory.bucketWrite
  simp only [State.withInitialFile_entry, State.withInitialFile_heap,
    State.withInitialFile_store]
  cases h1 : s.entry[index]? with
  | none => rfl
  | some p =>
    simp only []
    cases h2 : s.heap[p]? with
    | none => rfl
    | some b =>
      simp only []
      cases h3 : b.write k v with
      | mk ok b1 =>
        cases ok <;> rfl

theorem reHashLoop_withInitialFile (w : Nat → Int → State → Outcome) (x src : Nat)
    (hw : ∀ (k : Nat) (v : Int) (s : State),
      w k v (s.withInitialFile x) = (w k v s).withInitialFile x) :
    ∀ (l : List Nat) (s : State),
      GlobalDirectory.reHashLoop w src l (s.withInitialFile x)
        = (GlobalDirectory.reHashLoop w src l s).withInitialFile x := by
  intro l
  induction l with
  | nil => intro s; rfl
  | cons i rest ih =>
    intro s
    rw [GlobalDirectory.reHashLoop, GlobalDirectory.reHashLoop]
    simp only [State.withInitialFile_heap]
    cases h1 : s.heap[src]? with
    | none => rfl
    | some b =>
      simp only []
      cases h2 : b.items[i]? with
      | none => rfl
      | some item =>
        simp only []
        by_cases hv : item.valid = true
        · rw [if_pos hv, if_pos hv, hw]
          cases h3 : w item.key item.data s with
          | none => rfl
          | some r =>
            obtain ⟨ok, s1⟩ := r
            cases ok with
            | true =>
              simp only [Outcome.withInitialFile_some]
              exact ih s1
            | false => rfl
        · rw [if_neg hv, if_neg hv]
          exact ih s

theorem reHashItems_withInitialFile (w : Nat → Int → State → Outcome) (x src : Nat)
    (hw : ∀ (k : Nat) (v : Int) (s : State),
      w k v (s.withInitialFile x) = (w k v s).withInitialFile x) (s : State) :
    GlobalDirectory.reHashItems w src (s.withInitialFile x)
      = (GlobalDirectory.reHashItems w src s).withInitialFile x :=
  reHashLoop_withInitialFile w x src hw _ s

theorem splitOn_withInitialFile (w : Nat → Int → State → Outcome) (x : Nat)
    (hw : ∀ (k : Nat) (v : Int) (s : State),
      w k v (s.withInitialFile x) = (w k v s).withInitialFile x) (h : Nat) (s : State) :
    GlobalDirectory.splitOn w h (s.withInitialFile x)
      = (GlobalDirectory.splitOn w h s).withInitialFile x := by
  unfold GlobalDirectory.splitOn
  simp only [State.withInitialFile_entry, State.withInitialFile_heap,
    State.withInitialFile_depth]
  cases h1 : GlobalDirectory.leftWalk s.entry h with
  | none => rfl
  | some index =>
    simp only []
    cases h2 : s.entry[index]? with
    | none => rfl
    | some oldBucket =>
      simp only []
      cases h3 : s.heap[oldBucket]? with
      | none => rfl
      | some old =>
        simp only []
        cases h4 : numPtrsOf s.globalDepth old.localDepth with
        | none => rfl
        | some oldNumPtrs =>
          simp only []
          cases h5 : GlobalDirectory.splitLoop s.heap.length (s.heap.length + 1) (oldNumPtrs / 2)
              index (oldNumPtrs / 2) s.entry with
          | none => rfl
          | some entry1 =>
            simp only []
            exact reHashItems_withInitialFile w x oldBucket hw
              { s with
                heap := s.heap ++ [Bucket.new (old.localDepth + 1), Bucket.new (old.localDepth + 1)],
                entry := entry1 }

theorem doubleLoop_withInitialFile (s : State) (x g len : Nat) :
    ∀ (rounds oldIdx : Nat) (newEntry : List Nat),
      GlobalDirectory.doubleLoop (s.withInitialFile x) g len rounds oldIdx newEntry
        = GlobalDirectory.doubleLoop s g len rounds oldIdx newEntry := by
  intro rounds
  induction rounds with
  | zero => intro oldIdx newEntry; rfl
  | succ n ih =>
    intro oldIdx newEntry
    rw [GlobalDirectory.doubleLoop, GlobalDirectory.doubleLoop]
    simp only [State.withInitialFile_entry, State.withInitialFile_heap]
    by_cases hlt : oldIdx < len
    · rw [if_pos hlt, if_pos hlt]
      cases h1 : s.entry[oldIdx]? with
      | none => rfl
      | some p =>
        simp only []
        cases h2 : s.heap[p]? with
        | none => rfl
        | some b =>
          simp only []
          cases h3 : numPtrsOf g b.localDepth with
          | none => rfl
          | some m =>
            simp only []
            exact ih _ _
    · rw [if_neg hlt, if_neg hlt]

theorem extend_withInitialFile (w : Nat → Int → State → Outcome) (x : Nat)
    (hw : ∀ (k : Nat) (v : Int) (s : State),
      w k v (s.withInitialFile x) = (w k v s).withInitialFile x) (h : Nat) (s : State) :
    GlobalDirectory.extend w h (s.withInitialFile x)
      = (GlobalDirectory.extend w h s).withInitialFile x := by
  unfold GlobalDirectory.extend
  simp only [State.withInitialFile_entry, State.withInitialFile_heap,
    State.withInitialFile_depth, doubleLoop_withInitialFile]
  cases h1 : s.entry[h]? with
  | none => rfl
  | some oldBucket =>
    simp only []
    cases h2 : s.heap[oldBucket]? with
    | none => rfl
    | some old =>
      simp only []
      by_cases hlt : old.localDepth < s.globalDepth
      · rw [if_pos hlt, if_pos hlt]
        exact splitOn_withInitialFile w x hw h s
      · rw [if_neg hlt, if_neg hlt]
        by_cases hmax : s.globalDepth ≥ MAX_KEY_LENGTH
        · rw [if_pos hmax, if_pos hmax]
          rfl
        · rw [if_neg hmax, if_neg hmax]
          cases h3 : GlobalDirectory.doubleLoop s s.globalDepth s.entry.length s.entry.length 0 []
            with
          | none => rfl
          | some newEntry =>
            simp only []
            by_cases hlen : newEntry.length = 2 * s.entry.length
            · rw [if_pos hlen, if_pos hlen]
              cases h4 : setEntry newEntry (h * 2) s.heap.length with
              | none => rfl
              | some e1 =>
                simp only []
                cases h5 : setEntry e1 (h * 2 + 1) (s.heap.length + 1) with
                | none => rfl
                | some e2 =>
                  simp only []
                  exact reHashItems_withInitialFile w x oldBucket hw
                    { s with
                      heap := s.heap ++
                        [Bucket.new (old.localDepth + 1), Bucket.new (old.localDepth + 1)],
                      globalDepth := (s.globalDepth + 1) % 256, entry := e2 }
            · rw [if_neg hlen, if_neg hlen]
              rfl

theorem writeRetry_withInitialFile (ext : Nat → State → Outcome) (x k : Nat) (v : Int)
    (hext : ∀ (h : Nat) (s : State),
      ext h (s.withInitialFile x) = (ext h s).withInitialFile x) :
    ∀ (n index : Nat) (s : State),
      GlobalDirectory.writeRetry ext k v n index (s.withInitialFile x)
        = (GlobalDirectory.writeRetry ext k v n index s).withInitialFile x := by
  intro n
  induction n with
  | zero => intro index s; rfl
  | succ n ih =>
    intro index s
    rw [GlobalDirectory.writeRetry, GlobalDirectory.writeRetry, hext]
    cases h1 : ext index s with
    | none => rfl
    | some r =>
      obtain ⟨ok, s1⟩ := r
      simp only [Outcome.withInitialFile_some]
      cases ok with
      | false =>
        simp only [hash_withInitialFile]
        cases h2 : GlobalDirectory.hash s1 k with
        | none => rfl
        | some index1 =>
          simp only []
          exact ih index1 s1
      | true =>
        simp only [hash_withInitialFile]
        cases h2 : GlobalDirectory.hash s1 k with
        | none => rfl
        | some index1 =>
          simp only [bucketWrite_withInitialFile]
          cases h3 : GlobalDirectory.bucketWrite s1 index1 k v with
          | none => rfl
          | some r2 =>
            obtain ⟨ok2, s2⟩ := r2
            simp only [Outcome.withInitialFile_some]
            cases ok2 with
            | true => rfl
            | false =>
              simp only [hash_withInitialFile]
              cases h4 : GlobalDirectory.hash s2 k with
              | none => rfl
              | some index2 =>
                simp only []
                exact ih index2 s2

theorem write_withInitialFile (x : Nat) :
    ∀ (fuel k : Nat) (v : Int) (s : State),
      GlobalDirectory.write fuel k v (s.withInitialFile x)
        = (GlobalDirectory.write fuel k v s).withInitialFile x := by
  intro fuel
  induction fuel with
  | zero => intro k v s; rfl
  | succ fuel ih =>
    intro k v s
    rw [GlobalDirectory.write, GlobalDirectory.write]
    simp only [State.withInitialFile_entry, hash_withInitialFile, bucketWrite_withInitialFile]
    by_cases he : s.entry.isEmpty = true
    · rw [if_pos he, if_pos he]
      rfl
    · rw [if_neg he, if_neg he]
      cases h1 : GlobalDirectory.hash s k with
      | none => rfl
      | some index =>
        simp only []
        cases h2 : GlobalDirectory.bucketWrite s index k v with
        | none => rfl
        | some r =>
          obtain ⟨ok, s1⟩ := r
          simp only [Outcome.withInitialFile_some]
          cases ok with
          | true => rfl
          | false =>
            simp only []
            exact writeRetry_withInitialFile _ x k v
              (extend_withInitialFile _ x (ih)) _ _ _

theorem initializeDirectory_withInitialFile (x fuel src : Nat) (s : State) :
    GlobalDirectory.initializeDirectory (GlobalDirectory.write fuel) src (s.withInitialFile x)
      = (GlobalDirectory.initializeDirectory (GlobalDirectory.write fuel) src s).withInitialFile
        x := by
  unfold GlobalDirectory.initializeDirectory
  simp only [State.withInitialFile_entry, State.withInitialFile_heap]
  by_cases he : (!s.entry.isEmpty) = true
  · rw [if_pos he, if_pos he]
    rfl
  · rw [if_neg he, if_neg he]
    exact reHashItems_withInitialFile _ x src (write_withInitialFile x fuel)
      { s with
        heap := s.heap ++ [Bucket.new 1, Bucket.new 1],
        globalDepth := 1, entry := [s.heap.length, s.heap.length + 1] }

/-! ## `initialize` from any source bucket -/

theorem find_withInitialFile (s : State) (x k : Nat) :
    GlobalDirectory.find (s.withInitialFile x) k = GlobalDirectory.find s k := rfl

theorem Outcome.eq_of_withInitialFile {r : Outcome} {x : Nat} {ok : Bool} {s1 : State}
    (h : r.withInitialFile x = some (ok, s1)) :
    ∃ s0, r = some (ok, s0) ∧ s0.withInitialFile x = s1 := by
  cases r with
  | none => cases h
  | some p =>
    obtain ⟨ok0, s0⟩ := p
    rw [Outcome.withInitialFile_some, Option.some.injEq, Prod.mk.injEq] at h
    exact ⟨s0, by rw [h.1], h.2⟩

/-! ## The contract of the index, continued -/

/-- C11 (key-placement invariant). In every reachable state with an initialized
directory, for every valid item of a bucket a slot points to: the slot that
`hash` gives for the item's key points to that bucket; the top `localDepth` bits
of the low byte of the key are the number of the bucket's block; and the
directory's lookup of the key searches that bucket. -/
theorem C11_key_placement {s : State} (hs : Reachable s) (hinit : s.globalDepth ≠ 0) :
    ∀ (i p : Nat) (b : Bucket), s.entry[i]? = some p → s.heap[p]? = some b →
      ∀ it ∈ b.items, it.valid = true →
        (∃ index : Nat, GlobalDirectory.hash s it.key = some index ∧
          s.entry[index]? = some p) ∧
        hashAt b.localDepth it.key = i / 2 ^ (s.globalDepth - b.localDepth) ∧
        GlobalDirectory.find s it.key = some (b.find it.key) := by
  have wf := (hs.wf hinit).wf0
  intro i p b hp hb it hit hv
  obtain ⟨b', hb', ok⟩ := wf.slots i p hp
  rw [hb, Option.some.injEq] at hb'
  subst hb'
  have hplace := ok.place it hit hv
  have hslot : s.entry[hashAt s.globalDepth it.key]? = some p := by
    apply wf.block_entry hp ok
    rw [hashAt_div _ _ _ ok.depth_le wf.depth_le, hplace]
  refine ⟨⟨_, wf.hash_eq it.key, hslot⟩, hplace, ?_⟩
  unfold GlobalDirectory.find
  rw [wf.hash_eq]
  simp only [State.bucketAt_eq hslot hb]

theorem C11_key_placement_witness :
    Reachable threeKeys ∧ threeKeys.globalDepth ≠ 0 ∧
      ∀ (i p : Nat) (b : Bucket), threeKeys.entry[i]? = some p → threeKeys.heap[p]? = some b →
        ∀ it ∈ b.items, it.valid = true →
          (∃ index : Nat, GlobalDirectory.hash threeKeys it.key = some index ∧
            threeKeys.entry[index]? = some p) ∧
          hashAt b.localDepth it.key = i / 2 ^ (threeKeys.globalDepth - b.localDepth) ∧
          GlobalDirectory.find threeKeys it.key = some (b.find it.key) :=
  ⟨threeKeys_reachable, by decide, C11_key_placement threeKeys_reachable (by decide)⟩

/-- C12 (promotion to directory mode is permanent). From a reachable state with an
initialized directory, every list of facade writes and erases runs to its end
and leaves a global depth other than 0; the bootstrap bucket is as it was, and
in the state reached the facade's write, erase and lookup are those of the
directory. -/
theorem C12_promotion_permanent {s : State} (hs : Reachable s) (hinit : s.globalDepth ≠ 0)
    (calls : List Call) (fuel : Nat) (hf : 8 ≤ fuel) :
    ∃ s1, MemoryManager.run fuel calls s = some s1 ∧ s1.globalDepth ≠ 0 ∧
      s1.initialFile = s.initialFile ∧
      s1.heap[s1.initialFile]? = s.heap[s.initialFile]? ∧
      (∀ (f k : Nat) (v : Int),
        MemoryManager.write f k v s1 = GlobalDirectory.write f k v s1) ∧
      (∀ f k : Nat, MemoryManager.erase f k s1 = GlobalDirectory.erase f k s1) ∧
      (∀ k : Nat, MemoryManager.find s1 k = GlobalDirectory.find s1 k) := by
  obtain ⟨s1, hr, wf1, hi, hh⟩ := WF.run_calls hf calls (hs.wf hinit)
  have h1 := wf1.depth_ne_zero
  exact ⟨s1, hr, h1, hi, hh, fun f k v => MemoryManager.write_of_directory h1 f k v,
    fun f k => MemoryManager.erase_of_directory h1 f k,
    fun k => MemoryManager.find_of_directory h1 k⟩

set_option maxRecDepth 1000000 in
theorem C12_promotion_permanent_witness :
    Reachable threeKeys ∧ threeKeys.globalDepth ≠ 0 ∧ 8 ≤ 8 ∧
      (MemoryManager.results 8 [Call.erase 42, Call.erase 2, Call.erase 1] threeKeys).map
        (fun r => (r.1, r.2.globalDepth)) = some ([true, true, true], 1) ∧
      ∃ s1, MemoryManager.run 8 [Call.erase 42, Call.erase 2, Call.erase 1] threeKeys = some s1 ∧
        s1.globalDepth ≠ 0 ∧ s1.initialFile = threeKeys.initialFile ∧
        s1.heap[s1.initialFile]? = threeKeys.heap[threeKeys.initialFile]? ∧
        (∀ (f k : Nat) (v : Int),
          MemoryManager.write f k v s1 = GlobalDirectory.write f k v s1) ∧
        (∀ f k : Nat, MemoryManager.erase f k s1 = GlobalDirectory.erase f k s1) ∧
        (∀ k : Nat, MemoryManager.find s1 k = GlobalDirectory.find s1 k) :=
  ⟨threeKeys_reachable, by decide, by decide, by decide,
    C12_promotion_permanent threeKeys_reachable (by decide)
      [Call.erase 42, Call.erase 2, Call.erase 1] 8 (by decide)⟩

/-- C13 (bootstrap mode). In a reachable state with global depth 0 the directory is
empty, and with `b0` the bootstrap bucket: the facade's lookup is `b0.find`; the
facade's erase returns what `b0.erase` returns and stores its bucket, the depth
staying 0; a write when `b0` has fewer than `BUCKET_CAPACITY` live items returns
`true`, stores the bucket of `b0.write` and leaves the depth 0; a write when
`b0` is full is rejected by `b0` and leaves a depth other than 0. On a fresh
index `write(13, 33)` returns `true`, the lookup of 13 gives 33, `erase(13)`
returns `true`, the lookup is then empty, and the depth is 0 throughout. -/
theorem C13_bootstrap_mode {s : State} (hs : Reachable s) (h0 : s.globalDepth = 0) :
    (∃ b0 : Bucket, s.heap[s.initialFile]? = some b0 ∧ s.entry = [] ∧
      (∀ k : Nat, MemoryManager.find s k = some (b0.find k)) ∧
      (∀ fuel k : Nat, ∃ s1, MemoryManager.erase fuel k s = some ((b0.erase k).1, s1) ∧
        s1 = s.store s.initialFile (b0.erase k).2 ∧ s1.globalDepth = 0 ∧ s1.entry = []) ∧
      (∀ (fuel k : Nat) (v : Int), b0.validEntryCount < BUCKET_CAPACITY →
        ∃ s1, MemoryManager.write fuel k v s = some (true, s1) ∧ (b0.write k v).1 = true ∧
          s1 = s.store s.initialFile (b0.write k v).2 ∧ s1.globalDepth = 0 ∧ s1.entry = []) ∧
      (∀ (fuel k : Nat) (v : Int), 8 ≤ fuel → ¬ b0.validEntryCount < BUCKET_CAPACITY →
        ∃ ok s1, MemoryManager.write fuel k v s = some (ok, s1) ∧ (b0.write k v).1 = false ∧
          s1.globalDepth ≠ 0)) ∧
    (∃ s1 s2, MemoryManager.write 8 13 33 State.fresh = some (true, s1) ∧
      MemoryManager.find s1 13 = some (some 33) ∧ s1.globalDepth = 0 ∧
      MemoryManager.erase 8 13 s1 = some (true, s2) ∧
      MemoryManager.find s2 13 = some none ∧ s2.globalDepth = 0) := by
  refine ⟨?_, ⟨⟨[⟨0, 1, [⟨true, 33, 13⟩, ⟨false, 0, 0⟩]⟩], 0, 0, []⟩,
    ⟨[⟨0, 0, [⟨false, 33, 13⟩, ⟨false, 0, 0⟩]⟩], 0, 0, []⟩,
    by decide, by decide, by decide, by decide, by decide, by decide⟩⟩
  have bs : Bootstrap s := by
    rcases hs.inv with bs | wf
    · exact bs
    · exact absurd h0 wf.depth_ne_zero
  obtain ⟨b0, hb0, ok0⟩ := bs.initial
  have hz : (s.globalDepth == 0) = true := by simpa using h0
  refine ⟨b0, hb0, bs.entry_nil, ?_, ?_, ?_, ?_⟩
  · intro k
    unfold MemoryManager.find
    simp only [hz, if_true, hb0]
  · intro fuel k
    unfold MemoryManager.erase
    simp only [hz, if_true, hb0]
    cases he : b0.erase k with
    | mk r b1 =>
      cases r with
      | true => exact ⟨_, rfl, rfl, h0, bs.entry_nil⟩
      | false =>
        refine ⟨s, rfl, ?_, h0, bs.entry_nil⟩
        have : b1 = b0 := by
          by_cases hk : valsOf k b0.items = []
          · rw [Bucket.erase_of_absent b0 k hk] at he
            cases he; rfl
          · obtain ⟨b2, he2, _⟩ := Bucket.erase_of_present b0 k ok0 hk
            rw [he2] at he
            cases he
        rw [this]
        exact (State.store_same hb0).symm
  · intro fuel k v hlt
    obtain ⟨b1, hw, _⟩ := Bucket.write_of_room b0 k v ok0 (by omega)
    unfold MemoryManager.write
    simp only [hz, if_true, hb0, hw]
    exact ⟨_, rfl, trivial, rfl, h0, bs.entry_nil⟩
  · intro fuel k v hf hnlt
    have hfull : b0.validEntryCount = BUCKET_CAPACITY := by
      have := ok0.count_le; omega
    obtain ⟨s', hinit, wf', _⟩ := initializeDirectory_spec bs hb0 ok0
    obtain ⟨ok, s1, hw, wf1, _⟩ := wf'.directory_write k v fuel (by omega)
    refine ⟨ok, s1, ?_, by rw [Bucket.write_of_full b0 k v hfull], wf1.depth_ne_zero⟩
    have hi := hinit (fuel - 1)
    rw [Nat.sub_add_cancel (by omega)] at hi
    unfold MemoryManager.write
    simp only [hz, if_true, hb0, Bucket.write_of_full b0 k v hfull, hi]
    exact hw

theorem C13_bootstrap_mode_witness :
    Reachable twoLowKeys ∧ twoLowKeys.globalDepth = 0 ∧
    ((∃ b0 : Bucket, twoLowKeys.heap[twoLowKeys.initialFile]? = some b0 ∧ twoLowKeys.entry = [] ∧
      (∀ k : Nat, MemoryManager.find twoLowKeys k = some (b0.find k)) ∧
      (∀ fuel k : Nat, ∃ s1, MemoryManager.erase fuel k twoLowKeys = some ((b0.erase k).1, s1) ∧
        s1 = twoLowKeys.store twoLowKeys.initialFile (b0.erase k).2 ∧ s1.globalDepth = 0 ∧
        s1.entry = []) ∧
      (∀ (fuel k : Nat) (v : Int), b0.validEntryCount < BUCKET_CAPACITY →
        ∃ s1, MemoryManager.write fuel k v twoLowKeys = some (true, s1) ∧
          (b0.write k v).1 = true ∧
          s1 = twoLowKeys.store twoLowKeys.initialFile (b0.write k v).2 ∧ s1.globalDepth = 0 ∧
          s1.entry = []) ∧
      (∀ (fuel k : Nat) (v : Int), 8 ≤ fuel → ¬ b0.validEntryCount < BUCKET_CAPACITY →
        ∃ ok s1, MemoryManager.write fuel k v twoLowKeys = some (ok, s1) ∧
          (b0.write k v).1 = false ∧ s1.globalDepth ≠ 0)) ∧
    (∃ s1 s2, MemoryManager.write 8 13 33 State.fresh = some (true, s1) ∧
      MemoryManager.find s1 13 = some (some 33) ∧ s1.globalDepth = 0 ∧
      MemoryManager.erase 8 13 s1 = some (true, s2) ∧
      MemoryManager.find s2 13 = some none ∧ s2.globalDepth = 0)) :=
  ⟨twoLowKeys_reachable, rfl, C13_bootstrap_mode twoLowKeys_reachable rfl⟩

set_option maxRecDepth 1000000 in
/-- C14, refuted as stated. The six distinct keys 1, 2, 10, 129, 130, 138 are
written to a fresh index; all writes return `true` and the depth reached is 5.
Erasing them in the reverse order, all erases return `true`, and the depth left
is 2, not 1: the erases of 138, 130 and 129 merge one level each while the other
half of the directory still has a bucket of depth 5, and the erase of 10 then
stops halving at depth 2, where a bucket of local depth 2 is left in the half
that nothing addresses any more. -/
theorem C14_counterexample :
    ((deepKeys.map Prod.fst).Nodup ∧ ∀ kv ∈ deepKeys, kv.1 < 256) ∧
    MemoryManager.results 8 deepWrites State.fresh = some (List.replicate 6 true, deepRegions) ∧
    deepRegions.globalDepth = 5 ∧
    MemoryManager.results 8 deepErases deepRegions
      = some (List.replicate 6 true, deepRegionsErased) ∧
    deepRegionsErased.globalDepth = 2 ∧ deepRegionsErased.globalDepth ≠ 1 :=
  ⟨by decide, by decide, by decide, by decide, by decide, by decide⟩

/-- C14, amended. After writes to a fresh index that all return `true`, the erases
of the same keys in the reverse order all return `true` and leave every lookup
empty; the global depth does not exceed the one the writes reached, and if the
writes created the directory it stays initialized and minimal (its depth is 1
or some bucket is as deep as the directory). The depth need not be 1. -/
theorem C14_erase_all (kvs : List (Nat × Int)) (fuel : Nat) (hf : 8 ≤ fuel) {s : State}
    (hw : MemoryManager.results fuel (kvs.map (fun kv => Call.write kv.1 kv.2)) State.fresh
      = some (List.replicate kvs.length true, s)) :
    ∃ s1, MemoryManager.results fuel ((kvs.reverse.map Prod.fst).map Call.erase) s
        = some (List.replicate kvs.length true, s1) ∧
      (∀ k : Nat, MemoryManager.find s1 k = some none) ∧
      s1.globalDepth ≤ s.globalDepth ∧
      (s.globalDepth ≠ 0 → s1.globalDepth ≠ 0 ∧ Minimal s1) := by
  obtain ⟨inv, _, hc⟩ := MemoryManager.results_writes hf kvs (Or.inl Bootstrap.fresh) hw
  have hc2 : ∀ k : Nat, (MemoryManager.keyValues s k).length
      = (kvs.reverse.map Prod.fst).count k := by
    intro k
    rw [hc k, MemoryManager.keyValues_fresh, List.length_nil, Nat.zero_add, List.map_reverse,
      List.count_reverse]
  obtain ⟨s1, hr, inv1, hd, hwf, hv⟩ := MemoryManager.results_erases hf _ inv hc2
  refine ⟨s1, ?_, fun k => ?_, hd, fun h => ⟨(hwf h).depth_ne_zero, (hwf h).minimal⟩⟩
  · rw [hr]
    simp
  · rw [inv1.facade_find_eq k, hv k]
    rfl

set_option maxRecDepth 1000000 in
theorem C14_erase_all_witness :
    8 ≤ 8 ∧
    MemoryManager.results 8
        ([((1 : Nat), (20 : Int)), (2, 70), (42, 11)].map (fun kv => Call.write kv.1 kv.2))
        State.fresh
      = some (List.replicate [((1 : Nat), (20 : Int)), (2, 70), (42, 11)].length true, threeKeys) ∧
    ∃ s1, MemoryManager.results 8
          (([((1 : Nat), (20 : Int)), (2, 70), (42, 11)].reverse.map Prod.fst).map Call.erase)
          threeKeys
        = some (List.replicate [((1 : Nat), (20 : Int)), (2, 70), (42, 11)].length true, s1) ∧
      (∀ k : Nat, MemoryManager.find s1 k = some none) ∧
      s1.globalDepth ≤ threeKeys.globalDepth ∧
      (threeKeys.globalDepth ≠ 0 → s1.globalDepth ≠ 0 ∧ Minimal s1) :=
  ⟨by decide, by decide,
    C14_erase_all [(1, 20), (2, 70), (42, 11)] 8 (by decide) (by decide)⟩

set_option maxRecDepth 1000000 in
/-- C15, refuted as stated. After the writes of 1, 2, 42, 129, 130, 170 on a fresh
index, `erase(170)` returns `true`: it merges the buckets of slots 4 and 5 and
then cannot halve the directory, because the bucket of slot 0 has local depth 3.
In the state it leaves, `mergeOn(hash(170))` returns `true`: the merged bucket
and its buddy both have local depth 2 and hold two items together. -/
theorem C15_counterexample :
    MemoryManager.results 8
        [Call.write 1 20, Call.write 2 70, Call.write 42 11,
         Call.write 129 54, Call.write 130 16, Call.write 170 99] State.fresh
      = some (List.replicate 6 true, twoRegions) ∧
    twoRegions.globalDepth ≠ 0 ∧
    GlobalDirectory.erase 8 170 twoRegions = some (true, twoRegionsErased) ∧
    GlobalDirectory.hash twoRegionsErased 170 = some 5 ∧
    ∃ s2, GlobalDirectory.mergeOn (GlobalDirectory.write 8) 5 twoRegionsErased
      = some (true, s2) := by
  refine ⟨by decide, by decide, by decide, by decide, ?_⟩
  have h : (GlobalDirectory.mergeOn (GlobalDirectory.write 8) 5 twoRegionsErased).map Prod.fst
      = some true := by decide
  cases hm : GlobalDirectory.mergeOn (GlobalDirectory.write 8) 5 twoRegionsErased with
  | none => rw [hm] at h; cases h
  | some r =>
    obtain ⟨ok, s2⟩ := r
    rw [hm] at h
    simp only [Option.map_some', Option.some.injEq] at h
    subst h
    exact ⟨s2, rfl⟩

/-- C15, amended. In every reachable state with an initialized directory the
directory's erase returns; if it returns `true`, then in the state it leaves
`minimize` returns `false`, and either `mergeOn(hash(key))` returns `false`, or
the bucket addressed by `hash(key)` is shallower than the directory while some
bucket is as deep as the directory (the loop stopped after a merge that no
halving followed). -/
theorem C15_erase_stops {s : State} (hs : Reachable s) (hinit : s.globalDepth ≠ 0)
    (k fuel : Nat) (hf : 8 ≤ fuel) :
    ∃ ok s1, GlobalDirectory.erase fuel k s = some (ok, s1) ∧
      (ok = true →
        GlobalDirectory.minimize s1 = some (false, s1) ∧
        ∃ index : Nat, GlobalDirectory.hash s1 k = some index ∧
          (GlobalDirectory.mergeOn (GlobalDirectory.write fuel) index s1 = some (false, s1) ∨
            ∃ (i p : Nat) (b bk : Bucket), s1.entry[i]? = some p ∧ s1.heap[p]? = some b ∧
              b.localDepth = s1.globalDepth ∧ s1.bucketAt index = some bk ∧
              bk.localDepth < s1.globalDepth)) := by
  have wf := hs.wf hinit
  by_cases h : s.keyValues k = []
  · exact ⟨false, s, directory_erase_absent wf.wf0 k h fuel, fun e => by cases e⟩
  · obtain ⟨s1, hrun, wf1, min1, hexit⟩ := directory_erase_exit wf.wf0 wf.minimal k h
    refine ⟨true, s1, ?_, fun _ => ⟨minimize_of_minimal wf1 min1, _, wf1.hash_eq k, ?_⟩⟩
    · have := hrun (fuel - 8)
      rw [Nat.sub_add_cancel hf] at this
      exact this
    · rcases hexit with hm | hx
      · left
        have := hm (fuel - 1)
        rw [Nat.sub_add_cancel (by omega)] at this
        exact this
      · exact Or.inr hx

set_option maxRecDepth 1000000 in
theorem C15_erase_stops_witness :
    Reachable twoRegions ∧ twoRegions.globalDepth ≠ 0 ∧ 8 ≤ 8 ∧
      GlobalDirectory.erase 8 170 twoRegions = some (true, twoRegionsErased) ∧
      ∃ ok s1, GlobalDirectory.erase 8 170 twoRegions = some (ok, s1) ∧
        (ok = true →
          GlobalDirectory.minimize s1 = some (false, s1) ∧
          ∃ index : Nat, GlobalDirectory.hash s1 170 = some index ∧
            (GlobalDirectory.mergeOn (GlobalDirectory.write 8) index s1 = some (false, s1) ∨
              ∃ (i p : Nat) (b bk : Bucket), s1.entry[i]? = some p ∧ s1.heap[p]? = some b ∧
                b.localDepth = s1.globalDepth ∧ s1.bucketAt index = some bk ∧
                bk.localDepth < s1.globalDepth)) :=
  ⟨twoRegions_reachable, by decide, by decide, by decide,
    C15_erase_stops twoRegions_reachable (by decide) 170 8 (by decide)⟩

set_option maxRecDepth 1000000 in
/-- C16, refuted as stated. On the index reached by `write(1, 20)`, `write(2, 70)`,
`write(42, 11)`, the writes of 112, 240 and 241 all return `true`, and the
global depth after them is not greater than before. -/
theorem C16_counterexample :
    MemoryManager.results 8 [Call.write 1 20, Call.write 2 70, Call.write 42 11] State.fresh
      = some ([true, true, true], threeKeys) ∧
    ∃ s1, MemoryManager.results 8 [Call.write 112 54, Call.write 240 16, Call.write 241 99]
          threeKeys = some ([true, true, true], s1) ∧
      ¬ threeKeys.globalDepth < s1.globalDepth :=
  ⟨by decide, scenarioThree, by decide, by decide⟩

set_option maxRecDepth 1000000 in
/-- C16, amended. On the index reached by `write(1, 20)`, `write(2, 70)`,
`write(42, 11)`, the writes of 112, 240 and 241 all return `true` and leave the
global depth, the directory and the number of buckets as they were: each of
them is a bucket write that finds room (slot 3 for 112, slot 7 for 240 and 241),
so `extend` is never called. -/
theorem C16_scenario_three :
    MemoryManager.results 8 [Call.write 1 20, Call.write 2 70, Call.write 42 11] State.fresh
      = some ([true, true, true], threeKeys) ∧
    MemoryManager.results 8 [Call.write 112 54, Call.write 240 16, Call.write 241 99] threeKeys
      = some ([true, true, true], scenarioThree) ∧
    scenarioThree.globalDepth = threeKeys.globalDepth ∧
    scenarioThree.entry = threeKeys.entry ∧
    scenarioThree.heap.length = threeKeys.heap.length ∧
    (∃ sa sb : State,
      GlobalDirectory.hash threeKeys 112 = some 3 ∧
      GlobalDirectory.bucketWrite threeKeys 3 112 54 = some (true, sa) ∧
      GlobalDirectory.hash sa 240 = some 7 ∧
      GlobalDirectory.bucketWrite sa 7 240 16 = some (true, sb) ∧
      GlobalDirectory.hash sb 241 = some 7 ∧
      GlobalDirectory.bucketWrite sb 7 241 99 = some (true, scenarioThree)) := by
  refine ⟨by decide, by decide, by decide, by decide, by decide, ?_⟩
  refine ⟨(GlobalDirectory.bucketWrite threeKeys 3 112 54).elim threeKeys Prod.snd,
    ((GlobalDirectory.bucketWrite threeKeys 3 112 54).bind
      (fun r => GlobalDirectory.bucketWrite r.2 7 240 16)).elim threeKeys Prod.snd,
    by decide, by decide, by decide, by decide, by decide, by decide⟩

/-- C17 (the bucket write appends, it does not update). For a bucket with the right
bookkeeping, `write` returns `false` exactly when the live count is
`BUCKET_CAPACITY`, and then the bucket is unchanged; otherwise it returns
`true`, and the bucket it leaves has the same local depth, a live count greater
by one, and the items of before with the first item that is not valid replaced
by the new one, whatever keys the valid items hold. On a fresh index
`write(13, 33)` and `write(13, 88)` both return `true` and leave two valid items
with key 13. -/
theorem C17_bucket_write_append (b : Bucket) (ok : BucketOK b) (key : Nat) (value : Int) :
    ((b.write key value).1 = false ↔ b.validEntryCount = BUCKET_CAPACITY) ∧
    (b.validEntryCount = BUCKET_CAPACITY → b.write key value = (false, b)) ∧
    (b.validEntryCount ≠ BUCKET_CAPACITY →
      ∃ (i : Nat) (old : DataItem), b.items[i]? = some old ∧ old.valid = false ∧
        (∀ (j : Nat) (x : DataItem), j < i → b.items[j]? = some x → x.valid = true) ∧
        b.write key value = (true, ⟨b.localDepth, b.validEntryCount + 1,
          b.items.set i (DataItem.make key value)⟩)) ∧
    (MemoryManager.results 8 [Call.write 13 33, Call.write 13 88] State.fresh
        = some ([true, true], duplicateKey) ∧
      MemoryManager.holders duplicateKey 13 = 2) := by
  refine ⟨?_, Bucket.write_of_full b key value, Bucket.write_eq_set b key value ok,
    by decide, by decide⟩
  constructor
  · intro h
    by_contra hne
    obtain ⟨_, _, _, _, _, hw⟩ := Bucket.write_eq_set b key value ok hne
    rw [hw] at h
    cases h
  · intro h
    rw [Bucket.write_of_full b key value h]

theorem C17_bucket_write_append_witness :
    BucketOK ⟨0, 1, [⟨true, 33, 13⟩, ⟨false, 0, 0⟩]⟩ ∧
    Bucket.write ⟨0, 1, [⟨true, 33, 13⟩, ⟨false, 0, 0⟩]⟩ 13 88
      = (true, ⟨0, 2, [⟨true, 33, 13⟩, ⟨true, 88, 13⟩]⟩) ∧
    (((Bucket.write ⟨0, 1, [⟨true, 33, 13⟩, ⟨false, 0, 0⟩]⟩ 13 88).1 = false ↔
        (1 : Nat) = BUCKET_CAPACITY) ∧
      ((1 : Nat) = BUCKET_CAPACITY →
        Bucket.write ⟨0, 1, [⟨true, 33, 13⟩, ⟨false, 0, 0⟩]⟩ 13 88
          = (false, ⟨0, 1, [⟨true, 33, 13⟩, ⟨false, 0, 0⟩]⟩)) ∧
      ((1 : Nat) ≠ BUCKET_CAPACITY →
        ∃ (i : Nat) (old : DataItem),
          [(⟨true, 33, 13⟩ : DataItem), ⟨false, 0, 0⟩][i]? = some old ∧ old.valid = false ∧
          (∀ (j : Nat) (x : DataItem), j < i →
            [(⟨true, 33, 13⟩ : DataItem), ⟨false, 0, 0⟩][j]? = some x → x.valid = true) ∧
          Bucket.write ⟨0, 1, [⟨true, 33, 13⟩, ⟨false, 0, 0⟩]⟩ 13 88 = (true, ⟨0, 1 + 1,
            [(⟨true, 33, 13⟩ : DataItem), ⟨false, 0, 0⟩].set i (DataItem.make 13 88)⟩)) ∧
      (MemoryManager.results 8 [Call.write 13 33, Call.write 13 88] State.fresh
          = some ([true, true], duplicateKey) ∧
        MemoryManager.holders duplicateKey 13 = 2)) :=
  ⟨⟨rfl, rfl⟩, by decide,
    C17_bucket_write_append ⟨0, 1, [⟨true, 33, 13⟩, ⟨false, 0, 0⟩]⟩ ⟨rfl, rfl⟩ 13 88⟩

/-- C18 (the bucket lookup returns the first match). For every bucket and key,
`find` is empty exactly when no valid item has the key, and it returns `v`
exactly when the first valid item with the key, in array order, has data `v`.
An item that is not valid is skipped even if its key matches, and after
`write(13, 33)`, `write(13, 88)` on a fresh index the lookup of 13 gives 33. -/
theorem C18_bucket_find_first (b : Bucket) (key : Nat) :
    (b.find key = none ↔ ∀ it ∈ b.items, ¬ (it.valid = true ∧ it.key = key)) ∧
    (∀ v : Int, b.find key = some v ↔
      ∃ (i : Nat) (it : DataItem), b.items[i]? = some it ∧ it.valid = true ∧ it.key = key ∧
        it.data = v ∧
        ∀ (j : Nat) (x : DataItem), j < i → b.items[j]? = some x →
          ¬ (x.valid = true ∧ x.key = key)) ∧
    Bucket.find ⟨0, 1, [⟨false, 5, 13⟩, ⟨true, 7, 13⟩]⟩ 13 = some 7 ∧
    (MemoryManager.run 8 [Call.write 13 33, Call.write 13 88] State.fresh = some duplicateKey ∧
      MemoryManager.find duplicateKey 13 = some (some 33)) :=
  ⟨findItems_eq_none_iff key b.items, fun v => findItems_eq_some_iff key v b.items,
    by decide, by decide, by decide⟩

/-- C19 (the global depth is bounded). In every reachable state the global depth
is at most `MAX_KEY_LENGTH`, the directory has at most 256 slots, and `hash` is
defined: its shift count `MAX_KEY_LENGTH - globalDepth` is not negative. -/
theorem C19_depth_bounded {s : State} (hs : Reachable s) :
    s.globalDepth ≤ MAX_KEY_LENGTH ∧ s.entry.length ≤ 256 ∧
      ∀ k : Nat, GlobalDirectory.hash s k
        = some (k % 256 / 2 ^ (MAX_KEY_LENGTH - s.globalDepth)) := by
  have hd : s.globalDepth ≤ MAX_KEY_LENGTH := by
    rcases hs.inv with bs | wf
    · rw [bs.depth_zero]; exact Nat.zero_le _
    · exact wf.wf0.depth_le
  refine ⟨hd, ?_, fun k => hash_eq_hashAt s k hd⟩
  rcases hs.inv with bs | wf
  · rw [bs.entry_nil]; exact Nat.zero_le _
  · rw [wf.wf0.length_eq]
    exact Nat.pow_le_pow_right (by decide) hd

theorem C19_depth_bounded_witness :
    Reachable maxDepth ∧ maxDepth.globalDepth = 8 ∧
      (maxDepth.globalDepth ≤ MAX_KEY_LENGTH ∧ maxDepth.entry.length ≤ 256 ∧
        ∀ k : Nat, GlobalDirectory.hash maxDepth k
          = some (k % 256 / 2 ^ (MAX_KEY_LENGTH - maxDepth.globalDepth))) :=
  ⟨maxDepth_reachable, maxDepth_depth, C19_depth_bounded maxDepth_reachable⟩

/-- C20 (`initialize` succeeds and keeps the content). On a directory that is not
initialized (depth 0, no slot) and for any source bucket with the right
bookkeeping, `initialize` returns `true` and leaves depth 1 and exactly two
slots, which point to two different buckets of local depth 1; afterwards the
directory's lookup of every key gives what the source bucket's lookup gives. -/
theorem C20_initialize_source {s : State} (hdepth : s.globalDepth = 0) (hempty : s.entry = [])
    {source : Nat} {src : Bucket} (hsrc : s.heap[source]? = some src) (ok : BucketOK src)
    (fuel : Nat) (hf : 1 ≤ fuel) :
    ∃ s1, GlobalDirectory.initializeDirectory (GlobalDirectory.write fuel) source s
        = some (true, s1) ∧
      s1.globalDepth = 1 ∧
      (∃ (p q : Nat) (bp bq : Bucket), s1.entry = [p, q] ∧ p ≠ q ∧
        s1.heap[p]? = some bp ∧ s1.heap[q]? = some bq ∧
        bp.localDepth = 1 ∧ bq.localDepth = 1) ∧
      ∀ k : Nat, GlobalDirectory.find s1 k = some (src.find k) := by
  have bs : Bootstrap (s.withInitialFile source) := ⟨hdepth, hempty, src, hsrc, ok⟩
  obtain ⟨s1', hrun, wf, hg, _, _, hvals⟩ :=
    initializeDirectory_spec bs (show (s.withInitialFile source).heap[source]? = some src from hsrc) ok
  have h1 := hrun (fuel - 1)
  rw [Nat.sub_add_cancel hf] at h1
  have h2 : (GlobalDirectory.initializeDirectory (GlobalDirectory.write fuel) source
      s).withInitialFile source = some (true, s1') := by
    rw [← initializeDirectory_withInitialFile]
    exact h1
  obtain ⟨s1, hs1, e⟩ := Outcome.eq_of_withInitialFile h2
  subst e
  refine ⟨s1, hs1, hg, ?_, fun k => ?_⟩
  · have hlen : s1.entry.length = 2 := by
      have := wf.wf0.length_eq
      rw [hg] at this
      exact this
    obtain ⟨p, bp, hp, hbp, okp⟩ := wf.wf0.slot_of_lt 0 (by rw [hg]; decide)
    obtain ⟨q, bq, hq, hbq, okq⟩ := wf.wf0.slot_of_lt 1 (by rw [hg]; decide)
    have hldp : bp.localDepth = 1 := by
      have h1 := okp.depth_pos
      have h2 := okp.depth_le
      rw [hg] at h2
      omega
    have hldq : bq.localDepth = 1 := by
      have h1 := okq.depth_pos
      have h2 := okq.depth_le
      rw [hg] at h2
      omega
    refine ⟨p, q, bp, bq, ?_, ?_, hbp, hbq, hldp, hldq⟩
    · have e : (s1.withInitialFile source).entry = s1.entry := rfl
      rw [e] at hp hq
      match hs : s1.entry, hlen, hp, hq with
      | [a, c], _, hp, hq =>
        simp only [List.getElem?_cons_zero, List.getElem?_cons_succ, Option.some.injEq] at hp hq
        rw [hp, hq]
    · intro hpq
      have := (okp.block 1 q hq).1 hpq.symm
      rw [hg, hldp] at this
      simp at this
  · rw [← find_withInitialFile s1 source k, wf.wf0.directory_find_eq k, hvals k,
      Bucket.find_eq_head]

theorem C20_initialize_source_witness :
    (⟨[Bucket.new 0, ⟨0, 2, [⟨true, 33, 13⟩, ⟨true, 88, 200⟩]⟩], 0, 0, []⟩ : State).globalDepth = 0 ∧
    BucketOK ⟨0, 2, [⟨true, 33, 13⟩, ⟨true, 88, 200⟩]⟩ ∧
    GlobalDirectory.initializeDirectory (GlobalDirectory.write 1) 1
        ⟨[Bucket.new 0, ⟨0, 2, [⟨true, 33, 13⟩, ⟨true, 88, 200⟩]⟩], 0, 0, []⟩
      = some (true, ⟨[Bucket.new 0, ⟨0, 2, [⟨true, 33, 13⟩, ⟨true, 88, 200⟩]⟩,
          ⟨1, 1, [⟨true, 33, 13⟩, ⟨false, 0, 0⟩]⟩, ⟨1, 1, [⟨true, 88, 200⟩, ⟨false, 0, 0⟩]⟩],
          0, 1, [2, 3]⟩) ∧
    ∃ s1, GlobalDirectory.initializeDirectory (GlobalDirectory.write 1) 1
          ⟨[Bucket.new 0, ⟨0, 2, [⟨true, 33, 13⟩, ⟨true, 88, 200⟩]⟩], 0, 0, []⟩
        = some (true, s1) ∧
      s1.globalDepth = 1 ∧
      (∃ (p q : Nat) (bp bq : Bucket), s1.entry = [p, q] ∧ p ≠ q ∧
        s1.heap[p]? = some bp ∧ s1.heap[q]? = some bq ∧
        bp.localDepth = 1 ∧ bq.localDepth = 1) ∧
      ∀ k : Nat, GlobalDirectory.find s1 k
        = some (Bucket.find ⟨0, 2, [⟨true, 33, 13⟩, ⟨true, 88, 200⟩]⟩ k) :=
  ⟨rfl, ⟨rfl, rfl⟩, by decide,
    @C20_initialize_source ⟨[Bucket.new 0, ⟨0, 2, [⟨true, 33, 13⟩, ⟨true, 88, 200⟩]⟩], 0, 0, []⟩
      rfl rfl 1 ⟨0, 2, [⟨true, 33, 13⟩, ⟨true, 88, 200⟩]⟩ rfl ⟨rfl, rfl⟩ 1 (by decide)⟩

/-! ## `minimize`, read slot by slot -/

/-- On a well-formed directory, `minimize` returns `false` exactly when the
directory is minimal. -/
theorem minimize_false_iff {s : State} (wf : WF0 s) :
    GlobalDirectory.minimize s = some (false, s) ↔ Minimal s := by
  constructor
  · intro h
    by_contra hnot
    obtain ⟨s1, h1, _⟩ := minimize_spec wf hnot
    rw [h1] at h
    cases h
  · exact minimize_of_minimal wf

theorem Minimal.iff_not {s : State} (wf : WF0 s) :
    Minimal s ↔ ¬ (1 < s.globalDepth ∧
      ∀ (i p : Nat) (b : Bucket), s.entry[i]? = some p → s.heap[p]? = some b →
        b.localDepth ≠ s.globalDepth) := by
  have hpos := wf.depth_pos
  constructor
  · rintro (h1 | ⟨i, p, b, hp, hb, hd⟩) ⟨hgt, hall⟩
    · omega
    · exact hall i p b hp hb hd
  · intro h
    by_cases h1 : s.globalDepth = 1
    · exact Or.inl h1
    · right
      by_contra hnone
      apply h
      refine ⟨by omega, fun i p b hp hb hd => hnone ⟨i, p, b, hp, hb, hd⟩⟩

/-! ## Rehashing, item by item -/

theorem validItems_nil : validItems [] = [] := rfl

theorem validItems_cons (it : DataItem) (rest : List DataItem) :
    validItems (it :: rest) = if it.valid then it :: validItems rest else validItems rest := by
  unfold validItems
  by_cases h : it.valid = true <;> simp [List.filter_cons, h]

theorem validItems_length (items : List DataItem) :
    (validItems items).length = countValid items := rfl

theorem validItems_eq_nil_of_all_invalid (items : List DataItem)
    (h : ∀ x ∈ items, x.valid = false) : validItems items = [] := by
  unfold validItems
  rw [List.filter_eq_nil_iff]
  intro x hx
  rw [h x hx]
  simp

theorem DataItem.eq_make_of_valid (item : DataItem) (hv : item.valid = true) :
    DataItem.make item.key item.data = item := by
  cases item with
  | mk valid data key =>
    simp only at hv
    subst hv
    rfl

/-- On compact items the write loop appends to the valid items. -/
theorem writeItems_validItems (key : Nat) (data : Int) :
    ∀ (items items1 : List DataItem), Compact items → writeItems key data items = some items1 →
      validItems items1 = validItems items ++ [DataItem.make key data] := by
  intro items
  induction items with
  | nil => intro items1 _ h; simp [writeItems] at h
  | cons it rest ih =>
    intro items1 hc h
    unfold writeItems at h
    by_cases hv : it.valid = true
    · simp only [hv, Bool.not_true, Bool.false_eq_true, if_false] at h
      cases hw : writeItems key data rest with
      | none => rw [hw] at h; cases h
      | some r =>
        rw [hw] at h
        simp only [Option.map_some', Option.some.injEq] at h
        have hcr : Compact rest := by
          rcases hc with ⟨_, h2⟩ | h2
          · exact h2
          · have := h2 it (List.mem_cons_self _ _)
            rw [hv] at this
            cases this
        rw [← h, validItems_cons, validItems_cons, if_pos hv, if_pos hv, ih r hcr hw]
        rfl
    · have hv' : it.valid = false := by simpa using hv
      simp only [hv', Bool.not_false, if_true, Option.some.injEq] at h
      have hall : ∀ x ∈ it :: rest, x.valid = false := by
        rcases hc with ⟨h1, _⟩ | h2
        · rw [hv'] at h1; cases h1
        · exact h2
      have hrest : validItems rest = [] :=
        validItems_eq_nil_of_all_invalid rest (fun x hx => hall x (List.mem_cons_of_mem _ hx))
      rw [← h, validItems_cons, validItems_cons, if_neg hv, hrest]
      rfl

/-- A bucket write that returns `true` ran the write loop to a result. -/
theorem Bucket.write_items {b b1 : Bucket} {k : Nat} {v : Int} (h : b.write k v = (true, b1)) :
    writeItems k v b.items = some b1.items := by
  unfold Bucket.write at h
  by_cases hc : (b.validEntryCount == BUCKET_CAPACITY) = true
  · rw [if_pos hc] at h
    cases h
  · rw [if_neg hc] at h
    cases hw : writeItems k v b.items with
    | none => rw [hw] at h; cases h
    | some items1 =>
      rw [hw] at h
      simp only [Prod.mk.injEq, true_and] at h
      rw [← h]

theorem PlainWrite.of_write (fuel : Nat) : PlainWrite (GlobalDirectory.write (fuel + 1)) := by
  intro key data s s1 h
  unfold GlobalDirectory.writeOnce at h
  rw [GlobalDirectory.write]
  by_cases he : s.entry.isEmpty = true
  · rw [if_pos he] at h
    cases h
  · rw [if_neg he] at h
    rw [if_neg he]
    cases hh : GlobalDirectory.hash s key with
    | none => rw [hh] at h; cases h
    | some index =>
      rw [hh] at h
      simp only at h
      simp only [h]

theorem PlainWrite.of_writeOnce : PlainWrite GlobalDirectory.writeOnce :=
  fun _ _ _ _ h => h

/-- The first bucket write of `write`, when the bucket of the key's slot has
room. -/
theorem writeOnce_of_room {s : State} (hne : s.entry.isEmpty = false) (hg : s.globalDepth ≤ 8)
    (k : Nat) (v : Int) {p : Nat} {b b1 : Bucket}
    (hp : s.entry[hashAt s.globalDepth k]? = some p) (hb : s.heap[p]? = some b)
    (hw : b.write k v = (true, b1)) :
    GlobalDirectory.writeOnce k v s = some (true, s.store p b1) := by
  unfold GlobalDirectory.writeOnce
  rw [hne, hash_eq_hashAt s k hg]
  simp only [Bool.false_eq_true, if_false]
  exact bucketWrite_of_room k v hp hb hw

theorem itemsFor_cons (s : State) (q : Nat) (it : DataItem) (rest : List DataItem) :
    itemsFor s q (it :: rest) =
      if it.valid = true ∧ s.entry[hashAt s.globalDepth it.key]? = some q
      then it :: itemsFor s q rest else itemsFor s q rest := by
  unfold itemsFor
  by_cases h : it.valid = true ∧ s.entry[hashAt s.globalDepth it.key]? = some q
  · rw [if_pos h]
    simp [List.filter_cons, h.1, h.2]
  · rw [if_neg h]
    rw [List.filter_cons]
    have : (it.valid && decide (s.entry[hashAt s.globalDepth it.key]? = some q)) = false := by
      by_cases hv : it.valid = true
      · have : ¬ s.entry[hashAt s.globalDepth it.key]? = some q := fun e => h ⟨hv, e⟩
        simp [hv, this]
      · simp [hv]
    rw [this]
    rfl

theorem itemsFor_store (s : State) (p q : Nat) (b : Bucket) (items : List DataItem) :
    itemsFor (s.store p b) q items = itemsFor s q items := rfl

/-- The rehash loop over the items of an unreferenced bucket, when every bucket
that receives an item is compact and has room: whatever plain write is used, the
loop returns `true`, leaves the directory as it was, and appends to the valid
items of every bucket the items sent to it, in the order of the source. -/
theorem reHashLoop_plain (src : Nat) (srcB : Bucket) :
    ∀ (n i : Nat) (s : State), s.entry.isEmpty = false → s.globalDepth ≤ 8 →
      s.heap[src]? = some srcB → (∀ j : Nat, s.entry[j]? ≠ some src) →
      i + n = srcB.items.length →
      (∀ it ∈ srcB.items.drop i, it.valid = true → ∃ (p : Nat) (b : Bucket),
        s.entry[hashAt s.globalDepth it.key]? = some p ∧ s.heap[p]? = some b ∧
        BucketOK b ∧ Compact b.items ∧
        b.validEntryCount + countValid (srcB.items.drop i) ≤ BUCKET_CAPACITY) →
      ∃ s1, (∀ w, PlainWrite w →
          GlobalDirectory.reHashLoop w src (List.range' i n) s = some (true, s1)) ∧
        s1.entry = s.entry ∧ s1.globalDepth = s.globalDepth ∧
        s1.initialFile = s.initialFile ∧ s1.heap.length = s.heap.length ∧
        ∀ (q : Nat) (b : Bucket), s.heap[q]? = some b →
          ∃ b1, s1.heap[q]? = some b1 ∧ b1.localDepth = b.localDepth ∧
            (itemsFor s q (srcB.items.drop i) = [] → b1 = b) ∧
            (BucketOK b → Compact b.items →
              BucketOK b1 ∧ Compact b1.items ∧
              validItems b1.items = validItems b.items ++ itemsFor s q (srcB.items.drop i)) := by
  intro n
  induction n with
  | zero =>
    intro i s _ _ _ _ hlen _
    have hd : srcB.items.drop i = [] := List.drop_eq_nil_of_le (by omega)
    refine ⟨s, fun _ _ => rfl, rfl, rfl, rfl, rfl, fun q b hb => ⟨b, hb, rfl, fun _ => rfl, ?_⟩⟩
    intro ok hc
    rw [hd]
    exact ⟨ok, hc, by simp [itemsFor]⟩
  | succ n ih =>
    intro i s hne hg hsrc hunref hlen hroom
    have hilt : i < srcB.items.length := by omega
    have hdrop : srcB.items.drop i = srcB.items[i] :: srcB.items.drop (i + 1) :=
      List.drop_eq_getElem_cons hilt
    have hget : srcB.items[i]? = some srcB.items[i] := List.getElem?_eq_getElem hilt
    rw [List.range'_succ]
    rw [hdrop] at hroom ⊢
    generalize srcB.items[i] = item at hroom hget ⊢
    generalize hrest : srcB.items.drop (i + 1) = rest at hroom ⊢
    by_cases hv : item.valid = true
    · obtain ⟨p, b, hp, hb, okb, hcomp, hcount⟩ := hroom item (List.mem_cons_self _ _) hv
      rw [countValid_cons, if_pos hv] at hcount
      have hnefull : b.validEntryCount ≠ BUCKET_CAPACITY := by omega
      obtain ⟨b', hw, wsp⟩ := Bucket.write_of_room b item.key item.data okb hnefull
      have hvi : validItems b'.items = validItems b.items ++ [item] := by
        rw [writeItems_validItems item.key item.data b.items b'.items hcomp (Bucket.write_items hw),
          DataItem.eq_make_of_valid item hv]
      have hcomp' : Compact b'.items := (wsp.items.compact hcomp).1
      have hplt : p < s.heap.length := (List.getElem?_eq_some.1 hb).1
      have hpsrc : src ≠ p := fun e => hunref _ (e ▸ hp)
      have hsrc1 : (s.store p b').heap[src]? = some srcB := by
        rw [State.store_heap s p src b' hplt, if_neg hpsrc]; exact hsrc
      have hroom1 : ∀ it ∈ rest, it.valid = true → ∃ (q : Nat) (bq : Bucket),
          (s.store p b').entry[hashAt (s.store p b').globalDepth it.key]? = some q ∧
          (s.store p b').heap[q]? = some bq ∧ BucketOK bq ∧ Compact bq.items ∧
          bq.validEntryCount + countValid rest ≤ BUCKET_CAPACITY := by
        intro it hit hitv
        obtain ⟨q, bq, hq, hbq, okq, hcq, hnq⟩ := hroom it (List.mem_cons_of_mem _ hit) hitv
        rw [countValid_cons, if_pos hv] at hnq
        by_cases e : q = p
        · subst e
          rw [hb] at hbq
          cases hbq
          refine ⟨q, b', hq, by rw [State.store_heap s q q b' hplt, if_pos rfl], wsp.ok, hcomp', ?_⟩
          rw [wsp.count_eq]; omega
        · exact ⟨q, bq, hq, by rw [State.store_heap s p q b' hplt, if_neg e]; exact hbq, okq, hcq,
            by omega⟩
      obtain ⟨s1, hrun, he, hd, hi, hl, hbk⟩ := ih (i + 1) (s.store p b') hne hg hsrc1 hunref
        (by omega) (by rw [hrest]; exact hroom1)
      rw [hrest] at hbk
      refine ⟨s1, fun w hw' => ?_, he, hd, hi, by rw [hl]; simp [State.store], ?_⟩
      · rw [reHashLoop_cons_valid w src i _ hsrc hget hv
          (hw' _ _ _ _ (writeOnce_of_room hne hg item.key item.data hp hb hw))]
        exact hrun w hw'
      · intro q bq hbq
        rw [itemsFor_cons]
        by_cases e : q = p
        · subst e
          rw [hb] at hbq
          cases hbq
          obtain ⟨b1, h1, h2, _, h4⟩ := hbk q b'
            (by rw [State.store_heap s q q b' hplt, if_pos rfl])
          rw [if_pos ⟨hv, hp⟩]
          refine ⟨b1, h1, by rw [h2, wsp.depth_eq], (fun hnil => by cases hnil), fun _ _ => ?_⟩
          obtain ⟨o1, c1, v1⟩ := h4 wsp.ok hcomp'
          refine ⟨o1, c1, ?_⟩
          rw [v1, hvi, itemsFor_store, List.append_assoc]
          rfl
        · have hnot : ¬ (item.valid = true ∧ s.entry[hashAt s.globalDepth item.key]? = some q) := by
            rintro ⟨_, hq⟩
            rw [hp] at hq
            exact e (Option.some.inj hq).symm
          rw [if_neg hnot]
          obtain ⟨b1, h1, h2, h3, h4⟩ := hbk q bq
            (by rw [State.store_heap s p q b' hplt, if_neg e]; exact hbq)
          exact ⟨b1, h1, h2, h3, h4⟩
    · have hv' : item.valid = false := by simpa using hv
      have hroom1 : ∀ it ∈ rest, it.valid = true → ∃ (q : Nat) (bq : Bucket),
          s.entry[hashAt s.globalDepth it.key]? = some q ∧
          s.heap[q]? = some bq ∧ BucketOK bq ∧ Compact bq.items ∧
          bq.validEntryCount + countValid rest ≤ BUCKET_CAPACITY := by
        intro it hit hitv
        obtain ⟨q, bq, hq, hbq, okq, hcq, hnq⟩ := hroom it (List.mem_cons_of_mem _ hit) hitv
        rw [countValid_cons, if_neg hv] at hnq
        exact ⟨q, bq, hq, hbq, okq, hcq, by omega⟩
      obtain ⟨s1, hrun, he, hd, hi, hl, hbk⟩ := ih (i + 1) s hne hg hsrc hunref (by omega)
        (by rw [hrest]; exact hroom1)
      rw [hrest] at hbk
      refine ⟨s1, fun w hw' => ?_, he, hd, hi, hl, fun q bq hbq => ?_⟩
      · rw [reHashLoop_cons_invalid w src i _ hsrc hget hv']
        exact hrun w hw'
      · rw [itemsFor_cons, if_neg (fun h => hv h.1)]
        exact hbk q bq hbq

theorem reHashItems_plain (src : Nat) (srcB : Bucket) (s : State)
    (hne : s.entry.isEmpty = false) (hg : s.globalDepth ≤ 8)
    (hsrc : s.heap[src]? = some srcB) (hunref : ∀ j : Nat, s.entry[j]? ≠ some src)
    (hlen : srcB.items.length = BUCKET_CAPACITY)
    (hroom : ∀ it ∈ srcB.items, it.valid = true → ∃ (p : Nat) (b : Bucket),
      s.entry[hashAt s.globalDepth it.key]? = some p ∧ s.heap[p]? = some b ∧
      BucketOK b ∧ Compact b.items ∧
      b.validEntryCount + countValid srcB.items ≤ BUCKET_CAPACITY) :
    ∃ s1, (∀ w, PlainWrite w → GlobalDirectory.reHashItems w src s = some (true, s1)) ∧
      s1.entry = s.entry ∧ s1.globalDepth = s.globalDepth ∧
      s1.initialFile = s.initialFile ∧ s1.heap.length = s.heap.length ∧
      ∀ (q : Nat) (b : Bucket), s.heap[q]? = some b →
        ∃ b1, s1.heap[q]? = some b1 ∧ b1.localDepth = b.localDepth ∧
          (itemsFor s q srcB.items = [] → b1 = b) ∧
          (BucketOK b → Compact b.items →
            BucketOK b1 ∧ Compact b1.items ∧
            validItems b1.items = validItems b.items ++ itemsFor s q srcB.items) := by
  have := reHashLoop_plain src srcB BUCKET_CAPACITY 0 s hne hg hsrc hunref (by omega)
    (by simpa using hroom)
  obtain ⟨s1, hrun, h1, h2, h3, h4, h5⟩ := this
  refine ⟨s1, fun w hw => ?_, h1, h2, h3, h4, by simpa using h5⟩
  unfold GlobalDirectory.reHashItems
  rw [List.range_eq_range']
  exact hrun w hw

theorem itemsFor_eq_validItems (s : State) (q : Nat) (items : List DataItem)
    (h : ∀ it ∈ items, it.valid = true → s.entry[hashAt s.globalDepth it.key]? = some q) :
    itemsFor s q items = validItems items := by
  unfold itemsFor validItems
  apply List.filter_congr
  intro it hit
  by_cases hv : it.valid = true
  · simp [hv, h it hit hv]
  · simp [hv]

theorem itemsFor_eq_nil (s : State) (q : Nat) (items : List DataItem)
    (h : ∀ it ∈ items, it.valid = true → s.entry[hashAt s.globalDepth it.key]? ≠ some q) :
    itemsFor s q items = [] := by
  unfold itemsFor
  rw [List.filter_eq_nil_iff]
  intro it hit
  by_cases hv : it.valid = true
  · simp [hv, h it hit hv]
  · simp [hv]

theorem itemsFor_congr {s t : State} (he : t.entry = s.entry) (hd : t.globalDepth = s.globalDepth)
    (q : Nat) (items : List DataItem) : itemsFor t q items = itemsFor s q items := by
  unfold itemsFor
  rw [he, hd]

theorem entry_isEmpty_false {e : List Nat} (h : 0 < e.length) : e.isEmpty = false := by
  cases e with
  | nil => simp at h
  | cons a l => rfl

/-! ## `mergeOn`, item by item -/

/-- `mergeOn` on a well-formed directory of depth other than 1, with any plain
write for its rehashes. No minimality is assumed: two buddies of local depth 1
merge as well. -/
theorem mergeOn_plain {s : State} (wf : WF0 s) (hg1 : s.globalDepth ≠ 1) {h p : Nat}
    {del : Bucket} (hp : s.entry[h]? = some p) (hb : s.heap[p]? = some del)
    (ok : SlotOK s h p del) :
    ∃ (pb : Nat) (bud : Bucket),
      s.entry[sibling (h / 2 ^ (s.globalDepth - del.localDepth))
        * 2 ^ (s.globalDepth - del.localDepth)]? = some pb ∧ s.heap[pb]? = some bud ∧
      ((bud.localDepth = del.localDepth ∧
          del.validEntryCount + bud.validEntryCount ≤ BUCKET_CAPACITY) →
        ∃ (s1 : State) (bm : Bucket),
          (∀ w, PlainWrite w → GlobalDirectory.mergeOn w h s = some (true, s1)) ∧
          s1.globalDepth = s.globalDepth ∧ s1.initialFile = s.initialFile ∧
          s1.entry.length = s.entry.length ∧
          (∀ x : Nat, s1.entry[x]? =
            if x / (2 * 2 ^ (s.globalDepth - del.localDepth))
                = h / (2 * 2 ^ (s.globalDepth - del.localDepth)) then some s.heap.length
            else s.entry[x]?) ∧
          s1.heap.length = s.heap.length + 1 ∧
          s1.heap[s.heap.length]? = some bm ∧ bm.localDepth + 1 = del.localDepth ∧
          BucketOK bm ∧
          validItems bm.items = validItems del.items ++ validItems bud.items ∧
          ∀ q : Nat, q < s.heap.length → s1.heap[q]? = s.heap[q]?) ∧
      (¬ (bud.localDepth = del.localDepth ∧
          del.validEntryCount + bud.validEntryCount ≤ BUCKET_CAPACITY) →
        ∀ w, GlobalDirectory.mergeOn w h s = some (false, s)) := by
  have hne : (s.globalDepth == 1) = false := by simpa using hg1
  have hg8 : s.globalDepth ≤ 8 := wf.depth_le
  have hsp := two_pow_pos (s.globalDepth - del.localDepth)
  obtain ⟨hstart, hend⟩ := wf.block_bounds hp ok
  have hwalk := leftWalk_spec wf hp ok h rfl
  have hxor := xor_two_pow (h / 2 ^ (s.globalDepth - del.localDepth)) (s.globalDepth - del.localDepth)
  obtain ⟨pb, bud, hpb, hbb, okb⟩ := wf.slot_of_lt _ (wf.buddy_lt hp ok)
  have hcd := ok.ok.count_le
  have hcb := okb.ok.count_le
  have hmod : (del.validEntryCount + bud.validEntryCount) % 2 ^ 32
      = del.validEntryCount + bud.validEntryCount := by
    apply Nat.mod_eq_of_lt
    unfold BUCKET_CAPACITY at hcd hcb
    omega
  refine ⟨pb, bud, hpb, hbb, ?_, ?_⟩
  · rintro ⟨hld, hcount⟩
    have hsib : (sibling (h / 2 ^ (s.globalDepth - del.localDepth))
        * 2 ^ (s.globalDepth - del.localDepth)) / 2 ^ (s.globalDepth - del.localDepth)
        = sibling (h / 2 ^ (s.globalDepth - del.localDepth)) := Nat.mul_div_cancel _ hsp
    obtain ⟨_, hendb⟩ := wf.block_bounds hpb okb
    rw [hld, hsib] at hendb
    have hfit := merged_end _ _ _ hend hendb
    obtain ⟨e1, hloop, hlen, hget⟩ := fillLoop_spec s.heap.length
      (2 ^ (s.globalDepth - del.localDepth) * 2)
      (h / 2 ^ (s.globalDepth - del.localDepth) / 2 * (2 * 2 ^ (s.globalDepth - del.localDepth)))
      s.entry hfit
    have he1 : ∀ x : Nat, e1[x]? =
        if x / (2 * 2 ^ (s.globalDepth - del.localDepth))
            = h / (2 * 2 ^ (s.globalDepth - del.localDepth)) then some s.heap.length
        else s.entry[x]? := by
      intro x
      rw [hget x, div_two_mul h]
      have i1 := div_eq_iff_bounds x (2 * 2 ^ (s.globalDepth - del.localDepth))
        (h / 2 ^ (s.globalDepth - del.localDepth) / 2) (by omega)
      by_cases c1 : x / (2 * 2 ^ (s.globalDepth - del.localDepth))
          = h / 2 ^ (s.globalDepth - del.localDepth) / 2
      · rw [if_pos c1, if_pos (by have := i1.1 c1; omega)]
      · rw [if_neg c1, if_neg (by intro hc; exact c1 (i1.2 (by omega)))]
    have hnew : (del.localDepth + 2 ^ 32 - 1) % 2 ^ 32 = del.localDepth - 1 := by
      have hle := ok.depth_le
      have : del.localDepth + 2 ^ 32 - 1 = (del.localDepth - 1) + 2 ^ 32 := by
        have := ok.depth_pos
        omega
      rw [this, Nat.add_mod_right]
      exact Nat.mod_eq_of_lt (by omega)
    have hnd : (Bucket.new (del.localDepth - 1)).localDepth + 1 = del.localDepth := by
      rw [Bucket.new_depth _ (by have := ok.depth_le; omega)]
      have := ok.depth_pos
      omega
    have hplt : p < s.heap.length := (List.getElem?_eq_some.1 hb).1
    have hpblt : pb < s.heap.length := (List.getElem?_eq_some.1 hbb).1
    -- the state between the pointer assignments and the rehashes
    generalize hs0 : ({ s with
      heap := s.heap ++ [Bucket.new (del.localDepth - 1)], entry := e1 } : State) = s0
    have hs0h : s0.heap = s.heap ++ [Bucket.new (del.localDepth - 1)] := by rw [← hs0]
    have hs0e : s0.entry = e1 := by rw [← hs0]
    have hs0g : s0.globalDepth = s.globalDepth := by rw [← hs0]
    have hs0i : s0.initialFile = s.initialFile := by rw [← hs0]
    have hm0 : s0.heap[s.heap.length]? = some (Bucket.new (del.localDepth - 1)) := by
      rw [hs0h]; exact heap_append_one _ _
    have hold : ∀ q : Nat, q < s.heap.length → s0.heap[q]? = s.heap[q]? := by
      intro q hq; rw [hs0h]; exact heap_append_lt _ _ hq
    have hs0l : s0.heap.length = s.heap.length + 1 := by rw [hs0h]; simp
    have hne0 : s0.entry.isEmpty = false := by
      apply entry_isEmpty_false
      rw [hs0e, hlen, wf.length_eq]
      exact two_pow_pos _
    -- slots of the two blocks hold the merged bucket
    have hinD : ∀ x : Nat, x / 2 ^ (s.globalDepth - del.localDepth)
        = h / 2 ^ (s.globalDepth - del.localDepth) → e1[x]? = some s.heap.length := by
      intro x hx
      rw [he1 x, if_pos (by rw [div_two_mul, div_two_mul, hx])]
    have hinB : ∀ x : Nat, x / 2 ^ (s.globalDepth - del.localDepth)
        = sibling (h / 2 ^ (s.globalDepth - del.localDepth)) → e1[x]? = some s.heap.length := by
      intro x hx
      rw [he1 x, if_pos (by rw [div_two_mul, div_two_mul, hx, sibling_div_two])]
    have hunref : ∀ (q : Nat), q < s.heap.length →
        (∀ j : Nat, s.entry[j]? = some q → j / (2 * 2 ^ (s.globalDepth - del.localDepth))
          = h / (2 * 2 ^ (s.globalDepth - del.localDepth))) →
        ∀ j : Nat, e1[j]? ≠ some q := by
      intro q hq hblock j hj
      rw [he1 j] at hj
      by_cases c : j / (2 * 2 ^ (s.globalDepth - del.localDepth))
          = h / (2 * 2 ^ (s.globalDepth - del.localDepth))
      · rw [if_pos c] at hj
        have := Option.some.inj hj
        omega
      · rw [if_neg c] at hj
        exact c (hblock j hj)
    have hunrefP : ∀ j : Nat, s0.entry[j]? ≠ some p := by
      rw [hs0e]
      apply hunref p hplt
      intro j hj
      rw [div_two_mul, div_two_mul, ok.same_block hj]
    have hunrefB : ∀ j : Nat, s0.entry[j]? ≠ some pb := by
      rw [hs0e]
      apply hunref pb hpblt
      intro j hj
      have := okb.same_block hj
      rw [hld, hsib] at this
      rw [div_two_mul, div_two_mul, this, sibling_div_two]
    -- where the items of the two buckets go
    have hgoD : ∀ it ∈ del.items, it.valid = true →
        e1[hashAt s.globalDepth it.key]? = some s.heap.length := by
      intro it hit hv
      apply hinD
      rw [hashAt_div _ _ _ ok.depth_le hg8]
      exact ok.place it hit hv
    have hgoB : ∀ it ∈ bud.items, it.valid = true →
        e1[hashAt s.globalDepth it.key]? = some s.heap.length := by
      intro it hit hv
      apply hinB
      have := okb.place it hit hv
      rw [hld, hsib] at this
      rw [hashAt_div _ _ _ ok.depth_le hg8]
      exact this
    -- the first rehash
    obtain ⟨sm, hrun1, hme, hmd, hmi, hml, hmb⟩ := reHashItems_plain p del s0 hne0
      (by rw [hs0g]; exact hg8) (by rw [hold p hplt]; exact hb) hunrefP ok.ok.items_length
      (by
        intro it hit hv
        refine ⟨s.heap.length, _, ?_, hm0, BucketOK.new _, Bucket.new_compact _, ?_⟩
        · rw [hs0e, hs0g]; exact hgoD it hit hv
        · rw [Bucket.new_count, Nat.zero_add, ← ok.ok.count_eq]; exact hcd)
    obtain ⟨bm1, hbm1, hbm1d, _, hbm1v⟩ := hmb s.heap.length _ hm0
    obtain ⟨okm1, cm1, vm1⟩ := hbm1v (BucketOK.new _) (Bucket.new_compact _)
    have hvm1 : validItems bm1.items = validItems del.items := by
      rw [vm1, validItems_eq_nil_of_all_invalid _ (Bucket.new_items_invalid _), List.nil_append]
      apply itemsFor_eq_validItems
      intro it hit hv
      rw [hs0e, hs0g]; exact hgoD it hit hv
    have hmold : ∀ q : Nat, q < s.heap.length → sm.heap[q]? = s.heap[q]? := by
      intro q hq
      have hq0 := hold q hq
      obtain ⟨b, hbq⟩ : ∃ b, s.heap[q]? = some b := ⟨s.heap[q], List.getElem?_eq_getElem hq⟩
      rw [hbq] at hq0
      obtain ⟨b1, h1, _, h3, _⟩ := hmb q b hq0
      rw [h1, hbq, h3]
      apply itemsFor_eq_nil
      intro it hit hv hc
      rw [hs0e, hs0g, hgoD it hit hv] at hc
      have := Option.some.inj hc
      omega
    -- the second rehash
    have hcm1 : bm1.validEntryCount = del.validEntryCount := by
      rw [okm1.count_eq, ← validItems_length, hvm1, validItems_length, ← ok.ok.count_eq]
    obtain ⟨s1, hrun2, hse, hsd, hsi, hsl, hsb⟩ := reHashItems_plain pb bud sm
      (by rw [hme]; exact hne0) (by rw [hmd, hs0g]; exact hg8)
      (by rw [hmold pb hpblt]; exact hbb) (by rw [hme]; exact hunrefB) okb.ok.items_length
      (by
        intro it hit hv
        refine ⟨s.heap.length, bm1, ?_, hbm1, okm1, cm1, ?_⟩
        · rw [hme, hmd, hs0e, hs0g]; exact hgoB it hit hv
        · rw [hcm1, ← okb.ok.count_eq]; exact hcount)
    obtain ⟨bm2, hbm2, hbm2d, _, hbm2v⟩ := hsb s.heap.length bm1 hbm1
    obtain ⟨okm2, _, vm2⟩ := hbm2v okm1 cm1
    refine ⟨s1, bm2, fun w hw => ?_, by rw [hsd, hmd, hs0g], by rw [hsi, hmi, hs0i],
      by rw [hse, hme, hs0e, hlen], ?_, by rw [hsl, hml, hs0l], hbm2,
      by rw [hbm2d, hbm1d]; exact hnd, okm2, ?_, ?_⟩
    · have hc : (del.localDepth != bud.localDepth ||
          decide ((del.validEntryCount + bud.validEntryCount) % 2 ^ 32 > BUCKET_CAPACITY)) = false := by
        rw [hmod]; simp [hld]; omega
      have h1 := hrun1 w hw
      rw [← hs0] at h1
      unfold GlobalDirectory.mergeOn
      simp only [hne, Bool.false_eq_true, if_false, hwalk, hstart, hb,
        numPtrsOf_eq _ _ ok.depth_le wf.depth_le, hxor, hpb, hbb, hc, min_buddy _ _ hsp, hnew, hloop]
      rw [h1]
      exact hrun2 w hw
    · intro x
      rw [hse, hme, hs0e]
      exact he1 x
    · rw [vm2, hvm1, itemsFor_eq_validItems sm s.heap.length bud.items]
      intro it hit hv
      rw [hme, hmd, hs0e, hs0g]; exact hgoB it hit hv
    · intro q hq
      have hqlt : q < sm.heap.length := by rw [hml, hs0l]; omega
      obtain ⟨b, hbq⟩ : ∃ b, sm.heap[q]? = some b := ⟨sm.heap[q], List.getElem?_eq_getElem hqlt⟩
      obtain ⟨b1, h1, _, h3, _⟩ := hsb q b hbq
      rw [h1, ← hmold q hq, hbq, h3]
      apply itemsFor_eq_nil
      intro it hit hv hc
      rw [hme, hmd, hs0e, hs0g, hgoB it hit hv] at hc
      have := Option.some.inj hc
      omega
  · intro hcond w
    have hc : (del.localDepth != bud.localDepth ||
        decide ((del.validEntryCount + bud.validEntryCount) % 2 ^ 32 > BUCKET_CAPACITY)) = true := by
      rw [hmod]
      by_cases e : bud.localDepth = del.localDepth
      · have : ¬ del.validEntryCount + bud.validEntryCount ≤ BUCKET_CAPACITY := fun c => hcond ⟨e, c⟩
        simp [e]; omega
      · have : ¬ del.localDepth = bud.localDepth := fun c => e c.symm
        simp [this]
    unfold GlobalDirectory.mergeOn
    simp only [hne, Bool.false_eq_true, if_false, hwalk, hstart, hb,
      numPtrsOf_eq _ _ ok.depth_le wf.depth_le, hxor, hpb, hbb, hc, if_true]

/-! ## `splitOn` and `extend`, item by item -/

/-- The rehash that ends `splitOn` and the doubling branch of `extend`, once the
two halves of the old block point to the two fresh buckets: every item of the
old bucket finds room in one of them, whatever plain write is used. -/
theorem split_plain_core {s : State} (wf : WF0 s) {h p : Nat} {old : Bucket}
    (hb : s.heap[p]? = some old) (ok : SlotOK s h p old)
    (hlt : old.localDepth < s.globalDepth) (e1 : List Nat) (hlen : e1.length = s.entry.length)
    (he1 : ∀ x : Nat, e1[x]? =
      if x / 2 ^ (s.globalDepth - (old.localDepth + 1))
          = 2 * (h / 2 ^ (s.globalDepth - old.localDepth)) then some s.heap.length
      else if x / 2 ^ (s.globalDepth - (old.localDepth + 1))
          = 2 * (h / 2 ^ (s.globalDepth - old.localDepth)) + 1 then some (s.heap.length + 1)
      else s.entry[x]?) :
    ∃ (s1 : State) (b1 b2 : Bucket),
      (∀ w, PlainWrite w → GlobalDirectory.reHashItems w p
        { s with heap := s.heap ++ [Bucket.new (old.localDepth + 1), Bucket.new (old.localDepth + 1)],
                 entry := e1 } = some (true, s1)) ∧
      s1.entry = e1 ∧ s1.globalDepth = s.globalDepth ∧ s1.initialFile = s.initialFile ∧
      s1.heap.length = s.heap.length + 2 ∧
      s1.heap[s.heap.length]? = some b1 ∧ s1.heap[s.heap.length + 1]? = some b2 ∧
      b1.localDepth = old.localDepth + 1 ∧ b2.localDepth = old.localDepth + 1 ∧
      BucketOK b1 ∧ BucketOK b2 ∧
      validItems b1.items = (validItems old.items).filter (fun it =>
        decide (hashAt (old.localDepth + 1) it.key = 2 * (h / 2 ^ (s.globalDepth - old.localDepth)))) ∧
      validItems b2.items = (validItems old.items).filter (fun it =>
        decide (hashAt (old.localDepth + 1) it.key
          = 2 * (h / 2 ^ (s.globalDepth - old.localDepth)) + 1)) ∧
      ∀ q : Nat, q < s.heap.length → s1.heap[q]? = s.heap[q]? := by
  have hsp : 2 ^ (s.globalDepth - old.localDepth) = 2 * 2 ^ (s.globalDepth - (old.localDepth + 1)) :=
    two_pow_sub_succ _ _ hlt
  have hmpos := two_pow_pos (s.globalDepth - (old.localDepth + 1))
  have hg8 : s.globalDepth ≤ 8 := wf.depth_le
  have hnd : (Bucket.new (old.localDepth + 1)).localDepth = old.localDepth + 1 :=
    Bucket.new_depth _ (by omega)
  have hplt : p < s.heap.length := (List.getElem?_eq_some.1 hb).1
  have hin : ∀ x : Nat, x / 2 ^ (s.globalDepth - old.localDepth) = h / 2 ^ (s.globalDepth - old.localDepth) ↔
      (x / 2 ^ (s.globalDepth - (old.localDepth + 1)) = 2 * (h / 2 ^ (s.globalDepth - old.localDepth)) ∨
       x / 2 ^ (s.globalDepth - (old.localDepth + 1)) = 2 * (h / 2 ^ (s.globalDepth - old.localDepth)) + 1) := by
    intro x
    rw [hsp, div_two_mul, div_two_mul]
    omega
  generalize hs0 : ({ s with
      heap := s.heap ++ [Bucket.new (old.localDepth + 1), Bucket.new (old.localDepth + 1)],
      entry := e1 } : State) = s0
  have hs0h : s0.heap = s.heap ++ [Bucket.new (old.localDepth + 1), Bucket.new (old.localDepth + 1)] := by
    rw [← hs0]
  have hs0e : s0.entry = e1 := by rw [← hs0]
  have hs0g : s0.globalDepth = s.globalDepth := by rw [← hs0]
  have hs0i : s0.initialFile = s.initialFile := by rw [← hs0]
  have hn1 : s0.heap[s.heap.length]? = some (Bucket.new (old.localDepth + 1)) := by
    rw [hs0h]; exact heap_append_fst _ _ _
  have hn2 : s0.heap[s.heap.length + 1]? = some (Bucket.new (old.localDepth + 1)) := by
    rw [hs0h]; exact heap_append_snd _ _ _
  have hold : ∀ q : Nat, q < s.heap.length → s0.heap[q]? = s.heap[q]? := by
    intro q hq; rw [hs0h]; exact heap_append_lt _ _ hq
  have hs0l : s0.heap.length = s.heap.length + 2 := by rw [hs0h]; simp
  have hne0 : s0.entry.isEmpty = false := by
    apply entry_isEmpty_false
    rw [hs0e, hlen, wf.length_eq]
    exact two_pow_pos _
  have hunrefP : ∀ j : Nat, s0.entry[j]? ≠ some p := by
    intro j hj
    rw [hs0e, he1 j] at hj
    by_cases c1 : j / 2 ^ (s.globalDepth - (old.localDepth + 1))
        = 2 * (h / 2 ^ (s.globalDepth - old.localDepth))
    · rw [if_pos c1] at hj
      have := Option.some.inj hj
      omega
    · rw [if_neg c1] at hj
      by_cases c2 : j / 2 ^ (s.globalDepth - (old.localDepth + 1))
          = 2 * (h / 2 ^ (s.globalDepth - old.localDepth)) + 1
      · rw [if_pos c2] at hj
        have := Option.some.inj hj
        omega
      · rw [if_neg c2] at hj
        rcases (hin j).1 (ok.same_block hj) with c | c
        · exact c1 c
        · exact c2 c
  -- the slot of a valid item of the old bucket, in terms of its next bit
  have hkey : ∀ it ∈ old.items, it.valid = true →
      hashAt s.globalDepth it.key / 2 ^ (s.globalDepth - (old.localDepth + 1))
        = hashAt (old.localDepth + 1) it.key ∧
      (hashAt (old.localDepth + 1) it.key = 2 * (h / 2 ^ (s.globalDepth - old.localDepth)) ∨
        hashAt (old.localDepth + 1) it.key
          = 2 * (h / 2 ^ (s.globalDepth - old.localDepth)) + 1) := by
    intro it hit hv
    have e := hashAt_div s.globalDepth (old.localDepth + 1) it.key (by omega) hg8
    refine ⟨e, ?_⟩
    rw [← e]
    apply (hin _).1
    rw [hashAt_div _ _ _ ok.depth_le hg8]
    exact ok.place it hit hv
  have hgo : ∀ it ∈ old.items, it.valid = true → ∀ q : Nat,
      (s0.entry[hashAt s0.globalDepth it.key]? = some q ↔
        (q = s.heap.length ∧
          hashAt (old.localDepth + 1) it.key = 2 * (h / 2 ^ (s.globalDepth - old.localDepth))) ∨
        (q = s.heap.length + 1 ∧
          hashAt (old.localDepth + 1) it.key
            = 2 * (h / 2 ^ (s.globalDepth - old.localDepth)) + 1)) := by
    intro it hit hv q
    obtain ⟨e, hcase⟩ := hkey it hit hv
    rw [hs0e, hs0g, he1, e]
    rcases hcase with c | c
    · rw [if_pos c]
      constructor
      · intro hq; exact Or.inl ⟨(Option.some.inj hq).symm, c⟩
      · rintro (⟨hq, _⟩ | ⟨_, c2⟩)
        · rw [hq]
        · omega
    · rw [if_neg (by omega), if_pos c]
      constructor
      · intro hq; exact Or.inr ⟨(Option.some.inj hq).symm, c⟩
      · rintro (⟨_, c2⟩ | ⟨hq, _⟩)
        · omega
        · rw [hq]
  obtain ⟨s1, hrun, hse, hsd, hsi, hsl, hsb⟩ := reHashItems_plain p old s0 hne0
    (by rw [hs0g]; exact hg8) (by rw [hold p hplt]; exact hb) hunrefP ok.ok.items_length
    (by
      intro it hit hv
      have hcnt : (Bucket.new (old.localDepth + 1)).validEntryCount + countValid old.items
          ≤ BUCKET_CAPACITY := by
        rw [Bucket.new_count, Nat.zero_add, ← ok.ok.count_eq]; exact ok.ok.count_le
      rcases (hkey it hit hv).2 with c | c
      · exact ⟨s.heap.length, _, (hgo it hit hv _).2 (Or.inl ⟨rfl, c⟩), hn1, BucketOK.new _,
          Bucket.new_compact _, hcnt⟩
      · exact ⟨s.heap.length + 1, _, (hgo it hit hv _).2 (Or.inr ⟨rfl, c⟩), hn2, BucketOK.new _,
          Bucket.new_compact _, hcnt⟩)
  obtain ⟨b1, hb1, hb1d, _, hb1v⟩ := hsb s.heap.length _ hn1
  obtain ⟨ok1, _, v1⟩ := hb1v (BucketOK.new _) (Bucket.new_compact _)
  obtain ⟨b2, hb2, hb2d, _, hb2v⟩ := hsb (s.heap.length + 1) _ hn2
  obtain ⟨ok2, _, v2⟩ := hb2v (BucketOK.new _) (Bucket.new_compact _)
  have hfilter : ∀ (q t : Nat), (∀ it ∈ old.items, it.valid = true →
      (s0.entry[hashAt s0.globalDepth it.key]? = some q ↔ hashAt (old.localDepth + 1) it.key = t)) →
      itemsFor s0 q old.items
        = (validItems old.items).filter (fun it => decide (hashAt (old.localDepth + 1) it.key = t)) := by
    intro q t hqt
    unfold itemsFor validItems
    rw [List.filter_filter]
    apply List.filter_congr
    intro it hit
    by_cases hv : it.valid = true
    · have := hqt it hit hv
      by_cases c : hashAt (old.localDepth + 1) it.key = t
      · simp [hv, c, this.2 c]
      · have hn : ¬ s0.entry[hashAt s0.globalDepth it.key]? = some q := fun e => c (this.1 e)
        simp [hv, c, hn]
    · simp [hv]
  refine ⟨s1, b1, b2, fun w hw => ?_, by rw [hse, hs0e], by rw [hsd, hs0g], by rw [hsi, hs0i],
    by rw [hsl, hs0l], hb1, hb2, by rw [hb1d, hnd], by rw [hb2d, hnd], ok1, ok2, ?_, ?_, ?_⟩
  · exact hrun w hw
  · rw [v1, validItems_eq_nil_of_all_invalid _ (Bucket.new_items_invalid _), List.nil_append]
    apply hfilter
    intro it hit hv
    rw [hgo it hit hv]
    constructor
    · rintro (⟨_, c⟩ | ⟨hq, _⟩)
      · exact c
      · omega
    · intro c; exact Or.inl ⟨rfl, c⟩
  · rw [v2, validItems_eq_nil_of_all_invalid _ (Bucket.new_items_invalid _), List.nil_append]
    apply hfilter
    intro it hit hv
    rw [hgo it hit hv]
    constructor
    · rintro (⟨hq, _⟩ | ⟨_, c⟩)
      · omega
      · exact c
    · intro c; exact Or.inr ⟨rfl, c⟩
  · intro q hq
    obtain ⟨b, hbq⟩ : ∃ b, s.heap[q]? = some b := ⟨s.heap[q], List.getElem?_eq_getElem hq⟩
    have hq0 := hold q hq
    rw [hbq] at hq0
    obtain ⟨bq, h1, _, h3, _⟩ := hsb q b hq0
    rw [h1, hbq, h3]
    apply itemsFor_eq_nil
    intro it hit hv hc
    rcases (hgo it hit hv q).1 hc with ⟨e, _⟩ | ⟨e, _⟩ <;> omega

/-- Splitting the block around slot `h`, whatever plain write the rehash uses. -/
theorem splitOn_plain {s : State} (wf : WF0 s) {h p : Nat} {old : Bucket}
    (hp : s.entry[h]? = some p) (hb : s.heap[p]? = some old) (ok : SlotOK s h p old)
    (hlt : old.localDepth < s.globalDepth) :
    ∃ (s1 : State) (b1 b2 : Bucket),
      (∀ w, PlainWrite w → GlobalDirectory.splitOn w h s = some (true, s1)) ∧
      (∀ x : Nat, s1.entry[x]? =
        if x / 2 ^ (s.globalDepth - (old.localDepth + 1))
            = 2 * (h / 2 ^ (s.globalDepth - old.localDepth)) then some s.heap.length
        else if x / 2 ^ (s.globalDepth - (old.localDepth + 1))
            = 2 * (h / 2 ^ (s.globalDepth - old.localDepth)) + 1 then some (s.heap.length + 1)
        else s.entry[x]?) ∧
      s1.entry.length = s.entry.length ∧
      s1.globalDepth = s.globalDepth ∧ s1.initialFile = s.initialFile ∧
      s1.heap.length = s.heap.length + 2 ∧
      s1.heap[s.heap.length]? = some b1 ∧ s1.heap[s.heap.length + 1]? = some b2 ∧
      b1.localDepth = old.localDepth + 1 ∧ b2.localDepth = old.localDepth + 1 ∧
      BucketOK b1 ∧ BucketOK b2 ∧
      validItems b1.items = (validItems old.items).filter (fun it =>
        decide (hashAt (old.localDepth + 1) it.key = 2 * (h / 2 ^ (s.globalDepth - old.localDepth)))) ∧
      validItems b2.items = (validItems old.items).filter (fun it =>
        decide (hashAt (old.localDepth + 1) it.key
          = 2 * (h / 2 ^ (s.globalDepth - old.localDepth)) + 1)) ∧
      ∀ q : Nat, q < s.heap.length → s1.heap[q]? = s.heap[q]? := by
  have hsp : 2 ^ (s.globalDepth - old.localDepth) = 2 * 2 ^ (s.globalDepth - (old.localDepth + 1)) :=
    two_pow_sub_succ _ _ hlt
  have hmpos := two_pow_pos (s.globalDepth - (old.localDepth + 1))
  obtain ⟨hstart, hend⟩ := wf.block_bounds hp ok
  have hwalk := leftWalk_spec wf hp ok h rfl
  have hhalf : 2 ^ (s.globalDepth - old.localDepth) / 2 = 2 ^ (s.globalDepth - (old.localDepth + 1)) := by
    rw [hsp]; omega
  have eA : h / 2 ^ (s.globalDepth - old.localDepth) * 2 ^ (s.globalDepth - old.localDepth)
      = 2 * (h / 2 ^ (s.globalDepth - old.localDepth) * 2 ^ (s.globalDepth - (old.localDepth + 1))) := by
    rw [hsp]; ring
  have eB : 2 * (h / 2 ^ (s.globalDepth - old.localDepth)) * 2 ^ (s.globalDepth - (old.localDepth + 1))
      = 2 * (h / 2 ^ (s.globalDepth - old.localDepth) * 2 ^ (s.globalDepth - (old.localDepth + 1))) := by
    ring
  have eC : (2 * (h / 2 ^ (s.globalDepth - old.localDepth)) + 1) * 2 ^ (s.globalDepth - (old.localDepth + 1))
      = 2 * (h / 2 ^ (s.globalDepth - old.localDepth) * 2 ^ (s.globalDepth - (old.localDepth + 1)))
        + 2 ^ (s.globalDepth - (old.localDepth + 1)) := by
    ring
  obtain ⟨e1, hloop, hlen, hget⟩ := splitLoop_spec s.heap.length (s.heap.length + 1)
    (2 ^ (s.globalDepth - (old.localDepth + 1)))
    (2 ^ (s.globalDepth - (old.localDepth + 1)))
    (h / 2 ^ (s.globalDepth - old.localDepth) * 2 ^ (s.globalDepth - old.localDepth))
    s.entry (by rw [hsp] at hend ⊢; omega) (Nat.le_refl _)
  have he1 : ∀ x : Nat, e1[x]? =
      if x / 2 ^ (s.globalDepth - (old.localDepth + 1))
          = 2 * (h / 2 ^ (s.globalDepth - old.localDepth)) then some s.heap.length
      else if x / 2 ^ (s.globalDepth - (old.localDepth + 1))
          = 2 * (h / 2 ^ (s.globalDepth - old.localDepth)) + 1 then some (s.heap.length + 1)
      else s.entry[x]? := by
    intro x
    rw [hget x]
    have i1 := div_eq_iff_bounds x (2 ^ (s.globalDepth - (old.localDepth + 1)))
      (2 * (h / 2 ^ (s.globalDepth - old.localDepth))) hmpos
    have i2 := div_eq_iff_bounds x (2 ^ (s.globalDepth - (old.localDepth + 1)))
      (2 * (h / 2 ^ (s.globalDepth - old.localDepth)) + 1) hmpos
    rw [eB] at i1
    rw [eC] at i2
    by_cases c1 : x / 2 ^ (s.globalDepth - (old.localDepth + 1))
        = 2 * (h / 2 ^ (s.globalDepth - old.localDepth))
    · rw [if_pos c1, if_pos (by rw [eA]; have := i1.1 c1; omega)]
    · rw [if_neg c1, if_neg (by rw [eA]; intro hc; exact c1 (i1.2 (by omega)))]
      by_cases c2 : x / 2 ^ (s.globalDepth - (old.localDepth + 1))
          = 2 * (h / 2 ^ (s.globalDepth - old.localDepth)) + 1
      · rw [if_pos c2, if_pos (by rw [eA]; have := i2.1 c2; omega)]
      · rw [if_neg c2, if_neg (by rw [eA]; intro hc; exact c2 (i2.2 (by omega)))]
  obtain ⟨s1, b1, b2, hrun, hse, rest⟩ := split_plain_core wf hb ok hlt e1 hlen he1
  refine ⟨s1, b1, b2, fun w hw => ?_, by rw [hse]; exact he1, by rw [hse]; exact hlen, rest⟩
  unfold GlobalDirectory.splitOn
  simp only [hwalk, hstart, hb, numPtrsOf_eq _ _ ok.depth_le wf.depth_le, hhalf, hloop]
  exact hrun w hw

/-- The result of `extend` on a well-formed directory, whatever plain write the
rehash uses: it fails only at the addressing limit, and otherwise the old block
is covered by two fresh buckets one level deeper. -/
theorem extend_plain {s : State} (wf : WF0 s) {h p : Nat} {old : Bucket}
    (hp : s.entry[h]? = some p) (hb : s.heap[p]? = some old) (ok : SlotOK s h p old) :
    ((old.localDepth = s.globalDepth ∧ s.globalDepth = MAX_KEY_LENGTH) →
      ∀ w, GlobalDirectory.extend w h s = some (false, s)) ∧
    (¬ (old.localDepth = s.globalDepth ∧ s.globalDepth = MAX_KEY_LENGTH) →
      ∃ (s1 : State) (b1 b2 : Bucket),
        (∀ w, PlainWrite w → GlobalDirectory.extend w h s = some (true, s1)) ∧
        s1.globalDepth = (if old.localDepth < s.globalDepth then s.globalDepth
          else s.globalDepth + 1) ∧
        s1.entry.length = (if old.localDepth < s.globalDepth then s.entry.length
          else 2 * s.entry.length) ∧
        (∀ x : Nat, s1.entry[x]? =
          if x / 2 ^ (s1.globalDepth - (old.localDepth + 1))
              = 2 * (h / 2 ^ (s.globalDepth - old.localDepth)) then some s.heap.length
          else if x / 2 ^ (s1.globalDepth - (old.localDepth + 1))
              = 2 * (h / 2 ^ (s.globalDepth - old.localDepth)) + 1 then some (s.heap.length + 1)
          else if old.localDepth < s.globalDepth then s.entry[x]? else s.entry[x / 2]?) ∧
        s1.initialFile = s.initialFile ∧
        s1.heap.length = s.heap.length + 2 ∧
        s1.heap[s.heap.length]? = some b1 ∧ s1.heap[s.heap.length + 1]? = some b2 ∧
        b1.localDepth = old.localDepth + 1 ∧ b2.localDepth = old.localDepth + 1 ∧
        BucketOK b1 ∧ BucketOK b2 ∧
        validItems b1.items = (validItems old.items).filter (fun it =>
          decide (hashAt (old.localDepth + 1) it.key
            = 2 * (h / 2 ^ (s.globalDepth - old.localDepth)))) ∧
        validItems b2.items = (validItems old.items).filter (fun it =>
          decide (hashAt (old.localDepth + 1) it.key
            = 2 * (h / 2 ^ (s.globalDepth - old.localDepth)) + 1)) ∧
        (∀ q : Nat, q < s.heap.length → s1.heap[q]? = s.heap[q]?) ∧
        WF0 s1) := by
  have hg8 : s.globalDepth ≤ 8 := wf.depth_le
  constructor
  · rintro ⟨hld, hmax⟩ w
    unfold GlobalDirectory.extend
    simp only [hp, hb, if_neg (show ¬ old.localDepth < s.globalDepth by omega),
      if_pos (show s.globalDepth ≥ MAX_KEY_LENGTH by omega)]
  · intro hnot
    -- the well-formedness of the result, from the specification of `extend`
    have hwf1 : ∀ s1, (∀ w, PlainWrite w → GlobalDirectory.extend w h s = some (true, s1)) →
        WF0 s1 := by
      intro s1 hrun
      have h1 := hrun _ (PlainWrite.of_write 0)
      rcases extend_spec wf hp hb ok with ⟨_, _, hf⟩ | ⟨s2, hrun2, sp⟩
      · have h2 := hf 0
        rw [h1] at h2
        cases h2
      · have h2 := hrun2 0
        rw [h1] at h2
        cases h2
        exact sp.wf
    by_cases hlt : old.localDepth < s.globalDepth
    · obtain ⟨s1, b1, b2, hrun, hent, hlen, hgd, rest⟩ := splitOn_plain wf hp hb ok hlt
      have hrunE : ∀ w, PlainWrite w → GlobalDirectory.extend w h s = some (true, s1) := by
        intro w hw
        unfold GlobalDirectory.extend
        simp only [hp, hb, if_pos hlt]
        exact hrun w hw
      obtain ⟨hi, hl, g1, g2, d1, d2, o1, o2, v1, v2, hq⟩ := rest
      refine ⟨s1, b1, b2, hrunE, by rw [if_pos hlt]; exact hgd, by rw [if_pos hlt]; exact hlen, ?_,
        hi, hl, g1, g2, d1, d2, o1, o2, v1, v2, hq, hwf1 s1 hrunE⟩
      intro x
      rw [hgd, if_pos hlt]
      exact hent x
    · have hld : old.localDepth = s.globalDepth := by have := ok.depth_le; omega
      have hmax : ¬ s.globalDepth ≥ MAX_KEY_LENGTH := by
        intro hc
        apply hnot
        refine ⟨hld, ?_⟩
        unfold MAX_KEY_LENGTH at hc ⊢
        omega
      have hg : s.globalDepth < 8 := by unfold MAX_KEY_LENGTH at hmax; omega
      obtain ⟨r, hloop, hrlen, hrget⟩ := doubleLoop_entry wf
      have hr : ∀ x : Nat, r[x]? = s.entry[x / 2]? := by
        intro x
        by_cases hx : x < 2 * s.entry.length
        · exact hrget x hx
        · rw [List.getElem?_eq_none (by omega), List.getElem?_eq_none (by omega)]
      have hh : h < s.entry.length := (List.getElem?_eq_some.1 hp).1
      have wfD := double_wf wf hg r hrlen hr
      have hpD : ({ s with globalDepth := s.globalDepth + 1, entry := r } : State).entry[h * 2]?
          = some p := by
        show r[h * 2]? = some p
        rw [hr, Nat.mul_div_cancel _ (by decide : 0 < 2)]; exact hp
      obtain ⟨b', hb', okD⟩ := wfD.slots (h * 2) p hpD
      have hb'' : s.heap[p]? = some b' := hb'
      rw [hb] at hb''
      cases hb''
      have hltD : old.localDepth <
          ({ s with globalDepth := s.globalDepth + 1, entry := r } : State).globalDepth := by
        show old.localDepth < s.globalDepth + 1
        omega
      have hz : s.globalDepth + 1 - (old.localDepth + 1) = 0 := by omega
      have ho : s.globalDepth + 1 - old.localDepth = 1 := by omega
      have he2 : ∀ x : Nat, ((r.set (h * 2) s.heap.length).set (h * 2 + 1) (s.heap.length + 1))[x]? =
          if x / 2 ^ (s.globalDepth + 1 - (old.localDepth + 1))
              = 2 * (h * 2 / 2 ^ (s.globalDepth + 1 - old.localDepth)) then some s.heap.length
          else if x / 2 ^ (s.globalDepth + 1 - (old.localDepth + 1))
              = 2 * (h * 2 / 2 ^ (s.globalDepth + 1 - old.localDepth)) + 1 then some (s.heap.length + 1)
          else r[x]? := by
        intro x
        rw [hz, ho, Nat.pow_zero, Nat.pow_one, Nat.div_one, Nat.mul_div_cancel _ (by decide : 0 < 2),
          List.getElem?_set, List.getElem?_set]
        by_cases c1 : x = 2 * h
        · rw [if_pos c1, if_neg (by omega), if_pos (by omega), if_pos (by omega)]
        · rw [if_neg c1]
          by_cases c2 : x = 2 * h + 1
          · rw [if_pos c2, if_pos (by omega), if_pos (by simp only [List.length_set]; omega)]
          · rw [if_neg c2, if_neg (by omega), if_neg (by omega)]
      obtain ⟨s1, b1, b2, hrun, hse, hgd, hi, hl, g1, g2, d1, d2, o1, o2, v1, v2, hq⟩ :=
        split_plain_core wfD hb okD hltD
          ((r.set (h * 2) s.heap.length).set (h * 2 + 1) (s.heap.length + 1))
          (by simp only [List.length_set]) he2
      have hgd1 : s1.globalDepth = s.globalDepth + 1 := hgd
      have hcD : h * 2 / 2 ^ (s.globalDepth + 1 - old.localDepth) = h := by
        rw [ho, Nat.pow_one, Nat.mul_div_cancel _ (by decide : 0 < 2)]
      have hc0 : h / 2 ^ (s.globalDepth - old.localDepth) = h := by
        rw [hld, Nat.sub_self, Nat.pow_zero, Nat.div_one]
      have hrunE : ∀ w, PlainWrite w → GlobalDirectory.extend w h s = some (true, s1) := by
        intro w hw
        unfold GlobalDirectory.extend setEntry
        have hmod : (s.globalDepth + 1) % 256 = s.globalDepth + 1 := Nat.mod_eq_of_lt (by omega)
        simp only [hp, hb, if_neg hlt, if_neg hmax, hloop, hrlen, if_true, List.length_set,
          if_pos (show h * 2 < 2 * s.entry.length by omega),
          if_pos (show h * 2 + 1 < 2 * s.entry.length by omega), hmod]
        exact hrun w hw
      refine ⟨s1, b1, b2, hrunE, by rw [if_neg hlt]; exact hgd1, ?_, ?_,
        hi, hl, g1, g2, d1, d2, o1, o2, ?_, ?_, hq, hwf1 s1 hrunE⟩
      · rw [if_neg hlt, hse]
        simp only [List.length_set]
        exact hrlen
      · intro x
        rw [hse, he2 x, hgd1, hcD, hc0, if_neg hlt, hr x]
      · have e : h * 2 / 2 ^ (s.globalDepth + 1 - old.localDepth)
            = h / 2 ^ (s.globalDepth - old.localDepth) := by rw [hcD, hc0]
        rw [v1]
        exact congrArg (fun c => List.filter (fun it : DataItem =>
          decide (hashAt (old.localDepth + 1) it.key = 2 * c)) (validItems old.items)) e
      · have e : h * 2 / 2 ^ (s.globalDepth + 1 - old.localDepth)
            = h / 2 ^ (s.globalDepth - old.localDepth) := by rw [hcD, hc0]
        rw [v2]
        exact congrArg (fun c => List.filter (fun it : DataItem =>
          decide (hashAt (old.localDepth + 1) it.key = 2 * c + 1)) (validItems old.items)) e

theorem twoRegionsErased_reachable : Reachable twoRegionsErased :=
  Reachable.erase 8 170 true twoRegions_reachable (by decide) (by decide)

theorem threeKeysDoubled_wf : WF0 threeKeysDoubled := by
  have wf := (threeKeys_reachable.wf (by decide)).wf0
  refine double_wf wf (by decide) [5, 5, 6, 6, 4, 4, 4, 4, 2, 2, 2, 2, 2, 2, 2, 2] rfl ?_
  intro x
  by_cases hx : x < 16
  · interval_cases x <;> rfl
  · rw [List.getElem?_eq_none (by simp only [List.length_cons, List.length_nil]; omega),
      List.getElem?_eq_none (by
        show threeKeys.entry.length ≤ x / 2
        have : threeKeys.entry.length = 8 := rfl
        omega)]

/-! ## A rejected write, repeated -/

/-- With distinct 8-bit keys, a full bucket that a further 8-bit key hashes to has
local depth at most 6: three distinct bytes cannot agree on their top 7 bits. -/
theorem full_depth_le_six {s : State} (wf : WF0 s) (k : Nat) (hk : k < 256)
    (hd : ∀ k', (s.keyValues k').length ≤ 1) (hr : ∀ k', s.keyValues k' ≠ [] → k' < 256)
    (hn : s.keyValues k = []) {p : Nat} {b : Bucket}
    (hp : s.entry[hashAt s.globalDepth k]? = some p) (hb : s.heap[p]? = some b)
    (hfull : b.validEntryCount = BUCKET_CAPACITY) : b.localDepth ≤ 6 := by
  obtain ⟨b', hb', ok⟩ := wf.slots _ p hp
  rw [hb] at hb'
  cases hb'
  have hg8 : s.globalDepth ≤ 8 := wf.depth_le
  have hkey : ∀ x ∈ b.items, x.valid = true →
      s.keyValues x.key = valsOf x.key b.items ∧ hashAt b.localDepth x.key = hashAt b.localDepth k := by
    intro x hx hv
    have hpl := ok.place x hx hv
    rw [hashAt_div _ _ _ ok.depth_le hg8] at hpl
    obtain ⟨q, bq, hq, _, _⟩ := wf.slot_of_key x.key
    have hqp : q = p := by
      apply (ok.block _ q hq).2
      rw [hashAt_div _ _ _ ok.depth_le hg8, hashAt_div _ _ _ ok.depth_le hg8]
      exact hpl
    rw [hqp] at hq
    exact ⟨State.keyValues_eq hq hb, hpl⟩
  have hlen := ok.ok.items_length
  have hcnt := ok.ok.count_eq
  rw [hfull] at hcnt
  unfold BUCKET_CAPACITY at hlen hcnt
  match hi : b.items, hlen with
  | [x, y], _ =>
    rw [hi] at hcnt hkey
    have hvx : x.valid = true := by
      by_contra h
      have : x.valid = false := by simpa using h
      unfold countValid at hcnt
      by_cases hy : y.valid = true <;> simp [this, hy] at hcnt
    have hvy : y.valid = true := by
      by_contra h
      have : y.valid = false := by simpa using h
      unfold countValid at hcnt
      simp [this, hvx] at hcnt
    obtain ⟨ex, px⟩ := hkey x (by simp) hvx
    obtain ⟨ey, py⟩ := hkey y (by simp) hvy
    have nx : s.keyValues x.key ≠ [] := by
      rw [ex]; unfold valsOf; simp [hvx]
    have ny : s.keyValues y.key ≠ [] := by
      rw [ey]; unfold valsOf; simp [hvy]
    have hxk : x.key ≠ k := fun e => nx (by rw [e]; exact hn)
    have hyk : y.key ≠ k := fun e => ny (by rw [e]; exact hn)
    have hxy : x.key ≠ y.key := by
      intro e
      have := hd x.key
      rw [ex] at this
      unfold valsOf at this
      simp [hvx, hvy, e] at this
    have hx256 := hr _ nx
    have hy256 := hr _ ny
    by_contra hcon
    have hle := ok.depth_le
    have h78 : b.localDepth = 7 ∨ b.localDepth = 8 := by omega
    unfold hashAt at px py
    rw [Nat.mod_eq_of_lt hx256, Nat.mod_eq_of_lt hk] at px
    rw [Nat.mod_eq_of_lt hy256, Nat.mod_eq_of_lt hk] at py
    rcases h78 with h | h
    · rw [h] at px py
      norm_num at px py
      omega
    · rw [h] at px py
      norm_num at px py
      omega

/-- A failed pass of `n` retries leaves the key's bucket `n` levels deeper. -/
theorem writeRetry_depth (k : Nat) (hk : k < 256) (v : Int) :
    ∀ (n : Nat) (s : State), WF0 s →
      (∀ k', (s.keyValues k').length ≤ 1) → (∀ k', s.keyValues k' ≠ [] → k' < 256) →
      s.keyValues k = [] →
      ∀ (p : Nat) (b : Bucket), s.entry[hashAt s.globalDepth k]? = some p → s.heap[p]? = some b →
      b.validEntryCount = BUCKET_CAPACITY →
      ∀ (fuel : Nat) (s1 : State),
        GlobalDirectory.writeRetry (GlobalDirectory.extend (GlobalDirectory.write (fuel + 1))) k v n
          (hashAt s.globalDepth k) s = some (false, s1) →
        ∃ (p1 : Nat) (b1 : Bucket), s1.entry[hashAt s1.globalDepth k]? = some p1 ∧
          s1.heap[p1]? = some b1 ∧ b1.localDepth = b.localDepth + n := by
  intro n
  induction n with
  | zero =>
    intro s _ _ _ _ p b hp hb _ fuel s1 hrun
    rw [writeRetry_zero] at hrun
    cases hrun
    exact ⟨p, b, hp, hb, rfl⟩
  | succ n ih =>
    intro s wf hd hr hn p b hp hb hfull fuel s1 hrun
    have h6 := full_depth_le_six wf k hk hd hr hn hp hb hfull
    obtain ⟨b', hb', ok⟩ := wf.slots _ p hp
    rw [hb] at hb'
    cases hb'
    rcases extend_spec wf hp hb ok with ⟨h1, h2, _⟩ | ⟨s2, hext, esp⟩
    · omega
    · have hin : hashAt b.localDepth k
          = hashAt s.globalDepth k / 2 ^ (s.globalDepth - b.localDepth) :=
        (hashAt_div _ _ _ ok.depth_le wf.depth_le).symm
      obtain ⟨q, bq, hq, hbq, _, hqd⟩ := esp.inside k hin
      have hd2 : ∀ k', (s2.keyValues k').length ≤ 1 := fun k' => by rw [esp.vals]; exact hd k'
      have hr2 : ∀ k', s2.keyValues k' ≠ [] → k' < 256 := fun k' h => hr k' (by rw [← esp.vals]; exact h)
      have hn2 : s2.keyValues k = [] := by rw [esp.vals]; exact hn
      rcases bucketWrite_spec esp.wf k v with ⟨hw, w1⟩ | ⟨s3, hw, _⟩
      · rw [writeRetry_of_write_false _ k v n _ (hext fuel) esp.wf hw] at hrun
        obtain ⟨q', bq', hq', hbq', hfull'⟩ := w1.full_fail rfl
        rw [hq] at hq'
        cases hq'
        rw [hbq] at hbq'
        cases hbq'
        obtain ⟨p1, b1, h1, h2, h3⟩ := ih s2 esp.wf hd2 hr2 hn2 q bq hq hbq hfull' fuel s1 hrun
        exact ⟨p1, b1, h1, h2, by rw [h3, hqd]; omega⟩
      · rw [writeRetry_of_write_true _ k v n _ (hext fuel) esp.wf hw] at hrun
        cases hrun

/-- On a directory whose keys are distinct bytes, a write of a further byte that
is rejected succeeds when it is repeated. -/
theorem directory_write_twice {s : State} (wf : WF0 s) (k : Nat) (hk : k < 256) (v : Int)
    (hd : ∀ k', (s.keyValues k').length ≤ 1) (hr : ∀ k', s.keyValues k' ≠ [] → k' < 256)
    (hn : s.keyValues k = []) :
    ∃ ok s1, (∀ fuel, GlobalDirectory.write (fuel + 2) k v s = some (ok, s1)) ∧
      WriteSpec s s1 k v ok ∧
      (ok = false → ∃ s2, ∀ fuel, GlobalDirectory.write (fuel + 2) k v s1 = some (true, s2)) := by
  obtain ⟨r, s1, hrun, w⟩ := directory_write_spec wf k v
  refine ⟨r, s1, hrun, w, fun hfalse => ?_⟩
  subst hfalse
  -- the first call went through all its retries
  obtain ⟨p, b, hp, hb, ok⟩ := wf.slot_of_key k
  have hrun0 := hrun 0
  rw [GlobalDirectory.write] at hrun0
  simp only [wf.entry_ne_nil, Bool.false_eq_true, if_false, wf.hash_eq] at hrun0
  rcases bucketWrite_spec wf k v with ⟨hw, w0⟩ | ⟨s1', hw, _⟩
  swap
  · rw [hw] at hrun0
    cases hrun0
  simp only [hw] at hrun0
  obtain ⟨p', b', hp', hb', hfull⟩ := w0.full_fail rfl
  rw [hp] at hp'
  cases hp'
  rw [hb] at hb'
  cases hb'
  obtain ⟨p1, b1, hp1, hb1, hd1⟩ := writeRetry_depth k hk v GlobalDirectory.RETRIES s wf hd hr hn
    p b hp hb hfull 0 s1 hrun0
  -- the state it left
  have hds : ∀ k', (s1.keyValues k').length ≤ 1 := by
    intro k'
    by_cases e : k' = k
    · rw [e, w.vals_fail rfl, hn]; exact Nat.zero_le _
    · rw [w.vals_other k' e]; exact hd k'
  have hrs : ∀ k', s1.keyValues k' ≠ [] → k' < 256 := by
    intro k' h
    by_cases e : k' = k
    · rw [e]; exact hk
    · exact hr k' (by rw [← w.vals_other k' e]; exact h)
  have hns : s1.keyValues k = [] := by rw [w.vals_fail rfl, hn]
  obtain ⟨q, bq, hq, hbq, hfull1⟩ := w.full_fail rfl
  rw [hp1] at hq
  cases hq
  rw [hb1] at hbq
  cases hbq
  have h6 := full_depth_le_six w.wf k hk hds hrs hns hp1 hb1 hfull1
  have hpos := ok.depth_pos
  have hb16 : b1.localDepth = 6 := by
    unfold GlobalDirectory.RETRIES at hd1
    omega
  -- the second call: one more level separates the keys
  obtain ⟨b1', hb1', ok1⟩ := w.wf.slots _ p1 hp1
  rw [hb1] at hb1'
  cases hb1'
  rcases extend_spec w.wf hp1 hb1 ok1 with ⟨h1, h2, _⟩ | ⟨s2, hext, esp⟩
  · omega
  have hin : hashAt b1.localDepth k
      = hashAt s1.globalDepth k / 2 ^ (s1.globalDepth - b1.localDepth) :=
    (hashAt_div _ _ _ ok1.depth_le w.wf.depth_le).symm
  obtain ⟨q2, bq2, hq2, hbq2, _, hqd2⟩ := esp.inside k hin
  have hd2 : ∀ k', (s2.keyValues k').length ≤ 1 := fun k' => by rw [esp.vals]; exact hds k'
  have hr2 : ∀ k', s2.keyValues k' ≠ [] → k' < 256 := fun k' h => hrs k' (by rw [← esp.vals]; exact h)
  have hn2 : s2.keyValues k = [] := by rw [esp.vals]; exact hns
  rcases bucketWrite_spec esp.wf k v with ⟨_, w2⟩ | ⟨s3, hw3, _⟩
  · obtain ⟨q', bq', hq', hbq', hfull'⟩ := w2.full_fail rfl
    rw [hq2] at hq'
    cases hq'
    rw [hbq2] at hbq'
    cases hbq'
    have := full_depth_le_six esp.wf k hk hd2 hr2 hn2 hq2 hbq2 hfull'
    omega
  · refine ⟨s3, fun fuel => ?_⟩
    rw [GlobalDirectory.write]
    simp only [w.wf.entry_ne_nil, Bool.false_eq_true, if_false, w.wf.hash_eq,
      bucketWrite_of_full k v hp1 hb1 hfull1]
    exact writeRetry_of_write_true _ k v 4 _ (hext fuel) esp.wf hw3

theorem twoLowKeys_holders (k' : Nat) :
    MemoryManager.holders twoLowKeys k' = if k' = 0 ∨ k' = 1 then 1 else 0 := by
  unfold MemoryManager.holders twoLowKeys valsOf
  simp only [if_true, List.getElem?_cons_zero]
  match k' with
  | 0 => rfl
  | 1 => rfl
  | n + 2 => simp

/-! ## The depths seen by `mergeOn` and `splitOn` -/

/-- On a well-formed directory the expectation holds at every slot. -/
theorem depthGuard_of_wf {s : State} (wf : WF0 s) {h p : Nat} (hp : s.entry[h]? = some p) :
    depthGuard s h = true := by
  obtain ⟨b, hb, ok⟩ := wf.slots h p hp
  obtain ⟨hstart, _⟩ := wf.block_bounds hp ok
  have hwalk := leftWalk_spec wf hp ok h rfl
  have hpos := ok.depth_pos
  have hle := ok.depth_le
  have hg8 : s.globalDepth ≤ 8 := wf.depth_le
  have h1 : 2 ^ (s.globalDepth - b.localDepth) ≤ 2 ^ (s.globalDepth - 1) :=
    Nat.pow_le_pow_right (by decide) (by omega)
  have h2 : (h / 2 ^ (s.globalDepth - b.localDepth) * 2 ^ (s.globalDepth - b.localDepth))
      ^^^ 2 ^ (s.globalDepth - b.localDepth) < s.entry.length := by
    rw [xor_two_pow, wf.length_eq]
    exact wf.buddy_lt hp ok
  have h3 : (b.localDepth + 2 ^ 32 - 1) % 2 ^ 32 + 1 = b.localDepth := by
    omega
  unfold depthGuard
  rw [Bool.and_eq_true]
  constructor
  · rw [List.all_eq_true]
    intro q hq
    obtain ⟨j, hj⟩ := List.mem_iff_getElem?.1 hq
    obtain ⟨bq, hbq, okq⟩ := wf.slots j q hj
    simp only [hbq, decide_eq_true_eq]
    exact okq.depth_pos
  · rw [hwalk]
    simp only [hstart, hb, h1, h2, h3, decide_True, Bool.and_self]

theorem splitOnChecked_eq (w : Nat → Int → State → Outcome) {s : State} (wf : WF0 s) {h p : Nat}
    (hp : s.entry[h]? = some p) :
    GlobalDirectory.splitOnChecked w h s = GlobalDirectory.splitOn w h s := by
  unfold GlobalDirectory.splitOnChecked
  rw [if_pos (depthGuard_of_wf wf hp)]

theorem mergeOnChecked_eq (w : Nat → Int → State → Outcome) {s : State} (wf : WF0 s) {h p : Nat}
    (hp : s.entry[h]? = some p) :
    GlobalDirectory.mergeOnChecked w h s = GlobalDirectory.mergeOn w h s := by
  unfold GlobalDirectory.mergeOnChecked
  rw [if_pos (depthGuard_of_wf wf hp)]

theorem extendChecked_eq (w : Nat → Int → State → Outcome) {s : State} (wf : WF0 s) {h p : Nat}
    (hp : s.entry[h]? = some p) :
    GlobalDirectory.extendChecked w h s = GlobalDirectory.extend w h s := by
  obtain ⟨b, hb, _⟩ := wf.slots h p hp
  unfold GlobalDirectory.extendChecked GlobalDirectory.extend
  simp only [hp, hb]
  by_cases hlt : b.localDepth < s.globalDepth
  · simp only [if_pos hlt]
    exact splitOnChecked_eq w wf hp
  · simp only [if_neg hlt]

theorem PlainWrite.of_writeChecked (fuel : Nat) :
    PlainWrite (GlobalDirectory.writeChecked (fuel + 1)) := by
  intro key data s s1 h
  unfold GlobalDirectory.writeOnce at h
  rw [GlobalDirectory.writeChecked]
  by_cases he : s.entry.isEmpty = true
  · rw [if_pos he] at h
    cases h
  · rw [if_neg he] at h ⊢
    cases hh : GlobalDirectory.hash s key with
    | none => rw [hh] at h; cases h
    | some index =>
      rw [hh] at h
      simp only [] at h ⊢
      rw [h]

/-- The result of `extend` on a well-formed directory is the same for every plain
write. -/
theorem extend_plain_eq {s : State} (wf : WF0 s) {h p : Nat} (hp : s.entry[h]? = some p)
    {w1 w2 : Nat → Int → State → Outcome} (h1 : PlainWrite w1) (h2 : PlainWrite w2) :
    GlobalDirectory.extend w1 h s = GlobalDirectory.extend w2 h s := by
  obtain ⟨b, hb, ok⟩ := wf.slots h p hp
  obtain ⟨hfail, hsucc⟩ := extend_plain wf hp hb ok
  by_cases hc : b.localDepth = s.globalDepth ∧ s.globalDepth = MAX_KEY_LENGTH
  · rw [hfail hc w1, hfail hc w2]
  · obtain ⟨s1, _, _, hrun, _⟩ := hsucc hc
    rw [hrun w1 h1, hrun w2 h2]

/-- The result of `mergeOn` on a well-formed directory is the same for every plain
write. -/
theorem mergeOn_plain_eq {s : State} (wf : WF0 s) {h p : Nat} (hp : s.entry[h]? = some p)
    {w1 w2 : Nat → Int → State → Outcome} (h1 : PlainWrite w1) (h2 : PlainWrite w2) :
    GlobalDirectory.mergeOn w1 h s = GlobalDirectory.mergeOn w2 h s := by
  by_cases hg1 : s.globalDepth = 1
  · unfold GlobalDirectory.mergeOn
    simp only [hg1, beq_self_eq_true, if_true]
  · obtain ⟨b, hb, ok⟩ := wf.slots h p hp
    obtain ⟨pb, bud, _, _, hsucc, hfail⟩ := mergeOn_plain wf hg1 hp hb ok
    by_cases hc : bud.localDepth = b.localDepth ∧
        b.validEntryCount + bud.validEntryCount ≤ BUCKET_CAPACITY
    · obtain ⟨s1, _, hrun, _⟩ := hsucc hc
      rw [hrun w1 h1, hrun w2 h2]
    · rw [hfail hc w1, hfail hc w2]

theorem writeRetry_checked (k : Nat) (v : Int) (fuel : Nat) :
    ∀ (n : Nat) (s : State), WF0 s →
      GlobalDirectory.writeRetry
          (GlobalDirectory.extendChecked (GlobalDirectory.writeChecked (fuel + 1))) k v n
          (hashAt s.globalDepth k) s
        = GlobalDirectory.writeRetry (GlobalDirectory.extend (GlobalDirectory.write (fuel + 1)))
          k v n (hashAt s.globalDepth k) s := by
  intro n
  induction n with
  | zero => intro s _; rw [writeRetry_zero, writeRetry_zero]
  | succ n ih =>
    intro s wf
    obtain ⟨p, b, hp, hb, ok⟩ := wf.slot_of_key k
    have he : GlobalDirectory.extendChecked (GlobalDirectory.writeChecked (fuel + 1))
          (hashAt s.globalDepth k) s
        = GlobalDirectory.extend (GlobalDirectory.write (fuel + 1)) (hashAt s.globalDepth k) s :=
      (extendChecked_eq _ wf hp).trans
        (extend_plain_eq wf hp (PlainWrite.of_writeChecked fuel) (PlainWrite.of_write fuel))
    rcases extend_spec wf hp hb ok with ⟨_, _, hext⟩ | ⟨s1, hext, esp⟩
    · rw [writeRetry_of_ext_false _ k v n _ (he.trans (hext fuel)) wf,
        writeRetry_of_ext_false _ k v n _ (hext fuel) wf]
      exact ih s wf
    · rcases bucketWrite_spec esp.wf k v with ⟨hw, _⟩ | ⟨s2, hw, _⟩
      · rw [writeRetry_of_write_false _ k v n _ (he.trans (hext fuel)) esp.wf hw,
          writeRetry_of_write_false _ k v n _ (hext fuel) esp.wf hw]
        exact ih s1 esp.wf
      · rw [writeRetry_of_write_true _ k v n _ (he.trans (hext fuel)) esp.wf hw,
          writeRetry_of_write_true _ k v n _ (hext fuel) esp.wf hw]

/-- On a well-formed directory the checked `write` returns what `write` returns. -/
theorem writeChecked_eq {s : State} (wf : WF0 s) (k : Nat) (v : Int) (fuel : Nat) :
    GlobalDirectory.writeChecked (fuel + 2) k v s = GlobalDirectory.write (fuel + 2) k v s := by
  rw [GlobalDirectory.writeChecked, GlobalDirectory.write]
  simp only [wf.entry_ne_nil, Bool.false_eq_true, if_false, wf.hash_eq]
  rcases bucketWrite_spec wf k v with ⟨hw, _⟩ | ⟨s1, hw, _⟩
  · simp only [hw]
    exact writeRetry_checked k v fuel GlobalDirectory.RETRIES s wf
  · simp only [hw]

theorem eraseLoopChecked_eq (k : Nat) (fuel : Nat) :
    ∀ (rounds : Nat) (s : State), WF0 s → Minimal s →
      GlobalDirectory.eraseLoopChecked (GlobalDirectory.writeChecked (fuel + 1)) k rounds
          (hashAt s.globalDepth k) s
        = GlobalDirectory.eraseLoop (GlobalDirectory.write (fuel + 1)) k rounds
          (hashAt s.globalDepth k) s := by
  intro rounds
  induction rounds with
  | zero => intro s _ _; rfl
  | succ r ih =>
    intro s wf min
    obtain ⟨p, del, hp, hb, ok⟩ := wf.slot_of_key k
    have hm : GlobalDirectory.mergeOnChecked (GlobalDirectory.writeChecked (fuel + 1))
          (hashAt s.globalDepth k) s
        = GlobalDirectory.mergeOn (GlobalDirectory.write (fuel + 1)) (hashAt s.globalDepth k) s :=
      (mergeOnChecked_eq _ wf hp).trans
        (mergeOn_plain_eq wf hp (PlainWrite.of_writeChecked fuel) (PlainWrite.of_write fuel))
    rw [GlobalDirectory.eraseLoopChecked, GlobalDirectory.eraseLoop, hm]
    rcases mergeOn_spec wf min hp hb ok with ⟨_, hrun⟩ | ⟨pb, bud, s1, _, _, _, _, _, hrun, msp⟩
    · simp only [hrun fuel]
    · by_cases hmin1 : Minimal s1
      · simp only [hrun fuel, minimize_of_minimal msp.wf hmin1]
      · obtain ⟨s2, hz, zsp⟩ := minimize_spec msp.wf hmin1
        have hmin2 := zsp.minimal_of msp.wf msp.near_minimal hmin1
        simp only [hrun fuel, hz, zsp.wf.hash_eq]
        exact ih s2 zsp.wf hmin2

/-- On a well-formed minimal directory the checked `erase` returns what `erase`
returns. -/
theorem eraseChecked_eq {s : State} (wf : WF0 s) (min : Minimal s) (k : Nat) (fuel : Nat) :
    GlobalDirectory.eraseChecked (fuel + 1) k s = GlobalDirectory.erase (fuel + 1) k s := by
  obtain ⟨p, b, hp, hb, ok⟩ := wf.slot_of_key k
  unfold GlobalDirectory.eraseChecked GlobalDirectory.erase
  simp only [wf.entry_ne_nil, Bool.false_eq_true, if_false, wf.hash_eq, hp, hb]
  by_cases h : valsOf k b.items = []
  · simp only [Bucket.erase_of_absent b k h]
  · obtain ⟨b1, he, esp⟩ := Bucket.erase_of_present b k ok.ok h
    have wf1 : WF0 (s.store p b1) := by
      apply wf.store_wf hp hb esp.depth_eq esp.ok
      intro x hx hxv
      obtain ⟨h1, h2⟩ := esp.items.mem_valid x hx hxv
      exact ok.place x h1 h2
    have min1 : Minimal (s.store p b1) := min.store_minimal hb esp.depth_eq
    have := eraseLoopChecked_eq k fuel (fuel + 1) (s.store p b1) wf1 min1
    rw [show (s.store p b1).globalDepth = s.globalDepth from rfl] at this
    simp only [he, this]

/-- Creating the directory gives the same result for every plain write. -/
theorem initializeDirectory_plain_eq {s : State} (bs : Bootstrap s) {b0 : Bucket}
    (hb0 : s.heap[s.initialFile]? = some b0) (ok0 : BucketOK b0)
    {w1 w2 : Nat → Int → State → Outcome} (h1 : PlainWrite w1) (h2 : PlainWrite w2) :
    GlobalDirectory.initializeDirectory w1 s.initialFile s
      = GlobalDirectory.initializeDirectory w2 s.initialFile s := by
  have hinit : s.initialFile < s.heap.length := (List.getElem?_eq_some.1 hb0).1
  generalize hs0 : ({ s with
      heap := s.heap ++ [Bucket.new 1, Bucket.new 1],
      globalDepth := 1, entry := [s.heap.length, s.heap.length + 1] } : State) = s0
  have hs0h : s0.heap = s.heap ++ [Bucket.new 1, Bucket.new 1] := by rw [← hs0]
  have hs0e : s0.entry = [s.heap.length, s.heap.length + 1] := by rw [← hs0]
  have hs0g : s0.globalDepth = 1 := by rw [← hs0]
  have hn1 : s0.heap[s.heap.length]? = some (Bucket.new 1) := by
    rw [hs0h]; exact heap_append_fst _ _ _
  have hn2 : s0.heap[s.heap.length + 1]? = some (Bucket.new 1) := by
    rw [hs0h]; exact heap_append_snd _ _ _
  have hb00 : s0.heap[s.initialFile]? = some b0 := by
    rw [hs0h]; exact heap_append_left _ _ hb0
  have hunref : ∀ j : Nat, s0.entry[j]? ≠ some s.initialFile := by
    intro j hj
    rw [hs0e] at hj
    match j, hj with
    | 0, hj => simp at hj; omega
    | 1, hj => simp at hj; omega
    | x + 2, hj => simp at hj
  have hcnt : (Bucket.new 1).validEntryCount + countValid b0.items ≤ BUCKET_CAPACITY := by
    rw [Bucket.new_count, Nat.zero_add, ← ok0.count_eq]; exact ok0.count_le
  obtain ⟨s1, hrun, _⟩ := reHashItems_plain s.initialFile b0 s0
    (by rw [hs0e]; rfl) (by rw [hs0g]; omega) hb00 hunref ok0.items_length (by
      intro it _ _
      have hlt := hashAt_lt 1 it.key (by omega)
      rw [hs0g, hs0e]
      have hc : hashAt 1 it.key = 0 ∨ hashAt 1 it.key = 1 := by omega
      rcases hc with c | c
      · exact ⟨s.heap.length, _, by rw [c]; rfl, hn1, BucketOK.new _, Bucket.new_compact _, hcnt⟩
      · exact ⟨s.heap.length + 1, _, by rw [c]; rfl, hn2, BucketOK.new _, Bucket.new_compact _,
          hcnt⟩)
  unfold GlobalDirectory.initializeDirectory
  simp only [bs.entry_nil, List.isEmpty_nil, Bool.not_true, Bool.false_eq_true, if_false]
  have e1 := hrun w1 h1
  have e2 := hrun w2 h2
  rw [← hs0] at e1 e2
  rw [e1, e2]

/-- On every state that satisfies the invariant, the checked facade `write`
returns what `write` returns. -/
theorem MemoryManager.facade_writeChecked {s : State} (inv : Inv s) (k : Nat) (v : Int) (fuel : Nat) :
    MemoryManager.writeChecked (fuel + 2) k v s = MemoryManager.write (fuel + 2) k v s := by
  rcases inv with bs | wf
  · obtain ⟨b0, hb0, ok0⟩ := bs.initial
    unfold MemoryManager.writeChecked MemoryManager.write
    simp only [bs.depth_zero, beq_self_eq_true, if_true, hb0]
    by_cases hfull : b0.validEntryCount = BUCKET_CAPACITY
    · obtain ⟨t, hinit, wft, _⟩ := initializeDirectory_spec bs hb0 ok0
      have e := initializeDirectory_plain_eq bs hb0 ok0 (PlainWrite.of_writeChecked (fuel + 1))
        (PlainWrite.of_write (fuel + 1))
      simp only [Bucket.write_of_full b0 k v hfull, e, hinit (fuel + 1)]
      exact writeChecked_eq wft.wf0 k v fuel
    · obtain ⟨b1, hw, _⟩ := Bucket.write_of_room b0 k v ok0 hfull
      simp only [hw]
  · have hne : (s.globalDepth == 0) = false := by simpa using wf.depth_ne_zero
    unfold MemoryManager.writeChecked MemoryManager.write
    simp only [hne, Bool.false_eq_true, if_false]
    exact writeChecked_eq wf.wf0 k v fuel

/-- On every state that satisfies the invariant, the checked facade `erase`
returns what `erase` returns. -/
theorem MemoryManager.facade_eraseChecked {s : State} (inv : Inv s) (k : Nat) (fuel : Nat) :
    MemoryManager.eraseChecked (fuel + 1) k s = MemoryManager.erase (fuel + 1) k s := by
  rcases inv with bs | wf
  · unfold MemoryManager.eraseChecked MemoryManager.erase
    simp only [bs.depth_zero, beq_self_eq_true, if_true]
  · have hne : (s.globalDepth == 0) = false := by simpa using wf.depth_ne_zero
    unfold MemoryManager.eraseChecked MemoryManager.erase
    simp only [hne, Bool.false_eq_true, if_false]
    exact eraseChecked_eq wf.wf0 wf.minimal k fuel

/-! ## The operations of the directory, one by one -/

/-- C21 (`extend` fails only at the addressing limit). On a well-formed directory,
for a slot `i` with bucket `old`: if `old.localDepth = globalDepth =
MAX_KEY_LENGTH`, `extend(i)` returns `false` and changes nothing, whatever write
it is given. Otherwise it returns `true`, with the same resulting state for the
directory's `write` with any positive fuel and for `writeOnce`, the write that
never calls `extend`: the rehash never fails and never extends recursively. In
that state the global depth is one more and the directory twice as long exactly
when `old.localDepth = globalDepth`, and both are as before otherwise; two
buckets were added to the store, both of local depth `old.localDepth + 1`; the
lower half of the old block points to the first and the upper half to the
second, every other slot to what it pointed to (slot `x / 2` of before when the
directory doubled); the valid items of the first are those of `old` whose next
key bit is 0, in order, those of the second the ones whose next bit is 1; every
bucket that existed is unchanged, and the directory is again well-formed. -/
theorem C21_extend {s : State} (wf : WF0 s) {i p : Nat} {old : Bucket}
    (hp : s.entry[i]? = some p) (hb : s.heap[p]? = some old) :
    ((old.localDepth = s.globalDepth ∧ s.globalDepth = MAX_KEY_LENGTH) →
      ∀ w, GlobalDirectory.extend w i s = some (false, s)) ∧
    (¬ (old.localDepth = s.globalDepth ∧ s.globalDepth = MAX_KEY_LENGTH) →
      ∃ (s1 : State) (b1 b2 : Bucket),
        (∀ fuel, GlobalDirectory.extend (GlobalDirectory.write (fuel + 1)) i s = some (true, s1)) ∧
        GlobalDirectory.extend GlobalDirectory.writeOnce i s = some (true, s1) ∧
        s1.globalDepth = (if old.localDepth < s.globalDepth then s.globalDepth
          else s.globalDepth + 1) ∧
        s1.entry.length = (if old.localDepth < s.globalDepth then s.entry.length
          else 2 * s.entry.length) ∧
        (∀ x : Nat, s1.entry[x]? =
          if x / 2 ^ (s1.globalDepth - (old.localDepth + 1))
              = 2 * (i / 2 ^ (s.globalDepth - old.localDepth)) then some s.heap.length
          else if x / 2 ^ (s1.globalDepth - (old.localDepth + 1))
              = 2 * (i / 2 ^ (s.globalDepth - old.localDepth)) + 1 then some (s.heap.length + 1)
          else if old.localDepth < s.globalDepth then s.entry[x]? else s.entry[x / 2]?) ∧
        s1.heap.length = s.heap.length + 2 ∧
        s1.heap[s.heap.length]? = some b1 ∧ s1.heap[s.heap.length + 1]? = some b2 ∧
        b1.localDepth = old.localDepth + 1 ∧ b2.localDepth = old.localDepth + 1 ∧
        validItems b1.items = (validItems old.items).filter (fun it =>
          decide (hashAt (old.localDepth + 1) it.key
            = 2 * (i / 2 ^ (s.globalDepth - old.localDepth)))) ∧
        validItems b2.items = (validItems old.items).filter (fun it =>
          decide (hashAt (old.localDepth + 1) it.key
            = 2 * (i / 2 ^ (s.globalDepth - old.localDepth)) + 1)) ∧
        (∀ q : Nat, q < s.heap.length → s1.heap[q]? = s.heap[q]?) ∧
        WF0 s1) := by
  obtain ⟨b, hb1, ok⟩ := wf.slots i p hp
  rw [hb] at hb1
  cases hb1
  obtain ⟨hfail, hsucc⟩ := extend_plain wf hp hb ok
  refine ⟨hfail, fun hnot => ?_⟩
  obtain ⟨s1, b1, b2, hrun, hgd, hlen, hent, _, hl, g1, g2, d1, d2, _, _, v1, v2, hq, wf1⟩ :=
    hsucc hnot
  exact ⟨s1, b1, b2, fun fuel => hrun _ (PlainWrite.of_write fuel),
    hrun _ PlainWrite.of_writeOnce, hgd, hlen, hent, hl, g1, g2, d1, d2, v1, v2, hq, wf1⟩

set_option maxRecDepth 1000000 in
theorem C21_extend_witness :
    WF0 threeKeys ∧ threeKeys.entry[0]? = some 5 ∧
    threeKeys.heap[5]? = some ⟨3, 2, [⟨true, 20, 1⟩, ⟨true, 70, 2⟩]⟩ ∧
    (((3 = threeKeys.globalDepth ∧ threeKeys.globalDepth = MAX_KEY_LENGTH) →
        ∀ w, GlobalDirectory.extend w 0 threeKeys = some (false, threeKeys)) ∧
      (¬ (3 = threeKeys.globalDepth ∧ threeKeys.globalDepth = MAX_KEY_LENGTH) →
        ∃ (s1 : State) (b1 b2 : Bucket),
          (∀ fuel, GlobalDirectory.extend (GlobalDirectory.write (fuel + 1)) 0 threeKeys =
              some (true, s1)) ∧
          GlobalDirectory.extend GlobalDirectory.writeOnce 0 threeKeys = some (true, s1) ∧
          s1.globalDepth = (if 3 < threeKeys.globalDepth then threeKeys.globalDepth
            else threeKeys.globalDepth + 1) ∧
          s1.entry.length = (if 3 < threeKeys.globalDepth then threeKeys.entry.length
            else 2 * threeKeys.entry.length) ∧
          (∀ x : Nat, s1.entry[x]? =
            if x / 2 ^ (s1.globalDepth - (3 + 1))
                = 2 * (0 / 2 ^ (threeKeys.globalDepth - 3)) then some threeKeys.heap.length
            else if x / 2 ^ (s1.globalDepth - (3 + 1))
                = 2 * (0 / 2 ^ (threeKeys.globalDepth - 3)) + 1 then
                    some (threeKeys.heap.length + 1)
            else if 3 < threeKeys.globalDepth then
                threeKeys.entry[x]? else threeKeys.entry[x / 2]?) ∧
          s1.heap.length = threeKeys.heap.length + 2 ∧
          s1.heap[threeKeys.heap.length]? = some b1 ∧
              s1.heap[threeKeys.heap.length + 1]? = some b2 ∧
          b1.localDepth = 3 + 1 ∧ b2.localDepth = 3 + 1 ∧
          validItems b1.items =
              (validItems ([⟨true, 20, 1⟩, ⟨true, 70, 2⟩] : List DataItem)).filter (fun it =>
            decide (hashAt (3 + 1) it.key
              = 2 * (0 / 2 ^ (threeKeys.globalDepth - 3)))) ∧
          validItems b2.items =
              (validItems ([⟨true, 20, 1⟩, ⟨true, 70, 2⟩] : List DataItem)).filter (fun it =>
            decide (hashAt (3 + 1) it.key
              = 2 * (0 / 2 ^ (threeKeys.globalDepth - 3)) + 1)) ∧
          (∀ q : Nat, q < threeKeys.heap.length → s1.heap[q]? = threeKeys.heap[q]?) ∧
          WF0 s1)) :=
  ⟨(threeKeys_reachable.wf (by decide)).wf0, by decide, by decide,
    C21_extend (threeKeys_reachable.wf (by decide)).wf0
      (show threeKeys.entry[0]? = some 5 by decide)
      (show threeKeys.heap[5]? = some ⟨3, 2, [⟨true, 20, 1⟩, ⟨true, 70, 2⟩]⟩ by decide)⟩

/-- C22 (`mergeOn`: precondition and result). On a well-formed directory of global
depth greater than 1, for a slot `i` with bucket `del`, let `span = 2 ^
(globalDepth - del.localDepth)`: the slot `(i / span * span) ^^^ span` is in
range and points to a bucket `bud`. If `bud` has the local depth of `del` and
the two live counts sum to at most `BUCKET_CAPACITY`, `mergeOn(i)` returns
`true`: depth and length of the directory are as before, one bucket was added to
the store, of local depth `del.localDepth - 1`, the slots that point to it are
exactly those of the aligned block of `2 * span` slots around `i`, every other
slot and every bucket that existed are unchanged, and the valid items of the new
bucket are those of `del` followed by those of `bud`. Otherwise `mergeOn(i)`
returns `false` and changes nothing, whatever write it is given. -/
theorem C22_mergeOn {s : State} (wf : WF0 s) (hg : 1 < s.globalDepth) {i p : Nat} {del : Bucket}
    (hp : s.entry[i]? = some p) (hb : s.heap[p]? = some del) :
    ∃ (pb : Nat) (bud : Bucket),
      s.entry[(i / 2 ^ (s.globalDepth - del.localDepth) * 2 ^ (s.globalDepth - del.localDepth))
        ^^^ 2 ^ (s.globalDepth - del.localDepth)]? = some pb ∧
      s.heap[pb]? = some bud ∧
      ((bud.localDepth = del.localDepth ∧
          del.validEntryCount + bud.validEntryCount ≤ BUCKET_CAPACITY) →
        ∃ (s1 : State) (bm : Bucket),
          (∀ fuel, GlobalDirectory.mergeOn (GlobalDirectory.write (fuel + 1)) i s
            = some (true, s1)) ∧
          s1.globalDepth = s.globalDepth ∧ s1.entry.length = s.entry.length ∧
          s1.heap.length = s.heap.length + 1 ∧
          (∀ q : Nat, q < s.heap.length → s1.heap[q]? = s.heap[q]?) ∧
          s1.heap[s.heap.length]? = some bm ∧ bm.localDepth + 1 = del.localDepth ∧
          (∀ x : Nat, s1.entry[x]? = some s.heap.length ↔
            x / (2 * 2 ^ (s.globalDepth - del.localDepth))
              = i / (2 * 2 ^ (s.globalDepth - del.localDepth))) ∧
          (∀ x : Nat, x / (2 * 2 ^ (s.globalDepth - del.localDepth))
              ≠ i / (2 * 2 ^ (s.globalDepth - del.localDepth)) → s1.entry[x]? = s.entry[x]?) ∧
          validItems bm.items = validItems del.items ++ validItems bud.items) ∧
      (¬ (bud.localDepth = del.localDepth ∧
          del.validEntryCount + bud.validEntryCount ≤ BUCKET_CAPACITY) →
        ∀ w, GlobalDirectory.mergeOn w i s = some (false, s)) := by
  obtain ⟨b, hb1, ok⟩ := wf.slots i p hp
  rw [hb] at hb1
  cases hb1
  obtain ⟨pb, bud, hpb, hbud, hsucc, hfail⟩ := mergeOn_plain wf (by omega) hp hb ok
  refine ⟨pb, bud, by rw [xor_two_pow]; exact hpb, hbud, fun hc => ?_, hfail⟩
  obtain ⟨s1, bm, hrun, hgd, _, hlen, hent, hl, hm, hmd, _, hv, hq⟩ := hsucc hc
  refine ⟨s1, bm, fun fuel => hrun _ (PlainWrite.of_write fuel), hgd, hlen, hl, hq, hm, hmd,
    fun x => ?_, fun x hx => ?_, hv⟩
  · rw [hent x]
    constructor
    · intro h1
      by_contra hne
      rw [if_neg hne] at h1
      obtain ⟨bx, hbx, _⟩ := wf.slots x _ h1
      have := (List.getElem?_eq_some.1 hbx).1
      omega
    · intro h1
      rw [if_pos h1]
  · rw [hent x, if_neg hx]

set_option maxRecDepth 1000000 in
theorem C22_mergeOn_witness :
    WF0 twoRegionsErased ∧ 1 < twoRegionsErased.globalDepth ∧
    twoRegionsErased.entry[5]? = some 11 ∧
    twoRegionsErased.heap[11]? = some ⟨2, 2, [⟨true, 54, 129⟩, ⟨true, 16, 130⟩]⟩ ∧
    (∃ (pb : Nat) (bud : Bucket),
        twoRegionsErased.entry[(5 / 2 ^ (twoRegionsErased.globalDepth - 2) * 2 ^
            (twoRegionsErased.globalDepth - 2))
          ^^^ 2 ^ (twoRegionsErased.globalDepth - 2)]? = some pb ∧
        twoRegionsErased.heap[pb]? = some bud ∧
        ((bud.localDepth = 2 ∧
            2 + bud.validEntryCount ≤ BUCKET_CAPACITY) →
          ∃ (s1 : State) (bm : Bucket),
            (∀ fuel, GlobalDirectory.mergeOn (GlobalDirectory.write (fuel + 1)) 5 twoRegionsErased
              = some (true, s1)) ∧
            s1.globalDepth = twoRegionsErased.globalDepth ∧
                s1.entry.length = twoRegionsErased.entry.length ∧
            s1.heap.length = twoRegionsErased.heap.length + 1 ∧
            (∀ q : Nat, q < twoRegionsErased.heap.length → s1.heap[q]? =
                twoRegionsErased.heap[q]?) ∧
            s1.heap[twoRegionsErased.heap.length]? = some bm ∧ bm.localDepth + 1 = 2 ∧
            (∀ x : Nat, s1.entry[x]? = some twoRegionsErased.heap.length ↔
              x / (2 * 2 ^ (twoRegionsErased.globalDepth - 2))
                = 5 / (2 * 2 ^ (twoRegionsErased.globalDepth - 2))) ∧
            (∀ x : Nat, x / (2 * 2 ^ (twoRegionsErased.globalDepth - 2))
                ≠ 5 / (2 * 2 ^ (twoRegionsErased.globalDepth - 2)) → s1.entry[x]? =
                    twoRegionsErased.entry[x]?) ∧
            validItems bm.items =
                validItems ([⟨true, 54, 129⟩, ⟨true, 16, 130⟩] : List DataItem) ++ validItems
                    bud.items) ∧
        (¬ (bud.localDepth = 2 ∧
            2 + bud.validEntryCount ≤ BUCKET_CAPACITY) →
          ∀ w, GlobalDirectory.mergeOn w 5 twoRegionsErased = some (false, twoRegionsErased))) :=
  ⟨(twoRegionsErased_reachable.wf (by decide)).wf0, by decide, by decide, by decide,
    C22_mergeOn (twoRegionsErased_reachable.wf (by decide)).wf0 (by decide)
      (show twoRegionsErased.entry[5]? = some 11 by decide)
      (show twoRegionsErased.heap[11]? = some ⟨2, 2, [⟨true, 54, 129⟩, ⟨true, 16, 130⟩]⟩
        by decide)⟩

/-- C23 (`minimize`: precondition and result). On a well-formed directory: if the
global depth is greater than 1 and no referenced bucket has the global depth as
its local depth, `minimize` returns `true`, the global depth is one less, the
store is unchanged, the directory has half the length, its slot `x` is the old
slot `2 * x`, every address the old directory held is still held, the length is
`2 ^ globalDepth`, and every referenced bucket is pointed to by exactly the
slots of one aligned block of `2 ^ (globalDepth - localDepth)` slots. Otherwise
`minimize` returns `false` and changes nothing. -/
theorem C23_minimize {s : State} (wf : WF0 s) :
    ((1 < s.globalDepth ∧
        ∀ (i p : Nat) (b : Bucket), s.entry[i]? = some p → s.heap[p]? = some b →
          b.localDepth ≠ s.globalDepth) →
      ∃ s1, GlobalDirectory.minimize s = some (true, s1) ∧
        s1.globalDepth + 1 = s.globalDepth ∧ s1.heap = s.heap ∧
        s1.entry.length * 2 = s.entry.length ∧
        (∀ x : Nat, x < s1.entry.length → s1.entry[x]? = s.entry[2 * x]?) ∧
        (∀ (j p : Nat), s.entry[j]? = some p → ∃ x : Nat, s1.entry[x]? = some p) ∧
        s1.entry.length = 2 ^ s1.globalDepth ∧
        ∀ (i p : Nat), s1.entry[i]? = some p → ∃ b : Bucket, s1.heap[p]? = some b ∧
          b.localDepth ≤ s1.globalDepth ∧
          ∃ start : Nat, 2 ^ (s1.globalDepth - b.localDepth) ∣ start ∧
            ∀ j : Nat, s1.entry[j]? = some p ↔
              start ≤ j ∧ j < start + 2 ^ (s1.globalDepth - b.localDepth)) ∧
    (¬ (1 < s.globalDepth ∧
        ∀ (i p : Nat) (b : Bucket), s.entry[i]? = some p → s.heap[p]? = some b →
          b.localDepth ≠ s.globalDepth) →
      GlobalDirectory.minimize s = some (false, s)) := by
  constructor
  · intro hcond
    have hnot : ¬ Minimal s := fun m => (Minimal.iff_not wf).1 m hcond
    obtain ⟨s1, hrun, sp⟩ := minimize_spec wf hnot
    have hlen2 : s1.entry.length * 2 = s.entry.length := by
      rw [sp.wf.length_eq, wf.length_eq, ← sp.depth_eq, Nat.pow_succ]
    refine ⟨s1, hrun, sp.depth_eq, sp.heap_eq, hlen2, sp.entry, ?_, sp.wf.length_eq, ?_⟩
    · intro j p hp
      obtain ⟨b, hb, ok⟩ := wf.slots j p hp
      have hlt : b.localDepth < s.globalDepth := by
        have h1 := ok.depth_le
        have h2 := hcond.2 j p b hp hb
        omega
      have heven := wf.even_slot hp ok hlt
      have hj : j < s.entry.length := (List.getElem?_eq_some.1 hp).1
      refine ⟨j / 2, ?_⟩
      rw [sp.entry (j / 2) (by omega)]
      exact heven
    · intro i p hp
      obtain ⟨b, hb, ok⟩ := sp.wf.slots i p hp
      have hsp := two_pow_pos (s1.globalDepth - b.localDepth)
      refine ⟨b, hb, ok.depth_le,
        i / 2 ^ (s1.globalDepth - b.localDepth) * 2 ^ (s1.globalDepth - b.localDepth),
        Dvd.intro_left _ rfl, fun j => ?_⟩
      rw [← div_eq_iff_bounds j _ _ hsp]
      exact ⟨fun hj => ok.same_block hj, fun hj => sp.wf.block_entry hp ok hj⟩
  · intro hcond
    exact minimize_of_minimal wf ((Minimal.iff_not wf).2 hcond)

theorem C23_minimize_witness :
    WF0 threeKeysDoubled ∧
    (((1 < threeKeysDoubled.globalDepth ∧
          ∀ (i p : Nat) (b : Bucket), threeKeysDoubled.entry[i]? = some p → threeKeysDoubled.heap[p]? = some b →
            b.localDepth ≠ threeKeysDoubled.globalDepth) →
        ∃ s1, GlobalDirectory.minimize threeKeysDoubled = some (true, s1) ∧
          s1.globalDepth + 1 = threeKeysDoubled.globalDepth ∧ s1.heap = threeKeysDoubled.heap ∧
          s1.entry.length * 2 = threeKeysDoubled.entry.length ∧
          (∀ x : Nat, x < s1.entry.length → s1.entry[x]? = threeKeysDoubled.entry[2 * x]?) ∧
          (∀ (j p : Nat), threeKeysDoubled.entry[j]? = some p → ∃ x : Nat, s1.entry[x]? = some p) ∧
          s1.entry.length = 2 ^ s1.globalDepth ∧
          ∀ (i p : Nat), s1.entry[i]? = some p → ∃ b : Bucket, s1.heap[p]? = some b ∧
            b.localDepth ≤ s1.globalDepth ∧
            ∃ start : Nat, 2 ^ (s1.globalDepth - b.localDepth) ∣ start ∧
              ∀ j : Nat, s1.entry[j]? = some p ↔
                start ≤ j ∧ j < start + 2 ^ (s1.globalDepth - b.localDepth)) ∧
      (¬ (1 < threeKeysDoubled.globalDepth ∧
          ∀ (i p : Nat) (b : Bucket), threeKeysDoubled.entry[i]? = some p → threeKeysDoubled.heap[p]? = some b →
            b.localDepth ≠ threeKeysDoubled.globalDepth) →
        GlobalDirectory.minimize threeKeysDoubled = some (false, threeKeysDoubled))) :=
  ⟨threeKeysDoubled_wf, C23_minimize threeKeysDoubled_wf⟩

/-- C24 (`hash` yields an in-bounds prefix index). For every key and every global
depth `g` with `1 ≤ g ≤ MAX_KEY_LENGTH`, `hash(key)` is `key % 256 / 2 ^ (8 -
g)`, which is below `2 ^ g`; keys with the same low byte have the same hash; and
the hash at depth `g - 1` is the hash at depth `g` divided by 2. -/
theorem C24_hash_prefix (s : State) (key : Nat) (h1 : 1 ≤ s.globalDepth)
    (h8 : s.globalDepth ≤ MAX_KEY_LENGTH) :
    GlobalDirectory.hash s key = some (key % 256 / 2 ^ (8 - s.globalDepth)) ∧
    key % 256 / 2 ^ (8 - s.globalDepth) < 2 ^ s.globalDepth ∧
    (∀ key' : Nat, key' % 256 = key % 256 →
      GlobalDirectory.hash s key' = GlobalDirectory.hash s key) ∧
    GlobalDirectory.hash { s with globalDepth := s.globalDepth - 1 } key
      = some (key % 256 / 2 ^ (8 - s.globalDepth) / 2) := by
  have h8' : s.globalDepth ≤ 8 := h8
  refine ⟨hash_eq_hashAt s key h8', hashAt_lt _ _ h8', fun key' hk => ?_, ?_⟩
  · rw [hash_eq_hashAt s key' h8', hash_eq_hashAt s key h8']
    unfold hashAt
    rw [hk]
  · rw [hash_eq_hashAt _ key (show s.globalDepth - 1 ≤ 8 by omega)]
    have := hashAt_succ_div (s.globalDepth - 1) key (by omega)
    rw [Nat.sub_add_cancel h1] at this
    rw [← this]
    rfl

theorem C24_hash_prefix_witness :
    1 ≤ threeKeys.globalDepth ∧ threeKeys.globalDepth ≤ MAX_KEY_LENGTH ∧
    GlobalDirectory.hash threeKeys 298 = some 1 ∧
    (GlobalDirectory.hash threeKeys 298 = some (298 % 256 / 2 ^ (8 - threeKeys.globalDepth)) ∧
      298 % 256 / 2 ^ (8 - threeKeys.globalDepth) < 2 ^ threeKeys.globalDepth ∧
      (∀ key' : Nat, key' % 256 = 298 % 256 →
        GlobalDirectory.hash threeKeys key' = GlobalDirectory.hash threeKeys 298) ∧
      GlobalDirectory.hash { threeKeys with globalDepth := threeKeys.globalDepth - 1 } 298
        = some (298 % 256 / 2 ^ (8 - threeKeys.globalDepth) / 2)) :=
  ⟨by decide, by decide, by decide, C24_hash_prefix threeKeys 298 (by decide) (by decide)⟩

/-- C25 (a rejected write succeeds when repeated once). In a reachable state in
which no key is held by more than one valid slot and every key held is below
256, for a key `k` below 256 that no valid slot holds: `write(k, v)` returns,
and if it returns `false`, the same call on the state it leaves returns
`true`. -/
theorem C25_retry_once {s : State} (hs : Reachable s)
    (hdist : ∀ k', MemoryManager.holders s k' ≤ 1)
    (hbyte : ∀ k', MemoryManager.holders s k' ≠ 0 → k' < 256)
    (k : Nat) (hk : k < 256) (hnot : MemoryManager.holders s k = 0) (v : Int)
    (fuel : Nat) (hf : 8 ≤ fuel) :
    ∃ ok s1, MemoryManager.write fuel k v s = some (ok, s1) ∧
      (ok = false → ∃ s2, MemoryManager.write fuel k v s1 = some (true, s2)) := by
  have inv := hs.inv
  have hd : ∀ k', (MemoryManager.keyValues s k').length ≤ 1 := by
    intro k'; rw [← inv.holders_eq]; exact hdist k'
  have hr : ∀ k', MemoryManager.keyValues s k' ≠ [] → k' < 256 := by
    intro k' h
    apply hbyte
    rw [inv.holders_eq]
    exact fun e => h (List.length_eq_zero.1 e)
  have hn : MemoryManager.keyValues s k = [] := by
    apply List.length_eq_zero.1
    rw [← inv.holders_eq]; exact hnot
  obtain ⟨f, rfl⟩ : ∃ f, fuel = f + 2 := ⟨fuel - 2, by omega⟩
  -- a rejected directory write, and the facade's write on the state it leaves
  have hsecond : ∀ {t t1 : State}, WF0 t → WriteSpec t t1 k v false →
      (∃ s2, ∀ fuel, GlobalDirectory.write (fuel + 2) k v t1 = some (true, s2)) →
      ∃ s2, MemoryManager.write (f + 2) k v t1 = some (true, s2) := by
    intro t t1 _ w ⟨s2, h2⟩
    refine ⟨s2, ?_⟩
    have hne : (t1.globalDepth == 0) = false := by
      have := w.wf.depth_pos
      simpa using (show t1.globalDepth ≠ 0 by omega)
    unfold MemoryManager.write
    simp only [hne, Bool.false_eq_true, if_false]
    exact h2 f
  rcases inv with bs | wf
  · obtain ⟨b0, hb0, ok0⟩ := bs.initial
    have hkv := MemoryManager.keyValues_of_bootstrap bs hb0
    by_cases hfull : b0.validEntryCount = BUCKET_CAPACITY
    · obtain ⟨t, hinit, wft, _, _, _, hvt⟩ := initializeDirectory_spec bs hb0 ok0
      obtain ⟨r, s1, hrun, w, htwice⟩ := directory_write_twice wft.wf0 k hk v
        (fun k' => by rw [hvt, ← hkv]; exact hd k')
        (fun k' h => hr k' (by rw [hkv, ← hvt]; exact h))
        (by rw [hvt, ← hkv]; exact hn)
      refine ⟨r, s1, ?_, fun hfalse => ?_⟩
      · unfold MemoryManager.write
        simp only [bs.depth_zero, beq_self_eq_true, if_true, hb0, Bucket.write_of_full b0 k v hfull,
          hinit (f + 1)]
        exact hrun f
      · subst hfalse
        exact hsecond wft.wf0 w (htwice rfl)
    · obtain ⟨b1, hw, _⟩ := Bucket.write_of_room b0 k v ok0 hfull
      refine ⟨true, s.store s.initialFile b1, ?_, fun h => by cases h⟩
      unfold MemoryManager.write
      simp only [bs.depth_zero, beq_self_eq_true, if_true, hb0, hw]
  · have hkv := MemoryManager.keyValues_of_wf wf
    obtain ⟨r, s1, hrun, w, htwice⟩ := directory_write_twice wf.wf0 k hk v
      (fun k' => by rw [← hkv]; exact hd k')
      (fun k' h => hr k' (by rw [hkv]; exact h))
      (by rw [← hkv]; exact hn)
    have hne : (s.globalDepth == 0) = false := by simpa using wf.depth_ne_zero
    refine ⟨r, s1, ?_, fun hfalse => ?_⟩
    · unfold MemoryManager.write
      simp only [hne, Bool.false_eq_true, if_false]
      exact hrun f
    · subst hfalse
      exact hsecond wf.wf0 w (htwice rfl)

set_option maxRecDepth 1000000 in
theorem C25_retry_once_witness :
    Reachable twoLowKeys ∧ (∀ k', MemoryManager.holders twoLowKeys k' ≤ 1) ∧
    (∀ k', MemoryManager.holders twoLowKeys k' ≠ 0 → k' < 256) ∧ 2 < 256 ∧
    MemoryManager.holders twoLowKeys 2 = 0 ∧ 8 ≤ 8 ∧
    (MemoryManager.results 8 [Call.write 0 1, Call.write 1 2, Call.write 2 3, Call.write 2 3]
      State.fresh).map Prod.fst = some [true, true, false, true] ∧
    ∃ ok s1, MemoryManager.write 8 2 3 twoLowKeys = some (ok, s1) ∧
      (ok = false → ∃ s2, MemoryManager.write 8 2 3 s1 = some (true, s2)) :=
  ⟨twoLowKeys_reachable,
    fun k' => by rw [twoLowKeys_holders]; split <;> omega,
    fun k' h => by rw [twoLowKeys_holders] at h; split at h <;> omega,
    by decide, by decide, by decide, by decide,
    C25_retry_once twoLowKeys_reachable
      (fun k' => by rw [twoLowKeys_holders]; split <;> omega)
      (fun k' h => by rw [twoLowKeys_holders] at h; split at h <;> omega)
      2 (by decide) (by decide) 3 8 (by decide)⟩

/-- C26 (the local depth never drops to 0 inside the directory). In every reachable
state, each bucket a slot `i` points to has a local depth of at least 1; with
`span = 2 ^ (globalDepth - localDepth)`, `span ≤ 2 ^ (globalDepth - 1)` and the
buddy index `(i / span * span) ^^^ span` is inside the directory; `localDepth -
1` as `mergeOn` computes it has not wrapped; and the expectation `depthGuard`
holds at the slot. Moreover the facade's `write` and `erase` return, and the
checked `write` and `erase`, which stop without a result as soon as `mergeOn` or
`splitOn` is entered with a directory that fails `depthGuard`, return the same
result: the expectation holds wherever `mergeOn` or `splitOn` runs. -/
theorem C26_depth_positive {s : State} (hs : Reachable s) (fuel key : Nat) (data : Int)
    (hf : 8 ≤ fuel) :
    (∀ (i p : Nat) (b : Bucket), s.entry[i]? = some p → s.heap[p]? = some b →
      1 ≤ b.localDepth ∧
      2 ^ (s.globalDepth - b.localDepth) ≤ 2 ^ (s.globalDepth - 1) ∧
      (i / 2 ^ (s.globalDepth - b.localDepth) * 2 ^ (s.globalDepth - b.localDepth))
        ^^^ 2 ^ (s.globalDepth - b.localDepth) < s.entry.length ∧
      (b.localDepth + 2 ^ 32 - 1) % 2 ^ 32 + 1 = b.localDepth ∧
      depthGuard s i = true) ∧
    (∃ r, MemoryManager.write fuel key data s = some r ∧
      MemoryManager.writeChecked fuel key data s = some r) ∧
    (∃ r, MemoryManager.erase fuel key s = some r ∧
      MemoryManager.eraseChecked fuel key s = some r) := by
  have inv := hs.inv
  refine ⟨?_, ?_, ?_⟩
  · intro i p b hp hb
    rcases inv with bs | wf
    · rw [bs.entry_nil] at hp
      simp at hp
    · obtain ⟨b', hb', ok⟩ := wf.wf0.slots i p hp
      rw [hb] at hb'
      cases hb'
      have hpos := ok.depth_pos
      have hle := ok.depth_le
      have hg8 : s.globalDepth ≤ 8 := wf.wf0.depth_le
      refine ⟨hpos, Nat.pow_le_pow_right (by decide) (by omega), ?_, by omega,
        depthGuard_of_wf wf.wf0 hp⟩
      rw [xor_two_pow, wf.wf0.length_eq]
      exact wf.wf0.buddy_lt hp ok
  · obtain ⟨ok, s1, hrun, _⟩ := MemoryManager.write_run inv key data fuel hf
    refine ⟨(ok, s1), hrun, ?_⟩
    obtain ⟨f, rfl⟩ : ∃ f, fuel = f + 2 := ⟨fuel - 2, by omega⟩
    rw [MemoryManager.facade_writeChecked inv key data f]
    exact hrun
  · obtain ⟨f, rfl⟩ : ∃ f, fuel = f + 1 := ⟨fuel - 1, by omega⟩
    rw [MemoryManager.facade_eraseChecked inv key f]
    rcases MemoryManager.erase_run inv key (f + 1) hf with ⟨_, h⟩ | ⟨_, s1, h, _⟩
    · exact ⟨_, h, h⟩
    · exact ⟨_, h, h⟩

set_option maxRecDepth 1000000 in
theorem C26_depth_positive_witness :
    Reachable threeKeys ∧ 8 ≤ 8 ∧
    (MemoryManager.writeChecked 8 3 9 threeKeys).map Prod.fst = some true ∧
    (MemoryManager.eraseChecked 8 42 threeKeys).map Prod.fst = some true ∧
    ((∀ (i p : Nat) (b : Bucket), threeKeys.entry[i]? = some p → threeKeys.heap[p]? = some b →
      1 ≤ b.localDepth ∧
      2 ^ (threeKeys.globalDepth - b.localDepth) ≤ 2 ^ (threeKeys.globalDepth - 1) ∧
      (i / 2 ^ (threeKeys.globalDepth - b.localDepth)
          * 2 ^ (threeKeys.globalDepth - b.localDepth))
        ^^^ 2 ^ (threeKeys.globalDepth - b.localDepth) < threeKeys.entry.length ∧
      (b.localDepth + 2 ^ 32 - 1) % 2 ^ 32 + 1 = b.localDepth ∧
      depthGuard threeKeys i = true) ∧
    (∃ r, MemoryManager.write 8 42 7 threeKeys = some r ∧
      MemoryManager.writeChecked 8 42 7 threeKeys = some r) ∧
    (∃ r, MemoryManager.erase 8 42 threeKeys = some r ∧
      MemoryManager.eraseChecked 8 42 threeKeys = some r)) :=
  ⟨threeKeys_reachable, by decide, by decide, by decide,
    C26_depth_positive threeKeys_reachable 8 42 7 (by decide)⟩

/-- C27 (the directory is never larger than its deepest bucket requires). In every
reachable state with an initialized directory, the global depth is 1 or some
referenced bucket has the global depth as its local depth, and `minimize`
returns `false` and changes nothing. -/
theorem C27_minimal {s : State} (hs : Reachable s) (hinit : s.globalDepth ≠ 0) :
    (s.globalDepth = 1 ∨
      ∃ (i p : Nat) (b : Bucket),
        s.entry[i]? = some p ∧ s.heap[p]? = some b ∧ b.localDepth = s.globalDepth) ∧
    GlobalDirectory.minimize s = some (false, s) := by
  have wf := hs.wf hinit
  exact ⟨wf.minimal, minimize_of_minimal wf.wf0 wf.minimal⟩

theorem C27_minimal_witness :
    Reachable threeKeys ∧ threeKeys.globalDepth ≠ 0 ∧
    ((threeKeys.globalDepth = 1 ∨
      ∃ (i p : Nat) (b : Bucket),
        threeKeys.entry[i]? = some p ∧ threeKeys.heap[p]? = some b ∧
          b.localDepth = threeKeys.globalDepth) ∧
      GlobalDirectory.minimize threeKeys = some (false, threeKeys)) :=
  ⟨threeKeys_reachable, by decide, C27_minimal threeKeys_reachable (by decide)⟩

end ExtendibleHashing
